import Mathlib

/-!
# udp_distributor: port filter, BPF compiler, header synthesis and dispatch

A shallow embedding of `net::socket_filter` (`src/net/socket_filter.{h,cpp}`),
of the header synthesis and the dispatch of `net::worker`
(`src/net/worker.{h,cpp}`) and of the assignment of destinations to workers by
`net::udp_distributor` (`src/net/udp_distributor.{h,cpp}`), with theorems
about them.

Conventions.
* `in_port_t`, `uint16_t`, `uint8_t`, `uint32_t` and `size_t` values are natural
  numbers; the bounds of the C types appear as hypotheses or as explicit `%`.
* An array together with its element count (`_M_portranges` and
  `_M_nportranges`, `_M_filters` and `_M_nfilters`) is the list of its live
  entries; the count is the length of the list.
* Memory (a frame, an address array) is a list of bytes.
* What the environment decides (whether `realloc` or the creation of a ring
  buffer succeeds, the previous content of allocated memory) is an argument of
  the function; undefined behaviour is the result `none`.

Layout: the definitions come first (the filter, the BPF machine, the worker,
the distributor, auxiliary definitions for the proofs), the theorems follow in
the same order.
-/

namespace net

/-! ## socket_filter: data model -/

/-- The `struct portrange` of `socket_filter.h`: a closed range of ports. -/
structure portrange where
  from_ : Nat
  to_ : Nat
deriving DecidableEq, Repr

/-- The `struct sock_filter` of `linux/filter.h`: one classic BPF instruction. -/
structure sock_filter where
  code : Nat
  jt : Nat
  jf : Nat
  k : Nat
deriving DecidableEq, Repr

/-- The constant `socket_filter::max_port_ranges`. -/
def max_port_ranges : Nat := 32

/-- The constant `socket_filter::max_filters`. -/
def max_filters : Nat := 255

/-- The data members of `class socket_filter`. -/
structure socket_filter where
  _M_ipv4 : Bool
  _M_ipv6 : Bool
  _M_portranges : List portrange
  _M_filters : List sock_filter
deriving DecidableEq, Repr

namespace socket_filter

/-- The method `socket_filter::clear` (the constructor calls it): no family,
no port range, no instruction.  The arrays themselves are not touched by the
source; their live parts become empty. -/
def clear (_s : socket_filter) : socket_filter :=
  { _M_ipv4 := false, _M_ipv6 := false, _M_portranges := [], _M_filters := [] }

/-- A freshly constructed `socket_filter`. -/
def empty : socket_filter :=
  { _M_ipv4 := false, _M_ipv6 := false, _M_portranges := [], _M_filters := [] }

/-- The method `socket_filter::ipv4`. -/
def ipv4 (s : socket_filter) : socket_filter := { s with _M_ipv4 := true }

/-- The method `socket_filter::ipv6`. -/
def ipv6 (s : socket_filter) : socket_filter := { s with _M_ipv6 := true }

/-- First loop of `port_range`:
`for (i = 0; (i < n) && (from > size_t(ranges[i].to) + 1); i++);`
run on the live entries from index 0; the result is the final `i`. -/
def port_range_i (from_ : Nat) : List portrange → Nat
  | [] => 0
  | r :: rs => if from_ > r.to_ + 1 then port_range_i from_ rs + 1 else 0

/-- Second loop of `port_range`:
`for (j = i; (j + 1 < n) && (size_t(to) + 1 >= ranges[j + 1].from); j++);`
The argument is the list of the entries at indices `j + 1, j + 2, ...`; the
result is the number of increments of `j`. -/
def port_range_j (to_ : Nat) : List portrange → Nat
  | [] => 0
  | r :: rs => if to_ + 1 ≥ r.from_ then port_range_j to_ rs + 1 else 0

/-- The method `socket_filter::port_range` on the live entries: the returned
flag and the live entries afterwards.  `memmove` of the tail by one slot is
`take i ++ [new] ++ drop i`; `memmove` of the entries from `j + 1` down to
`i + 1` with the count reduced by `j - i` is `take i ++ [merged] ++ drop (j + 1)`. -/
def port_range_list (rs : List portrange) (from_ to_ : Nat) : Bool × List portrange :=
  if from_ > 0 ∧ from_ ≤ to_ then
    let i := port_range_i from_ rs
    -- Beyond the last position?
    if i = rs.length then
      if rs.length < max_port_ranges then
        (true, rs ++ [{ from_ := from_, to_ := to_ }])
      else
        (false, rs)
    else
      let j := i + port_range_j to_ (rs.drop (i + 1))
      let ri := rs.getD i { from_ := 0, to_ := 0 }
      let rj := rs.getD j { from_ := 0, to_ := 0 }
      if i = j then
        if to_ + 1 < ri.from_ then
          if rs.length < max_port_ranges then
            (true, rs.take i ++ [{ from_ := from_, to_ := to_ }] ++ rs.drop i)
          else
            (false, rs)
        else
          let f := if from_ < ri.from_ then from_ else ri.from_
          let t := if to_ > ri.to_ then to_ else ri.to_
          (true, rs.set i { from_ := f, to_ := t })
      else
        let f := if from_ < ri.from_ then from_ else ri.from_
        let t := if to_ > rj.to_ then to_ else rj.to_
        (true, rs.take i ++ [{ from_ := f, to_ := t }] ++ rs.drop (j + 1))
  else
    (false, rs)

/-- The method `socket_filter::port_range(from, to)`: the returned flag and
the filter afterwards. -/
def port_range (s : socket_filter) (from_ to_ : Nat) : Bool × socket_filter :=
  let r := port_range_list s._M_portranges from_ to_
  (r.1, { s with _M_portranges := r.2 })

/-- The method `socket_filter::port(p)`. -/
def port (s : socket_filter) (p : Nat) : Bool × socket_filter :=
  port_range s p p

/-- A sequence of `port_range` calls, each applied to the filter the previous
one left, whatever each call returned. -/
def port_range_calls (s : socket_filter) : List (Nat × Nat) → socket_filter
  | [] => s
  | c :: cs => port_range_calls (port_range s c.1 c.2).2 cs

/-- Every call of the sequence returned true. -/
def port_range_calls_ok (s : socket_filter) : List (Nat × Nat) → Bool
  | [] => true
  | c :: cs => (port_range s c.1 c.2).1 && port_range_calls_ok (port_range s c.1 c.2).2 cs

end socket_filter

/-! ## Properties of port range sets -/

/-- A port is covered by a list of ranges. -/
def covers (rs : List portrange) (p : Nat) : Prop :=
  ∃ r ∈ rs, r.from_ ≤ p ∧ p ≤ r.to_

/-- A range is a non-empty range of valid ports. -/
def portrange.valid (r : portrange) : Prop :=
  1 ≤ r.from_ ∧ r.from_ ≤ r.to_ ∧ r.to_ ≤ 65535

/-- Adjacent stored ranges are sorted, disjoint and do not touch. -/
def apart (a b : portrange) : Prop := a.to_ + 1 < b.from_

/-- The invariant of the range set, without the capacity bound. -/
def canonical (rs : List portrange) : Prop :=
  (∀ r ∈ rs, r.valid) ∧ rs.Pairwise apart

/-! ## Constants of the system headers

Values of `linux/bpf_common.h`, `net/ethernet.h`, `netinet/in.h`,
`netinet/ip.h`, `netinet/ip6.h` and `netinet/udp.h` used by the sources. -/

def BPF_LD : Nat := 0x00
def BPF_JMP : Nat := 0x05
def BPF_RET : Nat := 0x06
def BPF_W : Nat := 0x00
def BPF_H : Nat := 0x08
def BPF_B : Nat := 0x10
def BPF_ABS : Nat := 0x20
def BPF_LEN : Nat := 0x80
def BPF_JEQ : Nat := 0x10
def BPF_JGT : Nat := 0x20
def BPF_JGE : Nat := 0x30
def BPF_JSET : Nat := 0x40
def BPF_K : Nat := 0x00

def ETHERTYPE_IP : Nat := 0x0800
def ETHERTYPE_IPV6 : Nat := 0x86dd
def IPPROTO_UDP : Nat := 17
def ETHER_ADDR_LEN : Nat := 6
def USHRT_MAX : Nat := 65535

/-- The value of `sizeof(struct ether_header)`. -/
def sizeof_ether_header : Nat := 14
/-- The value of `offsetof(struct ether_header, ether_type)`. -/
def offsetof_ether_type : Nat := 12
/-- The value of `sizeof(struct iphdr)`. -/
def sizeof_iphdr : Nat := 20
/-- The value of `offsetof(struct iphdr, frag_off)`. -/
def offsetof_iphdr_frag_off : Nat := 6
/-- The value of `offsetof(struct iphdr, protocol)`. -/
def offsetof_iphdr_protocol : Nat := 9
/-- The value of `offsetof(struct iphdr, check)`. -/
def offsetof_iphdr_check : Nat := 10
/-- The value of `sizeof(struct ip6_hdr)`. -/
def sizeof_ip6_hdr : Nat := 40
/-- The value of `offsetof(struct ip6_hdr, ip6_nxt)`. -/
def offsetof_ip6_nxt : Nat := 6
/-- The value of `offsetof(struct ip6_hdr, ip6_src)`. -/
def offsetof_ip6_src : Nat := 8
/-- The value of `sizeof(struct udphdr)`. -/
def sizeof_udphdr : Nat := 8
/-- The value of `offsetof(struct udphdr, dest)`. -/
def offsetof_udphdr_dest : Nat := 2
/-- The value of `sizeof(struct in_addr)`. -/
def sizeof_in_addr : Nat := 4
/-- The value of `sizeof(struct in6_addr)`. -/
def sizeof_in6_addr : Nat := 16

/-! ## socket_filter::compile -/

/-- The local `struct jmp` of `compile`: the index of a conditional and which
of its two branch fields is to be patched. -/
structure jmp where
  idx : Nat
  jt : Bool
deriving DecidableEq, Repr

/-- The locals of `compile` that change while instructions are emitted: the
live part of `_M_filters` (its length is `_M_nfilters`) and the live parts of
the arrays `accepts` and `ignores`. -/
structure compile_state where
  filters : List sock_filter
  accepts : List jmp
  ignores : List jmp
deriving DecidableEq, Repr

namespace socket_filter

/-- The method `socket_filter::stmt(code, k)` on the live instructions. -/
def stmt (fs : List sock_filter) (code k : Nat) : Bool × List sock_filter :=
  if fs.length < max_filters then
    (true, fs ++ [{ code := code, jt := 0, jf := 0, k := k }])
  else
    (false, fs)

/-- The method `socket_filter::jump(code, k, jt, jf)` on the live instructions. -/
def jump (fs : List sock_filter) (code k jt jf : Nat) : Bool × List sock_filter :=
  if fs.length < max_filters then
    (true, fs ++ [{ code := code, jt := jt, jf := jf, k := k }])
  else
    (false, fs)

/-- The assignment `_M_filters[idx].jt = v` or `_M_filters[idx].jf = v`; the
fields are `__u8`, the stored value is `v` modulo 256. -/
def set_jump (fs : List sock_filter) (idx : Nat) (jt : Bool) (v : Nat) : List sock_filter :=
  match fs[idx]? with
  | some f => fs.set idx (if jt then { f with jt := v % 256 } else { f with jf := v % 256 })
  | none => fs

/-- The two back-patching loops at the end of `compile`:
`for (i = 0; i < n; i++) { if (js[i].jt) fs[js[i].idx].jt = nfilters - js[i].idx - 1;
else fs[js[i].idx].jf = nfilters - js[i].idx - 1; }` -/
def patch (fs : List sock_filter) (js : List jmp) (nfilters : Nat) : List sock_filter :=
  js.foldl (fun fs j => set_jump fs j.idx j.jt (nfilters - j.idx - 1)) fs

/-- The loop `for (size_t i = 0; i < _M_nportranges; i++) { ... }` of
`compile` ("Add destination ports"), the same in the IPv6 and the IPv4 block.
The flag is false when the loop left `compile` through `return false`. -/
def compile_ports : List portrange → compile_state → Bool × compile_state
  | [], c => (true, c)
  | r :: rs, c =>
    if r.from_ = r.to_ then
      let accepts := c.accepts ++ [{ idx := c.filters.length, jt := true }]
      let j := jump c.filters (BPF_JMP + BPF_JEQ + BPF_K) r.from_ 0 0
      if j.1 then
        compile_ports rs { c with filters := j.2, accepts := accepts }
      else
        (false, { c with filters := j.2, accepts := accepts })
    else
      let j1 := jump c.filters (BPF_JMP + BPF_JGE + BPF_K) r.from_ 0 1
      if j1.1 then
        let accepts := c.accepts ++ [{ idx := j1.2.length, jt := false }]
        let j2 := jump j1.2 (BPF_JMP + BPF_JGT + BPF_K) r.to_ 0 0
        if j2.1 then
          compile_ports rs { c with filters := j2.2, accepts := accepts }
        else
          (false, { c with filters := j2.2, accepts := accepts })
      else
        (false, { c with filters := j1.2 })

/-- The block `if (_M_ipv6) { ... }` of `compile`.  The second component is the
local `next` (it stays 0 when the block is not entered). -/
def compile_ipv6 (v4 v6 : Bool) (ranges : List portrange) (c : compile_state) :
    Bool × Nat × compile_state :=
  if v6 then
    let next := c.filters.length
    let fs := (jump c.filters (BPF_JMP + BPF_JEQ + BPF_K) ETHERTYPE_IPV6 0 0).2
    let c1 : compile_state :=
      if v4 then
        -- A <- len.
        let fs1 := (stmt fs (BPF_LD + BPF_W + BPF_LEN) 0).2
        let ignores := c.ignores ++ [{ idx := fs1.length, jt := false }]
        -- Ignore packet if too small.
        { c with
          filters := (jump fs1 (BPF_JMP + BPF_JGE + BPF_K)
            (sizeof_ether_header + sizeof_ip6_hdr + sizeof_udphdr) 0 0).2,
          ignores := ignores }
      else
        { c with filters := fs }
    -- A <- next header.
    let fs2 := (stmt c1.filters (BPF_LD + BPF_B + BPF_ABS)
      (sizeof_ether_header + offsetof_ip6_nxt)).2
    let ignores2 := c1.ignores ++ [{ idx := fs2.length, jt := false }]
    let fs3 := (jump fs2 (BPF_JMP + BPF_JEQ + BPF_K) IPPROTO_UDP 0 0).2
    -- If there are destination ports...
    if ranges.length > 0 then
      -- Load destination port.
      let fs4 := (stmt fs3 (BPF_LD + BPF_H + BPF_ABS)
        (sizeof_ether_header + sizeof_ip6_hdr + offsetof_udphdr_dest)).2
      let p := compile_ports ranges { c1 with filters := fs4, ignores := ignores2 }
      if p.1 then
        -- If we are still here, it didn't match the filter.
        let r := stmt p.2.filters (BPF_RET + BPF_K) 0
        (r.1, next, { p.2 with filters := r.2 })
      else
        (false, next, p.2)
    else
      (true, next, { c1 with
        filters := (stmt fs3 (BPF_RET + BPF_K) 0x40000).2, ignores := ignores2 })
  else
    (true, 0, c)

/-- The block `if (_M_ipv4) { ... }` of `compile`. -/
def compile_ipv4 (v4 : Bool) (next : Nat) (ranges : List portrange) (c : compile_state) :
    Bool × compile_state :=
  if v4 then
    -- If there is IPv6... jump here.
    let fs0 := if next ≠ 0 then set_jump c.filters next false (c.filters.length - next - 1)
               else c.filters
    let ignores1 := c.ignores ++ [{ idx := fs0.length, jt := false }]
    let fs1 := (jump fs0 (BPF_JMP + BPF_JEQ + BPF_K) ETHERTYPE_IP 0 0).2
    -- A <- protocol.
    let fs2 := (stmt fs1 (BPF_LD + BPF_B + BPF_ABS)
      (sizeof_ether_header + offsetof_iphdr_protocol)).2
    let ignores2 := ignores1 ++ [{ idx := fs2.length, jt := false }]
    let fs3 := (jump fs2 (BPF_JMP + BPF_JEQ + BPF_K) IPPROTO_UDP 0 0).2
    -- A <- flags + fragment offset.
    let fs4 := (stmt fs3 (BPF_LD + BPF_H + BPF_ABS)
      (sizeof_ether_header + offsetof_iphdr_frag_off)).2
    let ignores3 := ignores2 ++ [{ idx := fs4.length, jt := true }]
    -- Ignore fragmented packets.
    let fs5 := (jump fs4 (BPF_JMP + BPF_JSET + BPF_K) 0x3fff 0 0).2
    -- If there are destination ports...
    if ranges.length > 0 then
      -- Load destination port.
      let fs6 := (stmt fs5 (BPF_LD + BPF_H + BPF_ABS)
        (sizeof_ether_header + sizeof_iphdr + offsetof_udphdr_dest)).2
      compile_ports ranges { c with filters := fs6, ignores := ignores3 }
    else
      (true, { c with filters := (stmt fs5 (BPF_RET + BPF_K) 0x40000).2, ignores := ignores3 })
  else
    (true, c)

/-- The start of `compile`: `_M_nfilters = 0`, the length test against
`minlen` (recorded in `ignores`) and the load of the Ethertype. -/
def compile_start (v4 : Bool) : compile_state :=
  let minlenipv4 := sizeof_ether_header + sizeof_iphdr + sizeof_udphdr
  let minlenipv6 := sizeof_ether_header + sizeof_ip6_hdr + sizeof_udphdr
  -- Calculate minimum packet length.
  let minlen := if v4 then minlenipv4 else minlenipv6
  -- A <- len.
  let fs0 := (stmt [] (BPF_LD + BPF_W + BPF_LEN) 0).2
  let ignores0 : List jmp := [{ idx := fs0.length, jt := false }]
  -- Ignore packet if too small.
  let fs1 := (jump fs0 (BPF_JMP + BPF_JGE + BPF_K) minlen 0 0).2
  -- A <- ethernet type.
  let fs2 := (stmt fs1 (BPF_LD + BPF_H + BPF_ABS) offsetof_ether_type).2
  { filters := fs2, accepts := [], ignores := ignores0 }

/-- The end of `compile`: the `ignores` are patched towards the `ret 0` that
is appended next, the `accepts` towards the final `ret 0x40000`. -/
def compile_finish (c : compile_state) : Bool × List sock_filter :=
  let fs3 := patch c.filters c.ignores c.filters.length
  let r0 := stmt fs3 (BPF_RET + BPF_K) 0
  if r0.1 then
    let fs4 := patch r0.2 c.accepts r0.2.length
    stmt fs4 (BPF_RET + BPF_K) 0x40000
  else
    (false, r0.2)

/-- The method `socket_filter::compile`: the returned flag and the filter
afterwards.  When the flag is true, `fprog.filter` is the `_M_filters` of the
resulting filter and `fprog.len` its length. -/
def compile (s : socket_filter) : Bool × socket_filter :=
  -- With neither family set, both are enabled.
  let v4 := if !s._M_ipv4 && !s._M_ipv6 then true else s._M_ipv4
  let v6 := if !s._M_ipv4 && !s._M_ipv6 then true else s._M_ipv6
  let b6 := compile_ipv6 v4 v6 s._M_portranges (compile_start v4)
  let r : Bool × List sock_filter :=
    if b6.1 then
      let b4 := compile_ipv4 v4 b6.2.1 s._M_portranges b6.2.2
      if b4.1 then compile_finish b4.2 else (false, b4.2.filters)
    else
      (false, b6.2.2.filters)
  (r.1, { _M_ipv4 := v4, _M_ipv6 := v6, _M_portranges := s._M_portranges, _M_filters := r.2 })

end socket_filter

/-! ## The classic BPF machine

The kernel runs the attached program on every frame (`sk_run_filter`); it is
not part of the repository.  The model covers the opcodes `compile` emits. -/

/-- The 16-bit big-endian value at offset `k` of a byte sequence. -/
def be16 (pkt : List Nat) (k : Nat) : Nat :=
  pkt.getD k 0 * 256 + pkt.getD (k + 1) 0

/-- The effect of one instruction that is not a return: the new accumulator
and the number of instructions to skip, or the value the run ends with (a load
outside the frame ends the run with 0). `none`: an opcode `compile` never
emits. -/
def bpf_insn (f : sock_filter) (pkt : List Nat) (A : Nat) : Option (Nat × Nat ⊕ Nat) :=
  if f.code = BPF_RET + BPF_K then some (Sum.inr f.k)
  else if f.code = BPF_LD + BPF_W + BPF_LEN then some (Sum.inl (pkt.length, 0))
  else if f.code = BPF_LD + BPF_H + BPF_ABS then
    if f.k + 2 ≤ pkt.length then some (Sum.inl (be16 pkt f.k, 0)) else some (Sum.inr 0)
  else if f.code = BPF_LD + BPF_B + BPF_ABS then
    if f.k + 1 ≤ pkt.length then some (Sum.inl (pkt.getD f.k 0, 0)) else some (Sum.inr 0)
  else if f.code = BPF_JMP + BPF_JEQ + BPF_K then
    some (Sum.inl (A, if A = f.k then f.jt else f.jf))
  else if f.code = BPF_JMP + BPF_JGT + BPF_K then
    some (Sum.inl (A, if A > f.k then f.jt else f.jf))
  else if f.code = BPF_JMP + BPF_JGE + BPF_K then
    some (Sum.inl (A, if A ≥ f.k then f.jt else f.jf))
  else if f.code = BPF_JMP + BPF_JSET + BPF_K then
    some (Sum.inl (A, if A &&& f.k ≠ 0 then f.jt else f.jf))
  else none

/-- The loop `for (pc = 0; pc < flen; pc++)` of the kernel's `sk_run_filter`
with a step budget: the value returned for the frame, `none` when the budget
is used up or an opcode is not modelled.  Leaving the loop returns 0. -/
def sk_run_filter (prog : List sock_filter) (pkt : List Nat) : Nat → Nat → Nat → Option Nat
  | 0, _, _ => none
  | fuel + 1, pc, A =>
    match prog[pc]? with
    | none => some 0
    | some f =>
      match bpf_insn f pkt A with
      | none => none
      | some (Sum.inr v) => some v
      | some (Sum.inl (A', skip)) => sk_run_filter prog pkt fuel (pc + 1 + skip) A'

/-- The value the attached program returns for a frame: 0 drops the frame, a
non-zero value accepts it.  Jumps only go forward, so `length + 1` steps suffice. -/
def run_filter (prog : List sock_filter) (pkt : List Nat) : Option Nat :=
  sk_run_filter prog pkt (prog.length + 1) 0 0

/-- Straight-line form of the machine, by recursion on the instructions still
ahead: `skip` counts the instructions a taken jump passes over. -/
def bpf_exec (pkt : List Nat) : Nat → Nat → List sock_filter → Option Nat
  | _, _, [] => some 0
  | skip + 1, A, _ :: rest => bpf_exec pkt skip A rest
  | 0, A, f :: rest =>
    match bpf_insn f pkt A with
    | none => none
    | some (Sum.inr v) => some v
    | some (Sum.inl (A', skip)) => bpf_exec pkt skip A' rest

/-! ## Frame fields -/

/-- The Ethertype of a frame (bytes 12 and 13). -/
def frame_ethertype (pkt : List Nat) : Nat := be16 pkt offsetof_ether_type

/-- The header length field `ihl` of the IPv4 header (low nibble of byte 14). -/
def frame_ihl (pkt : List Nat) : Nat := pkt.getD sizeof_ether_header 0 % 16

/-- The protocol byte of the IPv4 header. -/
def frame_ipv4_protocol (pkt : List Nat) : Nat :=
  pkt.getD (sizeof_ether_header + offsetof_iphdr_protocol) 0

/-- The flags and fragment offset field of the IPv4 header. -/
def frame_ipv4_frag_off (pkt : List Nat) : Nat :=
  be16 pkt (sizeof_ether_header + offsetof_iphdr_frag_off)

/-- The UDP destination port of an IPv4 frame: the 16-bit field at byte offset
`14 + 4 * ihl + 2`. -/
def frame_ipv4_udp_dest (pkt : List Nat) : Nat :=
  be16 pkt (sizeof_ether_header + 4 * frame_ihl pkt + offsetof_udphdr_dest)

/-- The next-header byte of the IPv6 header. -/
def frame_ipv6_nxt (pkt : List Nat) : Nat :=
  pkt.getD (sizeof_ether_header + offsetof_ip6_nxt) 0

/-- The UDP destination port of an IPv6 frame without extension headers
(bytes 56 and 57). -/
def frame_ipv6_udp_dest (pkt : List Nat) : Nat :=
  be16 pkt (sizeof_ether_header + sizeof_ip6_hdr + offsetof_udphdr_dest)

/-! ## worker: header synthesis

Memory is a list of bytes.  The host is little-endian (the sources read and
write 16-bit fields through `uint16_t` pointers and convert with `ntohs` and
`htons`; in `ntohs(udpdata[udpdatalen - 1])` a single byte is converted, so the
byte order of the host is part of what the code computes). -/

/-- The function `ntohs` on a little-endian host: the two bytes of a `uint16_t`
swapped. -/
def ntohs (x : Nat) : Nat := (x % 256) * 256 + (x / 256) % 256

/-- The function `htons` on a little-endian host. -/
def htons (x : Nat) : Nat := (x % 256) * 256 + (x / 256) % 256

/-- The read `*reinterpret_cast<const uint16_t*>(p + off)` on a little-endian
host. -/
def load_u16 (p : List Nat) (off : Nat) : Nat :=
  p.getD off 0 + 256 * p.getD (off + 1) 0

/-- The two bytes of a `uint16_t` object in memory on a little-endian host. -/
def store_u16 (v : Nat) : List Nat := [v % 256, (v / 256) % 256]

/-- The operation `sum += x` on a `uint32_t`. -/
def add32 (sum x : Nat) : Nat := (sum + x) % 4294967296

/-- The `struct iovec`: `iov_base` is given by the bytes of the object it
points into, from the address pointed to onwards. -/
structure iovec where
  iov_base : List Nat
  iov_len : Nat
deriving DecidableEq, Repr

/-- The bytes an `iovec` designates. -/
def iovec.bytes (v : iovec) : List Nat := v.iov_base.take v.iov_len

/-- The bytes a gather list designates, in order. -/
def gather (vec : List iovec) : List Nat := (vec.map iovec.bytes).flatten

/-- The `struct interface` of `worker.h`, without its TX ring. -/
structure interface where
  index : Nat
  macaddr : List Nat
  addr4 : List Nat
  addr6 : List Nat
deriving DecidableEq, Repr

/-- The `struct destination` of `worker.h`; `port` is the stored `in_port_t`
(`htons` of the configured port), `iface` the interface pointed to. -/
structure destination where
  macaddr : List Nat
  addr : List Nat
  addrlen : Nat
  port : Nat
  iface : interface
deriving DecidableEq, Repr

/-- The loops `for (i = i0; i < limit; i += 2) sum += ntohs(*(uint16_t*)(p + base + i));`
of `send_ipv4` and `send_ipv6`, with a step budget. -/
def csum_loop (p : List Nat) (base limit : Nat) : Nat → Nat → Nat → Nat
  | 0, _, sum => sum
  | fuel + 1, i, sum =>
    if i < limit then
      csum_loop p base limit fuel (i + 2) (add32 sum (ntohs (load_u16 p (base + i))))
    else sum

/-- The loop `while (sum > USHRT_MAX) sum = (sum >> 16) + (sum & 0xffff);` with
a step budget. -/
def csum_fold : Nat → Nat → Nat
  | 0, sum => sum
  | fuel + 1, sum =>
    if sum > USHRT_MAX then csum_fold fuel ((sum >>> 16) + (sum &&& 0xffff)) else sum

/-- The expression `htons(static_cast<uint16_t>(~sum))` for a `uint32_t` sum. -/
def csum_finish (sum : Nat) : Nat := htons ((4294967295 - sum) % 65536)

/-- The loop of `send_ipv6` over the two IPv6 addresses:
`for (i = 0; i < 16; i += 2) { sum += ntohs(addr6[i..]); sum += ntohs(addr[i..]); }` -/
def csum_addr6 (addr6 addr : List Nat) : Nat → Nat → Nat → Nat
  | 0, _, sum => sum
  | fuel + 1, i, sum =>
    if i < sizeof_in6_addr then
      csum_addr6 addr6 addr fuel (i + 2)
        (add32 (add32 sum (ntohs (load_u16 addr6 i))) (ntohs (load_u16 addr i)))
    else sum

/-- The UDP payload part of both checksums: the loop over the 16-bit words of
the data and the odd last byte. -/
def csum_data (pkt : List Nat) (udpdata udpdatalen : Nat) (sum : Nat) : Nat :=
  let sum1 := csum_loop pkt udpdata (udpdatalen - 1) udpdatalen 0 sum
  -- If the length of the data is odd...
  if udpdatalen &&& 0x01 ≠ 0 then
    add32 sum1 (ntohs (pkt.getD (udpdata + udpdatalen - 1) 0))
  else sum1

/-- The block "Calculate checksum of the IPv4 header." of `send_ipv4`: the
value of the local `ipv4_checksum`. -/
def ipv4_header_checksum (dest : destination) (pkt : List Nat) (iphdrlen : Nat) : Nat :=
  let ip := sizeof_ether_header
  let sum0 := csum_loop pkt ip offsetof_iphdr_check offsetof_iphdr_check 0 0
  -- Source address.
  let sum1 := add32 sum0 (ntohs (load_u16 dest.iface.addr4 0))
  let sum2 := add32 sum1 (ntohs (load_u16 dest.iface.addr4 2))
  -- Destination address.
  let sum3 := add32 sum2 (ntohs (load_u16 dest.addr 0))
  let sum4 := add32 sum3 (ntohs (load_u16 dest.addr 2))
  -- Checksum of the options (if any).
  let sum5 := csum_loop pkt ip iphdrlen iphdrlen sizeof_iphdr sum4
  csum_finish (csum_fold sum5 sum5)

/-- The block "Calculate UDP checksum (optional for IPv4)." of `send_ipv4`
(`CALCULATE_UDP_CHECKSUM` is 1): the value of the local `udp_checksum`. -/
def ipv4_udp_checksum (dest : destination) (pkt : List Nat) (udphdr udplen udpdatalen : Nat) :
    Nat :=
  -- Source address.
  let u0 := ntohs (load_u16 dest.iface.addr4 0)
  let u1 := add32 u0 (ntohs (load_u16 dest.iface.addr4 2))
  -- Destination address.
  let u2 := add32 u1 (ntohs (load_u16 dest.addr 0))
  let u3 := add32 u2 (ntohs (load_u16 dest.addr 2))
  -- Protocol.
  let u4 := add32 u3 IPPROTO_UDP
  -- UDP length.
  let u5 := add32 u4 udplen
  -- Source port: the destination port of the received packet.
  let u6 := add32 u5 (ntohs (load_u16 pkt (udphdr + offsetof_udphdr_dest)))
  -- Destination port.
  let u7 := add32 u6 (ntohs dest.port)
  -- Length.
  let u8 := add32 u7 udplen
  -- Data.
  let u9 := csum_data pkt (udphdr + sizeof_udphdr) udpdatalen u8
  csum_finish (csum_fold u9 u9)

/-- The block "Compose UDP packet." of `send_ipv4`: the array `vec`. -/
def ipv4_vec (dest : destination) (pkt : List Nat) (iphdrlen udphdr udpdatalen : Nat)
    (ipv4_checksum udp_checksum : Nat) : List iovec :=
  [ -- Destination ethernet address.
    ⟨dest.macaddr, ETHER_ADDR_LEN⟩,
    -- Source ethernet address.
    ⟨dest.iface.macaddr, ETHER_ADDR_LEN⟩,
    -- Packet type ID and IPv4 header until IPv4 checksum.
    ⟨pkt.drop offsetof_ether_type, 2 + offsetof_iphdr_check⟩,
    -- Header checksum.
    ⟨store_u16 ipv4_checksum, 2⟩,
    -- Source IPv4 address.
    ⟨dest.iface.addr4, sizeof_in_addr⟩,
    -- Destination IPv4 address.
    ⟨dest.addr, sizeof_in_addr⟩,
    -- IPv4 options (if any).
    ⟨pkt.drop (sizeof_ether_header + sizeof_iphdr),
      (iphdrlen + 18446744073709551616 - sizeof_iphdr) % 18446744073709551616⟩,
    -- Source port (destination port of the received packet).
    ⟨pkt.drop (udphdr + offsetof_udphdr_dest), 2⟩,
    -- Destination port.
    ⟨store_u16 dest.port, 2⟩,
    -- Length.
    ⟨pkt.drop (udphdr + 4), 2⟩,
    -- Checksum.
    ⟨store_u16 udp_checksum, 2⟩,
    -- Data (if present).
    ⟨pkt.drop (udphdr + sizeof_udphdr), udpdatalen⟩ ]

/-- The function `worker::destinations::send_ipv4`: the gather list handed to
`dest->iface->tx.send`, or `none` when the frame is dropped by a sanity check.
`pkt` is the memory at the frame pointer, `pktlen` the frame length;
`size_t` subtractions wrap modulo `2^64`. -/
def send_ipv4 (dest : destination) (pkt : List Nat) (pktlen : Nat) : Option (List iovec) :=
  let ip := sizeof_ether_header
  let iphdrlen := (pkt.getD ip 0 % 16) * 4
  -- Sanity checks.
  if sizeof_ether_header + iphdrlen + sizeof_udphdr ≤ pktlen then
    let udphdr := ip + iphdrlen
    let udplen := ntohs (load_u16 pkt (udphdr + 4))
    if sizeof_ether_header + iphdrlen + udplen = pktlen then
      let ipv4_checksum := ipv4_header_checksum dest pkt iphdrlen
      let udpdatalen := (udplen + 18446744073709551616 - sizeof_udphdr) % 18446744073709551616
      let udp_checksum := ipv4_udp_checksum dest pkt udphdr udplen udpdatalen
      -- Send packet.
      some (ipv4_vec dest pkt iphdrlen udphdr udpdatalen ipv4_checksum udp_checksum)
    else none
  else none

/-- The block "Calculate UDP checksum (mandatory for IPv6)." of `send_ipv6`:
the value of the local `udp_checksum`. -/
def ipv6_udp_checksum (dest : destination) (pkt : List Nat) (udphdr udplen udpdatalen : Nat) :
    Nat :=
  -- Source and destination addresses.
  let s0 := csum_addr6 dest.iface.addr6 dest.addr sizeof_in6_addr 0 0
  -- UDP length.
  let s1 := add32 s0 udplen
  -- Next header.
  let s2 := add32 s1 IPPROTO_UDP
  -- Source port: the destination port of the received packet.
  let s3 := add32 s2 (ntohs (load_u16 pkt (udphdr + offsetof_udphdr_dest)))
  -- Destination port.
  let s4 := add32 s3 (ntohs dest.port)
  -- Length.
  let s5 := add32 s4 udplen
  -- Data.
  let s6 := csum_data pkt (udphdr + sizeof_udphdr) udpdatalen s5
  csum_finish (csum_fold s6 s6)

/-- The block "Compose UDP packet." of `send_ipv6`: the array `vec`. -/
def ipv6_vec (dest : destination) (pkt : List Nat) (udphdr udpdatalen udp_checksum : Nat) :
    List iovec :=
  [ -- Destination ethernet address.
    ⟨dest.macaddr, ETHER_ADDR_LEN⟩,
    -- Source ethernet address.
    ⟨dest.iface.macaddr, ETHER_ADDR_LEN⟩,
    -- Packet type ID and IPv6 header until IPv6 source address.
    ⟨pkt.drop offsetof_ether_type, 2 + offsetof_ip6_src⟩,
    -- Source IPv6 address.
    ⟨dest.iface.addr6, sizeof_in6_addr⟩,
    -- Destination IPv6 address.
    ⟨dest.addr, sizeof_in6_addr⟩,
    -- Source port (destination port of the received packet).
    ⟨pkt.drop (udphdr + offsetof_udphdr_dest), 2⟩,
    -- Destination port.
    ⟨store_u16 dest.port, 2⟩,
    -- Length.
    ⟨pkt.drop (udphdr + 4), 2⟩,
    -- Checksum.
    ⟨store_u16 udp_checksum, 2⟩,
    -- Data (if present).
    ⟨pkt.drop (udphdr + sizeof_udphdr), udpdatalen⟩ ]

/-- The function `worker::destinations::send_ipv6`: the gather list handed to
`dest->iface->tx.send`, or `none` when the frame is dropped by the sanity
check. -/
def send_ipv6 (dest : destination) (pkt : List Nat) (pktlen : Nat) : Option (List iovec) :=
  let ip := sizeof_ether_header
  let udphdr := ip + sizeof_ip6_hdr
  let udplen := ntohs (load_u16 pkt (udphdr + 4))
  -- Sanity check.
  if sizeof_ether_header + sizeof_ip6_hdr + udplen = pktlen then
    let udpdatalen := (udplen + 18446744073709551616 - sizeof_udphdr) % 18446744073709551616
    let udp_checksum := ipv6_udp_checksum dest pkt udphdr udplen udpdatalen
    -- Send packet.
    some (ipv6_vec dest pkt udphdr udpdatalen udp_checksum)
  else none

/-! ## worker: destination tables and dispatch -/

/-- The `enum class type` of `worker.h`. -/
inductive type where
  | load_balancer
  | broadcaster
deriving DecidableEq, Repr

/-- The `enum class family` of `worker.h`. -/
inductive family where
  | ipv4
  | ipv6
deriving DecidableEq, Repr

/-- The class `worker::destinations`.  `_M_destinations` holds the records in
use (their number is `_M_used`; the array has `_M_size` slots); `_M_process` is
`none` until `init` has run (the constructor leaves the member pointer
unset); `_M_send` names the send function the constructor selected. -/
structure destinations where
  _M_destinations : List destination
  _M_size : Nat
  _M_idx : Nat
  _M_process : Option type
  _M_send : family
deriving DecidableEq, Repr

/-- The member `_M_used`: the number of records in use. -/
def destinations._M_used (t : destinations) : Nat := t._M_destinations.length

/-- The constructor `destinations::destinations(family af)`. -/
def destinations.new (af : family) : destinations :=
  { _M_destinations := [], _M_size := 0, _M_idx := 0, _M_process := none, _M_send := af }

/-- The function `destinations::init`. -/
def destinations.init (t : destinations) (ty : type) : destinations :=
  { t with _M_process := some ty }

/-- The call `memcpy(dst, src, n)` on an array whose content was `dst`. -/
def memcpy (dst src : List Nat) (n : Nat) : List Nat := src.take n ++ dst.drop n

/-- The function `worker::destinations::add`.  `realloc_ok` tells whether
`realloc` succeeds when it is called; `old_addr` is the content of the array
`addr` of the new record before the call (`realloc` leaves it indeterminate,
and `memcpy` overwrites only its first `addrlen` bytes). -/
def destinations.add (t : destinations) (realloc_ok : Bool) (old_addr : List Nat)
    (macaddr addr : List Nat) (addrlen port : Nat) (iface : interface) : destinations × Bool :=
  let grown : Option destinations :=
    if t._M_used = t._M_size then
      let size := if t._M_size > 0 then t._M_size * 2 else 4
      if realloc_ok then some { t with _M_size := size } else none
    else some t
  match grown with
  | none => (t, false)
  | some t1 =>
    let dest : destination :=
      { macaddr := macaddr.take ETHER_ADDR_LEN,
        addr := memcpy old_addr addr addrlen,
        addrlen := addrlen,
        port := htons port,
        iface := iface }
    ({ t1 with _M_destinations := t1._M_destinations ++ [dest] }, true)

/-- A call `_M_send(_M_destinations + idx, pkt, pktlen)`: the send function
called, the index of the destination record, and the gather list the send
function handed to the TX ring of the record's interface (`none` when it
dropped the frame). -/
structure offer where
  af : family
  idx : Nat
  vec : Option (List iovec)
deriving DecidableEq, Repr

/-- The call `_M_send(_M_destinations + i, pkt, pktlen)` where the record at
index `i` is `dest`. -/
def destinations.call_send (t : destinations) (i : Nat) (dest : destination)
    (pkt : List Nat) (pktlen : Nat) : offer :=
  match t._M_send with
  | family.ipv4 => ⟨family.ipv4, i, send_ipv4 dest pkt pktlen⟩
  | family.ipv6 => ⟨family.ipv6, i, send_ipv6 dest pkt pktlen⟩

/-- The function `worker::destinations::forward`: the table afterwards and the
calls of `_M_send`.  With no record at `_M_idx` (in particular in an empty
table, where the source computes `% _M_used` with `_M_used = 0`) the behaviour
is undefined: `none`. -/
def destinations.forward (t : destinations) (pkt : List Nat) (pktlen : Nat) :
    Option (destinations × List offer) :=
  match t._M_destinations[t._M_idx]? with
  | none => none
  | some dest =>
    some ({ t with _M_idx := (t._M_idx + 1) % t._M_used },
      [t.call_send t._M_idx dest pkt pktlen])

/-- The loop `for (size_t i = i0; i < _M_used; i++) _M_send(_M_destinations + i, ...)`
over the records from index `i0` on. -/
def destinations.broadcast_loop (t : destinations) (pkt : List Nat) (pktlen : Nat) :
    Nat → List destination → List offer
  | _, [] => []
  | i, dest :: rest =>
    t.call_send i dest pkt pktlen :: destinations.broadcast_loop t pkt pktlen (i + 1) rest

/-- The function `worker::destinations::broadcast`. -/
def destinations.broadcast (t : destinations) (pkt : List Nat) (pktlen : Nat) :
    Option (destinations × List offer) :=
  some (t, t.broadcast_loop pkt pktlen 0 t._M_destinations)

/-- The function `worker::destinations::process`: the call through the member
pointer `_M_process` (undefined while it is unset). -/
def destinations.process (t : destinations) (pkt : List Nat) (pktlen : Nat) :
    Option (destinations × List offer) :=
  match t._M_process with
  | none => none
  | some type.load_balancer => t.forward pkt pktlen
  | some type.broadcaster => t.broadcast pkt pktlen

/-- The class `worker`, without its RX ring and its thread: the interfaces in
use (their number is `_M_ninterfaces`) and the two destination tables. -/
structure worker where
  _M_interfaces : List interface
  _M_ipv4_destinations : destinations
  _M_ipv6_destinations : destinations
deriving DecidableEq, Repr

/-- The constant `worker::max_interfaces`. -/
def worker.max_interfaces : Nat := 32

/-- The constructor `worker::worker()`. -/
def worker.new : worker :=
  { _M_interfaces := [],
    _M_ipv4_destinations := destinations.new family.ipv4,
    _M_ipv6_destinations := destinations.new family.ipv6 }

/-- The function `worker::create`; `rx_ok` tells whether the RX ring buffer
could be created. -/
def worker.create (w : worker) (t : type) (rx_ok : Bool) : worker × Bool :=
  if rx_ok then
    ({ w with _M_ipv4_destinations := w._M_ipv4_destinations.init t,
              _M_ipv6_destinations := w._M_ipv6_destinations.init t }, true)
  else (w, false)

/-- The function `worker::add_interface`; `tx_ok` tells whether the TX ring
buffer could be created. -/
def worker.add_interface (w : worker) (tx_ok : Bool) (ifindex : Nat)
    (macaddr addr4 addr6 : List Nat) : worker × Bool :=
  -- Search interface.
  if w._M_interfaces.any (fun i => ifindex = i.index) then (w, true)
  else if w._M_interfaces.length < worker.max_interfaces then
    if tx_ok then
      ({ w with _M_interfaces := w._M_interfaces ++
          [{ index := ifindex, macaddr := macaddr.take ETHER_ADDR_LEN,
             addr4 := addr4.take sizeof_in_addr, addr6 := addr6.take sizeof_in6_addr }] }, true)
    else (w, false)
  else (w, false)

/-- The function `worker::add_destination` (binary address). -/
def worker.add_destination (w : worker) (realloc_ok : Bool) (old_addr : List Nat)
    (ifindex : Nat) (macaddr addr : List Nat) (addrlen port : Nat) : worker × Bool :=
  -- Search interface.
  match w._M_interfaces.find? (fun i => ifindex = i.index) with
  | some iface =>
    if addrlen = sizeof_in_addr then
      let r := w._M_ipv4_destinations.add realloc_ok old_addr macaddr addr addrlen port iface
      ({ w with _M_ipv4_destinations := r.1 }, r.2)
    else if addrlen = sizeof_in6_addr then
      let r := w._M_ipv6_destinations.add realloc_ok old_addr macaddr addr addrlen port iface
      ({ w with _M_ipv6_destinations := r.1 }, r.2)
    else (w, false)
  | none => (w, false)

/-- The function `worker::fnpacket`: the worker afterwards and the calls of
the send functions. -/
def worker.fnpacket (w : worker) (pkt : List Nat) (pktlen : Nat) :
    Option (worker × List offer) :=
  let sel := pkt.getD sizeof_ether_header 0 &&& 0xf0
  if sel = 0x40 then
    (w._M_ipv4_destinations.process pkt pktlen).map
      (fun r => ({ w with _M_ipv4_destinations := r.1 }, r.2))
  else if sel = 0x60 then
    (w._M_ipv6_destinations.process pkt pktlen).map
      (fun r => ({ w with _M_ipv6_destinations := r.1 }, r.2))
  else some (w, [])

/-- The loop of `worker::fnpackets` from index `i` on, with a step budget. -/
def worker.fnpackets_loop (pkts : List iovec) (npkts : Nat) :
    Nat → Nat → worker → Option (worker × List offer)
  | 0, _, w => some (w, [])
  | fuel + 1, i, w =>
    if i < npkts then
      match pkts[i]? with
      | none => none
      | some p =>
        match w.fnpacket p.iov_base p.iov_len with
        | none => none
        | some r =>
          (worker.fnpackets_loop pkts npkts fuel (i + 1) r.1).map (fun q => (q.1, r.2 ++ q.2))
    else some (w, [])

/-- The function `worker::fnpackets`. -/
def worker.fnpackets (w : worker) (pkts : List iovec) (npkts : Nat) :
    Option (worker × List offer) :=
  worker.fnpackets_loop pkts npkts npkts 0 w

/-! ## udp_distributor -/

/-- The constant `ring_buffer::min_size` (1 MB). -/
def ring_buffer.min_size : Nat := 1024 * 1024

/-- The constant `ring_buffer::max_size` for `__WORDSIZE == 64` (16 GB). -/
def ring_buffer.max_size : Nat := 16 * 1024 * 1024 * 1024

/-- The class `udp_distributor`: `_M_workers` holds the `_M_nworkers` workers
in use (the array has `max_workers` elements); `_M_type` is `none` until
`create` has set it (the constructor leaves it unset). -/
structure udp_distributor where
  _M_type : Option type
  _M_workers : List worker
  _M_idx : Nat
deriving DecidableEq, Repr

/-- The constant `udp_distributor::min_workers`. -/
def udp_distributor.min_workers : Nat := 1

/-- The constant `udp_distributor::max_workers`. -/
def udp_distributor.max_workers : Nat := 32

/-- The constant `udp_distributor::default_workers`. -/
def udp_distributor.default_workers : Nat := 1

/-- The member `_M_nworkers`: the number of workers in use. -/
def udp_distributor._M_nworkers (d : udp_distributor) : Nat := d._M_workers.length

/-- The constructor `udp_distributor::udp_distributor()`. -/
def udp_distributor.new : udp_distributor :=
  { _M_type := none, _M_workers := [], _M_idx := 0 }

/-- The loop of `udp_distributor::create` over the first `n` elements of the
array of workers, every one as its constructor left it: the created workers,
or `none` when a worker could not be created. -/
def udp_distributor.create_workers (t : type) (rx_ok : Nat → Bool) :
    Nat → Nat → Option (List worker)
  | 0, _ => some []
  | n + 1, i =>
    let r := worker.new.create t (rx_ok i)
    if r.2 then (udp_distributor.create_workers t rx_ok n (i + 1)).map (fun ws => r.1 :: ws)
    else none

/-- The function `udp_distributor::create`; `rx_ok i` tells whether the RX
ring buffer of worker `i` could be created. -/
def udp_distributor.create (d : udp_distributor) (rx_ok : Nat → Bool) (t : type)
    (ring_size ifindex nworkers : Nat) : udp_distributor × Bool :=
  -- Sanity checks.
  if ring_size ≥ ring_buffer.min_size ∧ ring_size ≤ ring_buffer.max_size ∧ ifindex > 0 ∧
      nworkers ≥ udp_distributor.min_workers ∧ nworkers ≤ udp_distributor.max_workers then
    match udp_distributor.create_workers t rx_ok nworkers 0 with
    | some ws => ({ d with _M_type := some t, _M_workers := ws }, true)
    | none => (d, false)
  else (d, false)

/-- The loop `for (size_t i = i0; i < _M_nworkers; i++)` of
`udp_distributor::add_interface` over the workers from index `i0` on: the
workers afterwards, and whether every worker added the interface (the loop
stops at the first worker that does not). -/
def udp_distributor.add_interface_loop (tx_ok : Nat → Bool) (ifindex : Nat)
    (macaddr addr4 addr6 : List Nat) : Nat → List worker → List worker × Bool
  | _, [] => ([], true)
  | i, w :: ws =>
    let r := w.add_interface (tx_ok i) ifindex macaddr addr4 addr6
    if r.2 then
      let q := udp_distributor.add_interface_loop tx_ok ifindex macaddr addr4 addr6 (i + 1) ws
      (r.1 :: q.1, q.2)
    else (r.1 :: ws, false)

/-- The function `udp_distributor::add_interface`; `tx_ok i` tells whether the
TX ring buffer of worker `i` could be created. -/
def udp_distributor.add_interface (d : udp_distributor) (tx_ok : Nat → Bool)
    (ring_size ifindex : Nat) (macaddr addr4 addr6 : List Nat) : udp_distributor × Bool :=
  -- Sanity checks.
  if ring_size ≥ ring_buffer.min_size ∧ ring_size ≤ ring_buffer.max_size ∧ ifindex > 0 then
    let q := udp_distributor.add_interface_loop tx_ok ifindex macaddr addr4 addr6 0 d._M_workers
    ({ d with _M_workers := q.1 }, q.2)
  else (d, false)

/-- The loop `for (size_t i = i0; i < _M_nworkers; i++)` of the broadcaster
branch of `udp_distributor::add_destination` over the workers from index `i0`
on: the workers afterwards, and whether every worker added the destination
(the loop stops at the first worker that does not). -/
def udp_distributor.add_destination_loop (realloc_ok : Nat → Bool) (old_addr : Nat → List Nat)
    (ifindex : Nat) (macaddr addr : List Nat) (addrlen port : Nat) :
    Nat → List worker → List worker × Bool
  | _, [] => ([], true)
  | i, w :: ws =>
    let r := w.add_destination (realloc_ok i) (old_addr i) ifindex macaddr addr addrlen port
    if r.2 then
      let q := udp_distributor.add_destination_loop realloc_ok old_addr ifindex macaddr addr
        addrlen port (i + 1) ws
      (r.1 :: q.1, q.2)
    else (r.1 :: ws, false)

/-- The function `udp_distributor::add_destination` (binary address).
`realloc_ok i` and `old_addr i` are what `destinations::add` meets in worker
`i`.  Before `create` the member `_M_type` is unset and the behaviour is
undefined: `none`; so it is for a cursor `_M_idx` outside the workers in use,
which `create` and this function never produce. -/
def udp_distributor.add_destination (d : udp_distributor) (realloc_ok : Nat → Bool)
    (old_addr : Nat → List Nat) (ifindex : Nat) (macaddr addr : List Nat) (addrlen port : Nat) :
    Option (udp_distributor × Bool) :=
  match d._M_type with
  | none => none
  | some t =>
    -- Sanity check.
    if ifindex > 0 then
      if t = type.load_balancer then
        match d._M_workers[d._M_idx]? with
        | none => none
        | some w =>
          -- Add destination.
          let r := w.add_destination (realloc_ok d._M_idx) (old_addr d._M_idx) ifindex macaddr
            addr addrlen port
          let workers := d._M_workers.set d._M_idx r.1
          if r.2 then
            some ({ d with _M_workers := workers,
                           _M_idx := (d._M_idx + 1) % d._M_nworkers }, true)
          else some ({ d with _M_workers := workers }, false)
      else
        let q := udp_distributor.add_destination_loop realloc_ok old_addr ifindex macaddr addr
          addrlen port 0 d._M_workers
        some ({ d with _M_workers := q.1 }, q.2)
    else some (d, false)

/-- The assignment to `nworkers` in `main` before the distributor is
created: with more workers than destinations in load-balancer mode the number
of workers is the number of destinations. -/
def main_nworkers (nworkers ndests : Nat) (t : type) : Nat :=
  if nworkers > ndests ∧ t = type.load_balancer then ndests else nworkers

/-! ## main: the parsers of the command line

A C string is the list of the codes of its characters before the terminating
NUL. -/

/-- Modelled from the spec: the macro `IS_DIGIT` of `macros/macros.h`, which is
not among the sources: the character is one of the decimal digits `0` to `9`. -/
def IS_DIGIT (c : Nat) : Bool := decide (48 ≤ c ∧ c ≤ 57)

/-- The loop `while (*s) { ... }` of `parse_number` from the accumulator `res`
on: the final accumulator, or `none` when the loop leaves through
`return false`.  The accumulator is a `uint64_t`. -/
def parse_number_loop (res : Nat) : List Nat → Option Nat
  | [] => some res
  | c :: s =>
    if IS_DIGIT c then
      let tmp := (res * 10 + (c - 48)) % 18446744073709551616
      if tmp ≥ res then parse_number_loop tmp s
      else
        -- Overflow.
        none
    else none

/-- The function `parse_number(s, min, max, n)` of `main.cpp`: the value
stored in `n` when it returns true, `none` when it returns false. -/
def parse_number (s : List Nat) (min max : Nat) : Option Nat :=
  match parse_number_loop 0 s with
  | some res => if s ≠ [] ∧ res ≥ min ∧ res ≤ max then some res else none
  | none => none

/-- The branch of `parse_size` for a suffix with multiplier `mult`: `nonempty`
is the test `s > begin`, `last` the test `!*(s + 1)`. -/
def parse_size_suffix (min max : Nat) (mult : Nat) (nonempty : Bool) (res : Nat)
    (last : Bool) : Option Nat :=
  let tmp := (res * mult) % 18446744073709551616
  if nonempty ∧ tmp ≥ res ∧ last ∧ tmp ≥ min ∧ tmp ≤ max then some tmp else none

/-- The loop `while (*s) { ... }` of `parse_size` with the return statement
behind it; `pos` is `s - begin`. -/
def parse_size_loop (min max : Nat) : Nat → Nat → List Nat → Option Nat
  | pos, res, [] => if pos > 0 ∧ res ≥ min ∧ res ≤ max then some res else none
  | pos, res, c :: s =>
    if IS_DIGIT c then
      let tmp := (res * 10 + (c - 48)) % 18446744073709551616
      if tmp ≥ res then parse_size_loop min max (pos + 1) tmp s
      else
        -- Overflow.
        none
    else if c = 75 then
      -- 'K'
      parse_size_suffix min max 1024 (decide (pos > 0)) res (decide (s = []))
    else if c = 77 then
      -- 'M'
      parse_size_suffix min max (1024 * 1024) (decide (pos > 0)) res (decide (s = []))
    else if c = 71 then
      -- 'G'
      parse_size_suffix min max (1024 * 1024 * 1024) (decide (pos > 0)) res (decide (s = []))
    else none

/-- The function `parse_size(s, min, max, size)` of `main.cpp`: the value
stored in `size` when it returns true, `none` when it returns false. -/
def parse_size (s : List Nat) (min max : Nat) : Option Nat :=
  parse_size_loop min max 0 0 s

/-! ## main: the parser of the port list -/

/-- The locals of `parse_port_list` and the filter it was given. -/
structure port_list_state where
  state : Nat
  from_ : Nat
  to_ : Nat
  filter : socket_filter
deriving DecidableEq, Repr

/-- One turn of the loop `while (*s)` of `parse_port_list` on the character
`c`: the locals afterwards, or, when the function left through `return false`,
the filter at that point.  `from` and `to` are `unsigned`, the arguments of
`port_range` are converted to `in_port_t`. -/
def parse_port_list_step (c : Nat) (σ : port_list_state) : Except socket_filter port_list_state :=
  match σ.state with
  | 0 => -- Initial state.
    if IS_DIGIT c then Except.ok { σ with from_ := c - 48, state := 1 }
    else Except.error σ.filter
  | 1 => -- Parsing start port.
    if IS_DIGIT c then
      let v := (σ.from_ * 10 + (c - 48)) % 4294967296
      if v > 65535 then Except.error σ.filter else Except.ok { σ with from_ := v }
    else if c = 44 then Except.ok { σ with to_ := σ.from_, state := 4 }
    else if c = 45 then Except.ok { σ with state := 2 }
    else Except.error σ.filter
  | 2 => -- Before end port.
    if IS_DIGIT c then Except.ok { σ with to_ := c - 48, state := 3 }
    else Except.error σ.filter
  | 3 => -- Parsing end port.
    if IS_DIGIT c then
      let v := (σ.to_ * 10 + (c - 48)) % 4294967296
      if v > 65535 then Except.error σ.filter else Except.ok { σ with to_ := v }
    else if c = 44 then Except.ok { σ with state := 4 }
    else Except.error σ.filter
  | 4 => -- After port definition.
    if IS_DIGIT c then
      let r := σ.filter.port_range (σ.from_ % 65536) (σ.to_ % 65536)
      if r.1 then Except.ok { σ with filter := r.2, from_ := c - 48, state := 1 }
      else Except.error r.2
    else Except.error σ.filter
  | _ => Except.ok σ

/-- The loop `while (*s)` of `parse_port_list` and the `switch` after it: the
returned flag and the filter afterwards. -/
def parse_port_list_loop : List Nat → port_list_state → Bool × socket_filter
  | [], σ =>
    match σ.state with
    | 1 => σ.filter.port (σ.from_ % 65536)
    | 3 => σ.filter.port_range (σ.from_ % 65536) (σ.to_ % 65536)
    | _ => (false, σ.filter)
  | c :: s, σ =>
    match parse_port_list_step c σ with
    | Except.ok σ1 => parse_port_list_loop s σ1
    | Except.error f => (false, f)

/-- The function `parse_port_list(s, filter)` of `main.cpp`: the returned flag
and the filter afterwards. -/
def parse_port_list (s : List Nat) (filter : socket_filter) : Bool × socket_filter :=
  parse_port_list_loop s { state := 0, from_ := 0, to_ := 0, filter := filter }

/-! ## ring_buffer: geometry

The constants and the layouts of the headers are those of `linux/if_packet.h`
on a 64-bit little-endian host. -/

/-- The `enum tpacket_versions` of `linux/if_packet.h`. -/
inductive tpacket_versions where
  | TPACKET_V1
  | TPACKET_V2
  | TPACKET_V3
deriving DecidableEq, Repr

/-- The `enum class type` of `ring_buffer.h`. -/
inductive ring_buffer.type where
  | rx
  | tx
  | rxtx
deriving DecidableEq, Repr

def TPACKET_ALIGNMENT : Nat := 16
def sizeof_sockaddr_ll : Nat := 20
/-- The macro `TPACKET_HDRLEN`: `TPACKET_ALIGN(sizeof(struct tpacket_hdr))`, 32,
plus `sizeof(struct sockaddr_ll)`. -/
def TPACKET_HDRLEN : Nat := 32 + sizeof_sockaddr_ll
/-- The macro `TPACKET2_HDRLEN`: `TPACKET_ALIGN(sizeof(struct tpacket2_hdr))`,
32, plus `sizeof(struct sockaddr_ll)`. -/
def TPACKET2_HDRLEN : Nat := 32 + sizeof_sockaddr_ll
/-- The macro `TPACKET3_HDRLEN`: `TPACKET_ALIGN(sizeof(struct tpacket3_hdr))`,
48, plus `sizeof(struct sockaddr_ll)`. -/
def TPACKET3_HDRLEN : Nat := 48 + sizeof_sockaddr_ll
def TP_STATUS_KERNEL : Nat := 0
def TP_STATUS_USER : Nat := 1
def TP_STATUS_SEND_REQUEST : Nat := 1
def TP_STATUS_SENDING : Nat := 2
def EAGAIN : Nat := 11
def INT_MAX : Nat := 2147483647

/-- The class `ring_buffer`, without its socket and its member pointers.
`_M_buf` is the mapped memory; `_M_rx_frames` and `_M_tx_frames` hold the
`iov_base` of the entries of the two slot tables, as offsets into `_M_buf`
(their `iov_len` is `_M_size` and is never read). -/
structure ring_buffer where
  _M_buf : List Nat
  _M_ring_size : Nat
  _M_count : Nat
  _M_size : Nat
  _M_nframes : Nat
  _M_frame_size : Nat
  _M_rx_frames : List Nat
  _M_tx_frames : List Nat
  _M_rx_idx : Nat
  _M_tx_idx : Nat
deriving DecidableEq, Repr

/-- The `struct tpacket_req` (the first four fields of `struct tpacket_req3`
are the same); the fields are `unsigned int`. -/
structure tpacket_req where
  tp_block_size : Nat
  tp_block_nr : Nat
  tp_frame_size : Nat
  tp_frame_nr : Nat
deriving DecidableEq, Repr

/-- The locals `block_size` and `nblocks` of `config_v1_v2` and `config_v3`:
`getpagesize() << 2` (a shift of an `int`, defined while the result is at most
`INT_MAX`) and `ring_size / block_size`. -/
def ring_buffer.block_size (pagesize : Nat) : Nat := pagesize <<< 2

/-- The local `nblocks` of `config_v1_v2` and `config_v3`. -/
def ring_buffer.nblocks (pagesize ring_size : Nat) : Nat :=
  ring_size / ring_buffer.block_size pagesize

/-- The common part of `config_v1_v2` and `config_v3`: the frame size, the
effective ring size, the number of frames and the request. -/
def ring_buffer.config (r : ring_buffer) (pagesize ring_size : Nat) :
    ring_buffer × tpacket_req :=
  let block_size := ring_buffer.block_size pagesize
  let frame_size := TPACKET_ALIGNMENT <<< 7
  -- Calculate number of blocks.
  let nblocks := ring_buffer.nblocks pagesize ring_size
  let eff := (nblocks * block_size) % 18446744073709551616
  let nframes := eff / frame_size
  ({ r with _M_frame_size := frame_size, _M_ring_size := eff, _M_nframes := nframes },
   { tp_block_nr := nblocks % 4294967296, tp_block_size := block_size % 4294967296,
     tp_frame_nr := nframes % 4294967296, tp_frame_size := frame_size % 4294967296 })

/-- The function `ring_buffer::config_v1_v2`: the slots are the frames. -/
def ring_buffer.config_v1_v2 (r : ring_buffer) (pagesize ring_size : Nat) :
    ring_buffer × tpacket_req :=
  let c := r.config pagesize ring_size
  ({ c.1 with _M_count := c.1._M_nframes, _M_size := c.1._M_frame_size }, c.2)

/-- The function `ring_buffer::config_v3`: the slots are the blocks. -/
def ring_buffer.config_v3 (r : ring_buffer) (pagesize ring_size : Nat) :
    ring_buffer × tpacket_req :=
  let c := r.config pagesize ring_size
  ({ c.1 with _M_count := ring_buffer.nblocks pagesize ring_size,
              _M_size := ring_buffer.block_size pagesize }, c.2)

/-- The loop of `mmap_ring` that fills a slot table: entry `i` points to
`buf + i * _M_size`. -/
def ring_buffer.frames (buf size : Nat) : Nat → List Nat
  | 0 => []
  | n + 1 => buf :: ring_buffer.frames (buf + size) size n

/-- The function `ring_buffer::mmap_ring`.  `mem` is what `mmap` returns
(`none` for `MAP_FAILED`, else the mapped bytes), `rx_ok` and `tx_ok` tell
whether the two calls of `malloc` succeed.  The second component is the length
passed to `mmap`. -/
def ring_buffer.mmap_ring (r : ring_buffer) (t : ring_buffer.type) (mem : Option (List Nat))
    (rx_ok tx_ok : Bool) : (ring_buffer × Bool) × Nat :=
  let size := if t ≠ ring_buffer.type.rxtx then r._M_ring_size
    else (2 * r._M_ring_size) % 18446744073709551616
  match mem with
  | some bytes =>
    let r0 := { r with _M_buf := bytes }
    -- Allocate frames.
    let rx : Option ring_buffer :=
      if t ≠ ring_buffer.type.tx then
        if rx_ok then some { r0 with _M_rx_frames := ring_buffer.frames 0 r._M_size r._M_count }
        else none
      else some r0
    match rx with
    | none => ((r0, false), size)
    | some r1 =>
      let tx : Option ring_buffer :=
        if t ≠ ring_buffer.type.rx then
          if tx_ok then
            let buf := if t = ring_buffer.type.rxtx then r._M_ring_size else 0
            some { r1 with _M_tx_frames := ring_buffer.frames buf r._M_size r._M_count }
          else none
        else some r1
      match tx with
      | none => ((r1, false), size)
      | some r2 => (({ r2 with _M_ring_size := size }, true), size)
  | none => ((r, false), size)

/-! ## ring_buffer: sending -/

/-- The read of an `unsigned int` at `p + off` on a little-endian host. -/
def load_u32 (p : List Nat) (off : Nat) : Nat :=
  p.getD off 0 + 256 * p.getD (off + 1) 0 + 65536 * p.getD (off + 2) 0 +
    16777216 * p.getD (off + 3) 0

/-- The four bytes of an `unsigned int` on a little-endian host. -/
def store_u32 (v : Nat) : List Nat :=
  [v % 256, v / 256 % 256, v / 65536 % 256, v / 16777216 % 256]

/-- The read of an `unsigned long` at `p + off` on a 64-bit little-endian
host. -/
def load_u64 (p : List Nat) (off : Nat) : Nat :=
  load_u32 p off + 4294967296 * load_u32 p (off + 4)

/-- The eight bytes of an `unsigned long` on a 64-bit little-endian host. -/
def store_u64 (v : Nat) : List Nat := store_u32 (v % 4294967296) ++ store_u32 (v / 4294967296)

/-- A write of the bytes `bs` at offset `off` of the mapped memory; outside
the mapping the behaviour is undefined: `none`. -/
def mem_write (mem : List Nat) (off : Nat) (bs : List Nat) : Option (List Nat) :=
  if off + bs.length ≤ mem.length then
    some (mem.take off ++ (bs ++ mem.drop (off + bs.length)))
  else none

/-- The offset of `tp_status` in `struct tpacket_hdr`, `struct tpacket2_hdr`
and `struct tpacket3_hdr`. -/
def tp_status_off : tpacket_versions → Nat
  | tpacket_versions.TPACKET_V1 => 0
  | tpacket_versions.TPACKET_V2 => 0
  | tpacket_versions.TPACKET_V3 => 20

/-- The offset of `tp_len` in the three headers. -/
def tp_len_off : tpacket_versions → Nat
  | tpacket_versions.TPACKET_V1 => 8
  | tpacket_versions.TPACKET_V2 => 4
  | tpacket_versions.TPACKET_V3 => 16

/-- The offset of `tp_snaplen` in the three headers. -/
def tp_snaplen_off : tpacket_versions → Nat
  | tpacket_versions.TPACKET_V1 => 12
  | tpacket_versions.TPACKET_V2 => 8
  | tpacket_versions.TPACKET_V3 => 12

/-- The offset of `tp_mac` in the three headers. -/
def tp_mac_off : tpacket_versions → Nat
  | tpacket_versions.TPACKET_V1 => 16
  | tpacket_versions.TPACKET_V2 => 12
  | tpacket_versions.TPACKET_V3 => 24

/-- The offset of the frame in a TX slot: `TPACKET_HDRLEN`, `TPACKET2_HDRLEN`
or `TPACKET3_HDRLEN` minus `sizeof(struct sockaddr_ll)`. -/
def tx_payload_off : tpacket_versions → Nat
  | tpacket_versions.TPACKET_V1 => TPACKET_HDRLEN - sizeof_sockaddr_ll
  | tpacket_versions.TPACKET_V2 => TPACKET2_HDRLEN - sizeof_sockaddr_ll
  | tpacket_versions.TPACKET_V3 => TPACKET3_HDRLEN - sizeof_sockaddr_ll

/-- The read of `hdr->tp_status`: an `unsigned long` in `struct tpacket_hdr`,
an `unsigned int` in the two others. -/
def load_status (v : tpacket_versions) (mem : List Nat) (hdr : Nat) : Nat :=
  match v with
  | tpacket_versions.TPACKET_V1 => load_u64 mem hdr
  | _ => load_u32 mem (hdr + tp_status_off v)

/-- The bytes written by `hdr->tp_status = x`. -/
def store_status (v : tpacket_versions) (x : Nat) : List Nat :=
  match v with
  | tpacket_versions.TPACKET_V1 => store_u64 x
  | _ => store_u32 x

/-- The header of the TX slot at the cursor: `_M_tx_frames[_M_tx_idx].iov_base`
for v1 and v2, `_M_tx_frames[0].iov_base + _M_tx_idx * _M_frame_size` for v3;
`none` when the slot table has no such entry. -/
def ring_buffer.tx_hdr (r : ring_buffer) (v : tpacket_versions) : Option Nat :=
  match v with
  | tpacket_versions.TPACKET_V3 =>
    (r._M_tx_frames[0]?).map (fun base => base + r._M_tx_idx * r._M_frame_size)
  | _ => r._M_tx_frames[r._M_tx_idx]?

/-- What a non-blocking send did: the returned flag, the value the function
itself stored in `errno` (if any), whether `sendto` was called, and the ring
afterwards. -/
structure send_result where
  ret : Bool
  errno : Option Nat
  kick : Bool
  ring : ring_buffer
deriving DecidableEq, Repr

/-- The loop `for (i = 0; i < iovcnt; i++, iov++) { memcpy(p, iov->iov_base,
iov->iov_len); p += iov->iov_len; }`: the memory and `p` afterwards.  A buffer
shorter than its `iov_len` is read past its end: `none`. -/
def copy_iov : List Nat → Nat → List iovec → Option (List Nat × Nat)
  | mem, p, [] => some (mem, p)
  | mem, p, v :: rest =>
    if v.iov_len ≤ v.iov_base.length then
      match mem_write mem p (v.iov_base.take v.iov_len) with
      | some mem1 => copy_iov mem1 (p + v.iov_len) rest
      | none => none
    else none

/-- The end of every send function once the frame is in the slot: the status
is set to `TP_STATUS_SEND_REQUEST`, the cursor advances and `sendto` is called
(`sendto_ok` tells whether it succeeds). -/
def ring_buffer.tx_commit (r : ring_buffer) (v : tpacket_versions) (mem : List Nat) (hdr : Nat)
    (sendto_ok : Bool) : Option send_result :=
  -- Mark packet as ready to be sent.
  match mem_write mem (hdr + tp_status_off v) (store_status v TP_STATUS_SEND_REQUEST) with
  | none => none
  | some mem1 =>
    if r._M_nframes = 0 then none
    else
      some { ret := sendto_ok, errno := none, kick := true,
             ring := { r with _M_buf := mem1, _M_tx_idx := (r._M_tx_idx + 1) % r._M_nframes } }

/-- The assignments `hdr->tp_snaplen = pktlen; hdr->tp_len = pktlen;` and, for
v3, `hdr->tp_next_offset = 0;` (the fields are `unsigned int`). -/
def tx_set_len (v : tpacket_versions) (mem : List Nat) (hdr pktlen : Nat) : Option (List Nat) :=
  match mem_write mem (hdr + tp_snaplen_off v) (store_u32 (pktlen % 4294967296)) with
  | none => none
  | some mem1 =>
    match mem_write mem1 (hdr + tp_len_off v) (store_u32 (pktlen % 4294967296)) with
    | none => none
    | some mem2 =>
      match v with
      | tpacket_versions.TPACKET_V3 => mem_write mem2 hdr (store_u32 0)
      | _ => some mem2

/-- The functions `send_v1`, `send_v2` and `send_v3` without timeout, which
differ in the header, in the offset of the frame and in how the slot is
found. -/
def ring_buffer.send (r : ring_buffer) (v : tpacket_versions) (pkt : List Nat) (pktlen : Nat)
    (sendto_ok : Bool) : Option send_result :=
  match r.tx_hdr v with
  | none => none
  | some hdr =>
    -- If there is a packet available...
    if load_status v r._M_buf hdr &&& (TP_STATUS_SEND_REQUEST ||| TP_STATUS_SENDING) = 0 then
      -- Set packet length.
      match tx_set_len v r._M_buf hdr pktlen with
      | none => none
      | some mem1 =>
        -- Copy packet.
        if pktlen ≤ pkt.length then
          match mem_write mem1 (hdr + tx_payload_off v) (pkt.take pktlen) with
          | none => none
          | some mem2 => r.tx_commit v mem2 hdr sendto_ok
        else none
    else some { ret := false, errno := some EAGAIN, kick := false, ring := r }

/-- The functions `sendv_v1`, `sendv_v2` and `sendv_v3` without timeout; `iov`
holds the `iovcnt` entries of the gather list. -/
def ring_buffer.sendv (r : ring_buffer) (v : tpacket_versions) (iov : List iovec)
    (sendto_ok : Bool) : Option send_result :=
  match r.tx_hdr v with
  | none => none
  | some hdr =>
    -- If there is a packet available...
    if load_status v r._M_buf hdr &&& (TP_STATUS_SEND_REQUEST ||| TP_STATUS_SENDING) = 0 then
      -- Copy packet.
      let begin_ := hdr + tx_payload_off v
      match copy_iov r._M_buf begin_ iov with
      | none => none
      | some (mem1, p) =>
        let pktlen := p - begin_
        -- Set packet length.
        match tx_set_len v mem1 hdr pktlen with
        | none => none
        | some mem2 => r.tx_commit v mem2 hdr sendto_ok
    else some { ret := false, errno := some EAGAIN, kick := false, ring := r }

/-- The function `sendv_v1` without timeout. -/
def ring_buffer.sendv_v1 (r : ring_buffer) (iov : List iovec) (sendto_ok : Bool) :=
  r.sendv tpacket_versions.TPACKET_V1 iov sendto_ok

/-- The function `sendv_v2` without timeout. -/
def ring_buffer.sendv_v2 (r : ring_buffer) (iov : List iovec) (sendto_ok : Bool) :=
  r.sendv tpacket_versions.TPACKET_V2 iov sendto_ok

/-- The function `sendv_v3` without timeout. -/
def ring_buffer.sendv_v3 (r : ring_buffer) (iov : List iovec) (sendto_ok : Bool) :=
  r.sendv tpacket_versions.TPACKET_V3 iov sendto_ok

/-- The function `send_v1` without timeout. -/
def ring_buffer.send_v1 (r : ring_buffer) (pkt : List Nat) (pktlen : Nat) (sendto_ok : Bool) :=
  r.send tpacket_versions.TPACKET_V1 pkt pktlen sendto_ok

/-- The function `send_v2` without timeout. -/
def ring_buffer.send_v2 (r : ring_buffer) (pkt : List Nat) (pktlen : Nat) (sendto_ok : Bool) :=
  r.send tpacket_versions.TPACKET_V2 pkt pktlen sendto_ok

/-- The function `send_v3` without timeout. -/
def ring_buffer.send_v3 (r : ring_buffer) (pkt : List Nat) (pktlen : Nat) (sendto_ok : Bool) :=
  r.send tpacket_versions.TPACKET_V3 pkt pktlen sendto_ok

/-- A v2 TX ring of 1 MiB as `create` sets it up with a page size of 4096:
512 zeroed frames of 2048 bytes, cursor 0. -/
def sample_tx_ring : ring_buffer :=
  { _M_buf := List.replicate 1048576 0, _M_ring_size := 1048576, _M_count := 512,
    _M_size := 2048, _M_nframes := 512, _M_frame_size := 2048, _M_rx_frames := [],
    _M_tx_frames := ring_buffer.frames 0 2048 512, _M_rx_idx := 0, _M_tx_idx := 0 }

/-- The same ring with `TP_STATUS_SEND_REQUEST` in the status of frame 0. -/
def sample_tx_ring_busy : ring_buffer :=
  { sample_tx_ring with _M_buf := 1 :: List.replicate 1048575 0 }

/-- A gather list of one buffer of 2017 bytes. -/
def sample_iov_long : List iovec := [⟨List.replicate 2017 255, 2017⟩]

/-- A gather list of two buffers, of 3 and of 2 bytes. -/
def sample_iov_short : List iovec := [⟨[1, 2, 3], 3⟩, ⟨[4, 5, 6], 2⟩]

/-! ## ring_buffer: receiving -/

/-- What a receive function did to the outside, in order: a call of
`_M_fnpacket(pkt, pktlen, user)`, a call of `_M_fnpackets(pkts, npkts, user)`
(the first `npkts` entries of `pkts`, as pairs of `iov_base` and `iov_len`), or
the store of `TP_STATUS_KERNEL` in the status of the slot at `slot`.  Addresses
are offsets in the mapped memory. -/
inductive rx_event where
  | fnpacket (pkt : Nat) (pktlen : Nat)
  | fnpackets (pkts : List (Nat × Nat))
  | release (slot : Nat)
deriving DecidableEq, Repr

/-- The outcome of a non-blocking receive: the returned flag, the events in
order and the ring afterwards. -/
structure recv_result where
  ret : Bool
  trace : List rx_event
  ring : ring_buffer
deriving DecidableEq, Repr

/-- The functions `recv_v1` and `recv_v2`, which differ in the header only
(`struct tpacket_hdr` for v1, `struct tpacket2_hdr` for v2). -/
def ring_buffer.recv_frame (r : ring_buffer) (v : tpacket_versions) : Option recv_result :=
  match r._M_rx_frames[r._M_rx_idx]? with
  | none => none
  | some hdr =>
    -- If there is a new packet...
    if load_status v r._M_buf hdr &&& TP_STATUS_USER = TP_STATUS_USER then
      -- Process packet.
      let ev := rx_event.fnpacket (hdr + load_u16 r._M_buf (hdr + tp_mac_off v))
        (load_u32 r._M_buf (hdr + tp_snaplen_off v))
      -- Mark frame as free.
      match mem_write r._M_buf (hdr + tp_status_off v) (store_status v TP_STATUS_KERNEL) with
      | none => none
      | some mem1 =>
        if r._M_count = 0 then none
        else
          some { ret := true, trace := [ev, rx_event.release hdr],
                 ring := { r with _M_buf := mem1,
                                  _M_rx_idx := (r._M_rx_idx + 1) % r._M_count } }
    else some { ret := false, trace := [], ring := r }

/-- The function `recv_v1` without timeout. -/
def ring_buffer.recv_v1 (r : ring_buffer) : Option recv_result :=
  r.recv_frame tpacket_versions.TPACKET_V1

/-- The function `recv_v2` without timeout. -/
def ring_buffer.recv_v2 (r : ring_buffer) : Option recv_result :=
  r.recv_frame tpacket_versions.TPACKET_V2

/-- The constant `max_pkts` of `recv_v3`. -/
def recv_v3_max_pkts : Nat := 1024

/-- The offsets of `hdr.bh1.block_status`, `hdr.bh1.num_pkts` and
`hdr.bh1.offset_to_first_pkt` in `struct tpacket_block_desc`. -/
def block_status_off : Nat := 8

/-- See `block_status_off`. -/
def num_pkts_off : Nat := 12

/-- See `block_status_off`. -/
def offset_to_first_pkt_off : Nat := 16

/-- The loop `for (i = 0; i < num_pkts; i++)` of `recv_v3`, by the number of
iterations left: `hdr` is the current packet header, `pkts` the entries
`pkts[0 .. npkts)` and `trace` the events so far.  The result is the trace and
the entries after the loop. -/
def recv_v3_loop (mem : List Nat) :
    Nat → Nat → List (Nat × Nat) → List rx_event → List rx_event × List (Nat × Nat)
  | 0, _, pkts, trace => (trace, pkts)
  | n + 1, hdr, pkts, trace =>
    -- Process packets.
    let flushed : List rx_event × List (Nat × Nat) :=
      if pkts.length = recv_v3_max_pkts then (trace ++ [rx_event.fnpackets pkts], [])
      else (trace, pkts)
    let entry : Nat × Nat :=
      (hdr + load_u16 mem (hdr + tp_mac_off tpacket_versions.TPACKET_V3),
        load_u32 mem (hdr + tp_snaplen_off tpacket_versions.TPACKET_V3))
    recv_v3_loop mem n (hdr + load_u32 mem hdr) (flushed.2 ++ [entry]) flushed.1

/-- The function `recv_v3` without timeout. -/
def ring_buffer.recv_v3 (r : ring_buffer) : Option recv_result :=
  match r._M_rx_frames[r._M_rx_idx]? with
  | none => none
  | some block_desc =>
    -- If there is a new block...
    if load_u32 r._M_buf (block_desc + block_status_off) &&& TP_STATUS_USER ≠ 0 then
      let hdr := block_desc + load_u32 r._M_buf (block_desc + offset_to_first_pkt_off)
      let num_pkts := load_u32 r._M_buf (block_desc + num_pkts_off)
      -- Process packets in the block.
      let done := recv_v3_loop r._M_buf num_pkts hdr [] []
      -- Process packets.
      let trace := done.1 ++ [rx_event.fnpackets done.2]
      -- Mark block as free.
      match mem_write r._M_buf (block_desc + block_status_off) (store_u32 TP_STATUS_KERNEL) with
      | none => none
      | some mem1 =>
        if r._M_count = 0 then none
        else
          some { ret := true, trace := trace ++ [rx_event.release block_desc],
                 ring := { r with _M_buf := mem1,
                                  _M_rx_idx := (r._M_rx_idx + 1) % r._M_count } }
    else some { ret := false, trace := [], ring := r }

/-! ## Auxiliary definitions for the analysis of `compile` -/

/-- The instructions the port loop of `compile` appends, before back-patching. -/
def ports_code : List portrange → List sock_filter
  | [] => []
  | r :: rs =>
    if r.from_ = r.to_ then
      { code := BPF_JMP + BPF_JEQ + BPF_K, jt := 0, jf := 0, k := r.from_ } :: ports_code rs
    else
      { code := BPF_JMP + BPF_JGE + BPF_K, jt := 0, jf := 1, k := r.from_ } ::
        { code := BPF_JMP + BPF_JGT + BPF_K, jt := 0, jf := 0, k := r.to_ } :: ports_code rs

/-- The entries the port loop of `compile` appends to `accepts` when the first
instruction of the loop gets index `base`. -/
def ports_accepts : List portrange → Nat → List jmp
  | [], _ => []
  | r :: rs, base =>
    if r.from_ = r.to_ then
      { idx := base, jt := true } :: ports_accepts rs (base + 1)
    else
      { idx := base + 1, jt := false } :: ports_accepts rs (base + 2)

/-- The instructions of the port loop after back-patching towards the
instruction with index `n`, the first of them having index `base`. -/
def ports_patched : List portrange → Nat → Nat → List sock_filter
  | [], _, _ => []
  | r :: rs, base, n =>
    if r.from_ = r.to_ then
      { code := BPF_JMP + BPF_JEQ + BPF_K, jt := (n - base - 1) % 256, jf := 0, k := r.from_ } ::
        ports_patched rs (base + 1) n
    else
      { code := BPF_JMP + BPF_JGE + BPF_K, jt := 0, jf := 1, k := r.from_ } ::
        { code := BPF_JMP + BPF_JGT + BPF_K, jt := 0, jf := (n - (base + 1) - 1) % 256,
          k := r.to_ } :: ports_patched rs (base + 2) n

/-- The `ret 0` instruction (IGNORE). -/
def insn_ignore : sock_filter := { code := BPF_RET + BPF_K, jt := 0, jf := 0, k := 0 }

/-- The `ret 0x40000` instruction (ACCEPT). -/
def insn_accept : sock_filter := { code := BPF_RET + BPF_K, jt := 0, jf := 0, k := 0x40000 }

/-- The first three instructions: load the length, compare it with `minlen`
(branch offset `j1` when smaller), load the Ethertype. -/
def seg_start (minlen j1 : Nat) : List sock_filter :=
  [⟨BPF_LD + BPF_W + BPF_LEN, 0, 0, 0⟩,
   ⟨BPF_JMP + BPF_JGE + BPF_K, 0, j1, minlen⟩,
   ⟨BPF_LD + BPF_H + BPF_ABS, 0, 0, 12⟩]

/-- The IPv4 tests: Ethertype, protocol, fragment bits (branch offsets `j0`,
`j2`, `j4` to IGNORE). -/
def seg_ipv4 (j0 j2 j4 : Nat) : List sock_filter :=
  [⟨BPF_JMP + BPF_JEQ + BPF_K, 0, j0, ETHERTYPE_IP⟩,
   ⟨BPF_LD + BPF_B + BPF_ABS, 0, 0, 23⟩,
   ⟨BPF_JMP + BPF_JEQ + BPF_K, 0, j2, IPPROTO_UDP⟩,
   ⟨BPF_LD + BPF_H + BPF_ABS, 0, 0, 20⟩,
   ⟨BPF_JMP + BPF_JSET + BPF_K, j4, 0, 0x3fff⟩]

/-- The IPv6 tests with IPv4 disabled: Ethertype (both branch offsets stay 0),
next header (branch offset `j2` to IGNORE). -/
def seg_ipv6 (j2 : Nat) : List sock_filter :=
  [⟨BPF_JMP + BPF_JEQ + BPF_K, 0, 0, ETHERTYPE_IPV6⟩,
   ⟨BPF_LD + BPF_B + BPF_ABS, 0, 0, 20⟩,
   ⟨BPF_JMP + BPF_JEQ + BPF_K, 0, j2, IPPROTO_UDP⟩]

/-- The IPv6 tests with IPv4 enabled: Ethertype (branch offset `j0` to the
IPv4 tests), length (`j2` to IGNORE), next header (`j4` to IGNORE). -/
def seg_ipv6_both (j0 j2 j4 : Nat) : List sock_filter :=
  [⟨BPF_JMP + BPF_JEQ + BPF_K, 0, j0, ETHERTYPE_IPV6⟩,
   ⟨BPF_LD + BPF_W + BPF_LEN, 0, 0, 0⟩,
   ⟨BPF_JMP + BPF_JGE + BPF_K, 0, j2, 62⟩,
   ⟨BPF_LD + BPF_B + BPF_ABS, 0, 0, 20⟩,
   ⟨BPF_JMP + BPF_JEQ + BPF_K, 0, j4, IPPROTO_UDP⟩]

/-- The load of the UDP destination port at offset `k`. -/
def seg_ldport (k : Nat) : List sock_filter :=
  [⟨BPF_LD + BPF_H + BPF_ABS, 0, 0, k⟩]

/-- The program `compile` produces for IPv4 only and at least one range;
`L` is the number of instructions of the port loop. -/
def prog_ipv4 (rs : List portrange) (L : Nat) : List sock_filter :=
  seg_start 42 (L + 7) ++ (seg_ipv4 (L + 5) (L + 3) (L + 1) ++ (seg_ldport 36 ++
    (ports_patched rs 9 (L + 10) ++ [insn_ignore, insn_accept])))

/-- The program `compile` produces for IPv4 only and no range. -/
def prog_ipv4_all : List sock_filter :=
  seg_start 42 7 ++ (seg_ipv4 5 3 1 ++ [insn_accept, insn_ignore, insn_accept])

/-- The program `compile` produces for IPv6 only and at least one range. -/
def prog_ipv6 (rs : List portrange) (L : Nat) : List sock_filter :=
  seg_start 62 (L + 6) ++ (seg_ipv6 (L + 2) ++ (seg_ldport 56 ++
    (ports_patched rs 7 (L + 9) ++ [insn_ignore, insn_ignore, insn_accept])))

/-- The program `compile` produces for IPv6 only and no range. -/
def prog_ipv6_all : List sock_filter :=
  seg_start 62 5 ++ (seg_ipv6 1 ++ [insn_accept, insn_ignore, insn_accept])

/-- The program `compile` produces for both families and at least one range. -/
def prog_both (rs : List portrange) (L : Nat) : List sock_filter :=
  seg_start 42 (2 * L + 14) ++ (seg_ipv6_both (L + 6) (2 * L + 10) (2 * L + 8) ++
    (seg_ldport 56 ++ (ports_patched rs 9 (2 * L + 17) ++ (insn_ignore ::
      (seg_ipv4 (L + 5) (L + 3) (L + 1) ++ (seg_ldport 36 ++
        (ports_patched rs (L + 16) (2 * L + 17) ++ [insn_ignore, insn_accept])))))))

/-- The program `compile` produces for both families and no range. -/
def prog_both_all : List sock_filter :=
  seg_start 42 13 ++ (seg_ipv6_both 5 9 7 ++ (insn_accept ::
    (seg_ipv4 5 3 1 ++ [insn_accept, insn_ignore, insn_accept])))

/-- The acceptance condition of the IPv4 tests of the compiled program: the
port is read at the fixed offset 36. -/
def accepts_ipv4 (rs : List portrange) (pkt : List Nat) : Prop :=
  42 ≤ pkt.length ∧ frame_ethertype pkt = ETHERTYPE_IP ∧
    frame_ipv4_protocol pkt = IPPROTO_UDP ∧ frame_ipv4_frag_off pkt &&& 0x3fff = 0 ∧
    (rs = [] ∨ covers rs (be16 pkt 36))

/-- The acceptance condition of the IPv6 tests of the compiled program, the
Ethertype test apart. -/
def accepts_ipv6 (rs : List portrange) (pkt : List Nat) : Prop :=
  62 ≤ pkt.length ∧ frame_ipv6_nxt pkt = IPPROTO_UDP ∧ (rs = [] ∨ covers rs (be16 pkt 56))

/-- The frames the compiled program accepts, by family flags as `compile`
finds them. -/
def filter_accepts (v4 v6 : Bool) (rs : List portrange) (pkt : List Nat) : Prop :=
  match v4, v6 with
  | true, false => accepts_ipv4 rs pkt
  | false, true => accepts_ipv6 rs pkt
  | _, _ => 42 ≤ pkt.length ∧
      ((frame_ethertype pkt = ETHERTYPE_IPV6 ∧ accepts_ipv6 rs pkt) ∨ accepts_ipv4 rs pkt)

/-! ## Sample frames -/

/-- An Ethernet frame carrying an unfragmented IPv4/UDP datagram without
options and without payload, to UDP port `dport` (42 bytes). -/
def sample_frame_ipv4 (dport : Nat) : List Nat :=
  [0x02, 0, 0, 0, 0, 0x01, 0x02, 0, 0, 0, 0, 0x02, 0x08, 0x00,
   0x45, 0, 0, 28, 0, 0, 0, 0, 64, 17, 0, 0, 10, 0, 0, 1, 10, 0, 0, 2,
   0x30, 0x39, dport / 256, dport % 256, 0, 8, 0, 0]

/-- An Ethernet frame carrying an unfragmented IPv4/UDP datagram whose IPv4
header has four option bytes (`ihl = 6`, four no-operation options), without
payload, to UDP port `dport` (46 bytes). -/
def sample_frame_ipv4_options (dport : Nat) : List Nat :=
  [0x02, 0, 0, 0, 0, 0x01, 0x02, 0, 0, 0, 0, 0x02, 0x08, 0x00,
   0x46, 0, 0, 32, 0, 0, 0, 0, 64, 17, 0, 0, 10, 0, 0, 1, 10, 0, 0, 2,
   1, 1, 1, 1,
   0x30, 0x39, dport / 256, dport % 256, 0, 8, 0, 0]

/-- An Ethernet frame carrying an IPv6/UDP datagram without payload, to UDP
port `dport` (62 bytes). -/
def sample_frame_ipv6 (dport : Nat) : List Nat :=
  [0x02, 0, 0, 0, 0, 0x01, 0x02, 0, 0, 0, 0, 0x02, 0x86, 0xdd,
   0x60, 0, 0, 0, 0, 8, 17, 64,
   0xfe, 0x80, 0, 0, 0, 0, 0, 0, 0, 0, 0, 0, 0, 0, 0, 1,
   0xfe, 0x80, 0, 0, 0, 0, 0, 0, 0, 0, 0, 0, 0, 0, 0, 2,
   0x30, 0x39, dport / 256, dport % 256, 0, 8, 0, 0]

/-- An Ethernet frame with Ethertype 0x0800 carrying a non-first IPv4 fragment
(fragment offset field 0x1100) of 48 bytes (62 bytes in all). -/
def sample_frame_ipv4_fragment : List Nat :=
  [0x02, 0, 0, 0, 0, 0x01, 0x02, 0, 0, 0, 0, 0x02, 0x08, 0x00,
   0x45, 0, 0, 48, 0, 1, 0x11, 0x00, 64, 17, 0, 0, 10, 0, 0, 1, 10, 0, 0, 2,
   0, 0, 0, 0, 0, 0, 0, 0, 0, 0, 0, 0, 0, 0, 0, 0, 0, 0, 0, 0, 0, 0, 0, 0, 0, 0, 0, 0]

/-! ## Checksum verification, as a receiver computes it -/

/-- The sum of the 16-bit big-endian words of a byte sequence, an odd last
byte padded with a zero byte. -/
def be_words_sum : List Nat → Nat
  | [] => 0
  | [b] => b * 256
  | b0 :: b1 :: rest => b0 * 256 + b1 + be_words_sum rest

/-- The one's-complement sum of the 16-bit big-endian words of a byte
sequence: the sum with the carries folded back in. -/
def ones_complement_sum (bytes : List Nat) : Nat :=
  csum_fold (be_words_sum bytes) (be_words_sum bytes)

/-- The IPv6 pseudo-header of a UDP datagram: source address, destination
address, upper-layer length (32 bits), three zero bytes, next header 17. -/
def pseudo_header_ipv6 (src dst : List Nat) (udplen : Nat) : List Nat :=
  src ++ dst ++ [0, 0, udplen / 256, udplen % 256] ++ [0, 0, 0, IPPROTO_UDP]

/-- The sizes of the arrays of a destination record and of its interface, and
the ranges of their elements. -/
def destination.wf (d : destination) : Prop :=
  d.macaddr.length = 6 ∧ d.addr.length = 16 ∧ d.port < 65536 ∧
  d.iface.macaddr.length = 6 ∧ d.iface.addr4.length = 4 ∧ d.iface.addr6.length = 16 ∧
  (∀ b ∈ d.addr, b < 256) ∧ (∀ b ∈ d.iface.addr4, b < 256) ∧ (∀ b ∈ d.iface.addr6, b < 256)

/-- The frame memory holds at least `pktlen` bytes. -/
def frame_wf (pkt : List Nat) (pktlen : Nat) : Prop :=
  pktlen ≤ pkt.length ∧ ∀ b ∈ pkt, b < 256

/-- A destination record on an interface with address `10.0.0.1` /
`fe80::1`, address `a`, port 5000. -/
def sample_destination (a : List Nat) : destination :=
  { macaddr := [0x02, 0, 0, 0, 0, 0x0a],
    addr := a,
    addrlen := 16,
    port := htons 5000,
    iface := { index := 2, macaddr := [0x02, 0, 0, 0, 0, 0x0b], addr4 := [10, 0, 0, 1],
               addr6 := [0xfe, 0x80, 0, 0, 0, 0, 0, 0, 0, 0, 0, 0, 0, 0, 0, 1] } }

/-- An Ethernet frame carrying an IPv6/UDP datagram with the three payload
bytes "ABC" (65 bytes). -/
def sample_frame_ipv6_abc : List Nat :=
  [0x02, 0, 0, 0, 0, 0x01, 0x02, 0, 0, 0, 0, 0x02, 0x86, 0xdd,
   0x60, 0, 0, 0, 0, 11, 17, 64,
   0x20, 0x01, 0x0d, 0xb8, 0, 0, 0, 0, 0, 0, 0, 0, 0, 0, 0, 1,
   0x20, 0x01, 0x0d, 0xb8, 0, 0, 0, 0, 0, 0, 0, 0, 0, 0, 0, 2,
   0x30, 0x39, 0x13, 0x88, 0, 11, 0x12, 0x34,
   0x41, 0x42, 0x43]

/-- An Ethernet frame carrying an IPv4/UDP datagram with `ihl = 6` (four option
bytes) and the payload byte "A" (47 bytes). -/
def sample_frame_ipv4_opt_a : List Nat :=
  [0x02, 0, 0, 0, 0, 0x01, 0x02, 0, 0, 0, 0, 0x02, 0x08, 0x00,
   0x46, 0, 0, 33, 0, 0, 0, 0, 64, 17, 0, 0, 192, 168, 0, 1, 192, 168, 0, 2,
   1, 1, 1, 1,
   0x30, 0x39, 0x13, 0x88, 0, 9, 0, 0,
   0x41]

/-- The IPv4 pseudo-header of a UDP datagram: source address, destination
address, a zero byte, protocol 17, UDP length. -/
def pseudo_header_ipv4 (src dst : List Nat) (udplen : Nat) : List Nat :=
  src ++ dst ++ [0, IPPROTO_UDP, udplen / 256, udplen % 256]

/-! ## Runs of the dispatch functions -/

/-- The calls `process(pkt, pktlen)` on a destination table for a sequence of
frames `(pkt, pktlen)`, one after the other: the table afterwards and the
calls of `_M_send`, in order. -/
def process_frames (t : destinations) : List (List Nat × Nat) → Option (destinations × List offer)
  | [] => some (t, [])
  | f :: rest =>
    match t.process f.1 f.2 with
    | none => none
    | some r => (process_frames r.1 rest).map (fun q => (q.1, r.2 ++ q.2))

/-- A destination table in mode `ty` holding the records `ds`, with cursor 0. -/
def sample_table (ty : type) (af : family) (ds : List destination) : destinations :=
  { _M_destinations := ds, _M_size := 4, _M_idx := 0, _M_process := some ty, _M_send := af }

/-- The records a worker holds in its two tables. -/
def worker.ndestinations (w : worker) : Nat :=
  w._M_ipv4_destinations._M_used + w._M_ipv6_destinations._M_used

/-- The worker `w1` is the worker `w` with the record `rec` appended to one of
its two tables and nothing else changed. -/
def worker.appended (w w1 : worker) (rec : destination) : Prop :=
  w1._M_interfaces = w._M_interfaces ∧
  ((w1._M_ipv4_destinations._M_destinations = w._M_ipv4_destinations._M_destinations ++ [rec] ∧
      w1._M_ipv6_destinations = w._M_ipv6_destinations) ∨
    (w1._M_ipv6_destinations._M_destinations = w._M_ipv6_destinations._M_destinations ++ [rec] ∧
      w1._M_ipv4_destinations = w._M_ipv4_destinations))

/-- The arguments of one call of `udp_distributor::add_destination`, with what
the allocator yields in every worker during the call. -/
structure add_request where
  ifindex : Nat
  macaddr : List Nat
  addr : List Nat
  addrlen : Nat
  port : Nat
  realloc_ok : Nat → Bool
  old_addr : Nat → List Nat

/-- The record `destinations::add` writes in worker `i` for a request, on the
interface `iface`. -/
def add_request.record (r : add_request) (i : Nat) (iface : interface) : destination :=
  { macaddr := r.macaddr.take ETHER_ADDR_LEN,
    addr := memcpy (r.old_addr i) r.addr r.addrlen,
    addrlen := r.addrlen,
    port := htons r.port,
    iface := iface }

/-- The call `add_destination` of a worker for a request; `i` is the index of
the worker. -/
def worker.add (w : worker) (i : Nat) (r : add_request) : worker × Bool :=
  w.add_destination (r.realloc_ok i) (r.old_addr i) r.ifindex r.macaddr r.addr r.addrlen r.port

/-- The call `add_destination` of the distributor for a request. -/
def udp_distributor.add (d : udp_distributor) (r : add_request) :
    Option (udp_distributor × Bool) :=
  d.add_destination r.realloc_ok r.old_addr r.ifindex r.macaddr r.addr r.addrlen r.port

/-- The calls of `add_destination` for a sequence of requests, one after the
other: the distributor afterwards and the results. -/
def add_destinations (d : udp_distributor) : List add_request →
    Option (udp_distributor × List Bool)
  | [] => some (d, [])
  | r :: rest =>
    match d.add r with
    | none => none
    | some q => (add_destinations q.1 rest).map (fun p => (p.1, q.2 :: p.2))

/-- A worker in mode `ty` with one interface, two IPv4 destinations and one
IPv6 destination. -/
def sample_worker (ty : type) : worker :=
  { _M_interfaces := [(sample_destination []).iface],
    _M_ipv4_destinations := sample_table ty family.ipv4
      [sample_destination [10, 0, 0, 8, 0, 0, 0, 0, 0, 0, 0, 0, 0, 0, 0, 0],
       sample_destination [10, 0, 0, 9, 0, 0, 0, 0, 0, 0, 0, 0, 0, 0, 0, 0]],
    _M_ipv6_destinations := sample_table ty family.ipv6
      [sample_destination [0xfe, 0x80, 0, 0, 0, 0, 0, 0, 0, 0, 0, 0, 0, 0, 0, 2]] }

/-- A distributor in mode `ty` with `n` workers, as `create` and one call of
`add_interface` (interface index 2) leave it. -/
def sample_distributor (ty : type) (n : Nat) : udp_distributor :=
  ((udp_distributor.new.create (fun _ => true) ty ring_buffer.min_size 1 n).1.add_interface
    (fun _ => true) ring_buffer.min_size 2 [0x02, 0, 0, 0, 0, 0x0b] [10, 0, 0, 1]
    [0xfe, 0x80, 0, 0, 0, 0, 0, 0, 0, 0, 0, 0, 0, 0, 0, 1]).1

/-- A request to add the IPv4 destination `10.0.0.x`, port 5000, on the
interface with index `ifindex`; every allocation succeeds. -/
def sample_request (ifindex x : Nat) : add_request :=
  { ifindex := ifindex,
    macaddr := [0x02, 0, 0, 0, 0, 0x0a],
    addr := [10, 0, 0, x],
    addrlen := 4,
    port := 5000,
    realloc_ok := fun _ => true,
    old_addr := fun _ => [0, 0, 0, 0, 0, 0, 0, 0, 0, 0, 0, 0, 0, 0, 0, 0] }

/-! ## Decimal numbers, as the claims read them -/

/-- The codes of the characters of a string. -/
def cstr (s : String) : List Nat := s.toList.map Char.toNat

/-- The number a sequence of decimal digits denotes when the digits before
it denote `v`. -/
def digits_value_from (v : Nat) (ds : List Nat) : Nat :=
  ds.foldl (fun v c => v * 10 + (c - 48)) v

/-- The number a sequence of decimal digits denotes. -/
def digits_value (ds : List Nat) : Nat := digits_value_from 0 ds

/-- A non-empty sequence of decimal digits. -/
def is_number (ds : List Nat) : Prop := ds ≠ [] ∧ ∀ c ∈ ds, IS_DIGIT c = true

/-- The suffixes of a size and their multipliers: none, `K`, `M`, `G`. -/
def size_suffix (suffix : List Nat) (mult : Nat) : Prop :=
  (suffix = [] ∧ mult = 1) ∨ (suffix = [75] ∧ mult = 2 ^ 10) ∨
  (suffix = [77] ∧ mult = 2 ^ 20) ∨ (suffix = [71] ∧ mult = 2 ^ 30)

/-- The string is a decimal number followed by at most one suffix `K`, `M` or
`G`, and `v` is the number times the multiplier of the suffix. -/
def size_text (s : List Nat) (v : Nat) : Prop :=
  ∃ ds suffix mult, is_number ds ∧ size_suffix suffix mult ∧ s = ds ++ suffix ∧
    v = digits_value ds * mult

/-! ## Sample rings -/

/-- A ring object before it is configured: no memory, no slot table, both
cursors 0. -/
def sample_ring_new : ring_buffer :=
  { _M_buf := [], _M_ring_size := 0, _M_count := 0, _M_size := 0, _M_nframes := 0,
    _M_frame_size := 0, _M_rx_frames := [], _M_tx_frames := [], _M_rx_idx := 0, _M_tx_idx := 0 }

/-! ## The mapped memory, as the claims read it -/

/-- The memory `m` holds the bytes `bs` from offset `off` on. -/
def bytes_at (m : List Nat) (off : Nat) (bs : List Nat) : Prop :=
  ∀ k, k < bs.length → m[off + k]? = bs[k]?

/-- The sum of the lengths of a gather list. -/
def iov_total (iov : List iovec) : Nat := (iov.map iovec.iov_len).sum

/-! ## The packets of a block, as the claims read them -/

/-- The first `n` packets of the chain that starts at the header `hdr`, each as
`(header + tp_mac, tp_snaplen)`; the next header is `tp_next_offset` bytes
further. -/
def block_packets (mem : List Nat) : Nat → Nat → List (Nat × Nat)
  | _, 0 => []
  | hdr, n + 1 =>
    (hdr + load_u16 mem (hdr + 24), load_u32 mem (hdr + 12)) ::
      block_packets mem (hdr + load_u32 mem hdr) n

/-- A v2 RX ring scaled down to two slots of 32 bytes, cursor 1; slot 1 holds
a frame of 4 bytes (`tp_status = TP_STATUS_USER`, `tp_len = tp_snaplen = 4`,
`tp_mac = 20`). -/
def sample_rx_ring : ring_buffer :=
  { _M_buf := List.replicate 32 0 ++
      [1, 0, 0, 0, 4, 0, 0, 0, 4, 0, 0, 0, 20, 0, 20, 0, 0, 0, 0, 0, 170, 187, 204, 221,
       0, 0, 0, 0, 0, 0, 0, 0],
    _M_ring_size := 64, _M_count := 2, _M_size := 32, _M_nframes := 2, _M_frame_size := 32,
    _M_rx_frames := [0, 32], _M_tx_frames := [], _M_rx_idx := 1, _M_tx_idx := 0 }

/-- A v3 RX ring scaled down to one block of 128 bytes holding two packets, at
offsets 48 and 88 of the block (`block_status = TP_STATUS_USER`,
`num_pkts = 2`, `offset_to_first_pkt = 48`). -/
def sample_rx_ring_v3 : ring_buffer :=
  { _M_buf :=
      [1, 0, 0, 0, 0, 0, 0, 0, 1, 0, 0, 0, 2, 0, 0, 0, 48, 0, 0, 0] ++ List.replicate 28 0 ++
      [40, 0, 0, 0, 0, 0, 0, 0, 0, 0, 0, 0, 3, 0, 0, 0, 3, 0, 0, 0, 1, 0, 0, 0, 32, 0, 32, 0,
       0, 0, 0, 0, 1, 2, 3, 0, 0, 0, 0, 0] ++
      [0, 0, 0, 0, 0, 0, 0, 0, 0, 0, 0, 0, 2, 0, 0, 0, 2, 0, 0, 0, 1, 0, 0, 0, 32, 0, 32, 0,
       0, 0, 0, 0, 4, 5, 0, 0, 0, 0, 0, 0],
    _M_ring_size := 128, _M_count := 1, _M_size := 128, _M_nframes := 1, _M_frame_size := 128,
    _M_rx_frames := [0], _M_tx_frames := [], _M_rx_idx := 0, _M_tx_idx := 0 }

/-! ## The jumps of the compiled program, as the claims read them -/

/-- The locals of `socket_filter::compile` when the two back-patching loops at
its end are reached: the flag is false when `compile` returned false before,
the state holds the instructions emitted so far and the arrays `accepts` and
`ignores` (the ACCEPT and the IGNORE chain). -/
def socket_filter.compile_body (s : socket_filter) : Bool × compile_state :=
  let v4 := if !s._M_ipv4 && !s._M_ipv6 then true else s._M_ipv4
  let v6 := if !s._M_ipv4 && !s._M_ipv6 then true else s._M_ipv6
  let b6 := socket_filter.compile_ipv6 v4 v6 s._M_portranges (socket_filter.compile_start v4)
  if b6.1 then socket_filter.compile_ipv4 v4 b6.2.1 s._M_portranges b6.2.2
  else (false, b6.2.2)

/-- The test `BPF_CLASS(code) == BPF_JMP` of `linux/filter.h`. -/
def is_jump (f : sock_filter) : Bool := f.code % 8 == BPF_JMP

/-- The branch field of the conditional `f` that the chain entry `j` names. -/
def jmp.branch (j : jmp) (f : sock_filter) : Nat := if j.jt then f.jt else f.jf

/-- Every conditional of the segment `S`, whose first instruction has index
`base` in a program of `n` instructions, jumps forward to an instruction of the
program with both branches, and both offsets are below 256. -/
def seg_ok (S : List sock_filter) (base n : Nat) : Prop :=
  ∀ (k : Nat) (f : sock_filter), S[k]? = some f → is_jump f = true →
    base + k + 1 + f.jt < n ∧ base + k + 1 + f.jf < n ∧ f.jt < 256 ∧ f.jf < 256

/-- Every entry of the chain `js` names a conditional of the segment `S`
(first index `base`) whose named branch is `target - source - 1`. -/
def chain_ok (S : List sock_filter) (base : Nat) (js : List jmp) (target : Nat) : Prop :=
  ∀ j ∈ js, ∃ (k : Nat) (f : sock_filter), j.idx = base + k ∧ S[k]? = some f ∧
    is_jump f = true ∧ j.idx < target ∧ j.branch f = target - j.idx - 1

/-- The facts about the jumps of a program `P` with IGNORE chain `ign` and
ACCEPT chain `acc`: `P` ends with `ret 0` and `ret 0x40000`, the chains land on
them, and every conditional jumps forward inside `P`. -/
def jumps_spec (P : List sock_filter) (ign acc : List jmp) : Prop :=
  (∃ Q : List sock_filter, P = Q ++ [insn_ignore, insn_accept] ∧
    (∀ j ∈ ign, ∃ f, P[j.idx]? = some f ∧ is_jump f = true ∧ j.idx < Q.length ∧
      j.branch f = Q.length - j.idx - 1) ∧
    (∀ j ∈ acc, ∃ f, P[j.idx]? = some f ∧ is_jump f = true ∧ j.idx < Q.length + 1 ∧
      j.branch f = Q.length + 1 - j.idx - 1)) ∧
  seg_ok P 0 P.length

/-! ## Port lists, as the claims read them -/

/-- The text `t` is an item of a port list, a decimal number `N` or two
decimal numbers `N-M`, and `c` is the range it denotes: `(N, N)` or `(N, M)`. -/
def port_item (t : List Nat) (c : Nat × Nat) : Prop :=
  (is_number t ∧ c = (digits_value t, digits_value t)) ∨
  ∃ a b : List Nat, is_number a ∧ is_number b ∧ t = a ++ 45 :: b ∧
    c = (digits_value a, digits_value b)

/-- The string has the form `r1,r2,...,rk` with `k ≥ 1` items, and `cs` are the
ranges the items denote, in order. -/
inductive port_list_text : List Nat → List (Nat × Nat) → Prop where
  | single (t : List Nat) (c : Nat × Nat) : port_item t c → port_list_text t [c]
  | cons (t : List Nat) (c : Nat × Nat) (s : List Nat) (cs : List (Nat × Nat)) :
      port_item t c → port_list_text s cs → port_list_text (t ++ 44 :: s) (c :: cs)

/-- The merged result needs at most `max_port_ranges` ranges at every step:
for every number `k` of leading items there is a sorted list of at most
`max_port_ranges` valid ranges that do not touch and that cover exactly the
ports of the first `k` items. -/
def ranges_fit (cs : List (Nat × Nat)) : Prop :=
  ∀ k, k ≤ cs.length →
    ∃ rs : List portrange, canonical rs ∧ rs.length ≤ max_port_ranges ∧
      ∀ p, covers rs p ↔ ∃ c ∈ cs.take k, c.1 ≤ p ∧ p ≤ c.2

/-- The calls `filter.port_range(from, to)` for the ranges `cs` in order, up to
the first that returns false: whether all returned true, and the filter
afterwards. -/
def run_items (filter : socket_filter) : List (Nat × Nat) → Bool × socket_filter
  | [] => (true, filter)
  | c :: cs =>
    if (filter.port_range c.1 c.2).1 then run_items (filter.port_range c.1 c.2).2 cs
    else (false, (filter.port_range c.1 c.2).2)

/-! ## worker: what the dispatch functions evaluate -/

/-- The call `iface->tx.create(...)` of `worker::add_interface`: the index of
the slot of `_M_interfaces` whose TX ring the function tries to create, `none`
when the call is not reached (the interface was found, or the array is full). -/
def worker.add_interface_tx_slot (w : worker) (ifindex : Nat) : Option Nat :=
  -- Search interface.
  if w._M_interfaces.any (fun i => ifindex = i.index) then none
  -- If there are not too many interfaces...
  else if w._M_interfaces.length < worker.max_interfaces then some w._M_interfaces.length
  else none

/-- The operands `destinations::forward` evaluates at every call (the function
has no branch): the index of the record `_M_destinations + _M_idx` handed to
`_M_send`, and the divisor of `(_M_idx + 1) % _M_used`. -/
def destinations.forward_operands (t : destinations) : Nat × Nat := (t._M_idx, t._M_used)

/-! ## Samples for the sanity checks of the worker -/

/-- A worker in mode `ty` as `create`, one call of `add_interface` (interface
index 2) and one call of `add_destination` with the IPv4 address `10.0.0.8`
leave it: its IPv6 table holds no destination. -/
def sample_worker_ipv4_only (ty : type) : worker :=
  ((((worker.new.create ty true).1.add_interface true 2 [0x02, 0, 0, 0, 0, 0x0b] [10, 0, 0, 1]
    [0xfe, 0x80, 0, 0, 0, 0, 0, 0, 0, 0, 0, 0, 0, 0, 0, 1]).1).add_destination true
    [0, 0, 0, 0, 0, 0, 0, 0, 0, 0, 0, 0, 0, 0, 0, 0] 2 [0x02, 0, 0, 0, 0, 0x0a] [10, 0, 0, 8] 4
    5000).1

/-- An Ethernet frame of 42 bytes with Ethertype 0x0800 whose IPv4 header says
`ihl = 4`: protocol 17 at offset 23, no fragment bits, and at offset 30 (behind
the 16 bytes the header claims) a UDP header with length 12 and four payload
bytes. -/
def sample_frame_ipv4_ihl4 : List Nat :=
  [0x02, 0, 0, 0, 0, 0x01, 0x02, 0, 0, 0, 0, 0x02, 0x08, 0x00,
   0x44, 0, 0, 28, 0, 0, 0, 0, 64, 17, 0, 0, 10, 0, 0, 1,
   0x30, 0x39, 0x13, 0x88, 0, 12, 0, 0,
   1, 2, 3, 4]

/-- An Ethernet frame of 60 bytes (the minimum Ethernet frame) with Ethertype
0x0800 whose first IP byte has version nibble 6: protocol 17 at offset 23, no
fragment bits, and the bytes `00 06` at offsets 58 and 59, where `send_ipv6`
reads the UDP length. -/
def sample_frame_short_ipv6 : List Nat :=
  [0x02, 0, 0, 0, 0, 0x01, 0x02, 0, 0, 0, 0, 0x02, 0x08, 0x00,
   0x60, 0, 0, 46, 0, 0, 0, 0, 64, 17, 0, 0, 10, 0, 0, 1, 10, 0, 0, 2,
   0, 0, 0, 0, 0, 0, 0, 0, 0, 0, 0, 0, 0, 0, 0, 0, 0, 0, 0, 0,
   0x30, 0x39, 0x13, 0x88, 0, 6]

/-- A stored range set of 32 ranges of 50 ports each: `1-50`, `101-150`, ...,
`3101-3150`. -/
def sample_ranges_full : List portrange :=
  (List.range 32).map (fun i => { from_ := 100 * i + 1, to_ := 100 * i + 50 })

/-! ## Runs of `add` and `add_interface` -/

/-- The arguments of one call of `destinations::add`, with what the allocator
yields during the call. -/
structure add_call where
  realloc_ok : Bool
  old_addr : List Nat
  macaddr : List Nat
  addr : List Nat
  addrlen : Nat
  port : Nat
  iface : interface
deriving DecidableEq, Repr

/-- The record a call of `destinations::add` writes: the port is stored as
`htons(port)`. -/
def add_call.record (c : add_call) : destination :=
  { macaddr := c.macaddr.take ETHER_ADDR_LEN,
    addr := memcpy c.old_addr c.addr c.addrlen,
    addrlen := c.addrlen,
    port := htons c.port,
    iface := c.iface }

/-- The call of `destinations::add` for the arguments `c`. -/
def destinations.add_of (t : destinations) (c : add_call) : destinations × Bool :=
  t.add c.realloc_ok c.old_addr c.macaddr c.addr c.addrlen c.port c.iface

/-- Calls of `destinations::add`, one after the other: the table afterwards
and the results. -/
def destinations.add_all (t : destinations) : List add_call → destinations × List Bool
  | [] => (t, [])
  | c :: cs =>
    ((destinations.add_all (t.add_of c).1 cs).1,
      (t.add_of c).2 :: (destinations.add_all (t.add_of c).1 cs).2)

/-- The records of the calls that returned true, in the order of the calls. -/
def added_records : List add_call → List Bool → List destination
  | c :: cs, ok :: oks => if ok then c.record :: added_records cs oks else added_records cs oks
  | _, _ => []

/-- Calls that add the IPv4 destinations `10.0.0.0`, ..., `10.0.0.(n - 1)`,
port 5000; every allocation succeeds. -/
def sample_add_calls (n : Nat) : List add_call :=
  (List.range n).map (fun i =>
    { realloc_ok := true, old_addr := [0, 0, 0, 0, 0, 0, 0, 0, 0, 0, 0, 0, 0, 0, 0, 0],
      macaddr := [0x02, 0, 0, 0, 0, 0x0a], addr := [10, 0, 0, i], addrlen := 4, port := 5000,
      iface := { index := 2, macaddr := [0x02, 0, 0, 0, 0, 0x0b], addr4 := [10, 0, 0, 1],
                 addr6 := [0xfe, 0x80, 0, 0, 0, 0, 0, 0, 0, 0, 0, 0, 0, 0, 0, 1] } })

/-- The arguments of one call of `worker::add_interface`, with whether the TX
ring can be created. -/
structure interface_call where
  tx_ok : Bool
  ifindex : Nat
  macaddr : List Nat
  addr4 : List Nat
  addr6 : List Nat
deriving DecidableEq, Repr

/-- The call of `worker::add_interface` for the arguments `c`. -/
def worker.add_interface_of (w : worker) (c : interface_call) : worker × Bool :=
  w.add_interface c.tx_ok c.ifindex c.macaddr c.addr4 c.addr6

/-- Calls of `worker::add_interface`, one after the other: the worker
afterwards. -/
def worker.add_interfaces (w : worker) : List interface_call → worker
  | [] => w
  | c :: cs => worker.add_interfaces (w.add_interface_of c).1 cs

/-- The calls that register the interfaces 1 to `n`. -/
def sample_interface_calls (n : Nat) : List interface_call :=
  (List.range n).map (fun i =>
    { tx_ok := true, ifindex := i + 1, macaddr := [0x02, 0, 0, 0, 0, i], addr4 := [10, 0, 0, i],
      addr6 := [0xfe, 0x80, 0, 0, 0, 0, 0, 0, 0, 0, 0, 0, 0, 0, 0, i] })

/-! ## Samples for the round robin and the checksum -/

/-- The frame `sample_frame_ipv4 5000` as it is received when the sender pads
it to the minimum Ethernet frame of 60 bytes: 18 zero bytes follow the
datagram. -/
def sample_frame_ipv4_padded : List Nat :=
  sample_frame_ipv4 5000 ++ [0, 0, 0, 0, 0, 0, 0, 0, 0, 0, 0, 0, 0, 0, 0, 0, 0, 0]

/-- The turns of a run: the indices of the destination records the send
function was called for. -/
def turns (offers : List offer) : List Nat := offers.map offer.idx

/-- The emitted frames of a run: the indices of the destination records for
which the send function handed a frame to the TX ring. -/
def emitted (offers : List offer) : List Nat :=
  (offers.filter (fun o => o.vec.isSome)).map offer.idx

/-- A gather list of one buffer of 4100 bytes, more than two frames of 2048
bytes hold. -/
def sample_iov_jumbo : List iovec := [⟨List.replicate 4100 170, 4100⟩]

/-- An Ethernet frame carrying an IPv6/UDP datagram with the two payload
bytes `db c5` (64 bytes). -/
def sample_frame_ipv6_zero_sum : List Nat :=
  [0x02, 0, 0, 0, 0, 0x01, 0x02, 0, 0, 0, 0, 0x02, 0x86, 0xdd,
   0x60, 0, 0, 0, 0, 10, 17, 64,
   0x20, 0x01, 0x0d, 0xb8, 0, 0, 0, 0, 0, 0, 0, 0, 0, 0, 0, 1,
   0x20, 0x01, 0x0d, 0xb8, 0, 0, 0, 0, 0, 0, 0, 0, 0, 0, 0, 2,
   0x30, 0x39, 0x13, 0x88, 0, 10, 0x12, 0x34,
   0xdb, 0xc5]

/-- An Ethernet frame carrying an unfragmented IPv4/UDP datagram without
options with the two payload bytes `c4 c1` (44 bytes). -/
def sample_frame_ipv4_zero_sum : List Nat :=
  [0x02, 0, 0, 0, 0, 0x01, 0x02, 0, 0, 0, 0, 0x02, 0x08, 0x00,
   0x45, 0, 0, 30, 0, 0, 0, 0, 64, 17, 0, 0, 10, 0, 0, 1, 10, 0, 0, 2,
   0x30, 0x39, 0x13, 0x88, 0, 10, 0, 0,
   0xc4, 0xc1]

/-- The sum of the 16-bit big-endian words that the UDP checksum of the frame
`send_ipv6` emits covers, the checksum field apart: the IPv6 pseudo-header
(new source and destination address, `udp_len`, next header 17), the UDP
header (source port = received destination port, stored port, `udp_len`) and
the payload. -/
def udp_words_ipv6 (dest : destination) (pkt : List Nat) : Nat :=
  be_words_sum dest.iface.addr6 + be_words_sum dest.addr + be16 pkt 58 + 17 + be16 pkt 56 +
    ntohs dest.port + be16 pkt 58 + be_words_sum ((pkt.drop 62).take (be16 pkt 58 - 8))

/-- The same sum for the frame `send_ipv4` emits, with the IPv4 pseudo-header;
`off` is the offset of the UDP header in the received frame. -/
def udp_words_ipv4 (dest : destination) (pkt : List Nat) (off : Nat) : Nat :=
  be_words_sum dest.iface.addr4 + be_words_sum (dest.addr.take 4) + 17 + be16 pkt (off + 4) +
    be16 pkt (off + 2) + ntohs dest.port + be16 pkt (off + 4) +
    be_words_sum ((pkt.drop (off + 8)).take (be16 pkt (off + 4) - 8))

/-- A worker in mode `ty` as `create` and one call of `add_interface`
(interface index 2) leave it: both tables are empty and have no array yet. -/
def sample_worker_no_destination (ty : type) : worker :=
  ((worker.new.create ty true).1.add_interface true 2 [0x02, 0, 0, 0, 0, 0x0b] [10, 0, 0, 1]
    [0xfe, 0x80, 0, 0, 0, 0, 0, 0, 0, 0, 0, 0, 0, 0, 0, 1]).1

/-! ## When a worker accepts a destination -/

/-- The condition under which `worker::add_destination` of worker `i` returns
true for a request: an interface with the index of the request is registered,
the length of the address is 4 or 16, and the table of that family has room or
`realloc` succeeds. -/
@[reducible] def worker.can_add (w : worker) (i : Nat) (r : add_request) : Prop :=
  (∃ iface ∈ w._M_interfaces, r.ifindex = iface.index) ∧
  ((r.addrlen = 4 ∧
      (w._M_ipv4_destinations._M_used ≠ w._M_ipv4_destinations._M_size ∨
        r.realloc_ok i = true)) ∨
    (r.addrlen = 16 ∧
      (w._M_ipv6_destinations._M_used ≠ w._M_ipv6_destinations._M_size ∨
        r.realloc_ok i = true)))

/-- A request that a worker with free memory accepts: the index is positive
and registered in every worker of `d`, the length of the address is 4 or 16,
and `realloc` succeeds in every worker of `d`. -/
@[reducible] def add_request.accepted_by (r : add_request) (d : udp_distributor) : Prop :=
  0 < r.ifindex ∧ (r.addrlen = 4 ∨ r.addrlen = 16) ∧
  (∀ i, i < d._M_nworkers → r.realloc_ok i = true) ∧
  ∀ w ∈ d._M_workers, ∃ iface ∈ w._M_interfaces, r.ifindex = iface.index

/-- The distributor after a run of `add_destination` calls (the distributor
itself when a call does not return). -/
def distributor_after (d : udp_distributor) (reqs : List add_request) : udp_distributor :=
  ((add_destinations d reqs).map Prod.fst).getD d

open socket_filter


/-! ## Shape of `port_range` -/

theorem port_range_i_split (f : Nat) (rs : List portrange) :
    ∃ A B, rs = A ++ B ∧ A.length = port_range_i f rs ∧ (∀ a ∈ A, a.to_ + 1 < f) ∧
      (∀ b C, B = b :: C → f ≤ b.to_ + 1) := by
  induction rs with
  | nil => exact ⟨[], [], by simp [port_range_i]⟩
  | cons r rs ih =>
    obtain ⟨A, B, hAB, hlen, hA, hB⟩ := ih
    by_cases h : f > r.to_ + 1
    · refine ⟨r :: A, B, by simp [hAB], by simp [port_range_i, h, hlen], ?_, hB⟩
      intro a ha
      rcases List.mem_cons.1 ha with rfl | ha
      · exact h
      · exact hA a ha
    · refine ⟨[], r :: rs, by simp, by simp [port_range_i, h], by simp, ?_⟩
      intro b C hb
      cases hb
      omega

theorem port_range_j_split (t : Nat) (rs : List portrange) :
    ∃ M D, rs = M ++ D ∧ M.length = port_range_j t rs ∧ (∀ m ∈ M, m.from_ ≤ t + 1) ∧
      (∀ d E, D = d :: E → t + 1 < d.from_) := by
  induction rs with
  | nil => exact ⟨[], [], by simp [port_range_j]⟩
  | cons r rs ih =>
    obtain ⟨M, D, hMD, hlen, hM, hD⟩ := ih
    by_cases h : t + 1 ≥ r.from_
    · refine ⟨r :: M, D, by simp [hMD], by simp [port_range_j, h, hlen], ?_, hD⟩
      intro a ha
      rcases List.mem_cons.1 ha with rfl | ha
      · exact h
      · exact hM a ha
    · refine ⟨[], r :: rs, by simp, by simp [port_range_j, h], by simp, ?_⟩
      intro b C hb
      cases hb
      omega

theorem getD_cons_append_length (b : portrange) (M D : List portrange) (d : portrange) :
    (b :: (M ++ D)).getD M.length d = (b :: M).getLast (List.cons_ne_nil b M) := by
  induction M generalizing b with
  | nil => simp
  | cons m M ih =>
    have := ih m
    simpa using this


/-- The outcomes of `port_range` on arguments that pass its first test: the
new range is appended or inserted (when there is room), or it is merged with
the block `b :: M` of stored ranges it overlaps or touches. -/
theorem port_range_list_shape (rs : List portrange) (f t : Nat) (hf : 0 < f) (hft : f ≤ t) :
    ∃ A B, rs = A ++ B ∧ (∀ a ∈ A, a.to_ + 1 < f) ∧
      ((B = [] ∧ port_range_list rs f t =
          if rs.length < 32 then (true, A ++ [⟨f, t⟩]) else (false, rs)) ∨
       (∃ b D, B = b :: D ∧ f ≤ b.to_ + 1 ∧ t + 1 < b.from_ ∧
          (∀ d E, D = d :: E → t + 1 < d.from_) ∧
          port_range_list rs f t =
            if rs.length < 32 then (true, A ++ ⟨f, t⟩ :: b :: D) else (false, rs)) ∨
       (∃ b M D, B = b :: (M ++ D) ∧ f ≤ b.to_ + 1 ∧ (M = [] → b.from_ ≤ t + 1) ∧
          (∀ m ∈ M, m.from_ ≤ t + 1) ∧ (∀ d E, D = d :: E → t + 1 < d.from_) ∧
          port_range_list rs f t =
            (true, A ++ ⟨if f < b.from_ then f else b.from_,
                         if t > ((b :: M).getLast (List.cons_ne_nil b M)).to_ then t
                         else ((b :: M).getLast (List.cons_ne_nil b M)).to_⟩ :: D))) := by
  obtain ⟨A, B, hAB, hi, hA, hB⟩ := port_range_i_split f rs
  refine ⟨A, B, hAB, hA, ?_⟩
  cases B with
  | nil =>
    left
    refine ⟨rfl, ?_⟩
    have hlen : port_range_i f rs = rs.length := by rw [← hi, hAB]; simp
    have hAr : A = rs := by simpa using hAB.symm
    simp [port_range_list, hf, hft, hlen, max_port_ranges, hAr]
  | cons b C =>
    right
    have hb : f ≤ b.to_ + 1 := hB b C rfl
    obtain ⟨M, D, hMD, hj, hM, hD⟩ := port_range_j_split t C
    subst hMD
    subst hAB
    have hne : ¬ (A.length = (A ++ b :: (M ++ D)).length) := by simp
    have hdrop : (A ++ b :: (M ++ D)).drop (A.length + 1) = M ++ D := by
      rw [List.drop_append_eq_append_drop]; simp
    have hgi : ∀ d, (A ++ b :: (M ++ D)).getD A.length d = b := by
      intro d
      rw [List.getD_append_right _ _ _ _ (le_refl _)]; simp
    have hgj : ∀ d, (A ++ b :: (M ++ D)).getD (A.length + M.length) d =
        (b :: M).getLast (List.cons_ne_nil b M) := by
      intro d
      rw [List.getD_append_right _ _ _ _ (Nat.le_add_right _ _)]
      simpa using getD_cons_append_length b M D d
    cases M with
    | nil =>
      by_cases hins : t + 1 < b.from_
      · left
        refine ⟨b, D, by simp, hb, hins, hD, ?_⟩
        simp only [port_range_list, ← hi, hne, hdrop, ← hj, hgi]
        simp [hf, hft, hins, max_port_ranges]
      · right
        refine ⟨b, [], D, by simp, hb, fun _ => by omega, by simp, hD, ?_⟩
        simp only [port_range_list, ← hi, hne, hdrop, ← hj, hgi]
        simp [hf, hft, hins, List.set_append_right]
    | cons m M =>
      right
      refine ⟨b, m :: M, D, rfl, hb, by simp, hM, hD, ?_⟩
      simp only [port_range_list, ← hi, hne, hdrop, ← hj, hgi, hgj]
      have hd2 : (A ++ b :: (m :: M ++ D)).drop (A.length + (m :: M).length + 1) = D := by
        have e : A.length + (m :: M).length + 1 = A.length + ((m :: M).length + 1) := by omega
        rw [e, List.drop_append]
        simp
      rw [hd2]
      simp [hf, hft]

/-! ## Coverage and the canonical form -/

theorem covers_nil (p : Nat) : ¬ covers [] p := by
  simp [covers]

theorem covers_cons (r : portrange) (rs : List portrange) (p : Nat) :
    covers (r :: rs) p ↔ (r.from_ ≤ p ∧ p ≤ r.to_) ∨ covers rs p := by
  simp [covers]

theorem covers_append (xs ys : List portrange) (p : Nat) :
    covers (xs ++ ys) p ↔ covers xs p ∨ covers ys p := by
  simp only [covers, List.mem_append]
  constructor
  · rintro ⟨r, hr | hr, h⟩
    · exact Or.inl ⟨r, hr, h⟩
    · exact Or.inr ⟨r, hr, h⟩
  · rintro (⟨r, hr, h⟩ | ⟨r, hr, h⟩)
    · exact ⟨r, Or.inl hr, h⟩
    · exact ⟨r, Or.inr hr, h⟩

/-- In a canonical list the last range ends last. -/
theorem to_le_getLast (l : List portrange) (hne : l ≠ []) (hv : ∀ r ∈ l, r.valid)
    (hp : l.Pairwise apart) : ∀ r ∈ l, r.to_ ≤ (l.getLast hne).to_ := by
  intro r hr
  have hlast : l.getLast hne ∈ l := List.getLast_mem hne
  obtain ⟨i, hi, rfl⟩ := List.getElem_of_mem hr
  rw [List.getLast_eq_getElem]
  by_cases hlt : i < l.length - 1
  · have h := (List.pairwise_iff_getElem.1 hp) i (l.length - 1) hi (by omega) hlt
    have hvl := hv (l[l.length - 1]) (List.getElem_mem _)
    unfold apart at h
    unfold portrange.valid at hvl
    omega
  · have e : i = l.length - 1 := by omega
    subst e
    exact le_refl _

/-- In a canonical list the head range starts first and everything lies after
whatever lies before the head. -/
theorem lt_from_of_head (D : List portrange) (hv : ∀ r ∈ D, r.valid) (hp : D.Pairwise apart)
    (t : Nat) (h : ∀ d E, D = d :: E → t + 1 < d.from_) : ∀ d ∈ D, t + 1 < d.from_ := by
  cases D with
  | nil => simp
  | cons d0 E =>
    intro d hd
    have h0 := h d0 E rfl
    rcases List.mem_cons.1 hd with rfl | hd
    · exact h0
    · have ha := (List.pairwise_cons.1 hp).1 d hd
      have hv0 := hv d0 (List.mem_cons_self _ _)
      unfold apart at ha
      unfold portrange.valid at hv0
      omega

/-- The merged range covers exactly the new range and the block it absorbs. -/
theorem merge_covers (b : portrange) (M : List portrange) (f t : Nat)
    (hv : ∀ r ∈ b :: M, r.valid) (hp : (b :: M).Pairwise apart)
    (hb : f ≤ b.to_ + 1) (hM0 : M = [] → b.from_ ≤ t + 1) (hM : ∀ m ∈ M, m.from_ ≤ t + 1)
    (p : Nat) :
    ((if f < b.from_ then f else b.from_) ≤ p ∧
      p ≤ (if t > ((b :: M).getLast (List.cons_ne_nil b M)).to_ then t
           else ((b :: M).getLast (List.cons_ne_nil b M)).to_)) ↔
    ((b.from_ ≤ p ∧ p ≤ b.to_) ∨ covers M p ∨ (f ≤ p ∧ p ≤ t)) := by
  have hlast_mem : (b :: M).getLast (List.cons_ne_nil b M) ∈ b :: M := List.getLast_mem _
  have hto := to_le_getLast (b :: M) (List.cons_ne_nil b M) hv hp
  generalize (b :: M).getLast (List.cons_ne_nil b M) = last at hlast_mem hto ⊢
  have hfromb : ∀ r ∈ M, b.from_ ≤ r.from_ := by
    intro r hr
    have ha := (List.pairwise_cons.1 hp).1 r hr
    have hvb := hv b (List.mem_cons_self _ _)
    unfold apart at ha
    unfold portrange.valid at hvb
    omega
  have hlast_from : last.from_ ≤ t + 1 := by
    rcases List.mem_cons.1 hlast_mem with rfl | hm
    · cases M with
      | nil => exact hM0 rfl
      | cons m M' =>
        have := hM m (List.mem_cons_self _ _)
        have := hfromb m (List.mem_cons_self _ _)
        omega
    · exact hM last hm
  have hbl := hto b (List.mem_cons_self _ _)
  constructor
  · rintro ⟨h1, h2⟩
    by_cases hin : f ≤ p ∧ p ≤ t
    · exact Or.inr (Or.inr hin)
    · by_cases hpf : p < f
      · left
        split_ifs at h1 <;> omega
      · have hpt : t < p := by omega
        have hpl : p ≤ last.to_ := by split_ifs at h2 <;> omega
        rcases List.mem_cons.1 hlast_mem with rfl | hm
        · left; omega
        · right; left; exact ⟨last, hm, by omega, hpl⟩
  · rintro (⟨h1, h2⟩ | ⟨m, hm, h1, h2⟩ | ⟨h1, h2⟩)
    · constructor
      · split_ifs <;> omega
      · split_ifs <;> omega
    · have := hfromb m hm
      have := hto m (List.mem_cons_of_mem _ hm)
      constructor
      · split_ifs <;> omega
      · split_ifs <;> omega
    · constructor
      · split_ifs <;> omega
      · split_ifs <;> omega

/-- The method `port_range` keeps the list canonical. -/
theorem canonical_port_range_list (rs : List portrange) (f t : Nat) (ht : t ≤ 65535)
    (hc : canonical rs) : canonical (port_range_list rs f t).2 := by
  by_cases hpre : f > 0 ∧ f ≤ t
  swap
  · simpa [port_range_list, hpre] using hc
  obtain ⟨hf, hft⟩ := hpre
  obtain ⟨A, B, hAB, hA, hcase⟩ := port_range_list_shape rs f t hf hft
  have hnew : portrange.valid ⟨f, t⟩ := ⟨hf, hft, ht⟩
  obtain ⟨hv, hp⟩ := hc
  subst hAB
  rw [List.pairwise_append] at hp
  obtain ⟨hpA, hpB, hAB⟩ := hp
  rcases hcase with ⟨hB, heq⟩ | ⟨b, D, hB, hb, hins, hD, heq⟩ | ⟨b, M, D, hB, hb, hM0, hM, hD, heq⟩
  · subst hB
    rw [heq]
    split_ifs
    · refine ⟨?_, ?_⟩
      · intro r hr
        rcases List.mem_append.1 hr with h | h
        · exact hv r (by simp [h])
        · rw [List.mem_singleton] at h; subst h; exact hnew
      · rw [List.pairwise_append]
        refine ⟨hpA, List.pairwise_singleton _ _, ?_⟩
        intro a ha x hx
        rw [List.mem_singleton] at hx; subst hx
        exact hA a ha
    · exact ⟨hv, by rw [List.pairwise_append]; exact ⟨hpA, hpB, hAB⟩⟩
  · subst hB
    rw [heq]
    split_ifs
    · have hall : ∀ d ∈ b :: D, t + 1 < d.from_ :=
        lt_from_of_head (b :: D) (fun r hr => hv r (by simp [hr])) hpB t
          (fun d E h => by cases h; exact hins)
      refine ⟨?_, ?_⟩
      · intro r hr
        rcases List.mem_append.1 hr with h | h
        · exact hv r (by simp [h])
        · rcases List.mem_cons.1 h with h | h
          · subst h; exact hnew
          · exact hv r (List.mem_append_right _ h)
      · rw [List.pairwise_append]
        refine ⟨hpA, List.pairwise_cons.2 ⟨fun d hd => hall d hd, hpB⟩, ?_⟩
        intro a ha x hx
        rcases List.mem_cons.1 hx with h | h
        · subst h; exact hA a ha
        · exact hAB a ha x h
    · exact ⟨hv, by rw [List.pairwise_append]; exact ⟨hpA, hpB, hAB⟩⟩
  · subst hB
    rw [heq]
    have hvbM : ∀ r ∈ b :: M, r.valid := fun r hr =>
      hv r (List.mem_append_right _ (by
        rcases List.mem_cons.1 hr with h | h
        · simp [h]
        · simp [h]))
    have hpB2 := List.pairwise_cons.1 hpB
    have hpMD := List.pairwise_append.1 hpB2.2
    have hpbM : (b :: M).Pairwise apart :=
      List.pairwise_cons.2 ⟨fun m hm => hpB2.1 m (List.mem_append_left _ hm), hpMD.1⟩
    have hlast_mem : (b :: M).getLast (List.cons_ne_nil b M) ∈ b :: M := List.getLast_mem _
    have hvl := hvbM _ hlast_mem
    have hvb := hvbM b (List.mem_cons_self _ _)
    have hvD : ∀ d ∈ D, d.valid := fun d hd =>
      hv d (List.mem_append_right _ (List.mem_cons_of_mem _ (List.mem_append_right _ hd)))
    have hall : ∀ d ∈ D, t + 1 < d.from_ := lt_from_of_head D hvD hpMD.2.1 t hD
    have hlastD : ∀ d ∈ D, apart ((b :: M).getLast (List.cons_ne_nil b M)) d := by
      intro d hd
      rcases List.mem_cons.1 hlast_mem with h | h
      · rw [h]; exact hpB2.1 d (List.mem_append_right _ hd)
      · exact hpMD.2.2 _ h d hd
    generalize (b :: M).getLast (List.cons_ne_nil b M) = last at hvl hlastD ⊢
    unfold portrange.valid at hvl hvb
    refine ⟨?_, ?_⟩
    · intro r hr
      rcases List.mem_append.1 hr with h | h
      · exact hv r (by simp [h])
      · rcases List.mem_cons.1 h with h | h
        · subst h
          refine ⟨?_, ?_, ?_⟩ <;> dsimp only <;> split_ifs <;> omega
        · exact hvD r h
    · rw [List.pairwise_append]
      refine ⟨hpA, List.pairwise_cons.2 ⟨?_, hpMD.2.1⟩, ?_⟩
      · intro d hd
        have h1 := hall d hd
        have h2 := hlastD d hd
        unfold apart at h2 ⊢
        dsimp only
        split_ifs <;> omega
      · intro a ha x hx
        rcases List.mem_cons.1 hx with h | h
        · subst h
          have h1 := hA a ha
          have h2 := hAB a ha b (List.mem_cons_self _ _)
          unfold apart at h2 ⊢
          dsimp only
          split_ifs <;> omega
        · exact hAB a ha x (List.mem_cons_of_mem _ (List.mem_append_right _ h))

/-- The method `port_range` never stores more than `max_port_ranges` ranges. -/
theorem length_port_range_list (rs : List portrange) (f t : Nat) (hn : rs.length ≤ 32) :
    (port_range_list rs f t).2.length ≤ 32 := by
  by_cases hpre : f > 0 ∧ f ≤ t
  swap
  · simpa [port_range_list, hpre] using hn
  obtain ⟨hf, hft⟩ := hpre
  obtain ⟨A, B, hAB, hA, hcase⟩ := port_range_list_shape rs f t hf hft
  rcases hcase with ⟨hB, heq⟩ | ⟨b, D, hB, hb, hins, hD, heq⟩ | ⟨b, M, D, hB, hb, hM0, hM, hD, heq⟩
  · rw [heq]
    subst hB
    split_ifs with h
    · subst hAB; simp at h ⊢; omega
    · exact hn
  · rw [heq]
    subst hB
    split_ifs with h
    · subst hAB; simp at h ⊢; omega
    · exact hn
  · rw [heq]
    subst hB
    subst hAB
    simp at hn ⊢
    omega

theorem or_regroup (a b m x d : Prop) :
    (a ∨ (b ∨ m ∨ x) ∨ d) ↔ ((a ∨ b ∨ m ∨ d) ∨ x) := by
  tauto

/-- When `port_range` returns true on a canonical list, the covered set grows
by exactly the ports of the new range. -/
theorem covers_port_range_list (rs : List portrange) (f t : Nat) (hc : canonical rs)
    (hok : (port_range_list rs f t).1 = true) (p : Nat) :
    covers (port_range_list rs f t).2 p ↔ (covers rs p ∨ (f ≤ p ∧ p ≤ t)) := by
  by_cases hpre : f > 0 ∧ f ≤ t
  swap
  · simp [port_range_list, hpre] at hok
  obtain ⟨hf, hft⟩ := hpre
  obtain ⟨A, B, hAB, hA, hcase⟩ := port_range_list_shape rs f t hf hft
  obtain ⟨hv, hp⟩ := hc
  subst hAB
  rw [List.pairwise_append] at hp
  obtain ⟨hpA, hpB, hAB⟩ := hp
  rcases hcase with ⟨hB, heq⟩ | ⟨b, D, hB, hb, hins, hD, heq⟩ | ⟨b, M, D, hB, hb, hM0, hM, hD, heq⟩
  · subst hB
    rw [heq] at hok ⊢
    split_ifs at hok ⊢
    simp only [covers_append, covers_cons, covers_nil, or_false]
  · subst hB
    rw [heq] at hok ⊢
    split_ifs at hok ⊢
    simp only [covers_append, covers_cons]
    tauto
  · subst hB
    rw [heq]
    have hvbM : ∀ r ∈ b :: M, r.valid := fun r hr =>
      hv r (List.mem_append_right _ (by
        rcases List.mem_cons.1 hr with h | h
        · simp [h]
        · simp [h]))
    have hpB2 := List.pairwise_cons.1 hpB
    have hpMD := List.pairwise_append.1 hpB2.2
    have hpbM : (b :: M).Pairwise apart :=
      List.pairwise_cons.2 ⟨fun m hm => hpB2.1 m (List.mem_append_left _ hm), hpMD.1⟩
    have key := merge_covers b M f t hvbM hpbM hb hM0 hM p
    simp only [covers_append, covers_cons]
    rw [key]
    exact or_regroup _ _ _ _ _

/-- Everything a canonical list covers lies at or after the start of its head. -/
theorem head_from_le_of_covers (a : portrange) (A : List portrange)
    (hc : canonical (a :: A)) (p : Nat) (h : covers (a :: A) p) : a.from_ ≤ p := by
  obtain ⟨hv, hp⟩ := hc
  rcases (covers_cons a A p).1 h with h | ⟨r, hr, h1, _⟩
  · exact h.1
  · have ha := (List.pairwise_cons.1 hp).1 r hr
    have hva := hv a (List.mem_cons_self _ _)
    unfold apart at ha
    unfold portrange.valid at hva
    omega

/-- The tail of a canonical list covers exactly what the list covers beyond the
end of its head. -/
theorem covers_tail_iff (a : portrange) (A : List portrange)
    (hc : canonical (a :: A)) (p : Nat) : covers A p ↔ (covers (a :: A) p ∧ a.to_ < p) := by
  obtain ⟨hv, hp⟩ := hc
  constructor
  · rintro ⟨r, hr, h1, h2⟩
    have ha := (List.pairwise_cons.1 hp).1 r hr
    unfold apart at ha
    exact ⟨⟨r, List.mem_cons_of_mem _ hr, h1, h2⟩, by omega⟩
  · rintro ⟨h, hlt⟩
    rcases (covers_cons a A p).1 h with h | h
    · omega
    · exact h

theorem canonical_tail (a : portrange) (A : List portrange) (hc : canonical (a :: A)) :
    canonical A :=
  ⟨fun r hr => hc.1 r (List.mem_cons_of_mem _ hr), (List.pairwise_cons.1 hc.2).2⟩

/-- The port after the end of the head of a canonical list is not covered. -/
theorem not_covers_succ_head_to (a : portrange) (A : List portrange)
    (hc : canonical (a :: A)) : ¬ covers (a :: A) (a.to_ + 1) := by
  intro h
  rcases (covers_cons a A _).1 h with h | ⟨r, hr, h1, _⟩
  · omega
  · have ha := (List.pairwise_cons.1 hc.2).1 r hr
    unfold apart at ha
    omega

/-- The end of the head is determined by the covered set. -/
theorem head_to_le (a b : portrange) (A B : List portrange)
    (ha : canonical (a :: A))
    (h : ∀ p, covers (a :: A) p ↔ covers (b :: B) p) (hfrom : a.from_ = b.from_) :
    b.to_ ≤ a.to_ := by
  by_contra hlt
  have hva := ha.1 a (List.mem_cons_self _ _)
  unfold portrange.valid at hva
  have hcov : covers (b :: B) (a.to_ + 1) :=
    (covers_cons b B _).2 (Or.inl ⟨by omega, by omega⟩)
  exact not_covers_succ_head_to a A ha ((h _).2 hcov)

/-- A canonical list is determined by the set of ports it covers. -/
theorem canonical_unique (xs : List portrange) :
    ∀ ys, canonical xs → canonical ys → (∀ p, covers xs p ↔ covers ys p) → xs = ys := by
  induction xs with
  | nil =>
    intro ys _ hy h
    cases ys with
    | nil => rfl
    | cons b B =>
      exfalso
      have hvb := hy.1 b (List.mem_cons_self _ _)
      unfold portrange.valid at hvb
      exact covers_nil _ ((h b.from_).2 ((covers_cons b B _).2 (Or.inl ⟨le_refl _, hvb.2.1⟩)))
  | cons a A ih =>
    intro ys hx hy h
    cases ys with
    | nil =>
      exfalso
      have hva := hx.1 a (List.mem_cons_self _ _)
      unfold portrange.valid at hva
      exact covers_nil _ ((h a.from_).1 ((covers_cons a A _).2 (Or.inl ⟨le_refl _, hva.2.1⟩)))
    | cons b B =>
      have hva := hx.1 a (List.mem_cons_self _ _)
      have hvb := hy.1 b (List.mem_cons_self _ _)
      unfold portrange.valid at hva hvb
      have h1 : b.from_ ≤ a.from_ :=
        head_from_le_of_covers b B hy _
          ((h a.from_).1 ((covers_cons a A _).2 (Or.inl ⟨le_refl _, hva.2.1⟩)))
      have h2 : a.from_ ≤ b.from_ :=
        head_from_le_of_covers a A hx _
          ((h b.from_).2 ((covers_cons b B _).2 (Or.inl ⟨le_refl _, hvb.2.1⟩)))
      have hfrom : a.from_ = b.from_ := by omega
      have h3 := head_to_le a b A B hx h hfrom
      have h4 := head_to_le b a B A hy (fun p => (h p).symm) hfrom.symm
      have hab : a = b := by
        cases a; cases b
        simp only [portrange.mk.injEq]
        simp only at hfrom h3 h4
        omega
      subst hab
      have htl : A = B := by
        apply ih B (canonical_tail a A hx) (canonical_tail a B hy)
        intro p
        rw [covers_tail_iff a A hx, covers_tail_iff a B hy, h p]
      rw [htl]

theorem canonical_nil : canonical [] :=
  ⟨by simp, List.Pairwise.nil⟩

/-- The invariant along any sequence of calls. -/
theorem canonical_port_range_calls (cs : List (Nat × Nat)) :
    ∀ s : socket_filter, (∀ c ∈ cs, c.1 ≤ 65535 ∧ c.2 ≤ 65535) →
      canonical s._M_portranges → s._M_portranges.length ≤ 32 →
      canonical (port_range_calls s cs)._M_portranges ∧
        (port_range_calls s cs)._M_portranges.length ≤ 32 := by
  induction cs with
  | nil => intro s _ hc hn; exact ⟨hc, hn⟩
  | cons c cs ih =>
    intro s hcs hc hn
    simp only [port_range_calls]
    apply ih
    · exact fun c' hc' => hcs c' (List.mem_cons_of_mem _ hc')
    · exact canonical_port_range_list _ _ _ (hcs c (List.mem_cons_self _ _)).2 hc
    · exact length_port_range_list _ _ _ hn

/-- The covered set after a sequence of calls that all returned true. -/
theorem covers_port_range_calls (cs : List (Nat × Nat)) :
    ∀ s : socket_filter, (∀ c ∈ cs, c.1 ≤ 65535 ∧ c.2 ≤ 65535) →
      canonical s._M_portranges → port_range_calls_ok s cs = true →
      ∀ p, covers (port_range_calls s cs)._M_portranges p ↔
        (covers s._M_portranges p ∨ ∃ c ∈ cs, c.1 ≤ p ∧ p ≤ c.2) := by
  induction cs with
  | nil => intro s _ _ _ p; simp [port_range_calls]
  | cons c cs ih =>
    intro s hcs hc hok p
    simp only [port_range_calls_ok, Bool.and_eq_true] at hok
    simp only [port_range_calls]
    rw [ih _ (fun c' hc' => hcs c' (List.mem_cons_of_mem _ hc'))
      (canonical_port_range_list _ _ _ (hcs c (List.mem_cons_self _ _)).2 hc) hok.2 p]
    have := covers_port_range_list s._M_portranges c.1 c.2 hc hok.1 p
    simp only [port_range] at this ⊢
    rw [this]
    simp only [List.mem_cons, exists_eq_or_imp]
    tauto

/-- On a canonical list of at most 32 ranges, `port_range` fails exactly on an
argument that fails its first test or finds the list full with no stored range
to merge into; a failed call leaves the list as it was. -/
theorem port_range_list_false_iff (rs : List portrange) (f t : Nat) (hc : canonical rs)
    (hn : rs.length ≤ 32) :
    ((port_range_list rs f t).1 = false ↔
      (f = 0 ∨ f > t ∨
        (rs.length = 32 ∧ ∀ r ∈ rs, r.to_ + 1 < f ∨ t + 1 < r.from_))) ∧
    ((port_range_list rs f t).1 = false → (port_range_list rs f t).2 = rs) := by
  by_cases hpre : f > 0 ∧ f ≤ t
  swap
  · have : f = 0 ∨ f > t := by omega
    simp only [port_range_list, hpre, if_false, true_iff, implies_true, and_true]
    tauto
  obtain ⟨hf, hft⟩ := hpre
  obtain ⟨A, B, hAB, hA, hcase⟩ := port_range_list_shape rs f t hf hft
  obtain ⟨hv, hp⟩ := hc
  subst hAB
  rw [List.pairwise_append] at hp
  obtain ⟨hpA, hpB, hAB⟩ := hp
  have hf0 : ¬ f = 0 := by omega
  have hft' : ¬ f > t := by omega
  rcases hcase with ⟨hB, heq⟩ | ⟨b, D, hB, hb, hins, hD, heq⟩ | ⟨b, M, D, hB, hb, hM0, hM, hD, heq⟩
  · subst hB
    rw [heq]
    simp only [List.append_nil] at hn ⊢
    split_ifs with h
    · simp only [Bool.true_eq_false, false_iff, false_implies, and_true]
      rintro (h' | h' | h')
      · omega
      · omega
      · omega
    · simp only [true_iff, implies_true, and_true]
      right; right
      exact ⟨by omega, fun r hr => Or.inl (hA r hr)⟩
  · subst hB
    rw [heq]
    have hall : ∀ d ∈ b :: D, t + 1 < d.from_ :=
      lt_from_of_head (b :: D) (fun r hr => hv r (by simp [hr])) hpB t
        (fun d E h => by cases h; exact hins)
    split_ifs with h
    · simp only [Bool.true_eq_false, false_iff, false_implies, and_true]
      rintro (h' | h' | h')
      · omega
      · omega
      · omega
    · simp only [true_iff, implies_true, and_true]
      right; right
      refine ⟨by omega, fun r hr => ?_⟩
      rcases List.mem_append.1 hr with h' | h'
      · exact Or.inl (hA r h')
      · exact Or.inr (hall r h')
  · subst hB
    rw [heq]
    simp only [Bool.true_eq_false, false_iff, false_implies, and_true]
    have hvb := hv b (by simp)
    unfold portrange.valid at hvb
    have hbt : b.from_ ≤ t + 1 := by
      cases M with
      | nil => exact hM0 rfl
      | cons m M' =>
        have h1 := hM m (List.mem_cons_self _ _)
        have h2 := (List.pairwise_cons.1 hpB).1 m (by simp)
        unfold apart at h2
        omega
    rintro (h' | h' | ⟨_, h'⟩)
    · omega
    · omega
    · have := h' b (by simp)
      omega

/-! ## The BPF machine: straight-line form -/

theorem bpf_exec_skip (pkt : List Nat) (skip A : Nat) (l : List sock_filter) :
    bpf_exec pkt skip A l = bpf_exec pkt 0 A (l.drop skip) := by
  induction skip generalizing l with
  | zero => simp
  | succ n ih =>
    cases l with
    | nil => simp [bpf_exec]
    | cons f rest => simp only [bpf_exec, List.drop_succ_cons]; exact ih rest

theorem bpf_exec_skip_append (pkt : List Nat) (skip A : Nat) (X Y : List sock_filter)
    (h : X.length ≤ skip) :
    bpf_exec pkt skip A (X ++ Y) = bpf_exec pkt (skip - X.length) A Y := by
  rw [bpf_exec_skip, bpf_exec_skip pkt (skip - X.length)]
  congr 1
  rw [List.drop_append_eq_append_drop, List.drop_eq_nil_of_le h]
  simp

/-- The program counter machine with enough budget is the straight-line form
on the instructions from the program counter on. -/
theorem sk_run_filter_eq_exec (prog : List sock_filter) (pkt : List Nat) :
    ∀ fuel pc A, 0 < fuel → prog.length + 1 ≤ pc + fuel →
      sk_run_filter prog pkt fuel pc A = bpf_exec pkt 0 A (prog.drop pc) := by
  intro fuel
  induction fuel with
  | zero => intro pc A h; omega
  | succ n ih =>
    intro pc A _ hlen
    unfold sk_run_filter
    by_cases hpc : pc < prog.length
    · have hd : prog.drop pc = prog[pc] :: prog.drop (pc + 1) := List.drop_eq_getElem_cons hpc
      rw [List.getElem?_eq_getElem hpc, hd]
      simp only [bpf_exec]
      cases hins : bpf_insn prog[pc] pkt A with
      | none => rfl
      | some r =>
        cases r with
        | inr v => rfl
        | inl q =>
          obtain ⟨A', skip⟩ := q
          simp only
          rw [ih (pc + 1 + skip) A' (by omega) (by omega), bpf_exec_skip pkt skip,
            List.drop_drop]
    · have hnone : prog[pc]? = none := List.getElem?_eq_none (by omega)
      have hd : prog.drop pc = [] := List.drop_eq_nil_of_le (by omega)
      rw [hnone, hd]
      simp [bpf_exec]

theorem run_filter_eq_exec (prog : List sock_filter) (pkt : List Nat) :
    run_filter prog pkt = bpf_exec pkt 0 0 prog := by
  unfold run_filter
  rw [sk_run_filter_eq_exec prog pkt _ 0 0 (by omega) (by omega)]
  simp

/-! ## Closed form of the port loop -/

theorem ports_code_length_le (rs : List portrange) : (ports_code rs).length ≤ 2 * rs.length := by
  induction rs with
  | nil => simp [ports_code]
  | cons r rs ih =>
    simp only [ports_code]
    split_ifs <;> simp <;> omega

theorem ports_patched_length (rs : List portrange) :
    ∀ base n, (ports_patched rs base n).length = (ports_code rs).length := by
  induction rs with
  | nil => intro base n; simp [ports_code, ports_patched]
  | cons r rs ih =>
    intro base n
    simp only [ports_code, ports_patched]
    split_ifs <;> simp [ih]

theorem compile_ports_eq (rs : List portrange) :
    ∀ c : compile_state, c.filters.length + 2 * rs.length ≤ 255 →
      compile_ports rs c =
        (true, { c with filters := c.filters ++ ports_code rs,
                        accepts := c.accepts ++ ports_accepts rs c.filters.length }) := by
  induction rs with
  | nil => intro c _; simp [compile_ports, ports_code, ports_accepts]
  | cons r rs ih =>
    intro c hlen
    simp only [List.length_cons] at hlen
    have h1 : c.filters.length < 255 := by omega
    have h2 : c.filters.length + 1 < 255 := by omega
    by_cases hr : r.from_ = r.to_
    · simp only [compile_ports, hr, if_true, jump, max_filters, h1, ports_code, ports_accepts]
      rw [ih _ (by simp; omega)]
      simp
    · simp only [compile_ports, hr, if_false, jump, max_filters, h1, ports_code, ports_accepts,
        if_true, List.length_append, List.length_singleton, h2]
      rw [ih _ (by simp; omega)]
      simp [Nat.add_assoc]

theorem set_jump_append_cons (pre post : List sock_filter) (x : sock_filter) (jt : Bool)
    (v : Nat) :
    set_jump (pre ++ x :: post) pre.length jt v =
      pre ++ (if jt then { x with jt := v % 256 } else { x with jf := v % 256 }) :: post := by
  have h : (pre ++ x :: post)[pre.length]? = some x := by
    rw [List.getElem?_append_right (Nat.le_refl _)]
    simp
  simp only [set_jump, h]
  simp

theorem patch_ports (rs : List portrange) :
    ∀ (pre post : List sock_filter) (n : Nat),
      patch (pre ++ ports_code rs ++ post) (ports_accepts rs pre.length) n =
        pre ++ ports_patched rs pre.length n ++ post := by
  induction rs with
  | nil => intro pre post n; simp [patch, ports_code, ports_accepts, ports_patched]
  | cons r rs ih =>
    intro pre post n
    by_cases hr : r.from_ = r.to_
    · simp only [ports_code, ports_accepts, ports_patched, hr, if_true, patch, List.foldl_cons,
        List.cons_append, List.append_assoc]
      rw [set_jump_append_cons]
      have := ih (pre ++ [sock_filter.mk (BPF_JMP + BPF_JEQ + BPF_K) ((n - pre.length - 1) % 256)
        0 r.to_]) post n
      simp only [patch, List.length_append, List.length_singleton, List.append_assoc,
        List.singleton_append] at this
      simpa using this
    · simp only [ports_code, ports_accepts, ports_patched, hr, if_false, patch, List.foldl_cons,
        List.cons_append, List.append_assoc]
      have e : pre ++ { code := BPF_JMP + BPF_JGE + BPF_K, jt := 0, jf := 1, k := r.from_ } ::
            { code := BPF_JMP + BPF_JGT + BPF_K, jt := 0, jf := 0, k := r.to_ } ::
              (ports_code rs ++ post) =
          (pre ++ [{ code := BPF_JMP + BPF_JGE + BPF_K, jt := 0, jf := 1, k := r.from_ }]) ++
            { code := BPF_JMP + BPF_JGT + BPF_K, jt := 0, jf := 0, k := r.to_ } ::
              (ports_code rs ++ post) := by simp
      have el : pre.length + 1 =
          (pre ++ [sock_filter.mk (BPF_JMP + BPF_JGE + BPF_K) 0 1 r.from_]).length := by simp
      rw [e, el, set_jump_append_cons]
      have := ih (pre ++ [sock_filter.mk (BPF_JMP + BPF_JGE + BPF_K) 0 1 r.from_,
        sock_filter.mk (BPF_JMP + BPF_JGT + BPF_K) 0 ((n - (pre.length + 1) - 1) % 256)
          r.to_]) post n
      simp only [patch, List.length_append, List.length_cons, List.length_singleton,
        List.length_nil, List.append_assoc, List.cons_append, List.nil_append] at this
      simpa using this

/-! ## Closed form of `compile` -/

theorem stmt_of_lt (fs : List sock_filter) (code k : Nat) (h : fs.length < 255) :
    stmt fs code k = (true, fs ++ [{ code := code, jt := 0, jf := 0, k := k }]) := by
  simp [stmt, max_filters, h]

theorem jump_of_lt (fs : List sock_filter) (code k jt jf : Nat) (h : fs.length < 255) :
    jump fs code k jt jf = (true, fs ++ [{ code := code, jt := jt, jf := jf, k := k }]) := by
  simp [jump, max_filters, h]

theorem set_jump_length (fs : List sock_filter) (idx : Nat) (jt : Bool) (v : Nat) :
    (set_jump fs idx jt v).length = fs.length := by
  unfold set_jump
  split <;> simp

theorem patch_length (js : List jmp) : ∀ (fs : List sock_filter) (n : Nat),
    (patch fs js n).length = fs.length := by
  induction js with
  | nil => intro fs n; rfl
  | cons j js ih =>
    intro fs n
    have := ih (set_jump fs j.idx j.jt (n - j.idx - 1)) n
    simp only [patch, List.foldl_cons] at this ⊢
    rw [this, set_jump_length]

theorem patch_append (fs : List sock_filter) (js1 js2 : List jmp) (n : Nat) :
    patch fs (js1 ++ js2) n = patch (patch fs js1 n) js2 n := by
  simp [patch, List.foldl_append]

theorem set_jump_append_left (A B : List sock_filter) (idx : Nat) (jt : Bool) (v : Nat)
    (h : idx < A.length) : set_jump (A ++ B) idx jt v = set_jump A idx jt v ++ B := by
  unfold set_jump
  rw [List.getElem?_append_left h, List.getElem?_eq_getElem h]
  simp only
  rw [List.set_append_left _ _ h]

theorem set_jump_append_right (A B : List sock_filter) (idx : Nat) (jt : Bool) (v : Nat) :
    set_jump (A ++ B) (A.length + idx) jt v = A ++ set_jump B idx jt v := by
  unfold set_jump
  rw [List.getElem?_append_right (Nat.le_add_right _ _)]
  simp only [Nat.add_sub_cancel_left]
  cases h : B[idx]? with
  | none => rfl
  | some f =>
    simp only
    rw [List.set_append_right _ _ (Nat.le_add_right _ _)]
    simp

theorem patch_append_left (js : List jmp) : ∀ (A B : List sock_filter) (n : Nat),
    (∀ j ∈ js, j.idx < A.length) → patch (A ++ B) js n = patch A js n ++ B := by
  induction js with
  | nil => intro A B n _; rfl
  | cons j js ih =>
    intro A B n h
    have h1 := h j (List.mem_cons_self _ _)
    have := ih (set_jump A j.idx j.jt (n - j.idx - 1)) B n
      (fun j' hj' => by rw [set_jump_length]; exact h j' (List.mem_cons_of_mem _ hj'))
    simp only [patch, List.foldl_cons] at this ⊢
    rw [set_jump_append_left _ _ _ _ _ h1, this]

theorem patch_append_right (js : List jmp) : ∀ (A B : List sock_filter) (n : Nat),
    patch (A ++ B) (js.map (fun j => ⟨A.length + j.idx, j.jt⟩)) (A.length + n) =
      A ++ patch B js n := by
  induction js with
  | nil => intro A B n; rfl
  | cons j js ih =>
    intro A B n
    have := ih A (set_jump B j.idx j.jt (n - j.idx - 1)) n
    simp only [patch, List.foldl_cons, List.map_cons] at this ⊢
    rw [set_jump_append_right]
    have e : A.length + n - (A.length + j.idx) - 1 = n - j.idx - 1 := by omega
    rw [e, this]

theorem patch_append_right_of (js js' : List jmp) (A B : List sock_filter) (n n' : Nat)
    (hjs : js' = js.map (fun j => ⟨A.length + j.idx, j.jt⟩)) (hn : n' = A.length + n) :
    patch (A ++ B) js' n' = A ++ patch B js n := by
  subst hjs
  subst hn
  exact patch_append_right js A B n

theorem patch_ports_at (rs : List portrange) (pre post : List sock_filter) (n base : Nat)
    (hb : base = pre.length) :
    patch (pre ++ (ports_code rs ++ post)) (ports_accepts rs base) n =
      pre ++ (ports_patched rs base n ++ post) := by
  subst hb
  have := patch_ports rs pre post n
  simpa using this

theorem compile_finish_eq (c : compile_state) (h : c.filters.length + 2 ≤ 255) :
    compile_finish c =
      (true, patch (patch c.filters c.ignores c.filters.length ++ [insn_ignore]) c.accepts
        (c.filters.length + 1) ++ [insn_accept]) := by
  unfold compile_finish
  simp only
  rw [stmt_of_lt _ _ _ (by rw [patch_length]; omega)]
  simp only [if_true, List.length_append, patch_length, List.length_singleton]
  rw [stmt_of_lt _ _ _ (by simp [patch_length]; omega)]
  rfl

theorem compile_start_eq (v4 : Bool) :
    compile_start v4 =
      { filters := seg_start (if v4 then 42 else 62) 0, accepts := [], ignores := [⟨1, false⟩] } := by
  cases v4 <;> rfl

theorem compile_filters_irrel (v4 v6 : Bool) (rs : List portrange) (fs : List sock_filter) :
    compile ⟨v4, v6, rs, fs⟩ = compile ⟨v4, v6, rs, []⟩ := by
  simp only [compile]

/-- The block `if (_M_ipv4)` when there are ranges and room for them. -/
theorem compile_ipv4_eq (rs : List portrange) (c : compile_state) (next : Nat)
    (hne : rs ≠ []) (hlen : c.filters.length + 6 + 2 * rs.length ≤ 255) :
    compile_ipv4 true next rs c =
      (true, { filters :=
                 (if next ≠ 0 then set_jump c.filters next false (c.filters.length - next - 1)
                  else c.filters) ++ (seg_ipv4 0 0 0 ++ (seg_ldport 36 ++ ports_code rs)),
               accepts := c.accepts ++ ports_accepts rs (c.filters.length + 6),
               ignores := c.ignores ++ [⟨c.filters.length, false⟩, ⟨c.filters.length + 2, false⟩,
                 ⟨c.filters.length + 4, true⟩] }) := by
  have hpos : 0 < rs.length := List.length_pos.2 hne
  generalize hF : (if next ≠ 0 then set_jump c.filters next false (c.filters.length - next - 1)
    else c.filters) = F0
  have hF0 : F0.length = c.filters.length := by
    rw [← hF]; split_ifs
    · exact set_jump_length _ _ _ _
    · rfl
  simp only [compile_ipv4, if_true, hF, gt_iff_lt, hpos]
  simp (disch := (try simp only [List.length_append, List.length_singleton]); omega) only
    [stmt_of_lt, jump_of_lt]
  rw [compile_ports_eq _ _ (by simp; omega)]
  simp [seg_ipv4, seg_ldport, hF0, sizeof_ether_header, offsetof_iphdr_protocol,
    offsetof_iphdr_frag_off, sizeof_iphdr, offsetof_udphdr_dest, Nat.add_assoc]

theorem compile_ipv6_eq_only (rs : List portrange) (hne : rs ≠ []) (hn : rs.length ≤ 32) :
    compile_ipv6 false true rs (compile_start false) =
      (true, 3, { filters := seg_start 62 0 ++ (seg_ipv6 0 ++ (seg_ldport 56 ++
                    (ports_code rs ++ [insn_ignore]))),
                  accepts := ports_accepts rs 7,
                  ignores := [⟨1, false⟩, ⟨5, false⟩] }) := by
  have hpos : 0 < rs.length := List.length_pos.2 hne
  have hL := ports_code_length_le rs
  simp only [compile_start_eq, compile_ipv6, if_true, if_false, Bool.false_eq_true, gt_iff_lt,
    hpos, seg_start]
  simp (disch := (try simp only [List.length_append, List.length_singleton, List.length_cons,
    List.length_nil]); omega) only [stmt_of_lt, jump_of_lt]
  rw [compile_ports_eq _ _ (by simp; omega)]
  simp only [if_true]
  rw [stmt_of_lt _ _ _ (by simp; omega)]
  simp [seg_ipv6, seg_ldport, insn_ignore, sizeof_ether_header, offsetof_ip6_nxt,
    sizeof_ip6_hdr, offsetof_udphdr_dest]

theorem compile_ipv6_eq_both (rs : List portrange) (hne : rs ≠ []) (hn : rs.length ≤ 32) :
    compile_ipv6 true true rs (compile_start true) =
      (true, 3, { filters := seg_start 42 0 ++ (seg_ipv6_both 0 0 0 ++ (seg_ldport 56 ++
                    (ports_code rs ++ [insn_ignore]))),
                  accepts := ports_accepts rs 9,
                  ignores := [⟨1, false⟩, ⟨5, false⟩, ⟨7, false⟩] }) := by
  have hpos : 0 < rs.length := List.length_pos.2 hne
  have hL := ports_code_length_le rs
  simp only [compile_start_eq, compile_ipv6, if_true, gt_iff_lt, hpos, seg_start]
  simp (disch := (try simp only [List.length_append, List.length_singleton, List.length_cons,
    List.length_nil]); omega) only [stmt_of_lt, jump_of_lt]
  rw [compile_ports_eq _ _ (by simp; omega)]
  simp only [if_true]
  rw [stmt_of_lt _ _ _ (by simp; omega)]
  simp [seg_ipv6_both, seg_ldport, insn_ignore, sizeof_ether_header, offsetof_ip6_nxt,
    sizeof_ip6_hdr, offsetof_udphdr_dest, sizeof_udphdr]

/-- The program for IPv4 only and at least one range. -/
theorem compile_eq_ipv4 (rs : List portrange) (fs : List sock_filter) (hne : rs ≠ [])
    (hn : rs.length ≤ 32) :
    compile ⟨true, false, rs, fs⟩ =
      (true, ⟨true, false, rs, prog_ipv4 rs (ports_code rs).length⟩) := by
  have hL := ports_code_length_le rs
  have h6 : compile_ipv6 true false rs (compile_start true) = (true, 0, compile_start true) := by
    simp [compile_ipv6]
  have hs : (compile_start true).filters.length = 3 := by rw [compile_start_eq]; rfl
  simp only [compile, Bool.not_true, Bool.false_and, Bool.false_eq_true, if_false, h6, if_true]
  rw [compile_ipv4_eq rs _ 0 hne (by rw [hs]; omega)]
  simp only [if_true, ne_eq, not_true, if_false, hs]
  rw [compile_finish_eq _ (by simp [compile_start_eq, seg_start, seg_ipv4, seg_ldport]; omega)]
  simp only [compile_start_eq, if_true, Nat.reduceAdd]
  have hlen : (seg_start 42 0 ++ (seg_ipv4 0 0 0 ++ (seg_ldport 36 ++ ports_code rs))).length =
      (ports_code rs).length + 9 := by
    simp [seg_start, seg_ipv4, seg_ldport]
  have hp1 : patch (seg_start 42 0 ++ (seg_ipv4 0 0 0 ++ (seg_ldport 36 ++ ports_code rs)))
      ([⟨1, false⟩] ++ [⟨3, false⟩, ⟨5, false⟩, ⟨7, true⟩]) ((ports_code rs).length + 9) =
      (seg_start 42 ((ports_code rs).length + 7) ++ (seg_ipv4 ((ports_code rs).length + 5)
        ((ports_code rs).length + 3) ((ports_code rs).length + 1) ++ seg_ldport 36)) ++
          ports_code rs := by
    have e1 : ((ports_code rs).length + 9 - 1 - 1) % 256 = (ports_code rs).length + 7 := by omega
    have e3 : ((ports_code rs).length + 9 - 3 - 1) % 256 = (ports_code rs).length + 5 := by omega
    have e5 : ((ports_code rs).length + 9 - 5 - 1) % 256 = (ports_code rs).length + 3 := by omega
    have e7 : ((ports_code rs).length + 9 - 7 - 1) % 256 = (ports_code rs).length + 1 := by omega
    simp only [seg_start, seg_ipv4, seg_ldport, patch, List.foldl_cons, List.foldl_nil, set_jump,
      List.cons_append, List.nil_append, List.getElem?_cons_succ, List.getElem?_cons_zero,
      List.set_cons_succ, List.set_cons_zero, if_false, if_true, Bool.false_eq_true, e1, e3, e5,
      e7]
  rw [hlen, hp1, List.append_assoc, List.nil_append,
    patch_ports_at rs _ _ _ 9 (by simp [seg_start, seg_ipv4, seg_ldport])]
  simp [prog_ipv4, Nat.add_assoc]

/-- The program for IPv6 only and at least one range. -/
theorem compile_eq_ipv6 (rs : List portrange) (fs : List sock_filter) (hne : rs ≠ [])
    (hn : rs.length ≤ 32) :
    compile ⟨false, true, rs, fs⟩ =
      (true, ⟨false, true, rs, prog_ipv6 rs (ports_code rs).length⟩) := by
  have hL := ports_code_length_le rs
  simp only [compile, Bool.not_true, Bool.not_false, Bool.and_false, Bool.false_eq_true, if_false,
    compile_ipv6_eq_only rs hne hn, if_true]
  have h4 : ∀ c, compile_ipv4 false 3 rs c = (true, c) := by
    intro c; simp [compile_ipv4]
  rw [h4]
  simp only [if_true]
  have hlen : (seg_start 62 0 ++ (seg_ipv6 0 ++ (seg_ldport 56 ++
      (ports_code rs ++ [insn_ignore])))).length = (ports_code rs).length + 8 := by
    simp [seg_start, seg_ipv6, seg_ldport]
  rw [compile_finish_eq _ (by simp only [hlen]; omega)]
  simp only [hlen]
  have hp1 : patch (seg_start 62 0 ++ (seg_ipv6 0 ++ (seg_ldport 56 ++
        (ports_code rs ++ [insn_ignore])))) [⟨1, false⟩, ⟨5, false⟩] ((ports_code rs).length + 8) =
      (seg_start 62 ((ports_code rs).length + 6) ++ (seg_ipv6 ((ports_code rs).length + 2) ++
        seg_ldport 56)) ++ (ports_code rs ++ [insn_ignore]) := by
    have e1 : ((ports_code rs).length + 8 - 1 - 1) % 256 = (ports_code rs).length + 6 := by omega
    have e5 : ((ports_code rs).length + 8 - 5 - 1) % 256 = (ports_code rs).length + 2 := by omega
    simp only [seg_start, seg_ipv6, seg_ldport, patch, List.foldl_cons, List.foldl_nil, set_jump,
      List.cons_append, List.nil_append, List.getElem?_cons_succ, List.getElem?_cons_zero,
      List.set_cons_succ, List.set_cons_zero, if_false, Bool.false_eq_true, e1, e5]
  have hshape : (seg_start 62 ((ports_code rs).length + 6) ++
        (seg_ipv6 ((ports_code rs).length + 2) ++ seg_ldport 56)) ++
        (ports_code rs ++ [insn_ignore]) ++ [insn_ignore] =
      (seg_start 62 ((ports_code rs).length + 6) ++
        (seg_ipv6 ((ports_code rs).length + 2) ++ seg_ldport 56)) ++
        (ports_code rs ++ [insn_ignore, insn_ignore]) := by
    simp only [List.append_assoc, List.singleton_append]
  rw [hp1, hshape, patch_ports_at rs _ _ _ 7 (by simp [seg_start, seg_ipv6, seg_ldport])]
  simp [prog_ipv6, Nat.add_assoc]

/-- The program for both families and at least one range. -/
theorem compile_eq_both (rs : List portrange) (fs : List sock_filter) (v : Bool) (hne : rs ≠ [])
    (hn : rs.length ≤ 32) :
    compile ⟨v, v, rs, fs⟩ = (true, ⟨true, true, rs, prog_both rs (ports_code rs).length⟩) := by
  have hL := ports_code_length_le rs
  have hv4 : (if (!v && !v) = true then true else v) = true := by cases v <;> rfl
  simp only [compile, hv4, compile_ipv6_eq_both rs hne hn, if_true]
  have hlen6 : (seg_start 42 0 ++ (seg_ipv6_both 0 0 0 ++ (seg_ldport 56 ++
      (ports_code rs ++ [insn_ignore])))).length = (ports_code rs).length + 10 := by
    simp [seg_start, seg_ipv6_both, seg_ldport]
  rw [compile_ipv4_eq rs _ 3 hne (by simp only [hlen6]; omega)]
  simp only [if_true, hlen6]
  have hF0 : (if 3 ≠ 0 then set_jump (seg_start 42 0 ++ (seg_ipv6_both 0 0 0 ++ (seg_ldport 56 ++
        (ports_code rs ++ [insn_ignore])))) 3 false ((ports_code rs).length + 10 - 3 - 1)
      else seg_start 42 0 ++ (seg_ipv6_both 0 0 0 ++ (seg_ldport 56 ++
        (ports_code rs ++ [insn_ignore])))) =
      seg_start 42 0 ++ (seg_ipv6_both ((ports_code rs).length + 6) 0 0 ++ (seg_ldport 56 ++
        (ports_code rs ++ [insn_ignore]))) := by
    have e3 : ((ports_code rs).length + 10 - 3 - 1) % 256 = (ports_code rs).length + 6 := by omega
    simp only [seg_start, seg_ipv6_both, seg_ldport, set_jump, ne_eq, OfNat.ofNat_ne_zero,
      not_false_eq_true, if_true,
      List.cons_append, List.nil_append, List.getElem?_cons_succ, List.getElem?_cons_zero,
      List.set_cons_succ, List.set_cons_zero, if_false, Bool.false_eq_true, e3]
  rw [hF0]
  have hlenF0 : (seg_start 42 0 ++ (seg_ipv6_both ((ports_code rs).length + 6) 0 0 ++
      (seg_ldport 56 ++ (ports_code rs ++ [insn_ignore])))).length =
        (ports_code rs).length + 10 := by
    simp [seg_start, seg_ipv6_both, seg_ldport]
  have hlen : ((seg_start 42 0 ++ (seg_ipv6_both ((ports_code rs).length + 6) 0 0 ++
      (seg_ldport 56 ++ (ports_code rs ++ [insn_ignore])))) ++
      (seg_ipv4 0 0 0 ++ (seg_ldport 36 ++ ports_code rs))).length =
        2 * (ports_code rs).length + 16 := by
    rw [List.length_append, hlenF0]
    simp [seg_ipv4, seg_ldport]
    omega
  rw [compile_finish_eq _ (by simp only [hlen]; omega)]
  simp only [hlen]
  rw [patch_append _ [⟨1, false⟩, ⟨5, false⟩, ⟨7, false⟩],
    patch_append_left [⟨1, false⟩, ⟨5, false⟩, ⟨7, false⟩] _ _ _ (by
    intro j hj
    rw [hlenF0]
    simp only [List.mem_cons, List.mem_singleton, List.not_mem_nil, or_false] at hj
    rcases hj with rfl | rfl | rfl <;> simp)]
  have hp1 : patch (seg_start 42 0 ++ (seg_ipv6_both ((ports_code rs).length + 6) 0 0 ++
        (seg_ldport 56 ++ (ports_code rs ++ [insn_ignore]))))
        [⟨1, false⟩, ⟨5, false⟩, ⟨7, false⟩] (2 * (ports_code rs).length + 16) =
      (seg_start 42 (2 * (ports_code rs).length + 14) ++
        (seg_ipv6_both ((ports_code rs).length + 6) (2 * (ports_code rs).length + 10)
          (2 * (ports_code rs).length + 8) ++ seg_ldport 56)) ++
        (ports_code rs ++ [insn_ignore]) := by
    have e1 : (2 * (ports_code rs).length + 16 - 1 - 1) % 256 =
        2 * (ports_code rs).length + 14 := by omega
    have e5 : (2 * (ports_code rs).length + 16 - 5 - 1) % 256 =
        2 * (ports_code rs).length + 10 := by omega
    have e7 : (2 * (ports_code rs).length + 16 - 7 - 1) % 256 =
        2 * (ports_code rs).length + 8 := by omega
    simp only [seg_start, seg_ipv6_both, seg_ldport, patch, List.foldl_cons, List.foldl_nil,
      set_jump, List.cons_append, List.nil_append, List.getElem?_cons_succ,
      List.getElem?_cons_zero, List.set_cons_succ, List.set_cons_zero, if_false,
      Bool.false_eq_true, e1, e5, e7]
  rw [hp1]
  have hlenA : ((seg_start 42 (2 * (ports_code rs).length + 14) ++
        (seg_ipv6_both ((ports_code rs).length + 6) (2 * (ports_code rs).length + 10)
          (2 * (ports_code rs).length + 8) ++ seg_ldport 56)) ++
        (ports_code rs ++ [insn_ignore])).length = (ports_code rs).length + 10 := by
    simp [seg_start, seg_ipv6_both, seg_ldport]
  rw [patch_append_right_of [⟨0, false⟩, ⟨2, false⟩, ⟨4, true⟩]
    [⟨(ports_code rs).length + 10, false⟩, ⟨(ports_code rs).length + 10 + 2, false⟩,
      ⟨(ports_code rs).length + 10 + 4, true⟩] _ _ ((ports_code rs).length + 6)
    _ (by simp only [hlenA, List.map_cons, List.map_nil, Nat.add_zero])
    (by rw [hlenA]; omega)]
  have hp2 : patch (seg_ipv4 0 0 0 ++ (seg_ldport 36 ++ ports_code rs))
      [⟨0, false⟩, ⟨2, false⟩, ⟨4, true⟩] ((ports_code rs).length + 6) =
      (seg_ipv4 ((ports_code rs).length + 5) ((ports_code rs).length + 3)
        ((ports_code rs).length + 1) ++ seg_ldport 36) ++ ports_code rs := by
    have e0 : ((ports_code rs).length + 6 - 0 - 1) % 256 = (ports_code rs).length + 5 := by omega
    have e2 : ((ports_code rs).length + 6 - 2 - 1) % 256 = (ports_code rs).length + 3 := by omega
    have e4 : ((ports_code rs).length + 6 - 4 - 1) % 256 = (ports_code rs).length + 1 := by omega
    simp only [seg_ipv4, seg_ldport, patch, List.foldl_cons, List.foldl_nil,
      set_jump, List.cons_append, List.nil_append, List.getElem?_cons_succ,
      List.getElem?_cons_zero, List.set_cons_succ, List.set_cons_zero, if_false, if_true,
      Bool.false_eq_true, e0, e2, e4]
  rw [hp2, patch_append]
  have hshape1 : ((seg_start 42 (2 * (ports_code rs).length + 14) ++
        (seg_ipv6_both ((ports_code rs).length + 6) (2 * (ports_code rs).length + 10)
          (2 * (ports_code rs).length + 8) ++ seg_ldport 56)) ++
        (ports_code rs ++ [insn_ignore])) ++
      ((seg_ipv4 ((ports_code rs).length + 5) ((ports_code rs).length + 3)
        ((ports_code rs).length + 1) ++ seg_ldport 36) ++ ports_code rs) ++ [insn_ignore] =
      (seg_start 42 (2 * (ports_code rs).length + 14) ++
        (seg_ipv6_both ((ports_code rs).length + 6) (2 * (ports_code rs).length + 10)
          (2 * (ports_code rs).length + 8) ++ seg_ldport 56)) ++
        (ports_code rs ++ ([insn_ignore] ++
          ((seg_ipv4 ((ports_code rs).length + 5) ((ports_code rs).length + 3)
            ((ports_code rs).length + 1) ++ seg_ldport 36) ++ ports_code rs) ++ [insn_ignore])) := by
    simp only [List.append_assoc]
  rw [hshape1, patch_ports_at rs _ _ _ 9 (by simp [seg_start, seg_ipv6_both, seg_ldport])]
  have hshape2 : (seg_start 42 (2 * (ports_code rs).length + 14) ++
        (seg_ipv6_both ((ports_code rs).length + 6) (2 * (ports_code rs).length + 10)
          (2 * (ports_code rs).length + 8) ++ seg_ldport 56)) ++
        (ports_patched rs 9 (2 * (ports_code rs).length + 16 + 1) ++ ([insn_ignore] ++
          ((seg_ipv4 ((ports_code rs).length + 5) ((ports_code rs).length + 3)
            ((ports_code rs).length + 1) ++ seg_ldport 36) ++ ports_code rs) ++ [insn_ignore])) =
      ((seg_start 42 (2 * (ports_code rs).length + 14) ++
        (seg_ipv6_both ((ports_code rs).length + 6) (2 * (ports_code rs).length + 10)
          (2 * (ports_code rs).length + 8) ++ seg_ldport 56)) ++
        (ports_patched rs 9 (2 * (ports_code rs).length + 16 + 1) ++ ([insn_ignore] ++
          (seg_ipv4 ((ports_code rs).length + 5) ((ports_code rs).length + 3)
            ((ports_code rs).length + 1) ++ seg_ldport 36)))) ++
        (ports_code rs ++ [insn_ignore]) := by
    simp only [List.append_assoc]
  rw [hshape2, patch_ports_at rs _ _ _ _ (by
    simp [seg_start, seg_ipv6_both, seg_ldport, seg_ipv4, ports_patched_length])]
  simp [prog_both, Nat.add_assoc]

/-! ## Running the segments of the compiled program -/

theorem bpf_exec_ret (pkt : List Nat) (A jt jf k : Nat) (rest : List sock_filter) :
    bpf_exec pkt 0 A (⟨BPF_RET + BPF_K, jt, jf, k⟩ :: rest) = some k := by
  simp [bpf_exec, bpf_insn]

theorem bpf_exec_ignore (pkt : List Nat) (A : Nat) (rest : List sock_filter) :
    bpf_exec pkt 0 A (insn_ignore :: rest) = some 0 :=
  bpf_exec_ret pkt A 0 0 0 rest

theorem bpf_exec_accept (pkt : List Nat) (A : Nat) (rest : List sock_filter) :
    bpf_exec pkt 0 A (insn_accept :: rest) = some 0x40000 :=
  bpf_exec_ret pkt A 0 0 0x40000 rest

theorem bpf_exec_ldlen (pkt : List Nat) (A jt jf k : Nat) (rest : List sock_filter) :
    bpf_exec pkt 0 A (⟨BPF_LD + BPF_W + BPF_LEN, jt, jf, k⟩ :: rest) =
      bpf_exec pkt 0 pkt.length rest := by
  simp [bpf_exec, bpf_insn, BPF_LD, BPF_W, BPF_LEN, BPF_RET, BPF_K]

theorem bpf_exec_ldh (pkt : List Nat) (A jt jf k : Nat) (rest : List sock_filter)
    (h : k + 2 ≤ pkt.length) :
    bpf_exec pkt 0 A (⟨BPF_LD + BPF_H + BPF_ABS, jt, jf, k⟩ :: rest) =
      bpf_exec pkt 0 (be16 pkt k) rest := by
  simp [bpf_exec, bpf_insn, BPF_LD, BPF_W, BPF_H, BPF_ABS, BPF_LEN, BPF_RET, BPF_K, h]

theorem bpf_exec_ldb (pkt : List Nat) (A jt jf k : Nat) (rest : List sock_filter)
    (h : k + 1 ≤ pkt.length) :
    bpf_exec pkt 0 A (⟨BPF_LD + BPF_B + BPF_ABS, jt, jf, k⟩ :: rest) =
      bpf_exec pkt 0 (pkt.getD k 0) rest := by
  simp [bpf_exec, bpf_insn, BPF_LD, BPF_W, BPF_H, BPF_B, BPF_ABS, BPF_LEN, BPF_RET, BPF_K, h]

theorem bpf_exec_jeq (pkt : List Nat) (A jt jf k : Nat) (rest : List sock_filter) :
    bpf_exec pkt 0 A (⟨BPF_JMP + BPF_JEQ + BPF_K, jt, jf, k⟩ :: rest) =
      bpf_exec pkt (if A = k then jt else jf) A rest := by
  simp [bpf_exec, bpf_insn, BPF_LD, BPF_W, BPF_H, BPF_B, BPF_ABS, BPF_LEN, BPF_RET, BPF_K,
    BPF_JMP, BPF_JEQ]

theorem bpf_exec_jgt (pkt : List Nat) (A jt jf k : Nat) (rest : List sock_filter) :
    bpf_exec pkt 0 A (⟨BPF_JMP + BPF_JGT + BPF_K, jt, jf, k⟩ :: rest) =
      bpf_exec pkt (if A > k then jt else jf) A rest := by
  simp [bpf_exec, bpf_insn, BPF_LD, BPF_W, BPF_H, BPF_B, BPF_ABS, BPF_LEN, BPF_RET, BPF_K,
    BPF_JMP, BPF_JEQ, BPF_JGT]

theorem bpf_exec_jge (pkt : List Nat) (A jt jf k : Nat) (rest : List sock_filter) :
    bpf_exec pkt 0 A (⟨BPF_JMP + BPF_JGE + BPF_K, jt, jf, k⟩ :: rest) =
      bpf_exec pkt (if A ≥ k then jt else jf) A rest := by
  simp [bpf_exec, bpf_insn, BPF_LD, BPF_W, BPF_H, BPF_B, BPF_ABS, BPF_LEN, BPF_RET, BPF_K,
    BPF_JMP, BPF_JEQ, BPF_JGT, BPF_JGE]

theorem bpf_exec_jset (pkt : List Nat) (A jt jf k : Nat) (rest : List sock_filter) :
    bpf_exec pkt 0 A (⟨BPF_JMP + BPF_JSET + BPF_K, jt, jf, k⟩ :: rest) =
      bpf_exec pkt (if A &&& k ≠ 0 then jt else jf) A rest := by
  simp [bpf_exec, bpf_insn, BPF_LD, BPF_W, BPF_H, BPF_B, BPF_ABS, BPF_LEN, BPF_RET, BPF_K,
    BPF_JMP, BPF_JEQ, BPF_JGT, BPF_JGE, BPF_JSET]

/-- A jump over exactly the instructions `X` lands on the instruction after them. -/
theorem bpf_exec_land (pkt : List Nat) (skip A : Nat) (X Y : List sock_filter)
    (h : skip = X.length) : bpf_exec pkt skip A (X ++ Y) = bpf_exec pkt 0 A Y := by
  rw [bpf_exec_skip_append pkt skip A X Y (by omega), h, Nat.sub_self]

/-- The port tests: a port inside some range jumps to the instruction with index
`n`, any other port falls through to the instruction after the tests. -/
theorem bpf_exec_ports (pkt : List Nat) (A n : Nat) (rest : List sock_filter)
    (rs : List portrange) :
    ∀ base, base + (ports_code rs).length ≤ n → n ≤ base + 256 →
      (covers rs A → bpf_exec pkt 0 A (ports_patched rs base n ++ rest) =
        bpf_exec pkt (n - base - (ports_code rs).length) A rest) ∧
      (¬ covers rs A → bpf_exec pkt 0 A (ports_patched rs base n ++ rest) =
        bpf_exec pkt 0 A rest) := by
  induction rs with
  | nil =>
    intro base _ _
    exact ⟨fun h => absurd h (covers_nil A), fun _ => by simp [ports_patched]⟩
  | cons r rs ih =>
    intro base hlo hhi
    by_cases hr : r.from_ = r.to_
    · simp only [ports_code, hr, if_true, List.length_cons] at hlo
      have ih' := ih (base + 1) (by omega) (by omega)
      simp only [ports_patched, ports_code, hr, if_true, List.cons_append, bpf_exec_jeq,
        List.length_cons, covers_cons]
      have hmod : (n - base - 1) % 256 = n - base - 1 := Nat.mod_eq_of_lt (by omega)
      by_cases hA : A = r.to_
      · simp only [hA, if_true, hmod, le_refl, and_self, true_or, true_implies, not_true,
          false_implies, and_true]
        rw [bpf_exec_skip_append _ _ _ _ _ (by rw [ports_patched_length]; omega),
          ports_patched_length]
        congr 1
        omega
      · have hnc : ¬ (r.to_ ≤ A ∧ A ≤ r.to_) := by omega
        simp only [hA, if_false, hnc, false_or]
        refine ⟨fun h => ?_, fun h => ih'.2 h⟩
        rw [ih'.1 h]
        congr 1
        omega
    · simp only [ports_code, hr, if_false, List.length_cons] at hlo
      have ih' := ih (base + 2) (by omega) (by omega)
      simp only [ports_patched, ports_code, hr, if_false, List.cons_append, bpf_exec_jge,
        List.length_cons, covers_cons]
      have hmod : (n - (base + 1) - 1) % 256 = n - (base + 1) - 1 := Nat.mod_eq_of_lt (by omega)
      by_cases hge : A ≥ r.from_
      · simp only [hge, if_true, bpf_exec_jgt, hmod, true_and]
        by_cases hgt : A > r.to_
        · have hnle : ¬ A ≤ r.to_ := by omega
          simp only [hgt, if_true, hnle, false_or]
          refine ⟨fun h => ?_, fun h => ih'.2 h⟩
          rw [ih'.1 h]
          congr 1
          omega
        · have hle : A ≤ r.to_ := by omega
          simp only [hgt, if_false, hle, true_or, true_implies, not_true, false_implies, and_true]
          rw [bpf_exec_skip_append _ _ _ _ _ (by rw [ports_patched_length]; omega),
            ports_patched_length]
          congr 1
          omega
      · simp only [hge, if_false, false_and, false_or]
        simp only [bpf_exec]
        refine ⟨fun h => ?_, fun h => ih'.2 h⟩
        rw [ih'.1 h]
        congr 1
        omega

theorem bpf_exec_seg_start (pkt : List Nat) (m j1 : Nat) (T : List sock_filter)
    (hm : 14 ≤ m) (hj : 1 ≤ j1) :
    bpf_exec pkt 0 0 (seg_start m j1 ++ T) =
      if m ≤ pkt.length then bpf_exec pkt 0 (frame_ethertype pkt) T
      else bpf_exec pkt (j1 - 1) pkt.length T := by
  simp only [seg_start, List.cons_append, List.nil_append, bpf_exec_ldlen, bpf_exec_jge]
  by_cases h : m ≤ pkt.length
  · simp only [ge_iff_le, h, if_true]
    rw [bpf_exec_ldh _ _ _ _ _ _ (by omega)]
    rfl
  · simp only [ge_iff_le, h, if_false]
    obtain ⟨j, rfl⟩ : ∃ j, j1 = j + 1 := ⟨j1 - 1, by omega⟩
    simp [bpf_exec]

theorem bpf_exec_seg_ipv4 (pkt : List Nat) (A j0 j2 j4 : Nat) (T : List sock_filter)
    (hlen : 42 ≤ pkt.length) (h0 : 4 ≤ j0) (h2 : 2 ≤ j2) :
    bpf_exec pkt 0 A (seg_ipv4 j0 j2 j4 ++ T) =
      if A = ETHERTYPE_IP then
        if frame_ipv4_protocol pkt = IPPROTO_UDP then
          if frame_ipv4_frag_off pkt &&& 0x3fff ≠ 0 then
            bpf_exec pkt j4 (frame_ipv4_frag_off pkt) T
          else bpf_exec pkt 0 (frame_ipv4_frag_off pkt) T
        else bpf_exec pkt (j2 - 2) (frame_ipv4_protocol pkt) T
      else bpf_exec pkt (j0 - 4) A T := by
  simp only [seg_ipv4, List.cons_append, List.nil_append, bpf_exec_jeq]
  by_cases hA : A = ETHERTYPE_IP
  · simp only [hA, if_true]
    rw [bpf_exec_ldb _ _ _ _ _ _ (by omega), bpf_exec_jeq]
    by_cases hp : frame_ipv4_protocol pkt = IPPROTO_UDP
    · have hp' : pkt.getD 23 0 = IPPROTO_UDP := hp
      simp only [hp, hp', if_true]
      rw [bpf_exec_ldh _ _ _ _ _ _ (by omega), bpf_exec_jset]
      have e : frame_ipv4_frag_off pkt = be16 pkt 20 := rfl
      rw [e]
      split_ifs <;> rfl
    · have hp' : ¬ pkt.getD 23 0 = IPPROTO_UDP := hp
      simp only [hp, hp', if_false]
      obtain ⟨j, rfl⟩ : ∃ j, j2 = j + 2 := ⟨j2 - 2, by omega⟩
      simp only [bpf_exec, Nat.add_sub_cancel]
      rfl
  · simp only [hA, if_false]
    obtain ⟨j, rfl⟩ : ∃ j, j0 = j + 4 := ⟨j0 - 4, by omega⟩
    simp only [bpf_exec, Nat.add_sub_cancel]

theorem bpf_exec_seg_ipv6 (pkt : List Nat) (A j2 : Nat) (T : List sock_filter)
    (hlen : 21 ≤ pkt.length) :
    bpf_exec pkt 0 A (seg_ipv6 j2 ++ T) =
      if frame_ipv6_nxt pkt = IPPROTO_UDP then bpf_exec pkt 0 (frame_ipv6_nxt pkt) T
      else bpf_exec pkt j2 (frame_ipv6_nxt pkt) T := by
  simp only [seg_ipv6, List.cons_append, List.nil_append, bpf_exec_jeq, ite_self]
  rw [bpf_exec_ldb _ _ _ _ _ _ (by omega), bpf_exec_jeq]
  have e : frame_ipv6_nxt pkt = pkt.getD 20 0 := rfl
  rw [e]
  split_ifs <;> rfl

theorem bpf_exec_seg_ipv6_both (pkt : List Nat) (A j0 j2 j4 : Nat) (T : List sock_filter)
    (h0 : 4 ≤ j0) (h2 : 2 ≤ j2) :
    bpf_exec pkt 0 A (seg_ipv6_both j0 j2 j4 ++ T) =
      if A = ETHERTYPE_IPV6 then
        if 62 ≤ pkt.length then
          if frame_ipv6_nxt pkt = IPPROTO_UDP then bpf_exec pkt 0 (frame_ipv6_nxt pkt) T
          else bpf_exec pkt j4 (frame_ipv6_nxt pkt) T
        else bpf_exec pkt (j2 - 2) pkt.length T
      else bpf_exec pkt (j0 - 4) A T := by
  simp only [seg_ipv6_both, List.cons_append, List.nil_append, bpf_exec_jeq]
  by_cases hA : A = ETHERTYPE_IPV6
  · simp only [hA, if_true, bpf_exec_ldlen, bpf_exec_jge]
    by_cases h62 : 62 ≤ pkt.length
    · simp only [ge_iff_le, h62, if_true]
      rw [bpf_exec_ldb _ _ _ _ _ _ (by omega), bpf_exec_jeq]
      have e : frame_ipv6_nxt pkt = pkt.getD 20 0 := rfl
      rw [e]
      split_ifs <;> rfl
    · simp only [ge_iff_le, h62, if_false]
      obtain ⟨j, rfl⟩ : ∃ j, j2 = j + 2 := ⟨j2 - 2, by omega⟩
      simp only [bpf_exec, Nat.add_sub_cancel]
  · simp only [hA, if_false]
    obtain ⟨j, rfl⟩ : ∃ j, j0 = j + 4 := ⟨j0 - 4, by omega⟩
    simp only [bpf_exec, Nat.add_sub_cancel]

theorem bpf_exec_seg_ldport (pkt : List Nat) (A k : Nat) (T : List sock_filter)
    (h : k + 2 ≤ pkt.length) :
    bpf_exec pkt 0 A (seg_ldport k ++ T) = bpf_exec pkt 0 (be16 pkt k) T := by
  simp only [seg_ldport, List.cons_append, List.nil_append]
  exact bpf_exec_ldh _ _ _ _ _ _ h

theorem seg_ipv4_length (j0 j2 j4 : Nat) : (seg_ipv4 j0 j2 j4).length = 5 := rfl
theorem seg_ipv6_length (j2 : Nat) : (seg_ipv6 j2).length = 3 := rfl
theorem seg_ipv6_both_length (j0 j2 j4 : Nat) : (seg_ipv6_both j0 j2 j4).length = 5 := rfl
theorem seg_ldport_length (k : Nat) : (seg_ldport k).length = 1 := rfl

/-- The port tests followed by IGNORE when the accept target is the `d`-th
instruction after them. -/
theorem bpf_exec_ports_tail (pkt : List Nat) (A base d : Nat) (rs : List portrange)
    (X Y : List sock_filter) (hd : d = X.length + 1) (hL : (ports_code rs).length + d ≤ 256) :
    (covers rs A → bpf_exec pkt 0 A
      (ports_patched rs base (base + (ports_code rs).length + d) ++
        (insn_ignore :: (X ++ insn_accept :: Y))) = some 0x40000) ∧
    (¬ covers rs A → bpf_exec pkt 0 A
      (ports_patched rs base (base + (ports_code rs).length + d) ++
        (insn_ignore :: (X ++ insn_accept :: Y))) = some 0) := by
  have h := bpf_exec_ports pkt A (base + (ports_code rs).length + d)
    (insn_ignore :: (X ++ insn_accept :: Y)) rs base (by omega) (by omega)
  refine ⟨fun hc => ?_, fun hc => ?_⟩
  · rw [h.1 hc]
    have e : base + (ports_code rs).length + d - base - (ports_code rs).length =
        (insn_ignore :: X).length := by simp; omega
    have e2 : insn_ignore :: (X ++ insn_accept :: Y) = (insn_ignore :: X) ++ insn_accept :: Y := by
      simp
    rw [e2, bpf_exec_land _ _ _ _ _ e, bpf_exec_accept]
  · rw [h.2 hc, bpf_exec_ignore]

theorem bpf_exec_land_ignore (pkt : List Nat) (skip A : Nat) (l X Y : List sock_filter)
    (hl : l = X ++ insn_ignore :: Y) (hs : skip = X.length) :
    bpf_exec pkt skip A l = some 0 := by
  rw [hl, bpf_exec_land _ _ _ _ _ hs, bpf_exec_ignore]

/-- What the program for IPv4 only with ranges returns. -/
theorem run_prog_ipv4 (pkt : List Nat) (rs : List portrange)
    (hL : (ports_code rs).length ≤ 64) :
    ((42 ≤ pkt.length ∧ frame_ethertype pkt = ETHERTYPE_IP ∧
        frame_ipv4_protocol pkt = IPPROTO_UDP ∧ frame_ipv4_frag_off pkt &&& 0x3fff = 0 ∧
        covers rs (be16 pkt 36)) →
      bpf_exec pkt 0 0 (prog_ipv4 rs (ports_code rs).length) = some 0x40000) ∧
    (¬ (42 ≤ pkt.length ∧ frame_ethertype pkt = ETHERTYPE_IP ∧
        frame_ipv4_protocol pkt = IPPROTO_UDP ∧ frame_ipv4_frag_off pkt &&& 0x3fff = 0 ∧
        covers rs (be16 pkt 36)) →
      bpf_exec pkt 0 0 (prog_ipv4 rs (ports_code rs).length) = some 0) := by
  have hpl := ports_patched_length rs 9 ((ports_code rs).length + 10)
  have e10 : (ports_code rs).length + 10 = 9 + (ports_code rs).length + 1 := by omega
  have htail := bpf_exec_ports_tail pkt (be16 pkt 36) 9 1 rs [] [] rfl (by omega)
  simp only [List.nil_append, ← e10] at htail
  have hT : ∀ A, bpf_exec pkt ((ports_code rs).length + 1) A (seg_ldport 36 ++
      (ports_patched rs 9 ((ports_code rs).length + 10) ++ [insn_ignore, insn_accept])) = some 0 :=
    fun A => bpf_exec_land_ignore pkt _ A _
      (seg_ldport 36 ++ ports_patched rs 9 ((ports_code rs).length + 10)) [insn_accept]
      (by simp) (by simp [seg_ldport_length, hpl]; omega)
  unfold prog_ipv4
  rw [bpf_exec_seg_start _ _ _ _ (by omega) (by omega)]
  by_cases h42 : 42 ≤ pkt.length
  · simp only [h42, if_true, true_and]
    rw [bpf_exec_seg_ipv4 _ _ _ _ _ _ h42 (by omega) (by omega)]
    by_cases het : frame_ethertype pkt = ETHERTYPE_IP
    · simp only [het, if_true, true_and]
      by_cases hp : frame_ipv4_protocol pkt = IPPROTO_UDP
      · simp only [hp, if_true, true_and]
        by_cases hf : frame_ipv4_frag_off pkt &&& 0x3fff = 0
        · simp only [hf, ne_eq, not_true, if_false, true_and]
          rw [bpf_exec_seg_ldport _ _ _ _ (by omega)]
          exact htail
        · simp only [hf, ne_eq, not_false_eq_true, if_true, false_and, false_implies,
            true_implies, true_and]
          exact hT _
      · simp only [hp, if_false, false_and, false_implies, not_false_eq_true, true_implies,
          true_and]
        have e : (ports_code rs).length + 3 - 2 = (ports_code rs).length + 1 := by omega
        rw [e]
        exact hT _
    · simp only [het, if_false, false_and, false_implies, not_false_eq_true, true_implies,
        true_and]
      have e : (ports_code rs).length + 5 - 4 = (ports_code rs).length + 1 := by omega
      rw [e]
      exact hT _
  · simp only [h42, if_false, false_and, false_implies, not_false_eq_true, true_implies,
      true_and]
    exact bpf_exec_land_ignore pkt _ _ _
      (seg_ipv4 ((ports_code rs).length + 5) ((ports_code rs).length + 3)
        ((ports_code rs).length + 1) ++
        (seg_ldport 36 ++ ports_patched rs 9 ((ports_code rs).length + 10))) [insn_accept]
      (by simp) (by simp [seg_ldport_length, seg_ipv4_length, hpl]; omega)

/-- What the program for IPv4 only without ranges returns. -/
theorem run_prog_ipv4_all (pkt : List Nat) :
    ((42 ≤ pkt.length ∧ frame_ethertype pkt = ETHERTYPE_IP ∧
        frame_ipv4_protocol pkt = IPPROTO_UDP ∧ frame_ipv4_frag_off pkt &&& 0x3fff = 0) →
      bpf_exec pkt 0 0 prog_ipv4_all = some 0x40000) ∧
    (¬ (42 ≤ pkt.length ∧ frame_ethertype pkt = ETHERTYPE_IP ∧
        frame_ipv4_protocol pkt = IPPROTO_UDP ∧ frame_ipv4_frag_off pkt &&& 0x3fff = 0) →
      bpf_exec pkt 0 0 prog_ipv4_all = some 0) := by
  have hT : ∀ A, bpf_exec pkt 1 A [insn_accept, insn_ignore, insn_accept] = some 0 :=
    fun A => bpf_exec_land_ignore pkt _ A _ [insn_accept] [insn_accept] rfl rfl
  unfold prog_ipv4_all
  rw [bpf_exec_seg_start _ _ _ _ (by omega) (by omega)]
  by_cases h42 : 42 ≤ pkt.length
  · simp only [h42, if_true, true_and]
    rw [bpf_exec_seg_ipv4 _ _ _ _ _ _ h42 (by omega) (by omega)]
    by_cases het : frame_ethertype pkt = ETHERTYPE_IP
    · simp only [het, if_true, true_and]
      by_cases hp : frame_ipv4_protocol pkt = IPPROTO_UDP
      · simp only [hp, if_true, true_and]
        by_cases hf : frame_ipv4_frag_off pkt &&& 0x3fff = 0
        · simp only [hf, ne_eq, not_true, if_false, true_implies, not_true, false_implies,
            and_true]
          exact bpf_exec_accept _ _ _
        · simp only [hf, ne_eq, not_false_eq_true, if_true, false_implies, true_implies,
            true_and]
          exact hT _
      · simp only [hp, if_false, false_and, false_implies, not_false_eq_true, true_implies,
          true_and]
        exact hT _
    · simp only [het, if_false, false_and, false_implies, not_false_eq_true, true_implies,
        true_and]
      exact hT _
  · simp only [h42, if_false, false_and, false_implies, not_false_eq_true, true_implies,
      true_and]
    exact bpf_exec_land_ignore pkt _ _ _ (seg_ipv4 5 3 1 ++ [insn_accept]) [insn_accept]
      (by simp) (by simp [seg_ipv4_length])

/-- What the program for IPv6 only with ranges returns: the Ethertype plays
no part. -/
theorem run_prog_ipv6 (pkt : List Nat) (rs : List portrange)
    (hL : (ports_code rs).length ≤ 64) :
    ((62 ≤ pkt.length ∧ frame_ipv6_nxt pkt = IPPROTO_UDP ∧ covers rs (be16 pkt 56)) →
      bpf_exec pkt 0 0 (prog_ipv6 rs (ports_code rs).length) = some 0x40000) ∧
    (¬ (62 ≤ pkt.length ∧ frame_ipv6_nxt pkt = IPPROTO_UDP ∧ covers rs (be16 pkt 56)) →
      bpf_exec pkt 0 0 (prog_ipv6 rs (ports_code rs).length) = some 0) := by
  have hpl := ports_patched_length rs 7 ((ports_code rs).length + 9)
  have e9 : (ports_code rs).length + 9 = 7 + (ports_code rs).length + 2 := by omega
  have htail := bpf_exec_ports_tail pkt (be16 pkt 56) 7 2 rs [insn_ignore] [] rfl (by omega)
  simp only [List.singleton_append, ← e9] at htail
  unfold prog_ipv6
  rw [bpf_exec_seg_start _ _ _ _ (by omega) (by omega)]
  by_cases h62 : 62 ≤ pkt.length
  · simp only [h62, if_true, true_and]
    rw [bpf_exec_seg_ipv6 _ _ _ _ (by omega)]
    by_cases hp : frame_ipv6_nxt pkt = IPPROTO_UDP
    · simp only [hp, if_true, true_and]
      rw [bpf_exec_seg_ldport _ _ _ _ (by omega)]
      exact htail
    · simp only [hp, if_false, false_and, false_implies, not_false_eq_true, true_implies,
        true_and]
      exact bpf_exec_land_ignore pkt _ _ _
        (seg_ldport 56 ++ (ports_patched rs 7 ((ports_code rs).length + 9) ++ [insn_ignore]))
        [insn_accept] (by simp) (by simp [seg_ldport_length, hpl]; omega)
  · simp only [h62, if_false, false_and, false_implies, not_false_eq_true, true_implies,
      true_and]
    exact bpf_exec_land_ignore pkt _ _ _
      (seg_ipv6 ((ports_code rs).length + 2) ++
        (seg_ldport 56 ++ (ports_patched rs 7 ((ports_code rs).length + 9) ++ [insn_ignore])))
      [insn_accept] (by simp) (by simp [seg_ldport_length, seg_ipv6_length, hpl]; omega)

/-- What the program for IPv6 only without ranges returns. -/
theorem run_prog_ipv6_all (pkt : List Nat) :
    ((62 ≤ pkt.length ∧ frame_ipv6_nxt pkt = IPPROTO_UDP) →
      bpf_exec pkt 0 0 prog_ipv6_all = some 0x40000) ∧
    (¬ (62 ≤ pkt.length ∧ frame_ipv6_nxt pkt = IPPROTO_UDP) →
      bpf_exec pkt 0 0 prog_ipv6_all = some 0) := by
  unfold prog_ipv6_all
  rw [bpf_exec_seg_start _ _ _ _ (by omega) (by omega)]
  by_cases h62 : 62 ≤ pkt.length
  · simp only [h62, if_true, true_and]
    rw [bpf_exec_seg_ipv6 _ _ _ _ (by omega)]
    by_cases hp : frame_ipv6_nxt pkt = IPPROTO_UDP
    · simp only [hp, if_true, true_implies, not_true, false_implies, and_true]
      exact bpf_exec_accept _ _ _
    · simp only [hp, if_false, false_implies, not_false_eq_true, true_implies, true_and]
      exact bpf_exec_land_ignore pkt _ _ _ [insn_accept] [insn_accept] rfl rfl
  · simp only [h62, if_false, false_and, false_implies, not_false_eq_true, true_implies,
      true_and]
    exact bpf_exec_land_ignore pkt _ _ _ (seg_ipv6 1 ++ [insn_accept]) [insn_accept]
      (by simp) (by simp [seg_ipv6_length])

/-- What the program for both families with ranges returns. -/
theorem run_prog_both (pkt : List Nat) (rs : List portrange)
    (hL : (ports_code rs).length ≤ 64) :
    ((42 ≤ pkt.length ∧
        ((frame_ethertype pkt = ETHERTYPE_IPV6 ∧ 62 ≤ pkt.length ∧
            frame_ipv6_nxt pkt = IPPROTO_UDP ∧ covers rs (be16 pkt 56)) ∨
          (frame_ethertype pkt = ETHERTYPE_IP ∧ frame_ipv4_protocol pkt = IPPROTO_UDP ∧
            frame_ipv4_frag_off pkt &&& 0x3fff = 0 ∧ covers rs (be16 pkt 36)))) →
      bpf_exec pkt 0 0 (prog_both rs (ports_code rs).length) = some 0x40000) ∧
    (¬ (42 ≤ pkt.length ∧
        ((frame_ethertype pkt = ETHERTYPE_IPV6 ∧ 62 ≤ pkt.length ∧
            frame_ipv6_nxt pkt = IPPROTO_UDP ∧ covers rs (be16 pkt 56)) ∨
          (frame_ethertype pkt = ETHERTYPE_IP ∧ frame_ipv4_protocol pkt = IPPROTO_UDP ∧
            frame_ipv4_frag_off pkt &&& 0x3fff = 0 ∧ covers rs (be16 pkt 36)))) →
      bpf_exec pkt 0 0 (prog_both rs (ports_code rs).length) = some 0) := by
  have hne : ETHERTYPE_IP ≠ ETHERTYPE_IPV6 := by decide
  have hpl1 := ports_patched_length rs 9 (2 * (ports_code rs).length + 17)
  have hpl2 := ports_patched_length rs ((ports_code rs).length + 16)
    (2 * (ports_code rs).length + 17)
  -- the IPv4 tail
  have e2 : 2 * (ports_code rs).length + 17 =
      ((ports_code rs).length + 16) + (ports_code rs).length + 1 := by omega
  have htail2 := bpf_exec_ports_tail pkt (be16 pkt 36) ((ports_code rs).length + 16) 1 rs [] []
    rfl (by omega)
  simp only [List.nil_append, ← e2] at htail2
  have hT2 : ∀ A, bpf_exec pkt ((ports_code rs).length + 1) A (seg_ldport 36 ++
      (ports_patched rs ((ports_code rs).length + 16) (2 * (ports_code rs).length + 17) ++
        [insn_ignore, insn_accept])) = some 0 :=
    fun A => bpf_exec_land_ignore pkt _ A _
      (seg_ldport 36 ++ ports_patched rs ((ports_code rs).length + 16)
        (2 * (ports_code rs).length + 17)) [insn_accept]
      (by simp) (by simp [seg_ldport_length, hpl2]; omega)
  -- the IPv6 tail
  have e1 : 2 * (ports_code rs).length + 17 =
      9 + (ports_code rs).length + ((ports_code rs).length + 8) := by omega
  have htail1 := bpf_exec_ports_tail pkt (be16 pkt 56) 9 ((ports_code rs).length + 8) rs
    (seg_ipv4 ((ports_code rs).length + 5) ((ports_code rs).length + 3)
      ((ports_code rs).length + 1) ++ (seg_ldport 36 ++
        (ports_patched rs ((ports_code rs).length + 16) (2 * (ports_code rs).length + 17) ++
          [insn_ignore]))) []
    (by simp [seg_ipv4_length, seg_ldport_length, hpl2]; omega) (by omega)
  simp only [← e1, List.append_assoc, List.singleton_append] at htail1
  have hT1 : ∀ A, bpf_exec pkt (2 * (ports_code rs).length + 8) A (seg_ldport 56 ++
      (ports_patched rs 9 (2 * (ports_code rs).length + 17) ++ (insn_ignore ::
        (seg_ipv4 ((ports_code rs).length + 5) ((ports_code rs).length + 3)
          ((ports_code rs).length + 1) ++ (seg_ldport 36 ++
            (ports_patched rs ((ports_code rs).length + 16)
              (2 * (ports_code rs).length + 17) ++ [insn_ignore, insn_accept])))))) = some 0 :=
    fun A => bpf_exec_land_ignore pkt _ A _
      (seg_ldport 56 ++ (ports_patched rs 9 (2 * (ports_code rs).length + 17) ++ (insn_ignore ::
        (seg_ipv4 ((ports_code rs).length + 5) ((ports_code rs).length + 3)
          ((ports_code rs).length + 1) ++ (seg_ldport 36 ++
            ports_patched rs ((ports_code rs).length + 16)
              (2 * (ports_code rs).length + 17)))))) [insn_accept]
      (by simp) (by simp [seg_ldport_length, seg_ipv4_length, hpl1, hpl2]; omega)
  unfold prog_both
  rw [bpf_exec_seg_start _ _ _ _ (by omega) (by omega)]
  by_cases h42 : 42 ≤ pkt.length
  · simp only [h42, if_true, true_and]
    rw [bpf_exec_seg_ipv6_both _ _ _ _ _ _ (by omega) (by omega)]
    by_cases h6 : frame_ethertype pkt = ETHERTYPE_IPV6
    · have h4 : ¬ ETHERTYPE_IPV6 = ETHERTYPE_IP := fun h => hne h.symm
      simp only [h6, h4, if_true, true_and, false_and, or_false]
      by_cases h62 : 62 ≤ pkt.length
      · simp only [h62, if_true, true_and]
        by_cases hp : frame_ipv6_nxt pkt = IPPROTO_UDP
        · simp only [hp, if_true, true_and]
          rw [bpf_exec_seg_ldport _ _ _ _ (by omega)]
          exact htail1
        · simp only [hp, if_false, false_and, false_implies, not_false_eq_true, true_implies,
            true_and]
          exact hT1 _
      · simp only [h62, if_false, false_and, false_implies, not_false_eq_true, true_implies,
          true_and]
        have e : 2 * (ports_code rs).length + 10 - 2 = 2 * (ports_code rs).length + 8 := by
          omega
        rw [e]
        exact hT1 _
    · simp only [h6, if_false, false_and, false_or]
      have hshape : seg_ldport 56 ++
          (ports_patched rs 9 (2 * (ports_code rs).length + 17) ++ (insn_ignore ::
            (seg_ipv4 ((ports_code rs).length + 5) ((ports_code rs).length + 3)
              ((ports_code rs).length + 1) ++ (seg_ldport 36 ++
                (ports_patched rs ((ports_code rs).length + 16)
                  (2 * (ports_code rs).length + 17) ++ [insn_ignore, insn_accept]))))) =
          (seg_ldport 56 ++
            (ports_patched rs 9 (2 * (ports_code rs).length + 17) ++ [insn_ignore])) ++
            (seg_ipv4 ((ports_code rs).length + 5) ((ports_code rs).length + 3)
              ((ports_code rs).length + 1) ++ (seg_ldport 36 ++
                (ports_patched rs ((ports_code rs).length + 16)
                  (2 * (ports_code rs).length + 17) ++ [insn_ignore, insn_accept]))) := by
        simp only [List.append_assoc, List.singleton_append]
      rw [hshape, bpf_exec_land pkt _ _ _ _ (by simp [seg_ldport_length, hpl1]; omega)]
      · rw [bpf_exec_seg_ipv4 _ _ _ _ _ _ h42 (by omega) (by omega)]
        by_cases het : frame_ethertype pkt = ETHERTYPE_IP
        · simp only [het, if_true, true_and]
          by_cases hp : frame_ipv4_protocol pkt = IPPROTO_UDP
          · simp only [hp, if_true, true_and]
            by_cases hf : frame_ipv4_frag_off pkt &&& 0x3fff = 0
            · simp only [hf, ne_eq, not_true, if_false, true_and]
              rw [bpf_exec_seg_ldport _ _ _ _ (by omega)]
              exact htail2
            · simp only [hf, ne_eq, not_false_eq_true, if_true, false_and, false_implies,
                true_implies, true_and]
              exact hT2 _
          · simp only [hp, if_false, false_and, false_implies, not_false_eq_true, true_implies,
              true_and]
            have e : (ports_code rs).length + 3 - 2 = (ports_code rs).length + 1 := by omega
            rw [e]
            exact hT2 _
        · simp only [het, if_false, false_and, false_implies, not_false_eq_true, true_implies,
            true_and]
          have e : (ports_code rs).length + 5 - 4 = (ports_code rs).length + 1 := by omega
          rw [e]
          exact hT2 _
  · simp only [h42, if_false, false_and, false_implies, not_false_eq_true, true_implies,
      true_and]
    exact bpf_exec_land_ignore pkt _ _ _
      (seg_ipv6_both ((ports_code rs).length + 6) (2 * (ports_code rs).length + 10)
        (2 * (ports_code rs).length + 8) ++ (seg_ldport 56 ++
          (ports_patched rs 9 (2 * (ports_code rs).length + 17) ++ (insn_ignore ::
            (seg_ipv4 ((ports_code rs).length + 5) ((ports_code rs).length + 3)
              ((ports_code rs).length + 1) ++ (seg_ldport 36 ++
                ports_patched rs ((ports_code rs).length + 16)
                  (2 * (ports_code rs).length + 17))))))) [insn_accept]
      (by simp) (by simp [seg_ldport_length, seg_ipv4_length, seg_ipv6_both_length, hpl1, hpl2]
                    omega)

/-- What the program for both families without ranges returns. -/
theorem run_prog_both_all (pkt : List Nat) :
    ((42 ≤ pkt.length ∧
        ((frame_ethertype pkt = ETHERTYPE_IPV6 ∧ 62 ≤ pkt.length ∧
            frame_ipv6_nxt pkt = IPPROTO_UDP) ∨
          (frame_ethertype pkt = ETHERTYPE_IP ∧ frame_ipv4_protocol pkt = IPPROTO_UDP ∧
            frame_ipv4_frag_off pkt &&& 0x3fff = 0))) →
      bpf_exec pkt 0 0 prog_both_all = some 0x40000) ∧
    (¬ (42 ≤ pkt.length ∧
        ((frame_ethertype pkt = ETHERTYPE_IPV6 ∧ 62 ≤ pkt.length ∧
            frame_ipv6_nxt pkt = IPPROTO_UDP) ∨
          (frame_ethertype pkt = ETHERTYPE_IP ∧ frame_ipv4_protocol pkt = IPPROTO_UDP ∧
            frame_ipv4_frag_off pkt &&& 0x3fff = 0))) →
      bpf_exec pkt 0 0 prog_both_all = some 0) := by
  have hne : ETHERTYPE_IP ≠ ETHERTYPE_IPV6 := by decide
  have hT2 : ∀ A, bpf_exec pkt 1 A [insn_accept, insn_ignore, insn_accept] = some 0 :=
    fun A => bpf_exec_land_ignore pkt _ A _ [insn_accept] [insn_accept] rfl rfl
  have hT1 : ∀ A, bpf_exec pkt 7 A (insn_accept ::
      (seg_ipv4 5 3 1 ++ [insn_accept, insn_ignore, insn_accept])) = some 0 :=
    fun A => bpf_exec_land_ignore pkt _ A _ (insn_accept :: (seg_ipv4 5 3 1 ++ [insn_accept]))
      [insn_accept] (by simp) (by simp [seg_ipv4_length])
  unfold prog_both_all
  rw [bpf_exec_seg_start _ _ _ _ (by omega) (by omega)]
  by_cases h42 : 42 ≤ pkt.length
  · simp only [h42, if_true, true_and]
    rw [bpf_exec_seg_ipv6_both _ _ _ _ _ _ (by omega) (by omega)]
    by_cases h6 : frame_ethertype pkt = ETHERTYPE_IPV6
    · have h4 : ¬ ETHERTYPE_IPV6 = ETHERTYPE_IP := fun h => hne h.symm
      simp only [h6, h4, if_true, true_and, false_and, or_false]
      by_cases h62 : 62 ≤ pkt.length
      · simp only [h62, if_true, true_and]
        by_cases hp : frame_ipv6_nxt pkt = IPPROTO_UDP
        · simp only [hp, if_true, true_implies, not_true, false_implies, and_true]
          exact bpf_exec_accept _ _ _
        · simp only [hp, if_false, false_implies, not_false_eq_true, true_implies, true_and]
          exact hT1 _
      · simp only [h62, if_false, false_and, false_implies, not_false_eq_true, true_implies,
          true_and]
        exact hT1 _
    · simp only [h6, if_false, false_and, false_or]
      have hland : ∀ A, bpf_exec pkt (5 - 4) A (insn_accept ::
          (seg_ipv4 5 3 1 ++ [insn_accept, insn_ignore, insn_accept])) =
          bpf_exec pkt 0 A (seg_ipv4 5 3 1 ++ [insn_accept, insn_ignore, insn_accept]) :=
        fun A => bpf_exec_land pkt _ A [insn_accept] _ rfl
      rw [hland, bpf_exec_seg_ipv4 _ _ _ _ _ _ h42 (by omega) (by omega)]
      by_cases het : frame_ethertype pkt = ETHERTYPE_IP
      · simp only [het, if_true, true_and]
        by_cases hp : frame_ipv4_protocol pkt = IPPROTO_UDP
        · simp only [hp, if_true, true_and]
          by_cases hf : frame_ipv4_frag_off pkt &&& 0x3fff = 0
          · simp only [hf, ne_eq, not_true, if_false, true_implies, not_true, false_implies,
              and_true]
            exact bpf_exec_accept _ _ _
          · simp only [hf, ne_eq, not_false_eq_true, if_true, false_implies, true_implies,
              true_and]
            exact hT2 _
        · simp only [hp, if_false, false_and, false_implies, not_false_eq_true, true_implies,
            true_and]
          exact hT2 _
      · simp only [het, if_false, false_and, false_implies, not_false_eq_true, true_implies,
          true_and]
        exact hT2 _
  · simp only [h42, if_false, false_and, false_implies, not_false_eq_true, true_implies,
      true_and]
    exact bpf_exec_land_ignore pkt _ _ _
      (seg_ipv6_both 5 9 7 ++ (insn_accept :: (seg_ipv4 5 3 1 ++ [insn_accept]))) [insn_accept]
      (by simp) (by simp [seg_ipv4_length, seg_ipv6_both_length])

/-! ## What the compiled filter returns -/

/-- For every family configuration and every set of at most 32 ranges,
`compile` succeeds and the program returns `0x40000` on the frames described
by `filter_accepts` and 0 on all others. -/
theorem run_filter_compile (v4 v6 : Bool) (rs : List portrange) (fs : List sock_filter)
    (pkt : List Nat) (hn : rs.length ≤ 32) :
    (compile ⟨v4, v6, rs, fs⟩).1 = true ∧
    (filter_accepts v4 v6 rs pkt →
      run_filter (compile ⟨v4, v6, rs, fs⟩).2._M_filters pkt = some 0x40000) ∧
    (¬ filter_accepts v4 v6 rs pkt →
      run_filter (compile ⟨v4, v6, rs, fs⟩).2._M_filters pkt = some 0) := by
  have hL : (ports_code rs).length ≤ 64 := by
    have := ports_code_length_le rs
    omega
  by_cases hrs : rs = []
  · subst hrs
    have hcov : ∀ p, ¬ covers [] p := covers_nil
    cases v4 <;> cases v6
    · have h : compile ⟨false, false, [], fs⟩ = (true, ⟨true, true, [], prog_both_all⟩) := by
        rw [compile_filters_irrel]; rfl
      have hr := run_prog_both_all pkt
      simp only [h, run_filter_eq_exec, filter_accepts, accepts_ipv4, accepts_ipv6, true_or,
        and_true, true_and]
      refine ⟨fun hc => hr.1 ?_, fun hc => hr.2 (fun hc' => hc ?_)⟩
      · exact ⟨hc.1, hc.2.imp (fun h => ⟨h.1, h.2.1, h.2.2⟩) (fun h => ⟨h.2.1, h.2.2.1, h.2.2.2⟩)⟩
      · exact ⟨hc'.1, hc'.2.imp (fun h => ⟨h.1, h.2.1, h.2.2⟩)
          (fun h => ⟨hc'.1, h.1, h.2.1, h.2.2⟩)⟩
    · have h : compile ⟨false, true, [], fs⟩ = (true, ⟨false, true, [], prog_ipv6_all⟩) := by
        rw [compile_filters_irrel]; rfl
      have hr := run_prog_ipv6_all pkt
      simp only [h, run_filter_eq_exec, filter_accepts, accepts_ipv6, true_or, and_true,
        true_and]
      exact hr
    · have h : compile ⟨true, false, [], fs⟩ = (true, ⟨true, false, [], prog_ipv4_all⟩) := by
        rw [compile_filters_irrel]; rfl
      have hr := run_prog_ipv4_all pkt
      simp only [h, run_filter_eq_exec, filter_accepts, accepts_ipv4, true_or, and_true,
        true_and]
      exact hr
    · have h : compile ⟨true, true, [], fs⟩ = (true, ⟨true, true, [], prog_both_all⟩) := by
        rw [compile_filters_irrel]; rfl
      have hr := run_prog_both_all pkt
      simp only [h, run_filter_eq_exec, filter_accepts, accepts_ipv4, accepts_ipv6, true_or,
        and_true, true_and]
      refine ⟨fun hc => hr.1 ?_, fun hc => hr.2 (fun hc' => hc ?_)⟩
      · exact ⟨hc.1, hc.2.imp (fun h => ⟨h.1, h.2.1, h.2.2⟩) (fun h => ⟨h.2.1, h.2.2.1, h.2.2.2⟩)⟩
      · exact ⟨hc'.1, hc'.2.imp (fun h => ⟨h.1, h.2.1, h.2.2⟩)
          (fun h => ⟨hc'.1, h.1, h.2.1, h.2.2⟩)⟩
  · have hboth : ∀ v, (filter_accepts v v rs pkt ↔ (42 ≤ pkt.length ∧
        ((frame_ethertype pkt = ETHERTYPE_IPV6 ∧ 62 ≤ pkt.length ∧
            frame_ipv6_nxt pkt = IPPROTO_UDP ∧ covers rs (be16 pkt 56)) ∨
          (frame_ethertype pkt = ETHERTYPE_IP ∧ frame_ipv4_protocol pkt = IPPROTO_UDP ∧
            frame_ipv4_frag_off pkt &&& 0x3fff = 0 ∧ covers rs (be16 pkt 36))))) := by
      intro v
      have : filter_accepts v v rs pkt ↔ (42 ≤ pkt.length ∧
          ((frame_ethertype pkt = ETHERTYPE_IPV6 ∧ accepts_ipv6 rs pkt) ∨
            accepts_ipv4 rs pkt)) := by cases v <;> rfl
      rw [this]
      simp only [accepts_ipv4, accepts_ipv6, hrs, false_or]
      constructor
      · rintro ⟨h42, h | h⟩
        · exact ⟨h42, Or.inl h⟩
        · exact ⟨h42, Or.inr h.2⟩
      · rintro ⟨h42, h | h⟩
        · exact ⟨h42, Or.inl h⟩
        · exact ⟨h42, Or.inr ⟨h42, h⟩⟩
    cases v4 <;> cases v6
    · rw [compile_eq_both rs fs false hrs hn, hboth false]
      simp only [run_filter_eq_exec, true_and]
      exact run_prog_both pkt rs hL
    · rw [compile_eq_ipv6 rs fs hrs hn]
      simp only [run_filter_eq_exec, filter_accepts, accepts_ipv6, hrs, false_or, true_and]
      exact run_prog_ipv6 pkt rs hL
    · rw [compile_eq_ipv4 rs fs hrs hn]
      simp only [run_filter_eq_exec, filter_accepts, accepts_ipv4, hrs, false_or, true_and]
      exact run_prog_ipv4 pkt rs hL
    · rw [compile_eq_both rs fs true hrs hn, hboth true]
      simp only [run_filter_eq_exec, true_and]
      exact run_prog_both pkt rs hL

/-- With IPv4 enabled (IPv4 only, or both families), a frame whose Ethertype
is not the Ethertype of an enabled family is ignored. -/
theorem compile_rejects_other_ethertype (v6 : Bool) (rs : List portrange)
    (fs : List sock_filter) (pkt : List Nat) (hn : rs.length ≤ 32)
    (h4 : frame_ethertype pkt ≠ ETHERTYPE_IP)
    (h6 : v6 = true → frame_ethertype pkt ≠ ETHERTYPE_IPV6) :
    run_filter (compile ⟨true, v6, rs, fs⟩).2._M_filters pkt = some 0 ∧
    (v6 = true → run_filter (compile ⟨false, false, rs, fs⟩).2._M_filters pkt = some 0) := by
  have hn4 : ¬ accepts_ipv4 rs pkt := fun h => h4 h.2.1
  refine ⟨?_, fun hv => ?_⟩
  · apply (run_filter_compile true v6 rs fs pkt hn).2.2
    cases v6
    · exact hn4
    · simp only [filter_accepts]
      rintro ⟨_, h | h⟩
      · exact h6 rfl h.1
      · exact hn4 h
  · apply (run_filter_compile false false rs fs pkt hn).2.2
    simp only [filter_accepts]
    rintro ⟨_, h | h⟩
    · exact h6 hv h.1
    · exact hn4 h

/-! ## Checksum arithmetic -/

theorem getD_lt_256 (p : List Nat) (h : ∀ b ∈ p, b < 256) (i : Nat) : p.getD i 0 < 256 := by
  by_cases hi : i < p.length
  · rw [List.getD_eq_getElem _ _ hi]
    exact h _ (List.getElem_mem _)
  · rw [List.getD_eq_default _ _ (by omega)]
    omega

theorem ntohs_load_u16 (p : List Nat) (h : ∀ b ∈ p, b < 256) (off : Nat) :
    ntohs (load_u16 p off) = be16 p off := by
  have h0 := getD_lt_256 p h off
  have h1 := getD_lt_256 p h (off + 1)
  unfold ntohs load_u16 be16
  omega

theorem be16_lt (p : List Nat) (h : ∀ b ∈ p, b < 256) (off : Nat) : be16 p off < 65536 := by
  have h0 := getD_lt_256 p h off
  have h1 := getD_lt_256 p h (off + 1)
  unfold be16
  omega

theorem ntohs_htons (c : Nat) (h : c < 65536) : ntohs (htons c) = c := by
  unfold ntohs htons
  have hhi : c / 256 % 256 = c / 256 := Nat.mod_eq_of_lt (by omega)
  rw [hhi]
  have a1 : (c % 256 * 256 + c / 256) % 256 = c / 256 := by omega
  have a2 : (c % 256 * 256 + c / 256) / 256 = c % 256 := by omega
  rw [a1, a2]
  omega

theorem ntohs_byte (b : Nat) (h : b < 256) : ntohs b = b * 256 := by
  unfold ntohs
  omega

theorem be_words_sum_store_u16 (v : Nat) : be_words_sum (store_u16 v) = ntohs v := by
  simp [be_words_sum, store_u16, ntohs]

/-- The word sum of a concatenation, when the first part has an even number
of bytes. -/
theorem be_words_sum_append (A B : List Nat) (h : A.length % 2 = 0) :
    be_words_sum (A ++ B) = be_words_sum A + be_words_sum B := by
  induction A using be_words_sum.induct with
  | case1 => simp [be_words_sum]
  | case2 b => simp at h
  | case3 b0 b1 rest ih =>
    simp only [List.length_cons] at h
    simp only [List.cons_append, be_words_sum, List.append_eq]
    rw [ih (by omega)]
    omega

theorem csum_fold_eq (fuel : Nat) : ∀ sum, sum ≤ fuel →
    csum_fold fuel sum = if sum = 0 then 0 else (sum - 1) % 65535 + 1 := by
  induction fuel with
  | zero => intro sum h; have : sum = 0 := by omega
            subst this; rfl
  | succ n ih =>
    intro sum h
    unfold csum_fold
    by_cases hgt : sum > USHRT_MAX
    · simp only [hgt, if_true]
      unfold USHRT_MAX at hgt
      have e1 : sum >>> 16 = sum / 65536 := by rw [Nat.shiftRight_eq_div_pow]
      have e2 : sum &&& 0xffff = sum % 65536 := Nat.and_pow_two_sub_one_eq_mod sum 16
      rw [e1, e2, ih _ (by omega)]
      have hs : ¬ sum = 0 := by omega
      have hn : ¬ (sum / 65536 + sum % 65536 = 0) := by omega
      simp only [hs, hn, if_false]
      omega
    · simp only [hgt, if_false]
      unfold USHRT_MAX at hgt
      split_ifs with h0
      · exact h0
      · omega

theorem csum_fold_le (sum : Nat) : csum_fold sum sum ≤ 65535 := by
  rw [csum_fold_eq sum sum (le_refl _)]
  split_ifs <;> omega

/-- Appending the complement of the folded sum makes the folded sum `0xFFFF`. -/
theorem csum_fold_complement (S T : Nat) (hT : T = S + (65535 - csum_fold S S)) :
    csum_fold T T = 65535 := by
  have hF := csum_fold_eq S S (le_refl _)
  rw [csum_fold_eq T T (le_refl _)]
  by_cases hS : S = 0
  · subst hS
    simp at hF
    simp [hT, hF]
  · simp only [hS, if_false] at hF
    have hT0 : ¬ T = 0 := by omega
    simp only [hT0, if_false]
    omega

theorem csum_finish_eq (F : Nat) (h : F ≤ 65535) : ntohs (csum_finish F) = 65535 - F := by
  unfold csum_finish
  rw [ntohs_htons _ (Nat.mod_lt _ (by omega))]
  omega

theorem be_words_sum_le (L : List Nat) (h : ∀ b ∈ L, b < 256) :
    be_words_sum L ≤ 65535 * ((L.length + 1) / 2) := by
  induction L using be_words_sum.induct with
  | case1 => simp [be_words_sum]
  | case2 b =>
    have := h b (by simp)
    simp [be_words_sum]
    omega
  | case3 b0 b1 rest ih =>
    have h0 := h b0 (by simp)
    have h1 := h b1 (by simp)
    have := ih (fun b hb => h b (by simp [hb]))
    simp only [be_words_sum, List.length_cons]
    omega

theorem drop_eq_cons_cons (p : List Nat) (k : Nat) (h : k + 1 < p.length) :
    p.drop k = p.getD k 0 :: p.getD (k + 1) 0 :: p.drop (k + 2) := by
  rw [List.drop_eq_getElem_cons (by omega : k < p.length), List.drop_eq_getElem_cons h,
    List.getD_eq_getElem _ _ (by omega : k < p.length), List.getD_eq_getElem _ _ h]

/-- The word loops compute the sum of the big-endian words of the bytes they
run over, modulo `2^32`. -/
theorem csum_loop_eq (p : List Nat) (hp : ∀ b ∈ p, b < 256) (base limit : Nat) :
    ∀ fuel i sum, sum < 4294967296 → (limit - i + 1) / 2 ≤ fuel →
      base + i + 2 * ((limit - i + 1) / 2) ≤ p.length →
      csum_loop p base limit fuel i sum =
        (sum + be_words_sum ((p.drop (base + i)).take (2 * ((limit - i + 1) / 2)))) %
          4294967296 := by
  intro fuel
  induction fuel with
  | zero =>
    intro i sum hs hf _
    have hn : (limit - i + 1) / 2 = 0 := by omega
    simp only [csum_loop, hn, Nat.mul_zero, List.take_zero, be_words_sum, Nat.add_zero]
    omega
  | succ n ih =>
    intro i sum hs hf hb
    unfold csum_loop
    by_cases hlt : i < limit
    · simp only [hlt, if_true]
      have hn : (limit - i + 1) / 2 = (limit - (i + 2) + 1) / 2 + 1 := by omega
      have hadd : add32 sum (ntohs (load_u16 p (base + i))) < 4294967296 := by
        unfold add32; omega
      rw [ih (i + 2) _ hadd (by omega) (by omega), hn,
        drop_eq_cons_cons p (base + i) (by omega), ntohs_load_u16 p hp]
      have e : 2 * ((limit - (i + 2) + 1) / 2 + 1) = 2 * ((limit - (i + 2) + 1) / 2) + 1 + 1 := by
        omega
      rw [e]
      simp only [List.take_succ_cons, be_words_sum, add32, be16]
      have e2 : base + (i + 2) = base + i + 2 := by omega
      rw [e2]
      omega
    · simp only [hlt, if_false]
      have hn : (limit - i + 1) / 2 = 0 := by omega
      simp only [hn, Nat.mul_zero, List.take_zero, be_words_sum, Nat.add_zero]
      omega

theorem be_words_sum_take4 (l : List Nat) (h : 4 ≤ l.length) :
    be_words_sum (l.take 4) = be16 l 0 + be16 l 2 := by
  match l, h with
  | a :: b :: c :: d :: rest, _ => simp [be_words_sum, be16]

theorem take_drop_split (p : List Nat) (a m n : Nat) :
    (p.drop a).take (m + n) = (p.drop a).take m ++ (p.drop (a + m)).take n := by
  rw [List.take_add, List.drop_drop]

theorem length_take_drop (p : List Nat) (a n : Nat) (h : a + n ≤ p.length) :
    ((p.drop a).take n).length = n := by
  simp; omega

theorem gather_ipv4_vec_header (dest : destination) (pkt : List Nat) (hl udphdr udl c1 c2 : Nat)
    (hd : dest.wf) (hlen : 14 + hl ≤ pkt.length) (hhl : 20 ≤ hl) (hhl60 : hl ≤ 60) :
    ((gather (ipv4_vec dest pkt hl udphdr udl c1 c2)).drop 14).take hl =
      (pkt.drop 14).take 10 ++ (store_u16 c1 ++ (dest.iface.addr4 ++ (dest.addr.take 4 ++
        (pkt.drop 34).take (hl - 20)))) := by
  obtain ⟨hm1, ha, _, hm2, ha4, _, _, _, _⟩ := hd
  have e64 : (hl + 18446744073709551616 - 20) % 18446744073709551616 = hl - 20 := by omega
  have hE : (pkt.drop 12).take 12 = (pkt.drop 12).take 2 ++ (pkt.drop 14).take 10 :=
    take_drop_split pkt 12 2 10
  have hs : ∀ c, (store_u16 c).take 2 = store_u16 c := fun c => rfl
  simp only [gather, ipv4_vec, iovec.bytes, List.map_cons, List.map_nil, List.flatten_cons,
    List.flatten_nil, ETHER_ADDR_LEN, offsetof_ether_type, offsetof_iphdr_check, sizeof_in_addr,
    sizeof_ether_header, sizeof_iphdr, e64, Nat.reduceAdd, hE, List.append_nil, hs,
    List.take_of_length_le (Nat.le_of_eq hm1), List.take_of_length_le (Nat.le_of_eq hm2),
    List.take_of_length_le (Nat.le_of_eq ha4)]
  have hshape : ∀ R : List Nat, dest.macaddr ++ (dest.iface.macaddr ++
      ((pkt.drop 12).take 2 ++ (pkt.drop 14).take 10 ++ (store_u16 c1 ++ (dest.iface.addr4 ++
        (dest.addr.take 4 ++ ((pkt.drop 34).take (hl - 20) ++ R)))))) =
      (dest.macaddr ++ (dest.iface.macaddr ++ (pkt.drop 12).take 2)) ++
        (((pkt.drop 14).take 10 ++ (store_u16 c1 ++ (dest.iface.addr4 ++ (dest.addr.take 4 ++
          (pkt.drop 34).take (hl - 20))))) ++ R) := by
    intro R
    simp only [List.append_assoc]
  rw [hshape, List.drop_left' (by
      simp only [List.length_append, hm1, hm2, length_take_drop pkt 12 2 (by omega)]),
    List.take_left' (by
      simp only [List.length_append, ha4, length_take_drop pkt 14 10 (by omega),
        length_take_drop pkt 34 (hl - 20) (by omega), List.length_take, ha, store_u16,
        List.length_cons, List.length_nil]
      omega)]

theorem ipv4_header_checksum_eq (dest : destination) (pkt : List Nat) (hl : Nat)
    (hd : dest.wf) (hp : ∀ b ∈ pkt, b < 256) (hlen : 14 + hl ≤ pkt.length) (hhl : 20 ≤ hl)
    (hhl60 : hl ≤ 60) (heven : hl % 2 = 0) :
    ntohs (ipv4_header_checksum dest pkt hl) = 65535 -
      csum_fold
        (be_words_sum ((pkt.drop 14).take 10) + be_words_sum dest.iface.addr4 +
          be_words_sum (dest.addr.take 4) + be_words_sum ((pkt.drop 34).take (hl - 20)))
        (be_words_sum ((pkt.drop 14).take 10) + be_words_sum dest.iface.addr4 +
          be_words_sum (dest.addr.take 4) + be_words_sum ((pkt.drop 34).take (hl - 20))) := by
  obtain ⟨hm1, ha, _, hm2, ha4, _, hba, hba4, _⟩ := hd
  have hW1 := be_words_sum_le ((pkt.drop 14).take 10)
    (fun b hb => hp b (List.mem_of_mem_drop (List.mem_of_mem_take hb)))
  have hWo := be_words_sum_le ((pkt.drop 34).take (hl - 20))
    (fun b hb => hp b (List.mem_of_mem_drop (List.mem_of_mem_take hb)))
  rw [length_take_drop pkt 14 10 (by omega)] at hW1
  rw [length_take_drop pkt 34 (hl - 20) (by omega)] at hWo
  have hA4 : be_words_sum dest.iface.addr4 = be16 dest.iface.addr4 0 + be16 dest.iface.addr4 2 := by
    have := be_words_sum_take4 dest.iface.addr4 (by omega)
    rwa [List.take_of_length_le (Nat.le_of_eq ha4)] at this
  have hD4 := be_words_sum_take4 dest.addr (by omega)
  have b1 := be16_lt dest.iface.addr4 hba4 0
  have b2 := be16_lt dest.iface.addr4 hba4 2
  have b3 := be16_lt dest.addr hba 0
  have b4 := be16_lt dest.addr hba 2
  have e1 : 2 * ((10 - 0 + 1) / 2) = 10 := by decide
  have e2 : 2 * ((hl - 20 + 1) / 2) = hl - 20 := by omega
  unfold ipv4_header_checksum
  simp only [sizeof_ether_header, offsetof_iphdr_check, sizeof_iphdr]
  rw [csum_loop_eq pkt hp 14 10 10 0 0 (by omega) (by omega) (by omega), e1,
    ntohs_load_u16 _ hba4, ntohs_load_u16 _ hba4, ntohs_load_u16 _ hba, ntohs_load_u16 _ hba]
  rw [csum_loop_eq pkt hp 14 hl hl 20 _ (by unfold add32; omega) (by omega) (by omega), e2]
  rw [hA4, hD4]
  have hsum : (add32 (add32 (add32 (add32
        ((0 + be_words_sum ((pkt.drop (14 + 0)).take 10)) % 4294967296)
        (be16 dest.iface.addr4 0)) (be16 dest.iface.addr4 2)) (be16 dest.addr 0))
        (be16 dest.addr 2) + be_words_sum ((pkt.drop (14 + 20)).take (hl - 20))) % 4294967296 =
      be_words_sum ((pkt.drop 14).take 10) + (be16 dest.iface.addr4 0 + be16 dest.iface.addr4 2) +
        (be16 dest.addr 0 + be16 dest.addr 2) + be_words_sum ((pkt.drop 34).take (hl - 20)) := by
    unfold add32
    simp only [Nat.add_zero, Nat.reduceAdd]
    omega
  rw [hsum]
  exact csum_finish_eq _ (csum_fold_le _)

theorem be_words_sum_take_drop2 (p : List Nat) (k : Nat) (h : k + 1 < p.length) :
    be_words_sum ((p.drop k).take 2) = be16 p k := by
  rw [drop_eq_cons_cons p k h]
  simp [be_words_sum, be16]

/-- The payload part of the checksum: the big-endian words of the payload, an
odd last byte padded with a zero byte, are added modulo `2^32`. -/
theorem csum_data_eq (p : List Nat) (hp : ∀ b ∈ p, b < 256) (off n sum : Nat)
    (hs : sum < 4294967296) (hlen : off + n ≤ p.length) :
    csum_data p off n sum = (sum + be_words_sum ((p.drop off).take n)) % 4294967296 := by
  unfold csum_data
  have hloop := csum_loop_eq p hp off (n - 1) n 0 sum hs (by omega) (by omega)
  have e : 2 * ((n - 1 - 0 + 1) / 2) = 2 * (n / 2) := by omega
  simp only [e, Nat.add_zero] at hloop
  simp only [hloop]
  have hand : n &&& 1 = n % 2 := Nat.and_one_is_mod n
  by_cases hodd : n % 2 = 1
  · have hne : n &&& 1 ≠ 0 := by omega
    simp only [hne, ne_eq, not_false_eq_true, if_true]
    have hn : n = 2 * (n / 2) + 1 := by omega
    have hsplit : (p.drop off).take n =
        (p.drop off).take (2 * (n / 2)) ++ [p.getD (off + n - 1) 0] := by
      conv_lhs => rw [hn]
      rw [take_drop_split p off (2 * (n / 2)) 1,
        List.drop_eq_getElem_cons (by omega : off + 2 * (n / 2) < p.length)]
      simp only [List.take_succ_cons, List.take_zero]
      rw [List.getD_eq_getElem _ _ (by omega)]
      congr 3
      omega
    have hbyte := getD_lt_256 p hp (off + n - 1)
    rw [hsplit, be_words_sum_append _ _ (by
      rw [length_take_drop p off (2 * (n / 2)) (by omega)]; omega)]
    simp only [be_words_sum, ntohs_byte _ hbyte, add32]
    omega
  · have hz : n &&& 1 = 0 := by omega
    simp only [hz, ne_eq, not_true, if_false]
    have hn : 2 * (n / 2) = n := by omega
    rw [hn]

theorem csum_addr6_loop (a6 a : List Nat) (hb6 : ∀ b ∈ a6, b < 256) (hba : ∀ b ∈ a, b < 256) :
    ∀ fuel i sum, sum < 4294967296 → (16 - i + 1) / 2 ≤ fuel →
      i + 2 * ((16 - i + 1) / 2) ≤ a6.length → i + 2 * ((16 - i + 1) / 2) ≤ a.length →
      csum_addr6 a6 a fuel i sum =
        (sum + be_words_sum ((a6.drop i).take (2 * ((16 - i + 1) / 2))) +
          be_words_sum ((a.drop i).take (2 * ((16 - i + 1) / 2)))) % 4294967296 := by
  intro fuel
  induction fuel with
  | zero =>
    intro i sum hs hf _ _
    have hn : (16 - i + 1) / 2 = 0 := by omega
    simp only [csum_addr6, hn, Nat.mul_zero, List.take_zero, be_words_sum, Nat.add_zero]
    omega
  | succ n ih =>
    intro i sum hs hf h6 ha
    unfold csum_addr6
    by_cases hlt : i < 16
    · simp only [sizeof_in6_addr, hlt, if_true]
      have hn : (16 - i + 1) / 2 = (16 - (i + 2) + 1) / 2 + 1 := by omega
      have hadd : add32 (add32 sum (ntohs (load_u16 a6 i))) (ntohs (load_u16 a i)) <
          4294967296 := by
        unfold add32; omega
      rw [ih (i + 2) _ hadd (by omega) (by omega) (by omega), hn,
        drop_eq_cons_cons a6 i (by omega), drop_eq_cons_cons a i (by omega),
        ntohs_load_u16 a6 hb6, ntohs_load_u16 a hba]
      have e : 2 * ((16 - (i + 2) + 1) / 2 + 1) = 2 * ((16 - (i + 2) + 1) / 2) + 1 + 1 := by
        omega
      rw [e]
      simp only [List.take_succ_cons, be_words_sum, add32, be16]
      omega
    · simp only [sizeof_in6_addr, hlt, if_false]
      have hn : (16 - i + 1) / 2 = 0 := by omega
      simp only [hn, Nat.mul_zero, List.take_zero, be_words_sum, Nat.add_zero]
      omega

theorem csum_addr6_eq (a6 a : List Nat) (h6 : a6.length = 16) (ha : a.length = 16)
    (hb6 : ∀ b ∈ a6, b < 256) (hba : ∀ b ∈ a, b < 256) :
    csum_addr6 a6 a sizeof_in6_addr 0 0 = be_words_sum a6 + be_words_sum a := by
  have h := csum_addr6_loop a6 a hb6 hba 16 0 0 (by omega) (by omega) (by omega) (by omega)
  have e : 2 * ((16 - 0 + 1) / 2) = 16 := by decide
  simp only [e, List.drop_zero, List.take_of_length_le (Nat.le_of_eq h6),
    List.take_of_length_le (Nat.le_of_eq ha), Nat.zero_add] at h
  have b6 := be_words_sum_le a6 hb6
  have ba := be_words_sum_le a hba
  rw [h6] at b6
  rw [ha] at ba
  unfold sizeof_in6_addr
  rw [h]
  omega

theorem gather_ipv6_vec_udp (dest : destination) (pkt : List Nat) (udl c : Nat)
    (hd : dest.wf) (hlen : 62 ≤ pkt.length) :
    (gather (ipv6_vec dest pkt 54 udl c)).drop 54 =
      (pkt.drop 56).take 2 ++ (store_u16 dest.port ++ ((pkt.drop 58).take 2 ++
        (store_u16 c ++ (pkt.drop 62).take udl))) := by
  obtain ⟨hm1, ha, _, hm2, _, ha6, _, _, _⟩ := hd
  have hs : ∀ c, (store_u16 c).take 2 = store_u16 c := fun c => rfl
  simp only [gather, ipv6_vec, iovec.bytes, List.map_cons, List.map_nil, List.flatten_cons,
    List.flatten_nil, ETHER_ADDR_LEN, offsetof_ether_type, offsetof_ip6_src, sizeof_in6_addr,
    offsetof_udphdr_dest, sizeof_udphdr, Nat.reduceAdd, List.append_nil, hs,
    List.take_of_length_le (Nat.le_of_eq hm1), List.take_of_length_le (Nat.le_of_eq hm2),
    List.take_of_length_le (Nat.le_of_eq ha6), List.take_of_length_le (Nat.le_of_eq ha)]
  have hshape : ∀ R : List Nat, dest.macaddr ++ (dest.iface.macaddr ++
      ((pkt.drop 12).take 10 ++ (dest.iface.addr6 ++ (dest.addr ++ R)))) =
      (dest.macaddr ++ (dest.iface.macaddr ++
        ((pkt.drop 12).take 10 ++ (dest.iface.addr6 ++ dest.addr)))) ++ R := by
    intro R
    simp only [List.append_assoc]
  rw [hshape, List.drop_left' (by
      simp only [List.length_append, hm1, hm2, ha, ha6, length_take_drop pkt 12 10 (by omega)])]

theorem ntohs_le (x : Nat) : ntohs x ≤ 65535 := by
  unfold ntohs
  omega

/-- The value of the UDP checksum `send_ipv6` computes, for a datagram of
`udplen ≥ 8` bytes inside the frame. -/
theorem ipv6_udp_checksum_eq (dest : destination) (pkt : List Nat) (udplen : Nat)
    (hd : dest.wf) (hp : ∀ b ∈ pkt, b < 256) (hu8 : 8 ≤ udplen) (hu : udplen ≤ 65535)
    (hlen : 54 + udplen ≤ pkt.length) :
    ntohs (ipv6_udp_checksum dest pkt 54 udplen (udplen - 8)) = 65535 -
      csum_fold
        (be_words_sum dest.iface.addr6 + be_words_sum dest.addr + udplen + 17 + be16 pkt 56 +
          ntohs dest.port + udplen + be_words_sum ((pkt.drop 62).take (udplen - 8)))
        (be_words_sum dest.iface.addr6 + be_words_sum dest.addr + udplen + 17 + be16 pkt 56 +
          ntohs dest.port + udplen + be_words_sum ((pkt.drop 62).take (udplen - 8))) := by
  obtain ⟨_, ha, _, _, _, ha6, hba, _, hba6⟩ := hd
  have b6 := be_words_sum_le dest.iface.addr6 hba6
  have ba := be_words_sum_le dest.addr hba
  rw [ha6] at b6
  rw [ha] at ba
  have hD := be_words_sum_le ((pkt.drop 62).take (udplen - 8))
    (fun b hb => hp b (List.mem_of_mem_drop (List.mem_of_mem_take hb)))
  rw [length_take_drop pkt 62 (udplen - 8) (by omega)] at hD
  have hP := be16_lt pkt hp 56
  have hQ := ntohs_le dest.port
  have hDle : be_words_sum ((pkt.drop 62).take (udplen - 8)) ≤ 65535 * 32764 := by
    have : (udplen - 8 + 1) / 2 ≤ 32764 := by omega
    calc be_words_sum ((pkt.drop 62).take (udplen - 8))
        ≤ 65535 * ((udplen - 8 + 1) / 2) := hD
      _ ≤ 65535 * 32764 := Nat.mul_le_mul_left _ this
  unfold ipv6_udp_checksum
  simp only [offsetof_udphdr_dest, sizeof_udphdr, IPPROTO_UDP, Nat.reduceAdd]
  rw [csum_addr6_eq _ _ ha6 ha hba6 hba, ntohs_load_u16 pkt hp,
    csum_data_eq pkt hp 62 (udplen - 8) _ (by unfold add32; omega) (by omega)]
  have hsum : (add32 (add32 (add32 (add32 (add32
        (be_words_sum dest.iface.addr6 + be_words_sum dest.addr) udplen) 17) (be16 pkt 56))
        (ntohs dest.port)) udplen + be_words_sum ((pkt.drop 62).take (udplen - 8))) %
          4294967296 =
      be_words_sum dest.iface.addr6 + be_words_sum dest.addr + udplen + 17 + be16 pkt 56 +
        ntohs dest.port + udplen + be_words_sum ((pkt.drop 62).take (udplen - 8)) := by
    unfold add32
    omega
  rw [hsum]
  exact csum_finish_eq _ (csum_fold_le _)

/-! ## The frames `send_ipv4` and `send_ipv6` emit -/

/-- The bytes of the gather list of `send_ipv4`. -/
theorem gather_ipv4_vec (dest : destination) (pkt : List Nat) (hl udl c1 c2 : Nat)
    (hd : dest.wf) (hhl : 20 ≤ hl) (hhl60 : hl ≤ 60) :
    gather (ipv4_vec dest pkt hl (sizeof_ether_header + hl) udl c1 c2) =
      dest.macaddr ++ (dest.iface.macaddr ++ ((pkt.drop 12).take 12 ++ (store_u16 c1 ++
        (dest.iface.addr4 ++ (dest.addr.take 4 ++ ((pkt.drop 34).take (hl - 20) ++
          ((pkt.drop (14 + hl + 2)).take 2 ++ (store_u16 dest.port ++
            ((pkt.drop (14 + hl + 4)).take 2 ++ (store_u16 c2 ++
              (pkt.drop (14 + hl + 8)).take udl)))))))))) := by
  obtain ⟨hm1, ha, _, hm2, ha4, _, _, _, _⟩ := hd
  have e64 : (hl + 18446744073709551616 - 20) % 18446744073709551616 = hl - 20 := by omega
  have hs : ∀ c, (store_u16 c).take 2 = store_u16 c := fun c => rfl
  simp only [gather, ipv4_vec, iovec.bytes, List.map_cons, List.map_nil, List.flatten_cons,
    List.flatten_nil, ETHER_ADDR_LEN, offsetof_ether_type, offsetof_iphdr_check, sizeof_in_addr,
    sizeof_ether_header, sizeof_iphdr, offsetof_udphdr_dest, sizeof_udphdr, e64, Nat.reduceAdd,
    List.append_nil, hs,
    List.take_of_length_le (Nat.le_of_eq hm1), List.take_of_length_le (Nat.le_of_eq hm2),
    List.take_of_length_le (Nat.le_of_eq ha4)]

/-- The UDP datagram of the frame `send_ipv4` emits. -/
theorem gather_ipv4_vec_udp (dest : destination) (pkt : List Nat) (hl udl c1 c2 : Nat)
    (hd : dest.wf) (hlen : 14 + hl ≤ pkt.length) (hhl : 20 ≤ hl) (hhl60 : hl ≤ 60) :
    (gather (ipv4_vec dest pkt hl (sizeof_ether_header + hl) udl c1 c2)).drop (14 + hl) =
      (pkt.drop (14 + hl + 2)).take 2 ++ (store_u16 dest.port ++
        ((pkt.drop (14 + hl + 4)).take 2 ++ (store_u16 c2 ++
          (pkt.drop (14 + hl + 8)).take udl))) := by
  rw [gather_ipv4_vec dest pkt hl udl c1 c2 hd hhl hhl60]
  obtain ⟨hm1, ha, _, hm2, ha4, _, _, _, _⟩ := hd
  have hshape : ∀ R : List Nat, dest.macaddr ++ (dest.iface.macaddr ++
      ((pkt.drop 12).take 12 ++ (store_u16 c1 ++ (dest.iface.addr4 ++
        (dest.addr.take 4 ++ ((pkt.drop 34).take (hl - 20) ++ R)))))) =
      (dest.macaddr ++ (dest.iface.macaddr ++ ((pkt.drop 12).take 12 ++ (store_u16 c1 ++
        (dest.iface.addr4 ++ (dest.addr.take 4 ++ (pkt.drop 34).take (hl - 20))))))) ++ R := by
    intro R
    simp only [List.append_assoc]
  rw [hshape, List.drop_left' (by
      simp only [List.length_append, hm1, hm2, ha4, length_take_drop pkt 12 12 (by omega),
        length_take_drop pkt 34 (hl - 20) (by omega), List.length_take, ha, store_u16,
        List.length_cons, List.length_nil]
      omega)]

/-- The value of the UDP checksum `send_ipv4` computes, for a datagram of
`udplen ≥ 8` bytes at offset `off` inside the frame. -/
theorem ipv4_udp_checksum_eq (dest : destination) (pkt : List Nat) (off udplen : Nat)
    (hd : dest.wf) (hp : ∀ b ∈ pkt, b < 256) (hu8 : 8 ≤ udplen) (hu : udplen ≤ 65535)
    (hlen : off + udplen ≤ pkt.length) :
    ntohs (ipv4_udp_checksum dest pkt off udplen (udplen - 8)) = 65535 -
      csum_fold
        (be_words_sum dest.iface.addr4 + be_words_sum (dest.addr.take 4) + 17 + udplen +
          be16 pkt (off + 2) + ntohs dest.port + udplen +
          be_words_sum ((pkt.drop (off + 8)).take (udplen - 8)))
        (be_words_sum dest.iface.addr4 + be_words_sum (dest.addr.take 4) + 17 + udplen +
          be16 pkt (off + 2) + ntohs dest.port + udplen +
          be_words_sum ((pkt.drop (off + 8)).take (udplen - 8))) := by
  obtain ⟨_, ha, _, _, ha4, _, hba, hba4, _⟩ := hd
  have b4 := be_words_sum_le dest.iface.addr4 hba4
  have ba := be_words_sum_le (dest.addr.take 4) (fun b hb => hba b (List.mem_of_mem_take hb))
  rw [ha4] at b4
  rw [List.length_take, ha] at ba
  have e4 : be_words_sum dest.iface.addr4 = be16 dest.iface.addr4 0 + be16 dest.iface.addr4 2 := by
    have := be_words_sum_take4 dest.iface.addr4 (by omega)
    rwa [List.take_of_length_le (Nat.le_of_eq ha4)] at this
  have ea := be_words_sum_take4 dest.addr (by omega)
  have hD := be_words_sum_le ((pkt.drop (off + 8)).take (udplen - 8))
    (fun b hb => hp b (List.mem_of_mem_drop (List.mem_of_mem_take hb)))
  rw [length_take_drop pkt (off + 8) (udplen - 8) (by omega)] at hD
  have hP := be16_lt pkt hp (off + 2)
  have hQ := ntohs_le dest.port
  have hDle : be_words_sum ((pkt.drop (off + 8)).take (udplen - 8)) ≤ 65535 * 32764 := by
    have : (udplen - 8 + 1) / 2 ≤ 32764 := by omega
    calc be_words_sum ((pkt.drop (off + 8)).take (udplen - 8))
        ≤ 65535 * ((udplen - 8 + 1) / 2) := hD
      _ ≤ 65535 * 32764 := Nat.mul_le_mul_left _ this
  have h0 := be16_lt dest.iface.addr4 hba4 0
  have h2 := be16_lt dest.iface.addr4 hba4 2
  have h3 := be16_lt dest.addr hba 0
  have h4 := be16_lt dest.addr hba 2
  unfold ipv4_udp_checksum
  simp only [offsetof_udphdr_dest, sizeof_udphdr, IPPROTO_UDP]
  rw [ntohs_load_u16 pkt hp, ntohs_load_u16 _ hba4, ntohs_load_u16 _ hba4,
    ntohs_load_u16 _ hba, ntohs_load_u16 _ hba,
    csum_data_eq pkt hp (off + 8) (udplen - 8) _ (by unfold add32; omega) (by omega)]
  have hsum : (add32 (add32 (add32 (add32 (add32 (add32 (add32 (add32
        (be16 dest.iface.addr4 0) (be16 dest.iface.addr4 2)) (be16 dest.addr 0))
        (be16 dest.addr 2)) 17) udplen) (be16 pkt (off + 2))) (ntohs dest.port)) udplen +
        be_words_sum ((pkt.drop (off + 8)).take (udplen - 8))) % 4294967296 =
      be_words_sum dest.iface.addr4 + be_words_sum (dest.addr.take 4) + 17 + udplen +
        be16 pkt (off + 2) + ntohs dest.port + udplen +
        be_words_sum ((pkt.drop (off + 8)).take (udplen - 8)) := by
    unfold add32
    omega
  rw [hsum]
  exact csum_finish_eq _ (csum_fold_le _)

/-- One step along a concatenation: after the segment `S` of length `n` at
offset `k` comes the rest. -/
theorem drop_step (G S T : List Nat) (k n : Nat) (h : G.drop k = S ++ T) (hn : S.length = n) :
    G.drop (k + n) = T ∧ (G.drop k).take n = S := by
  constructor
  · rw [← List.drop_drop, h, List.drop_left' hn]
  · rw [h, List.take_left' hn]

/-- Equal segments hold equal bytes. -/
theorem getElem?_of_segment_eq (A B : List Nat) (a n i : Nat)
    (h : (A.drop a).take n = (B.drop a).take n) (h1 : a ≤ i) (h2 : i < a + n) :
    A[i]? = B[i]? := by
  have e : ∀ L : List Nat, L[i]? = ((L.drop a).take n)[i - a]? := by
    intro L
    rw [List.getElem?_take_of_lt (by omega), List.getElem?_drop]
    congr 1
    omega
  rw [e A, e B, h]

/-- The bytes of the gather list of `send_ipv6`. -/
theorem gather_ipv6_vec (dest : destination) (pkt : List Nat) (udl c : Nat) (hd : dest.wf) :
    gather (ipv6_vec dest pkt (sizeof_ether_header + sizeof_ip6_hdr) udl c) =
      dest.macaddr ++ (dest.iface.macaddr ++ ((pkt.drop 12).take 10 ++ (dest.iface.addr6 ++
        (dest.addr ++ ((pkt.drop 56).take 2 ++ (store_u16 dest.port ++
          ((pkt.drop 58).take 2 ++ (store_u16 c ++ (pkt.drop 62).take udl)))))))) := by
  obtain ⟨hm1, ha, _, hm2, _, ha6, _, _, _⟩ := hd
  have hs : ∀ c, (store_u16 c).take 2 = store_u16 c := fun c => rfl
  simp only [gather, ipv6_vec, iovec.bytes, List.map_cons, List.map_nil, List.flatten_cons,
    List.flatten_nil, ETHER_ADDR_LEN, offsetof_ether_type, offsetof_ip6_src, sizeof_in6_addr,
    sizeof_ether_header, sizeof_ip6_hdr, offsetof_udphdr_dest, sizeof_udphdr, Nat.reduceAdd,
    List.append_nil, hs,
    List.take_of_length_le (Nat.le_of_eq hm1), List.take_of_length_le (Nat.le_of_eq hm2),
    List.take_of_length_le (Nat.le_of_eq ha6), List.take_of_length_le (Nat.le_of_eq ha)]

/-- The fields of the frame `send_ipv4` emits, segment by segment. -/
theorem gather_ipv4_vec_fields (dest : destination) (pkt : List Nat) (hl udl c1 c2 : Nat)
    (hd : dest.wf) (hlen : 14 + hl + 8 + udl ≤ pkt.length) (hhl : 20 ≤ hl) (hhl60 : hl ≤ 60)
    (G : List Nat) (hG : G = gather (ipv4_vec dest pkt hl (sizeof_ether_header + hl) udl c1 c2)) :
    G.take 6 = dest.macaddr ∧ (G.drop 6).take 6 = dest.iface.macaddr ∧
    (G.drop 12).take 12 = (pkt.drop 12).take 12 ∧ (G.drop 24).take 2 = store_u16 c1 ∧
    (G.drop 26).take 4 = dest.iface.addr4 ∧ (G.drop 30).take 4 = dest.addr.take 4 ∧
    (G.drop 34).take (hl - 20) = (pkt.drop 34).take (hl - 20) ∧
    (G.drop (14 + hl)).take 2 = (pkt.drop (14 + hl + 2)).take 2 ∧
    (G.drop (14 + hl + 2)).take 2 = store_u16 dest.port ∧
    (G.drop (14 + hl + 4)).take 2 = (pkt.drop (14 + hl + 4)).take 2 ∧
    (G.drop (14 + hl + 6)).take 2 = store_u16 c2 ∧
    G.drop (14 + hl + 8) = (pkt.drop (14 + hl + 8)).take udl ∧
    G.length = 14 + hl + 8 + udl := by
  have hg := gather_ipv4_vec dest pkt hl udl c1 c2 hd hhl hhl60
  rw [← hG] at hg
  obtain ⟨hm1, ha, _, hm2, ha4, _, _, _, _⟩ := hd
  have hst : ∀ c, (store_u16 c).length = 2 := fun c => rfl
  have hat : (dest.addr.take 4).length = 4 := by rw [List.length_take, ha]; rfl
  obtain ⟨d6, s0⟩ := drop_step G _ _ 0 6 (by rw [List.drop_zero]; exact hg) hm1
  obtain ⟨d12, s6⟩ := drop_step G _ _ _ 6 d6 hm2
  obtain ⟨d24, s12⟩ := drop_step G _ _ _ 12 d12 (length_take_drop pkt 12 12 (by omega))
  obtain ⟨d26, s24⟩ := drop_step G _ _ _ 2 d24 (hst c1)
  obtain ⟨d30, s26⟩ := drop_step G _ _ _ 4 d26 ha4
  obtain ⟨d34, s30⟩ := drop_step G _ _ _ 4 d30 hat
  obtain ⟨dU, s34⟩ := drop_step G _ _ _ (hl - 20) d34
    (length_take_drop pkt 34 (hl - 20) (by omega))
  have e : 0 + 6 + 6 + 12 + 2 + 4 + 4 + (hl - 20) = 14 + hl := by omega
  rw [e] at dU
  obtain ⟨dU2, sU⟩ := drop_step G _ _ _ 2 dU (length_take_drop pkt (14 + hl + 2) 2 (by omega))
  obtain ⟨dU4, sU2⟩ := drop_step G _ _ _ 2 dU2 (hst dest.port)
  obtain ⟨dU6, sU4⟩ := drop_step G _ _ _ 2 dU4 (length_take_drop pkt (14 + hl + 4) 2 (by omega))
  obtain ⟨dU8, sU6⟩ := drop_step G _ _ _ 2 dU6 (hst c2)
  have hlenG : G.length = 14 + hl + 8 + udl := by
    have := congrArg List.length dU8
    rw [List.length_drop, length_take_drop pkt (14 + hl + 8) udl (by omega)] at this
    have h0 : G.length ≠ 0 ∨ udl = 0 := by omega
    have hge : 14 + hl + 8 ≤ G.length := by
      have h2 := congrArg List.length sU6
      rw [List.length_take, List.length_drop, hst] at h2
      omega
    omega
  rw [List.drop_zero] at s0
  exact ⟨s0, s6, s12, s24, s26, s30, s34, sU, sU2, sU4, sU6, dU8, hlenG⟩

/-- The fields of the frame `send_ipv6` emits, segment by segment. -/
theorem gather_ipv6_vec_fields (dest : destination) (pkt : List Nat) (udl c : Nat)
    (hd : dest.wf) (hlen : 62 ≤ pkt.length)
    (G : List Nat)
    (hG : G = gather (ipv6_vec dest pkt (sizeof_ether_header + sizeof_ip6_hdr) udl c)) :
    G.take 6 = dest.macaddr ∧ (G.drop 6).take 6 = dest.iface.macaddr ∧
    (G.drop 12).take 10 = (pkt.drop 12).take 10 ∧
    (G.drop 22).take 16 = dest.iface.addr6 ∧ (G.drop 38).take 16 = dest.addr ∧
    (G.drop 54).take 2 = (pkt.drop 56).take 2 ∧
    (G.drop 56).take 2 = store_u16 dest.port ∧
    (G.drop 58).take 2 = (pkt.drop 58).take 2 ∧
    (G.drop 60).take 2 = store_u16 c ∧
    G.drop 62 = (pkt.drop 62).take udl := by
  have hg := gather_ipv6_vec dest pkt udl c hd
  rw [← hG] at hg
  obtain ⟨hm1, ha, _, hm2, _, ha6, _, _, _⟩ := hd
  have hst : ∀ c, (store_u16 c).length = 2 := fun c => rfl
  obtain ⟨d6, s0⟩ := drop_step G _ _ 0 6 (by rw [List.drop_zero]; exact hg) hm1
  obtain ⟨d12, s6⟩ := drop_step G _ _ _ 6 d6 hm2
  obtain ⟨d22, s12⟩ := drop_step G _ _ _ 10 d12 (length_take_drop pkt 12 10 (by omega))
  obtain ⟨d38, s22⟩ := drop_step G _ _ _ 16 d22 ha6
  obtain ⟨d54, s38⟩ := drop_step G _ _ _ 16 d38 ha
  obtain ⟨d56, s54⟩ := drop_step G _ _ _ 2 d54 (length_take_drop pkt 56 2 (by omega))
  obtain ⟨d58, s56⟩ := drop_step G _ _ _ 2 d56 (hst dest.port)
  obtain ⟨d60, s58⟩ := drop_step G _ _ _ 2 d58 (length_take_drop pkt 58 2 (by omega))
  obtain ⟨d62, s60⟩ := drop_step G _ _ _ 2 d60 (hst c)
  rw [List.drop_zero] at s0
  exact ⟨s0, s6, s12, s22, s38, s54, s56, s58, s60, d62⟩

/-! ## Destination tables, workers and the distributor -/

/-- The number of `k < K` with `k % M = j`. -/
theorem length_filter_range_mod (M j : Nat) (hj : j < M) (K : Nat) :
    ((List.range K).filter (fun k => k % M = j)).length =
      K / M + if j < K % M then 1 else 0 := by
  have hM : 0 < M := by omega
  induction K with
  | zero => simp [Nat.zero_mod]
  | succ K ih =>
    rw [List.range_succ, List.filter_append, List.length_append, ih]
    have hdm := Nat.div_add_mod K M
    have hr := Nat.mod_lt K hM
    by_cases hlast : K % M + 1 < M
    · have e1 : (K + 1) / M = K / M := by
        have : K + 1 = (K % M + 1) + M * (K / M) := by omega
        rw [this, Nat.add_mul_div_left _ _ hM, Nat.div_eq_of_lt hlast]
        omega
      have e2 : (K + 1) % M = K % M + 1 := by
        have : K + 1 = (K % M + 1) + M * (K / M) := by omega
        rw [this, Nat.add_mul_mod_self_left, Nat.mod_eq_of_lt hlast]
      rw [e1, e2]
      by_cases hk : K % M = j
      · simp [hk]
      · have hf : (if false = true then [K] else ([] : List Nat)) = [] := rfl
        have : decide (K % M = j) = false := by simpa using hk
        simp only [List.filter_cons, this, hf, List.filter_nil, List.length_nil]
        split_ifs <;> omega
    · have hrM : K % M + 1 = M := by omega
      have e1 : (K + 1) / M = K / M + 1 := by
        have : K + 1 = 0 + M * (K / M + 1) := by
          rw [Nat.mul_add]; omega
        rw [this, Nat.add_mul_div_left _ _ hM, Nat.zero_div]
        omega
      have e2 : (K + 1) % M = 0 := by
        have : K + 1 = 0 + M * (K / M + 1) := by
          rw [Nat.mul_add]; omega
        rw [this, Nat.add_mul_mod_self_left, Nat.zero_mod]
      rw [e1, e2]
      by_cases hk : K % M = j
      · simp [hk]
      · have hf : (if false = true then [K] else ([] : List Nat)) = [] := rfl
        have : decide (K % M = j) = false := by simpa using hk
        simp only [List.filter_cons, this, hf, List.filter_nil, List.length_nil]
        split_ifs <;> omega

/-- The index recorded by a call of the send function. -/
theorem call_send_idx (t : destinations) (i : Nat) (d : destination) (pkt : List Nat)
    (pktlen : Nat) : (t.call_send i d pkt pktlen).idx = i := by
  unfold destinations.call_send
  cases t._M_send <;> rfl

/-- The send function recorded by a call of the send function. -/
theorem call_send_af (t : destinations) (i : Nat) (d : destination) (pkt : List Nat)
    (pktlen : Nat) : (t.call_send i d pkt pktlen).af = t._M_send := by
  unfold destinations.call_send
  cases h : t._M_send <;> rfl

/-- A run of `forward` from cursor `c`: the cursor advances by one modulo
`_M_used` with each frame, and frame `k` is offered to record `(c + k) % _M_used`. -/
theorem process_frames_forward (t : destinations)
    (hproc : t._M_process = some type.load_balancer) :
    ∀ (frames : List (List Nat × Nat)) (c : Nat), c < t._M_used →
      ∃ offers, process_frames { t with _M_idx := c } frames =
          some ({ t with _M_idx := (c + frames.length) % t._M_used }, offers) ∧
        offers.length = frames.length ∧
        ∀ k f, frames[k]? = some f →
          ∃ d, t._M_destinations[(c + k) % t._M_used]? = some d ∧
            offers[k]? = some (t.call_send ((c + k) % t._M_used) d f.1 f.2) := by
  intro frames
  induction frames with
  | nil =>
    intro c hc
    refine ⟨[], ?_, rfl, ?_⟩
    · simp only [process_frames, List.length_nil, Nat.add_zero, Nat.mod_eq_of_lt hc]
    · intro k f hk
      simp at hk
  | cons f fs ih =>
    intro c hc
    have hM : 0 < t._M_used := by omega
    have hc' : (c + 1) % t._M_used < t._M_used := Nat.mod_lt _ hM
    obtain ⟨offs, hrun, hlen, hk⟩ := ih ((c + 1) % t._M_used) hc'
    have hget : t._M_destinations[c]? = some (t._M_destinations.get ⟨c, hc⟩) :=
      List.getElem?_eq_getElem hc
    have hstep : destinations.process { t with _M_idx := c } f.1 f.2 =
        some ({ t with _M_idx := (c + 1) % t._M_used },
          [t.call_send c (t._M_destinations.get ⟨c, hc⟩) f.1 f.2]) := by
      simp only [destinations.process, hproc, destinations.forward, hget]
      rfl
    refine ⟨t.call_send c (t._M_destinations.get ⟨c, hc⟩) f.1 f.2 :: offs, ?_, ?_, ?_⟩
    · simp only [process_frames, hstep, hrun, Option.map_some', List.singleton_append,
        List.length_cons]
      have : ((c + 1) % t._M_used + fs.length) % t._M_used =
          (c + (fs.length + 1)) % t._M_used := by
        rw [Nat.add_mod, Nat.mod_mod, ← Nat.add_mod]
        congr 1
        omega
      rw [this]
    · simp only [List.length_cons, hlen]
    · intro k g hg
      cases k with
      | zero =>
        simp only [List.getElem?_cons_zero, Option.some.injEq] at hg
        subst hg
        refine ⟨t._M_destinations.get ⟨c, hc⟩, ?_, ?_⟩
        · simp only [Nat.add_zero, Nat.mod_eq_of_lt hc, hget]
        · simp only [Nat.add_zero, Nat.mod_eq_of_lt hc, List.getElem?_cons_zero]
      | succ k =>
        simp only [List.getElem?_cons_succ] at hg
        obtain ⟨d, hd1, hd2⟩ := hk k g hg
        have e : ((c + 1) % t._M_used + k) % t._M_used = (c + (k + 1)) % t._M_used := by
          rw [Nat.add_mod, Nat.mod_mod, ← Nat.add_mod]
          congr 1
          omega
        rw [e] at hd1 hd2
        exact ⟨d, hd1, by simpa only [List.getElem?_cons_succ] using hd2⟩

/-- The loop of `broadcast` calls the send function once for every record, in
the order of the records. -/
theorem broadcast_loop_spec (t : destinations) (pkt : List Nat) (pktlen : Nat) :
    ∀ (ds : List destination) (i0 : Nat),
      (t.broadcast_loop pkt pktlen i0 ds).length = ds.length ∧
      ∀ k d, ds[k]? = some d →
        (t.broadcast_loop pkt pktlen i0 ds)[k]? = some (t.call_send (i0 + k) d pkt pktlen) := by
  intro ds
  induction ds with
  | nil =>
    intro i0
    refine ⟨rfl, ?_⟩
    intro k d h
    simp at h
  | cons a rest ih =>
    intro i0
    obtain ⟨hl, hk⟩ := ih (i0 + 1)
    refine ⟨by simp only [destinations.broadcast_loop, List.length_cons, hl], ?_⟩
    intro k d h
    cases k with
    | zero =>
      simp only [List.getElem?_cons_zero, Option.some.injEq] at h
      subst h
      simp only [destinations.broadcast_loop, List.getElem?_cons_zero, Nat.add_zero]
    | succ k =>
      simp only [List.getElem?_cons_succ] at h
      have := hk k d h
      simp only [destinations.broadcast_loop, List.getElem?_cons_succ, this]
      congr 2
      omega

set_option maxRecDepth 100000 in
/-- The mask `0xf0` selects the high nibble of a byte. -/
theorem and_f0_eq (b : Nat) (h : b < 256) :
    (b &&& 0xf0 = 0x40 ↔ b / 16 = 4) ∧ (b &&& 0xf0 = 0x60 ↔ b / 16 = 6) := by
  have key : ∀ x, x < 256 → x &&& 0xf0 = x / 16 * 16 := by decide
  rw [key b h]
  omega

/-- The loop of `fnpackets` over the packets after the first. -/
theorem fnpackets_loop_cons (p : iovec) (ps : List iovec) (n : Nat) :
    ∀ (fuel i : Nat) (w : worker),
      worker.fnpackets_loop (p :: ps) (n + 1) fuel (i + 1) w =
        worker.fnpackets_loop ps n fuel i w := by
  intro fuel
  induction fuel with
  | zero => intro i w; rfl
  | succ fuel ih =>
    intro i w
    simp only [worker.fnpackets_loop, Nat.add_lt_add_iff_right, List.getElem?_cons_succ]
    by_cases hi : i < n
    · simp only [hi, if_true]
      cases ps[i]? with
      | none => rfl
      | some q =>
        simp only
        cases w.fnpacket q.iov_base q.iov_len with
        | none => rfl
        | some r => simp only [ih]
    · simp only [hi, if_false]

/-- A failed `destinations::add` leaves the table as it was; a successful one
appends one record and changes nothing but the capacity. -/
theorem destinations_add_spec (t : destinations) (realloc_ok : Bool)
    (old_addr macaddr addr : List Nat) (addrlen port : Nat) (iface : interface) :
    ((t.add realloc_ok old_addr macaddr addr addrlen port iface).2 = false →
      (t.add realloc_ok old_addr macaddr addr addrlen port iface).1 = t) ∧
    ((t.add realloc_ok old_addr macaddr addr addrlen port iface).2 = true →
      (t.add realloc_ok old_addr macaddr addr addrlen port iface).1._M_destinations =
          t._M_destinations ++ [destination.mk (macaddr.take 6)
            (addr.take addrlen ++ old_addr.drop addrlen) addrlen (htons port) iface] ∧
        (t.add realloc_ok old_addr macaddr addr addrlen port iface).1._M_idx = t._M_idx ∧
        (t.add realloc_ok old_addr macaddr addr addrlen port iface).1._M_process =
          t._M_process ∧
        (t.add realloc_ok old_addr macaddr addr addrlen port iface).1._M_send = t._M_send) := by
  unfold destinations.add
  by_cases hfull : t._M_used = t._M_size
  · cases realloc_ok
    · simp [hfull]
    · simp [hfull, memcpy, ETHER_ADDR_LEN]
  · simp [hfull, memcpy, ETHER_ADDR_LEN]

/-- A failed `worker::add_destination` leaves the worker as it was; a
successful one appends the record to the table of the family of the address,
on the first interface with the index asked for. -/
theorem worker_add_spec (w : worker) (i : Nat) (r : add_request) :
    ((w.add i r).2 = false → (w.add i r).1 = w) ∧
    ((w.add i r).2 = true →
      ∃ iface, w._M_interfaces.find? (fun x => decide (r.ifindex = x.index)) = some iface ∧
        worker.appended w (w.add i r).1 (r.record i iface) ∧
        (w.add i r).1.ndestinations = w.ndestinations + 1) := by
  unfold worker.add worker.add_destination
  cases hf : w._M_interfaces.find? (fun x => decide (r.ifindex = x.index)) with
  | none => simp
  | some iface =>
    simp only
    by_cases h4 : r.addrlen = sizeof_in_addr
    · simp only [h4, if_true]
      obtain ⟨hfail, hok⟩ := destinations_add_spec w._M_ipv4_destinations (r.realloc_ok i)
        (r.old_addr i) r.macaddr r.addr sizeof_in_addr r.port iface
      refine ⟨?_, ?_⟩
      · intro h
        rw [hfail h]
      · intro h
        obtain ⟨h1, _, _, _⟩ := hok h
        refine ⟨iface, rfl, ⟨rfl, Or.inl ⟨?_, rfl⟩⟩, ?_⟩
        · rw [h1]
          simp only [add_request.record, memcpy, ETHER_ADDR_LEN, h4]
        · simp only [worker.ndestinations, destinations._M_used, h1, List.length_append,
            List.length_singleton]
          omega
    · by_cases h6 : r.addrlen = sizeof_in6_addr
      · simp only [h4, h6, if_true, if_false]
        have h46 : ¬ sizeof_in6_addr = sizeof_in_addr := by decide
        simp only [h46, if_false]
        obtain ⟨hfail, hok⟩ := destinations_add_spec w._M_ipv6_destinations (r.realloc_ok i)
          (r.old_addr i) r.macaddr r.addr sizeof_in6_addr r.port iface
        refine ⟨?_, ?_⟩
        · intro h
          rw [hfail h]
        · intro h
          obtain ⟨h1, _, _, _⟩ := hok h
          refine ⟨iface, rfl, ⟨rfl, Or.inr ⟨?_, rfl⟩⟩, ?_⟩
          · rw [h1]
            simp only [add_request.record, memcpy, ETHER_ADDR_LEN, h6]
          · simp only [worker.ndestinations, destinations._M_used, h1, List.length_append,
              List.length_singleton]
            omega
      · simp [h4, h6]

/-- One call of `add_destination` in load-balancer mode: on success the worker
at the cursor, and no other, has the record appended and the cursor advances by
one modulo the number of workers; on failure nothing changes. -/
theorem add_lb_step (d : udp_distributor) (r : add_request)
    (ht : d._M_type = some type.load_balancer) (hidx : d._M_idx < d._M_workers.length) :
    ∃ d2 ok w, d.add r = some (d2, ok) ∧ d._M_workers[d._M_idx]? = some w ∧
      d2._M_type = d._M_type ∧ d2._M_workers.length = d._M_workers.length ∧
      (ok = false → d2 = d) ∧
      (ok = true → 0 < r.ifindex ∧ (w.add d._M_idx r).2 = true ∧
        d2._M_idx = (d._M_idx + 1) % d._M_workers.length ∧
        d2._M_workers[d._M_idx]? = some (w.add d._M_idx r).1 ∧
        ∀ j, j ≠ d._M_idx → d2._M_workers[j]? = d._M_workers[j]?) := by
  obtain ⟨ty, ws, idx⟩ := d
  simp only at ht hidx ⊢
  subst ht
  have hget : ws[idx]? = some (ws.get ⟨idx, hidx⟩) := List.getElem?_eq_getElem hidx
  have hself : ws.set idx (ws.get ⟨idx, hidx⟩) = ws := by
    apply List.ext_getElem?
    intro k
    by_cases hk : idx = k
    · subst hk
      rw [List.getElem?_set_self hidx, hget]
    · rw [List.getElem?_set_ne hk]
  by_cases hif : r.ifindex > 0
  · cases hok : ((ws.get ⟨idx, hidx⟩).add idx r).2 with
    | false =>
      have hw := (worker_add_spec (ws.get ⟨idx, hidx⟩) idx r).1 hok
      have hok2 : ((ws.get ⟨idx, hidx⟩).add_destination (r.realloc_ok idx)
          (r.old_addr idx) r.ifindex r.macaddr r.addr r.addrlen r.port).2 = false := hok
      have hw2 : ((ws.get ⟨idx, hidx⟩).add_destination (r.realloc_ok idx)
          (r.old_addr idx) r.ifindex r.macaddr r.addr r.addrlen r.port).1 =
            ws.get ⟨idx, hidx⟩ := hw
      refine ⟨⟨some type.load_balancer, ws, idx⟩, false, _, ?_, hget, rfl, rfl, fun _ => rfl,
        fun h => by simp at h⟩
      simp only [udp_distributor.add, udp_distributor.add_destination, hif, if_true, hget,
        hok2, hw2, hself, Bool.false_eq_true, if_false]
    | true =>
      have hok2 : ((ws.get ⟨idx, hidx⟩).add_destination (r.realloc_ok idx)
          (r.old_addr idx) r.ifindex r.macaddr r.addr r.addrlen r.port).2 = true := hok
      refine ⟨⟨some type.load_balancer, ws.set idx ((ws.get ⟨idx, hidx⟩).add idx r).1,
        (idx + 1) % ws.length⟩, true, _, ?_, hget, ?_, ?_, fun h => by simp at h,
        fun _ => ⟨hif, hok, ?_, ?_, ?_⟩⟩
      · simp only [udp_distributor.add, udp_distributor.add_destination, hif, if_true, hget,
          hok2]
        rfl
      · rfl
      · simp only [List.length_set]
      · rfl
      · simp only [List.getElem?_set_self hidx]
      · intro j hj
        simp only [List.getElem?_set_ne (Ne.symm hj)]
  · refine ⟨⟨some type.load_balancer, ws, idx⟩, false, _, ?_, hget, rfl, rfl, fun _ => rfl,
      fun h => by simp at h⟩
    simp only [udp_distributor.add, udp_distributor.add_destination, hif, if_false]

/-- The loop of the broadcaster branch: when it reports success every worker
has added the destination. -/
theorem add_destination_loop_spec (r : add_request) :
    ∀ (ws : List worker) (i0 : Nat),
      (udp_distributor.add_destination_loop r.realloc_ok r.old_addr r.ifindex r.macaddr r.addr
        r.addrlen r.port i0 ws).2 = true →
      (udp_distributor.add_destination_loop r.realloc_ok r.old_addr r.ifindex r.macaddr r.addr
        r.addrlen r.port i0 ws).1.length = ws.length ∧
      ∀ (j : Nat) (w : worker), ws[j]? = some w → (w.add (i0 + j) r).2 = true ∧
        (udp_distributor.add_destination_loop r.realloc_ok r.old_addr r.ifindex r.macaddr r.addr
          r.addrlen r.port i0 ws).1[j]? = some (w.add (i0 + j) r).1 := by
  intro ws
  induction ws with
  | nil =>
    intro i0 _
    refine ⟨rfl, ?_⟩
    intro j w h
    simp at h
  | cons a rest ih =>
    intro i0 h
    unfold udp_distributor.add_destination_loop at h ⊢
    cases ha : (a.add_destination (r.realloc_ok i0) (r.old_addr i0) r.ifindex r.macaddr r.addr
        r.addrlen r.port).2 with
    | false => simp [ha] at h
    | true =>
      simp only [ha, if_true] at h ⊢
      obtain ⟨hl, hk⟩ := ih (i0 + 1) h
      refine ⟨by simp only [List.length_cons, hl], ?_⟩
      intro j w hj
      cases j with
      | zero =>
        simp only [List.getElem?_cons_zero, Option.some.injEq] at hj
        subst hj
        exact ⟨ha, by simp only [List.getElem?_cons_zero, Nat.add_zero]; rfl⟩
      | succ j =>
        simp only [List.getElem?_cons_succ] at hj
        have := hk j w hj
        have e : i0 + 1 + j = i0 + (j + 1) := by omega
        rw [e] at this
        exact ⟨this.1, by simpa only [List.getElem?_cons_succ] using this.2⟩

/-- One more number in the count of the `k < s` with `k % N = j`. -/
theorem length_filter_range_succ (N j s : Nat) :
    ((List.range (s + 1)).filter (fun k => k % N = j)).length =
      ((List.range s).filter (fun k => k % N = j)).length + if s % N = j then 1 else 0 := by
  rw [List.range_succ, List.filter_append, List.length_append]
  by_cases h : s % N = j
  · simp [h]
  · simp [h]

/-- A run of `add_destination` in load-balancer mode, from a state reached by
`s` successful calls: every call returns, the cursor is the number of
successful calls modulo the number `N` of workers, and worker `j` has gained
one record for every successful call whose number is `j` modulo `N`. -/
theorem add_destinations_run (N : Nat) (hN : 0 < N) (base : Nat → Nat) :
    ∀ (reqs : List add_request) (d : udp_distributor) (s : Nat),
      d._M_type = some type.load_balancer → d._M_workers.length = N → d._M_idx = s % N →
      (∀ (j : Nat) (w : worker), d._M_workers[j]? = some w →
        w.ndestinations = base j + ((List.range s).filter (fun k => k % N = j)).length) →
      ∃ d1 oks, add_destinations d reqs = some (d1, oks) ∧ oks.length = reqs.length ∧
        d1._M_type = some type.load_balancer ∧ d1._M_workers.length = N ∧
        d1._M_idx = (s + oks.count true) % N ∧
        ∀ (j : Nat) (w : worker), d1._M_workers[j]? = some w →
          w.ndestinations =
            base j + ((List.range (s + oks.count true)).filter (fun k => k % N = j)).length := by
  intro reqs
  induction reqs with
  | nil =>
    intro d s ht hl hi hc
    exact ⟨d, [], rfl, rfl, ht, hl, by simpa using hi, by simpa using hc⟩
  | cons r rs ih =>
    intro d s ht hl hi hc
    have hlt : d._M_idx < d._M_workers.length := by
      rw [hi, hl]
      exact Nat.mod_lt _ hN
    obtain ⟨d2, ok, w, hstep, hw, ht2, hl2, hfail, hsucc⟩ := add_lb_step d r ht hlt
    cases ok with
    | false =>
      have hd2 := hfail rfl
      subst hd2
      obtain ⟨d1, oks, hrun, hlen, h1, h2, h3, h4⟩ := ih d2 s ht hl hi hc
      refine ⟨d1, false :: oks, ?_, by simp [hlen], h1, h2, ?_, ?_⟩
      · simp only [add_destinations, hstep, hrun, Option.map_some']
      · simpa using h3
      · simpa using h4
    | true =>
      obtain ⟨_, hwok, hidx2, hget2, hother⟩ := hsucc rfl
      have hi2 : d2._M_idx = (s + 1) % N := by
        rw [hidx2, hi, hl, Nat.add_mod, Nat.mod_mod, ← Nat.add_mod]
      have hc2 : ∀ (j : Nat) (w : worker), d2._M_workers[j]? = some w →
          w.ndestinations =
            base j + ((List.range (s + 1)).filter (fun k => k % N = j)).length := by
        intro j w2 hj
        rw [length_filter_range_succ]
        by_cases hjs : j = d._M_idx
        · subst hjs
          rw [hget2] at hj
          simp only [Option.some.injEq] at hj
          subst hj
          obtain ⟨_, _, _, hn⟩ := (worker_add_spec w d._M_idx r).2 hwok
          rw [hn, hc _ w hw, hi]
          simp
          omega
        · rw [hother j hjs] at hj
          rw [hc j w2 hj]
          have : ¬ s % N = j := by
            rw [← hi]
            exact fun h => hjs h.symm
          simp [this]
      obtain ⟨d1, oks, hrun, hlen, h1, h2, h3, h4⟩ :=
        ih d2 (s + 1) (by rw [ht2, ht]) (by rw [hl2, hl]) hi2 hc2
      have e : s + 1 + oks.count true = s + (true :: oks).count true := by
        simp only [List.count_cons_self]
        omega
      refine ⟨d1, true :: oks, ?_, by simp [hlen], h1, h2, ?_, ?_⟩
      · simp only [add_destinations, hstep, hrun, Option.map_some']
      · rw [← e]
        exact h3
      · rw [← e]
        exact h4

/-- The workers `create` sets up: as many as asked for, none holding a
destination. -/
theorem create_workers_spec (t : type) (rx_ok : Nat → Bool) :
    ∀ (n i : Nat) (ws : List worker), udp_distributor.create_workers t rx_ok n i = some ws →
      ws.length = n ∧ ∀ w ∈ ws, w.ndestinations = 0 := by
  intro n
  induction n with
  | zero =>
    intro i ws h
    simp only [udp_distributor.create_workers, Option.some.injEq] at h
    subst h
    exact ⟨rfl, fun w hw => by simp at hw⟩
  | succ n ih =>
    intro i ws h
    unfold udp_distributor.create_workers at h
    cases hok : rx_ok i with
    | false => simp [worker.create, hok] at h
    | true =>
      simp only [worker.create, hok, if_true] at h
      cases hrec : udp_distributor.create_workers t rx_ok n (i + 1) with
      | none => simp [hrec] at h
      | some ws1 =>
        simp only [hrec, Option.map_some', Option.some.injEq] at h
        subst h
        obtain ⟨hl, hz⟩ := ih (i + 1) ws1 hrec
        refine ⟨by simp only [List.length_cons, hl], ?_⟩
        intro w hw
        simp only [List.mem_cons] at hw
        rcases hw with hw | hw
        · subst hw
          rfl
        · exact hz w hw

/-- A successful `create` on a new distributor: the mode is set, the number of
workers is the number asked for (between 1 and 32), the cursor is 0 and no
worker holds a destination. -/
theorem create_spec (rx_ok : Nat → Bool) (t : type) (ring_size ifindex nworkers : Nat)
    (h : (udp_distributor.new.create rx_ok t ring_size ifindex nworkers).2 = true) :
    (udp_distributor.new.create rx_ok t ring_size ifindex nworkers).1._M_type = some t ∧
    (udp_distributor.new.create rx_ok t ring_size ifindex nworkers).1._M_nworkers = nworkers ∧
    (udp_distributor.new.create rx_ok t ring_size ifindex nworkers).1._M_idx = 0 ∧
    1 ≤ nworkers ∧ nworkers ≤ 32 ∧
    ∀ w ∈ (udp_distributor.new.create rx_ok t ring_size ifindex nworkers).1._M_workers,
      w.ndestinations = 0 := by
  unfold udp_distributor.create at h ⊢
  by_cases hc : ring_size ≥ ring_buffer.min_size ∧ ring_size ≤ ring_buffer.max_size ∧
      ifindex > 0 ∧ nworkers ≥ udp_distributor.min_workers ∧
      nworkers ≤ udp_distributor.max_workers
  · simp only [hc, and_self, if_true] at h ⊢
    cases hws : udp_distributor.create_workers t rx_ok nworkers 0 with
    | none => simp [hws] at h
    | some ws =>
      obtain ⟨hl, hz⟩ := create_workers_spec t rx_ok nworkers 0 ws hws
      simp only [udp_distributor._M_nworkers]
      exact ⟨trivial, hl, rfl, hc.2.2.2.1, hc.2.2.2.2, hz⟩
  · simp [hc] at h

/-! ## The parsers of numbers and sizes -/

theorem IS_DIGIT_iff (c : Nat) : IS_DIGIT c = true ↔ 48 ≤ c ∧ c ≤ 57 := by
  simp [IS_DIGIT]

theorem digits_value_from_cons (v c : Nat) (ds : List Nat) :
    digits_value_from v (c :: ds) = digits_value_from (v * 10 + (c - 48)) ds := rfl

/-- Appending digits does not make the number smaller. -/
theorem le_digits_value_from (ds : List Nat) : ∀ v, v ≤ digits_value_from v ds := by
  induction ds with
  | nil => intro v; exact Nat.le_refl _
  | cons c ds ih =>
    intro v
    rw [digits_value_from_cons]
    have := ih (v * 10 + (c - 48))
    omega

/-- The accumulator of `parse_number` never decreases. -/
theorem le_parse_number_loop (s : List Nat) : ∀ res r, parse_number_loop res s = some r →
    res ≤ r := by
  induction s with
  | nil =>
    intro res r h
    simp only [parse_number_loop, Option.some.injEq] at h
    omega
  | cons c s ih =>
    intro res r h
    simp only [parse_number_loop] at h
    split_ifs at h with h1 h2
    have := ih _ r h
    omega

/-- A run of the loop of `parse_number` that ends at most at `T`, where
`10 * T` fits in 64 bits, has read digits only and has not wrapped. -/
theorem parse_number_loop_exact (T : Nat) (hT : 10 * T < 18446744073709551616) (s : List Nat) :
    ∀ res r, parse_number_loop res s = some r → r ≤ T →
      (∀ c ∈ s, IS_DIGIT c = true) ∧ r = digits_value_from res s := by
  induction s with
  | nil =>
    intro res r h _
    simp only [parse_number_loop, Option.some.injEq] at h
    exact ⟨fun c hc => by simp at hc, h.symm⟩
  | cons c s ih =>
    intro res r h hr
    simp only [parse_number_loop] at h
    split_ifs at h with h1 h2
    have hmono := le_parse_number_loop s _ r h
    obtain ⟨hd, hv⟩ := ih _ r h hr
    have hc := (IS_DIGIT_iff c).1 h1
    have hexact : (res * 10 + (c - 48)) % 18446744073709551616 = res * 10 + (c - 48) := by
      omega
    rw [hexact] at hv
    refine ⟨?_, hv⟩
    intro x hx
    rcases List.mem_cons.1 hx with rfl | hx
    · exact h1
    · exact hd x hx

/-- On digits whose number fits in 64 bits the loop of `parse_number`
computes that number. -/
theorem parse_number_loop_digits (s : List Nat) : ∀ res, (∀ c ∈ s, IS_DIGIT c = true) →
    digits_value_from res s < 18446744073709551616 →
    parse_number_loop res s = some (digits_value_from res s) := by
  induction s with
  | nil => intro res _ _; rfl
  | cons c s ih =>
    intro res hd hv
    have h1 := hd c (List.mem_cons_self _ _)
    have hc := (IS_DIGIT_iff c).1 h1
    rw [digits_value_from_cons] at hv ⊢
    have hle := le_digits_value_from s (res * 10 + (c - 48))
    have hexact : (res * 10 + (c - 48)) % 18446744073709551616 = res * 10 + (c - 48) := by
      omega
    simp only [parse_number_loop, h1, if_true, hexact]
    have hge : res * 10 + (c - 48) ≥ res := by omega
    simp only [hge, if_true]
    exact ih _ (fun x hx => hd x (List.mem_cons_of_mem _ hx)) hv

/-- What the loop of `parse_size` yields is at most `max`. -/
theorem parse_size_le_max (min max : Nat) (s : List Nat) :
    ∀ pos res v, parse_size_loop min max pos res s = some v → v ≤ max := by
  induction s with
  | nil =>
    intro pos res v h
    simp only [parse_size_loop] at h
    split_ifs at h with hc
    simp only [Option.some.injEq] at h
    omega
  | cons c s ih =>
    intro pos res v h
    simp only [parse_size_loop, parse_size_suffix, decide_eq_true_eq] at h
    split_ifs at h with h1
    · exact ih _ _ v h
    all_goals
      simp only [Option.some.injEq] at h
      omega

/-- An accepting run of the loop of `parse_size` that yields at most `2^34`:
the rest of the string is digits and at most one suffix, nothing has wrapped,
and the bounds hold. -/
theorem parse_size_loop_sound (min max : Nat) (s : List Nat) :
    ∀ pos res v, parse_size_loop min max pos res s = some v → v ≤ 17179869184 →
      ∃ ds suffix mult, (∀ c ∈ ds, IS_DIGIT c = true) ∧ size_suffix suffix mult ∧
        s = ds ++ suffix ∧ (pos = 0 → ds ≠ []) ∧ v = digits_value_from res ds * mult ∧
        min ≤ v ∧ v ≤ max ∧ res ≤ v := by
  induction s with
  | nil =>
    intro pos res v h _
    simp only [parse_size_loop] at h
    split_ifs at h with hc
    simp only [Option.some.injEq] at h
    subst h
    refine ⟨[], [], 1, fun c hc => by simp at hc, Or.inl ⟨rfl, rfl⟩, rfl, ?_, ?_, ?_, ?_, ?_⟩
    · intro hp; omega
    · simp [digits_value_from]
    · omega
    · omega
    · omega
  | cons c s ih =>
    intro pos res v h hv
    simp only [parse_size_loop] at h
    have hsuf : ∀ mult, 1 ≤ mult → mult ≤ 1073741824 →
        parse_size_suffix min max mult (decide (pos > 0)) res (decide (s = [])) = some v →
        0 < pos ∧ s = [] ∧ v = res * mult ∧ min ≤ v ∧ v ≤ max ∧ res ≤ v := by
      intro mult hm1 hm2 hs
      simp only [parse_size_suffix, decide_eq_true_eq] at hs
      split_ifs at hs with hc
      simp only [Option.some.injEq] at hs
      obtain ⟨hp, hge, hlast, hmin, hmax⟩ := hc
      have hres : res ≤ 17179869184 := by omega
      have hprod : res * mult ≤ 17179869184 * 1073741824 :=
        Nat.mul_le_mul hres hm2
      have hex : res * mult % 18446744073709551616 = res * mult := by
        by_cases hlt : res * mult < 18446744073709551616
        · exact Nat.mod_eq_of_lt hlt
        · have : res * mult = 18446744073709551616 := by omega
          rw [this] at hs hge
          simp at hge
          subst hge
          simp at this
      rw [hex] at hs hge hmin hmax
      exact ⟨hp, hlast, hs.symm, by omega, by omega, by omega⟩
    split_ifs at h with h1 h2 hK hM hG
    · obtain ⟨ds, suffix, mult, hd, hsx, hs, _, hval, hmin, hmax, hle⟩ := ih _ _ v h hv
      have hc := (IS_DIGIT_iff c).1 h1
      have hexact : (res * 10 + (c - 48)) % 18446744073709551616 = res * 10 + (c - 48) := by
        omega
      rw [hexact] at hval hle
      refine ⟨c :: ds, suffix, mult, ?_, hsx, by rw [hs]; rfl, fun _ => List.cons_ne_nil _ _,
        hval, hmin, hmax, by omega⟩
      intro x hx
      rcases List.mem_cons.1 hx with rfl | hx
      · exact h1
      · exact hd x hx
    · obtain ⟨hp, hlast, hval, hmin, hmax, hle⟩ := hsuf 1024 (by omega) (by omega) h
      subst hK hlast
      exact ⟨[], [75], 1024, fun c hc => by simp at hc, Or.inr (Or.inl ⟨rfl, rfl⟩), rfl,
        fun h0 => by omega, hval, hmin, hmax, hle⟩
    · obtain ⟨hp, hlast, hval, hmin, hmax, hle⟩ := hsuf (1024 * 1024) (by omega) (by omega) h
      subst hM hlast
      exact ⟨[], [77], 1048576, fun c hc => by simp at hc,
        Or.inr (Or.inr (Or.inl ⟨rfl, rfl⟩)), rfl, fun h0 => by omega, hval, hmin, hmax, hle⟩
    · obtain ⟨hp, hlast, hval, hmin, hmax, hle⟩ :=
        hsuf (1024 * 1024 * 1024) (by omega) (by omega) h
      subst hG hlast
      exact ⟨[], [71], 1073741824, fun c hc => by simp at hc,
        Or.inr (Or.inr (Or.inr ⟨rfl, rfl⟩)), rfl, fun h0 => by omega, hval, hmin, hmax, hle⟩

/-- The branch of a suffix when the product fits and lies within the bounds. -/
theorem parse_size_suffix_ok (min max mult res : Nat) (hv : res * mult ≤ 17179869184)
    (hmin : min ≤ res * mult) (hmax : res * mult ≤ max) (hm1 : 1 ≤ mult) :
    parse_size_suffix min max mult true res true = some (res * mult) := by
  have hex : res * mult % 18446744073709551616 = res * mult := Nat.mod_eq_of_lt (by omega)
  have hge : res * mult ≥ res := Nat.le_mul_of_pos_right _ hm1
  simp only [parse_size_suffix, hex]
  rw [if_pos ⟨trivial, hge, trivial, hmin, hmax⟩]

/-- On digits followed by at most one suffix, the value within the bounds and
at most `2^34`, the loop of `parse_size` yields the value. -/
theorem parse_size_loop_complete (min max : Nat) (suffix : List Nat) (mult : Nat)
    (hsx : size_suffix suffix mult) (ds : List Nat) :
    ∀ pos res, (∀ c ∈ ds, IS_DIGIT c = true) → (pos > 0 ∨ ds ≠ []) →
      digits_value_from res ds * mult ≤ 17179869184 →
      min ≤ digits_value_from res ds * mult → digits_value_from res ds * mult ≤ max →
      parse_size_loop min max pos res (ds ++ suffix) =
        some (digits_value_from res ds * mult) := by
  have hm1 : 1 ≤ mult := by
    rcases hsx with ⟨_, h⟩ | ⟨_, h⟩ | ⟨_, h⟩ | ⟨_, h⟩ <;> omega
  induction ds with
  | nil =>
    intro pos res _ hp hv hmin hmax
    have hpos : pos > 0 := by
      rcases hp with h | h
      · exact h
      · exact absurd rfl h
    simp only [digits_value_from, List.foldl_nil, List.nil_append] at hv hmin hmax ⊢
    rcases hsx with ⟨hs, hm⟩ | ⟨hs, hm⟩ | ⟨hs, hm⟩ | ⟨hs, hm⟩
    · subst hs hm
      rw [Nat.mul_one] at hv hmin hmax ⊢
      simp only [parse_size_loop]
      rw [if_pos ⟨hpos, hmin, hmax⟩]
    · subst hs hm
      have hd : IS_DIGIT 75 = false := by decide
      simp only [parse_size_loop, hd, Bool.false_eq_true, if_false, if_true, hpos,
        decide_True]
      exact parse_size_suffix_ok min max _ res (by norm_num at hv ⊢; omega)
        (by norm_num at hmin ⊢; omega) (by norm_num at hmax ⊢; omega) (by norm_num)
    · subst hs hm
      have hd : IS_DIGIT 77 = false := by decide
      have h75 : ¬ (77 : Nat) = 75 := by decide
      simp only [parse_size_loop, hd, Bool.false_eq_true, if_false, if_true, hpos,
        decide_True, h75]
      exact parse_size_suffix_ok min max _ res (by norm_num at hv ⊢; omega)
        (by norm_num at hmin ⊢; omega) (by norm_num at hmax ⊢; omega) (by norm_num)
    · subst hs hm
      have hd : IS_DIGIT 71 = false := by decide
      have h75 : ¬ (71 : Nat) = 75 := by decide
      have h77 : ¬ (71 : Nat) = 77 := by decide
      simp only [parse_size_loop, hd, Bool.false_eq_true, if_false, if_true, hpos,
        decide_True, h75, h77]
      exact parse_size_suffix_ok min max _ res (by norm_num at hv ⊢; omega)
        (by norm_num at hmin ⊢; omega) (by norm_num at hmax ⊢; omega) (by norm_num)
  | cons c ds ih =>
    intro pos res hd _ hv hmin hmax
    have h1 := hd c (List.mem_cons_self _ _)
    have hc := (IS_DIGIT_iff c).1 h1
    rw [digits_value_from_cons] at hv hmin hmax ⊢
    have hle := le_digits_value_from ds (res * 10 + (c - 48))
    have hmul : digits_value_from (res * 10 + (c - 48)) ds ≤
        digits_value_from (res * 10 + (c - 48)) ds * mult := Nat.le_mul_of_pos_right _ hm1
    have hexact : (res * 10 + (c - 48)) % 18446744073709551616 = res * 10 + (c - 48) := by
      omega
    have hge : res * 10 + (c - 48) ≥ res := by omega
    simp only [List.cons_append, parse_size_loop, h1, if_true, hexact, hge]
    exact ih (pos + 1) _ (fun x hx => hd x (List.mem_cons_of_mem _ hx)) (Or.inl (by omega))
      hv hmin hmax

/-! ## Writes into the mapped memory -/

theorem mem_write_eq (mem : List Nat) (off : Nat) (bs : List Nat)
    (h : off + bs.length ≤ mem.length) :
    mem_write mem off bs = some (mem.take off ++ (bs ++ mem.drop (off + bs.length))) := by
  unfold mem_write
  rw [if_pos h]

theorem mem_write_some (mem : List Nat) (off : Nat) (bs m : List Nat)
    (h : mem_write mem off bs = some m) :
    off + bs.length ≤ mem.length ∧ m = mem.take off ++ (bs ++ mem.drop (off + bs.length)) := by
  unfold mem_write at h
  split_ifs at h with h1
  exact ⟨h1, (Option.some.inj h).symm⟩

theorem mem_write_length (mem : List Nat) (off : Nat) (bs m : List Nat)
    (h : mem_write mem off bs = some m) : m.length = mem.length := by
  obtain ⟨h1, rfl⟩ := mem_write_some mem off bs m h
  simp only [List.length_append, List.length_take, List.length_drop]
  omega

theorem mem_write_getElem? (mem : List Nat) (off : Nat) (bs m : List Nat)
    (h : mem_write mem off bs = some m) (i : Nat) :
    m[i]? = if off ≤ i ∧ i < off + bs.length then bs[i - off]? else mem[i]? := by
  obtain ⟨h1, rfl⟩ := mem_write_some mem off bs m h
  have hlen : (mem.take off).length = off := by
    rw [List.length_take]; omega
  by_cases hi : i < off
  · rw [List.getElem?_append_left (by omega), List.getElem?_take_of_lt hi, if_neg (by omega)]
  · rw [List.getElem?_append_right (by omega), hlen]
    by_cases hi2 : i < off + bs.length
    · rw [List.getElem?_append_left (by omega), if_pos (by omega)]
    · rw [List.getElem?_append_right (by omega), if_neg (by omega), List.getElem?_drop]
      congr 1
      omega

theorem mem_write_at (mem : List Nat) (off : Nat) (bs m : List Nat)
    (h : mem_write mem off bs = some m) : bytes_at m off bs := by
  intro k hk
  rw [mem_write_getElem? mem off bs m h, if_pos (by omega)]
  congr 1
  omega

theorem mem_write_outside (mem : List Nat) (off : Nat) (bs m : List Nat)
    (h : mem_write mem off bs = some m) (i : Nat) (hi : i < off ∨ off + bs.length ≤ i) :
    m[i]? = mem[i]? := by
  rw [mem_write_getElem? mem off bs m h, if_neg (by omega)]

theorem mem_write_keeps (mem : List Nat) (off : Nat) (bs m : List Nat)
    (h : mem_write mem off bs = some m) (o : Nat) (cs : List Nat) (hc : bytes_at mem o cs)
    (hd : o + cs.length ≤ off ∨ off + bs.length ≤ o) : bytes_at m o cs := by
  intro k hk
  rw [mem_write_outside mem off bs m h (o + k) (by omega)]
  exact hc k hk

theorem bytes_at_getD (m : List Nat) (off : Nat) (bs : List Nat) (h : bytes_at m off bs)
    (k : Nat) (hk : k < bs.length) : m.getD (off + k) 0 = bs.getD k 0 := by
  rw [List.getD_eq_getElem?_getD, List.getD_eq_getElem?_getD, h k hk]

theorem load_u32_store_u32 (m : List Nat) (off v : Nat) (h : bytes_at m off (store_u32 v))
    (hv : v < 4294967296) : load_u32 m off = v := by
  have h0 := bytes_at_getD m off _ h 0 (by simp [store_u32])
  have h1 := bytes_at_getD m off _ h 1 (by simp [store_u32])
  have h2 := bytes_at_getD m off _ h 2 (by simp [store_u32])
  have h3 := bytes_at_getD m off _ h 3 (by simp [store_u32])
  simp only [store_u32, List.getD_cons_zero, List.getD_cons_succ, Nat.add_zero] at h0 h1 h2 h3
  unfold load_u32
  rw [h0, h1, h2, h3]
  omega

theorem bytes_at_append (m : List Nat) (off : Nat) (as bs : List Nat)
    (h : bytes_at m off (as ++ bs)) :
    bytes_at m off as ∧ bytes_at m (off + as.length) bs := by
  constructor
  · intro k hk
    rw [h k (by rw [List.length_append]; omega), List.getElem?_append_left hk]
  · intro k hk
    rw [Nat.add_assoc, h (as.length + k) (by rw [List.length_append]; omega),
      List.getElem?_append_right (by omega)]
    congr 1
    omega

theorem load_u64_store_u64 (m : List Nat) (off v : Nat) (h : bytes_at m off (store_u64 v))
    (hv : v < 18446744073709551616) : load_u64 m off = v := by
  obtain ⟨ha, hb⟩ := bytes_at_append m off _ _ h
  have hl : (store_u32 (v % 4294967296)).length = 4 := rfl
  rw [hl] at hb
  unfold load_u64
  rw [load_u32_store_u32 m off _ ha (Nat.mod_lt _ (by norm_num)),
    load_u32_store_u32 m (off + 4) _ hb (by omega)]
  omega

theorem length_gather (iov : List iovec) (h : ∀ v ∈ iov, v.iov_len ≤ v.iov_base.length) :
    (gather iov).length = iov_total iov := by
  induction iov with
  | nil => rfl
  | cons v rest ih =>
    have hv := h v (List.mem_cons_self _ _)
    have ih2 := ih (fun w hw => h w (List.mem_cons_of_mem _ hw))
    simp only [gather, iov_total, List.map_cons, List.flatten_cons, List.length_append,
      List.sum_cons, iovec.bytes, List.length_take] at ih2 ⊢
    rw [ih2]
    omega

theorem mem_write_ok (mem : List Nat) (off : Nat) (bs : List Nat)
    (h : off + bs.length ≤ mem.length) :
    ∃ m, mem_write mem off bs = some m ∧ m.length = mem.length ∧ bytes_at m off bs ∧
      ∀ i, (i < off ∨ off + bs.length ≤ i) → m[i]? = mem[i]? := by
  have hw := mem_write_eq mem off bs h
  exact ⟨_, hw, mem_write_length _ _ _ _ hw, mem_write_at _ _ _ _ hw,
    fun i hi => mem_write_outside _ _ _ _ hw i hi⟩

theorem bytes_at_of_outside (m mem : List Nat) (o : Nat) (cs : List Nat)
    (hc : bytes_at mem o cs) (lo hi : Nat)
    (hout : ∀ i, (i < lo ∨ hi ≤ i) → m[i]? = mem[i]?)
    (hd : o + cs.length ≤ lo ∨ hi ≤ o) : bytes_at m o cs := by
  intro k hk
  rw [hout (o + k) (by omega)]
  exact hc k hk

theorem copy_iov_spec (iov : List iovec) :
    ∀ (mem : List Nat) (p : Nat), (∀ v ∈ iov, v.iov_len ≤ v.iov_base.length) →
      p + iov_total iov ≤ mem.length →
      ∃ m, copy_iov mem p iov = some (m, p + iov_total iov) ∧ m.length = mem.length ∧
        bytes_at m p (gather iov) ∧
        ∀ i, (i < p ∨ p + iov_total iov ≤ i) → m[i]? = mem[i]? := by
  induction iov with
  | nil =>
    intro mem p _ _
    exact ⟨mem, rfl, rfl, fun k hk => absurd hk (Nat.not_lt_zero _), fun _ _ => rfl⟩
  | cons v rest ih =>
    intro mem p hv hp
    have hv0 := hv v (List.mem_cons_self _ _)
    have hrest : ∀ w ∈ rest, w.iov_len ≤ w.iov_base.length :=
      fun w hw => hv w (List.mem_cons_of_mem _ hw)
    have htot : iov_total (v :: rest) = v.iov_len + iov_total rest := by
      simp [iov_total]
    have hlen : (v.iov_base.take v.iov_len).length = v.iov_len := by
      rw [List.length_take]; omega
    rw [htot] at hp
    obtain ⟨m1, hw1, hl1, hb1, ho1⟩ :=
      mem_write_ok mem p (v.iov_base.take v.iov_len) (by rw [hlen]; omega)
    obtain ⟨m, hc, hl, hb, ho⟩ := ih m1 (p + v.iov_len) hrest (by rw [hl1]; omega)
    refine ⟨m, ?_, by rw [hl, hl1], ?_, ?_⟩
    · rw [copy_iov, if_pos hv0, hw1, htot, ← Nat.add_assoc]
      exact hc
    · have hg : gather (v :: rest) = v.iov_base.take v.iov_len ++ gather rest := by
        simp [gather, iovec.bytes]
      rw [hg]
      intro k hk
      rw [List.length_append, hlen] at hk
      by_cases hk1 : k < v.iov_len
      · rw [ho (p + k) (by omega), hb1 k (by omega), List.getElem?_append_left (by omega)]
      · have hk2 := hb (k - v.iov_len) (by omega)
        rw [List.getElem?_append_right (by omega), hlen, ← hk2]
        congr 1
        omega
    · intro i hi
      rw [htot] at hi
      rw [ho i (by omega), ho1 i (by rw [hlen]; omega)]

theorem tx_set_len_spec (v : tpacket_versions) (mem : List Nat) (hdr pktlen : Nat)
    (h : hdr + tx_payload_off v ≤ mem.length) (h32 : pktlen < 4294967296) :
    ∃ m, tx_set_len v mem hdr pktlen = some m ∧ m.length = mem.length ∧
      bytes_at m (hdr + tp_snaplen_off v) (store_u32 pktlen) ∧
      bytes_at m (hdr + tp_len_off v) (store_u32 pktlen) ∧
      ∀ i, (i < hdr ∨ hdr + tx_payload_off v ≤ i) → m[i]? = mem[i]? := by
  have hl4 : ∀ x, (store_u32 x).length = 4 := fun _ => rfl
  have hmod : pktlen % 4294967296 = pktlen := Nat.mod_eq_of_lt h32
  cases v <;>
    simp only [tx_payload_off, TPACKET_HDRLEN, TPACKET2_HDRLEN, TPACKET3_HDRLEN,
      sizeof_sockaddr_ll, tp_snaplen_off, tp_len_off] at h ⊢
  · obtain ⟨m1, hw1, hl1, hb1, ho1⟩ := mem_write_ok mem (hdr + 12) (store_u32 pktlen)
      (by rw [hl4]; omega)
    obtain ⟨m2, hw2, hl2, hb2, ho2⟩ := mem_write_ok m1 (hdr + 8) (store_u32 pktlen)
      (by rw [hl4, hl1]; omega)
    rw [hl4] at ho1 ho2
    refine ⟨m2, ?_, by rw [hl2, hl1], ?_, hb2, ?_⟩
    · simp only [tx_set_len, tp_snaplen_off, tp_len_off, hmod, hw1, hw2]
    · exact bytes_at_of_outside m2 m1 _ _ hb1 _ _ ho2 (by rw [hl4]; omega)
    · intro i hi
      rw [ho2 i (by omega), ho1 i (by omega)]
  · obtain ⟨m1, hw1, hl1, hb1, ho1⟩ := mem_write_ok mem (hdr + 8) (store_u32 pktlen)
      (by rw [hl4]; omega)
    obtain ⟨m2, hw2, hl2, hb2, ho2⟩ := mem_write_ok m1 (hdr + 4) (store_u32 pktlen)
      (by rw [hl4, hl1]; omega)
    rw [hl4] at ho1 ho2
    refine ⟨m2, ?_, by rw [hl2, hl1], ?_, hb2, ?_⟩
    · simp only [tx_set_len, tp_snaplen_off, tp_len_off, hmod, hw1, hw2]
    · exact bytes_at_of_outside m2 m1 _ _ hb1 _ _ ho2 (by rw [hl4]; omega)
    · intro i hi
      rw [ho2 i (by omega), ho1 i (by omega)]
  · obtain ⟨m1, hw1, hl1, hb1, ho1⟩ := mem_write_ok mem (hdr + 12) (store_u32 pktlen)
      (by rw [hl4]; omega)
    obtain ⟨m2, hw2, hl2, hb2, ho2⟩ := mem_write_ok m1 (hdr + 16) (store_u32 pktlen)
      (by rw [hl4, hl1]; omega)
    obtain ⟨m3, hw3, hl3, _, ho3⟩ := mem_write_ok m2 hdr (store_u32 0)
      (by rw [hl4, hl2, hl1]; omega)
    rw [hl4] at ho1 ho2 ho3
    refine ⟨m3, ?_, by rw [hl3, hl2, hl1], ?_, ?_, ?_⟩
    · simp only [tx_set_len, tp_snaplen_off, tp_len_off, hmod, hw1, hw2, hw3]
    · exact bytes_at_of_outside m3 m2 _ _
        (bytes_at_of_outside m2 m1 _ _ hb1 _ _ ho2 (by rw [hl4]; omega)) _ _ ho3
        (by rw [hl4]; omega)
    · exact bytes_at_of_outside m3 m2 _ _ hb2 _ _ ho3 (by rw [hl4]; omega)
    · intro i hi
      rw [ho3 i (by omega), ho2 i (by omega), ho1 i (by omega)]

theorem tx_commit_spec (r : ring_buffer) (v : tpacket_versions) (mem : List Nat) (hdr : Nat)
    (ok : Bool) (h : hdr + tx_payload_off v ≤ mem.length) (hn : 0 < r._M_nframes) :
    ∃ m, r.tx_commit v mem hdr ok =
        some ⟨ok, none, true,
          { r with _M_buf := m, _M_tx_idx := (r._M_tx_idx + 1) % r._M_nframes }⟩ ∧
      m.length = mem.length ∧ load_status v m hdr = TP_STATUS_SEND_REQUEST ∧
      (∀ i, (i < hdr ∨ hdr + tx_payload_off v ≤ i) → m[i]? = mem[i]?) ∧
      (∀ bs : List Nat, bs.length = 4 → bytes_at mem (hdr + tp_snaplen_off v) bs →
        bytes_at m (hdr + tp_snaplen_off v) bs) ∧
      (∀ bs : List Nat, bs.length = 4 → bytes_at mem (hdr + tp_len_off v) bs →
        bytes_at m (hdr + tp_len_off v) bs) := by
  have hl4 : ∀ x, (store_u32 x).length = 4 := fun _ => rfl
  have hl8 : ∀ x, (store_u64 x).length = 8 := fun _ => rfl
  have hn0 : ¬ r._M_nframes = 0 := by omega
  cases v <;>
    simp only [tx_payload_off, TPACKET_HDRLEN, TPACKET2_HDRLEN, TPACKET3_HDRLEN,
      sizeof_sockaddr_ll, tp_snaplen_off, tp_len_off] at h ⊢
  · obtain ⟨m1, hw1, hl1, hb1, ho1⟩ :=
      mem_write_ok mem hdr (store_u64 TP_STATUS_SEND_REQUEST) (by rw [hl8]; omega)
    rw [hl8] at ho1
    refine ⟨m1, ?_, hl1, ?_, ?_, ?_, ?_⟩
    · simp only [ring_buffer.tx_commit, tp_status_off, store_status, Nat.add_zero, hw1,
        if_neg hn0]
    · exact load_u64_store_u64 m1 hdr _ hb1 (by decide)
    · intro i hi
      exact ho1 i (by omega)
    · intro bs hbs hb
      exact bytes_at_of_outside m1 mem _ _ hb _ _ ho1 (by omega)
    · intro bs hbs hb
      exact bytes_at_of_outside m1 mem _ _ hb _ _ ho1 (by omega)
  · obtain ⟨m1, hw1, hl1, hb1, ho1⟩ :=
      mem_write_ok mem hdr (store_u32 TP_STATUS_SEND_REQUEST) (by rw [hl4]; omega)
    rw [hl4] at ho1
    refine ⟨m1, ?_, hl1, ?_, ?_, ?_, ?_⟩
    · simp only [ring_buffer.tx_commit, tp_status_off, store_status, Nat.add_zero, hw1,
        if_neg hn0]
    · exact load_u32_store_u32 m1 (hdr + 0) _ hb1 (by decide)
    · intro i hi
      exact ho1 i (by omega)
    · intro bs hbs hb
      exact bytes_at_of_outside m1 mem _ _ hb _ _ ho1 (by omega)
    · intro bs hbs hb
      exact bytes_at_of_outside m1 mem _ _ hb _ _ ho1 (by omega)
  · obtain ⟨m1, hw1, hl1, hb1, ho1⟩ :=
      mem_write_ok mem (hdr + 20) (store_u32 TP_STATUS_SEND_REQUEST) (by rw [hl4]; omega)
    rw [hl4] at ho1
    refine ⟨m1, ?_, hl1, ?_, ?_, ?_, ?_⟩
    · simp only [ring_buffer.tx_commit, tp_status_off, store_status, hw1, if_neg hn0]
    · exact load_u32_store_u32 m1 (hdr + 20) _ hb1 (by decide)
    · intro i hi
      exact ho1 i (by omega)
    · intro bs hbs hb
      exact bytes_at_of_outside m1 mem _ _ hb _ _ ho1 (by omega)
    · intro bs hbs hb
      exact bytes_at_of_outside m1 mem _ _ hb _ _ ho1 (by omega)

theorem sendv_spec (r : ring_buffer) (v : tpacket_versions) (iov : List iovec) (ok : Bool)
    (hdr : Nat) (hhdr : r.tx_hdr v = some hdr)
    (hfree : load_status v r._M_buf hdr &&& (TP_STATUS_SEND_REQUEST ||| TP_STATUS_SENDING) = 0)
    (hiov : ∀ w ∈ iov, w.iov_len ≤ w.iov_base.length)
    (hmem : hdr + tx_payload_off v + iov_total iov ≤ r._M_buf.length)
    (h32 : iov_total iov < 4294967296) (hn : 0 < r._M_nframes) :
    ∃ m, r.sendv v iov ok =
        some ⟨ok, none, true,
          { r with _M_buf := m, _M_tx_idx := (r._M_tx_idx + 1) % r._M_nframes }⟩ ∧
      m.length = r._M_buf.length ∧
      bytes_at m (hdr + tx_payload_off v) (gather iov) ∧
      load_u32 m (hdr + tp_len_off v) = iov_total iov ∧
      load_u32 m (hdr + tp_snaplen_off v) = iov_total iov ∧
      load_status v m hdr = TP_STATUS_SEND_REQUEST ∧
      ∀ i, (i < hdr ∨ hdr + tx_payload_off v + iov_total iov ≤ i) → m[i]? = r._M_buf[i]? := by
  obtain ⟨m1, hc, hl1, hb1, ho1⟩ := copy_iov_spec iov r._M_buf (hdr + tx_payload_off v) hiov hmem
  obtain ⟨m2, hs, hl2, hsnap, hlen, ho2⟩ :=
    tx_set_len_spec v m1 hdr (iov_total iov) (by rw [hl1]; omega) h32
  obtain ⟨m3, hcm, hl3, hst, ho3, hks, hkl⟩ :=
    tx_commit_spec r v m2 hdr ok (by rw [hl2, hl1]; omega) hn
  refine ⟨m3, ?_, by rw [hl3, hl2, hl1], ?_, ?_, ?_, hst, ?_⟩
  · unfold ring_buffer.sendv
    simp only [hhdr, if_pos hfree, hc, Nat.add_sub_cancel_left, hs, hcm]
  · exact bytes_at_of_outside m3 m2 _ _
      (bytes_at_of_outside m2 m1 _ _ hb1 _ _ ho2 (Or.inr (Nat.le_refl _))) _ _ ho3
      (Or.inr (Nat.le_refl _))
  · exact load_u32_store_u32 m3 _ _ (hkl _ rfl hlen) h32
  · exact load_u32_store_u32 m3 _ _ (hks _ rfl hsnap) h32
  · intro i hi
    rw [ho3 i (by omega), ho2 i (by omega), ho1 i (by omega)]

theorem frames_head (buf size n : Nat) :
    (ring_buffer.frames buf size (n + 1))[0]? = some buf := by
  rw [ring_buffer.frames]
  exact List.getElem?_cons_zero

/-! ## Receiving from the ring -/

theorem recv_v3_loop_spec (mem : List Nat) (n : Nat) :
    ∀ (hdr : Nat) (pkts : List (Nat × Nat)) (trace : List rx_event),
      pkts.length ≤ 1024 →
      ∃ bs : List (List (Nat × Nat)),
        (recv_v3_loop mem n hdr pkts trace).1 ++
            [rx_event.fnpackets (recv_v3_loop mem n hdr pkts trace).2] =
          trace ++ bs.map rx_event.fnpackets ∧
        bs.flatten = pkts ++ block_packets mem hdr n ∧
        (∀ b ∈ bs, b.length ≤ 1024) ∧
        bs.length = max 1 ((pkts.length + n + 1023) / 1024) := by
  induction n with
  | zero =>
    intro hdr pkts trace hp
    refine ⟨[pkts], rfl, ?_, ?_, ?_⟩
    · simp [block_packets]
    · intro b hb
      rw [List.mem_singleton.1 hb]
      exact hp
    · simp only [List.length_singleton]
      omega
  | succ n ih =>
    intro hdr pkts trace hp
    by_cases hfull : pkts.length = 1024
    · obtain ⟨bs, h1, h2, h3, h4⟩ := ih (hdr + load_u32 mem hdr)
        ([] ++ [(hdr + load_u16 mem (hdr + tp_mac_off tpacket_versions.TPACKET_V3),
          load_u32 mem (hdr + tp_snaplen_off tpacket_versions.TPACKET_V3))])
        (trace ++ [rx_event.fnpackets pkts]) (by simp)
      refine ⟨pkts :: bs, ?_, ?_, ?_, ?_⟩
      · rw [recv_v3_loop]
        simp only [recv_v3_max_pkts, if_pos hfull]
        rw [h1]
        simp
      · rw [List.flatten_cons, h2]
        simp [block_packets, tp_mac_off, tp_snaplen_off]
      · intro b hb
        rcases List.mem_cons.1 hb with hb | hb
        · rw [hb]; exact hp
        · exact h3 b hb
      · rw [List.length_cons, h4]
        simp only [List.nil_append, List.length_singleton]
        omega
    · obtain ⟨bs, h1, h2, h3, h4⟩ := ih (hdr + load_u32 mem hdr)
        (pkts ++ [(hdr + load_u16 mem (hdr + tp_mac_off tpacket_versions.TPACKET_V3),
          load_u32 mem (hdr + tp_snaplen_off tpacket_versions.TPACKET_V3))])
        trace (by rw [List.length_append, List.length_singleton]; omega)
      refine ⟨bs, ?_, ?_, h3, ?_⟩
      · rw [recv_v3_loop]
        simp only [recv_v3_max_pkts, if_neg hfull]
        exact h1
      · rw [h2]
        simp [block_packets, tp_mac_off, tp_snaplen_off]
      · rw [h4, List.length_append, List.length_singleton]
        congr 2
        omega

/-! ## The jumps of the compiled program -/

theorem seg_ok_nil (base n : Nat) : seg_ok [] base n := by
  intro k f h
  simp at h

theorem seg_ok_cons (f : sock_filter) (S : List sock_filter) (base n : Nat) :
    seg_ok (f :: S) base n ↔
      (is_jump f = true →
        base + 1 + f.jt < n ∧ base + 1 + f.jf < n ∧ f.jt < 256 ∧ f.jf < 256) ∧
      seg_ok S (base + 1) n := by
  constructor
  · intro h
    refine ⟨fun hj => ?_, ?_⟩
    · simpa using h 0 f List.getElem?_cons_zero hj
    · intro k g hg hj
      have := h (k + 1) g (by simpa using hg) hj
      refine ⟨by omega, by omega, this.2.2.1, this.2.2.2⟩
  · rintro ⟨h0, hS⟩ k g hg hj
    cases k with
    | zero =>
      simp only [List.getElem?_cons_zero, Option.some.injEq] at hg
      subst hg
      simpa using h0 hj
    | succ k =>
      have := hS k g (by simpa using hg) hj
      refine ⟨by omega, by omega, this.2.2.1, this.2.2.2⟩

theorem seg_ok_append (A B : List sock_filter) (base n : Nat) :
    seg_ok (A ++ B) base n ↔ seg_ok A base n ∧ seg_ok B (base + A.length) n := by
  induction A generalizing base with
  | nil => simp [seg_ok_nil]
  | cons a A ih =>
    rw [List.cons_append, seg_ok_cons, seg_ok_cons, ih, List.length_cons]
    have e : base + 1 + A.length = base + (A.length + 1) := by omega
    rw [e]
    tauto

theorem seg_ok_ports (rs : List portrange) (n N : Nat) (hn : n < N) (h256 : n ≤ 256) :
    ∀ base, base + (ports_code rs).length ≤ n → seg_ok (ports_patched rs base n) base N := by
  induction rs with
  | nil =>
    intro base _
    exact seg_ok_nil _ _
  | cons r rs ih =>
    intro base hb
    simp only [ports_code] at hb
    simp only [ports_patched]
    split_ifs at hb ⊢ with heq
    · simp only [List.length_cons] at hb
      rw [seg_ok_cons]
      refine ⟨fun _ => ?_, ih (base + 1) (by omega)⟩
      have e : (n - base - 1) % 256 = n - base - 1 := Nat.mod_eq_of_lt (by omega)
      simp only [e]
      omega
    · simp only [List.length_cons] at hb
      rw [seg_ok_cons, seg_ok_cons]
      refine ⟨fun _ => ?_, fun _ => ?_, ih (base + 1 + 1) (by omega)⟩
      · simp only
        omega
      · have e : (n - (base + 1) - 1) % 256 = n - (base + 1) - 1 := Nat.mod_eq_of_lt (by omega)
        simp only [e]
        omega

theorem chain_ok_ports (rs : List portrange) (n : Nat) (h256 : n ≤ 256) :
    ∀ base, base + (ports_code rs).length ≤ n →
      chain_ok (ports_patched rs base n) base (ports_accepts rs base) n := by
  induction rs with
  | nil =>
    intro base _ j hj
    simp [ports_accepts] at hj
  | cons r rs ih =>
    intro base hb j hj
    simp only [ports_code] at hb
    simp only [ports_accepts] at hj
    simp only [ports_patched]
    split_ifs at hb hj ⊢ with heq
    · simp only [List.length_cons] at hb
      rcases List.mem_cons.1 hj with rfl | hj
      · refine ⟨0, _, rfl, List.getElem?_cons_zero,
          by simp [is_jump, BPF_JMP, BPF_JEQ, BPF_K], by simp only; omega, ?_⟩
        simp only [jmp.branch, if_true]
        exact Nat.mod_eq_of_lt (by omega)
      · obtain ⟨k, f, hk, hf, hjmp, hlt, hbr⟩ := ih (base + 1) (by omega) j hj
        exact ⟨k + 1, f, by omega, by simpa using hf, hjmp, hlt, hbr⟩
    · simp only [List.length_cons] at hb
      rcases List.mem_cons.1 hj with rfl | hj
      · refine ⟨1, _, rfl, by rw [List.getElem?_cons_succ]; exact List.getElem?_cons_zero,
          by simp [is_jump, BPF_JMP, BPF_JGT, BPF_K], by simp only; omega, ?_⟩
        simp only [jmp.branch, Bool.false_eq_true, if_false]
        exact Nat.mod_eq_of_lt (by omega)
      · obtain ⟨k, f, hk, hf, hjmp, hlt, hbr⟩ := ih (base + 1 + 1) (by omega) j hj
        exact ⟨k + 2, f, by omega, by simpa using hf, hjmp, hlt, hbr⟩

theorem chain_ok_lands (P pre S post : List sock_filter) (js : List jmp) (base target : Nat)
    (hP : P = pre ++ (S ++ post)) (hbase : pre.length = base)
    (h : chain_ok S base js target) :
    ∀ j ∈ js, ∃ f, P[j.idx]? = some f ∧ is_jump f = true ∧ j.idx < target ∧
      j.branch f = target - j.idx - 1 := by
  intro j hj
  obtain ⟨k, f, hk, hf, hjmp, hlt, hbr⟩ := h j hj
  refine ⟨f, ?_, hjmp, hlt, hbr⟩
  have hkl : k < S.length := by
    by_contra hc
    rw [List.getElem?_eq_none (by omega)] at hf
    exact Option.noConfusion hf
  rw [hP, hk, List.getElem?_append_right (by omega), hbase, Nat.add_sub_cancel_left,
    List.getElem?_append_left hkl]
  exact hf

theorem chain_ok_cons (S : List sock_filter) (base : Nat) (j : jmp) (js : List jmp)
    (target k : Nat) (f : sock_filter) (hk : j.idx = base + k) (hf : S[k]? = some f)
    (hjmp : is_jump f = true) (hlt : j.idx < target) (hbr : j.branch f = target - j.idx - 1)
    (h : chain_ok S base js target) : chain_ok S base (j :: js) target := by
  intro i hi
  rcases List.mem_cons.1 hi with rfl | hi
  · exact ⟨k, f, hk, hf, hjmp, hlt, hbr⟩
  · exact h i hi

theorem chain_ok_nil (S : List sock_filter) (base target : Nat) : chain_ok S base [] target := by
  intro j hj
  simp at hj

theorem compile_eq_body (s : socket_filter) (h : (compile_body s).1 = true) :
    compile s =
      ((compile_finish (compile_body s).2).1,
        { _M_ipv4 := if !s._M_ipv4 && !s._M_ipv6 then true else s._M_ipv4,
          _M_ipv6 := if !s._M_ipv4 && !s._M_ipv6 then true else s._M_ipv6,
          _M_portranges := s._M_portranges,
          _M_filters := (compile_finish (compile_body s).2).2 }) := by
  rcases s with ⟨v4, v6, rs, fs⟩
  cases v4 <;> cases v6 <;> simp only [compile_body, compile] at h ⊢ <;>
    split_ifs at h ⊢ <;> simp_all

theorem jumps_ipv4 (rs : List portrange) (hn : rs.length ≤ 32) :
    jumps_spec (prog_ipv4 rs (ports_code rs).length)
      [⟨1, false⟩, ⟨3, false⟩, ⟨5, false⟩, ⟨7, true⟩] (ports_accepts rs 9) := by
  have hL := ports_code_length_le rs
  have hPL := ports_patched_length rs
  generalize hLdef : (ports_code rs).length = L at hL hPL
  have hQ : (seg_start 42 (L + 7) ++ (seg_ipv4 (L + 5) (L + 3) (L + 1) ++ (seg_ldport 36 ++
      ports_patched rs 9 (L + 10)))).length = L + 9 := by
    simp [seg_start, seg_ipv4, seg_ldport, hPL]
  refine ⟨⟨seg_start 42 (L + 7) ++ (seg_ipv4 (L + 5) (L + 3) (L + 1) ++ (seg_ldport 36 ++
    ports_patched rs 9 (L + 10))), by simp [prog_ipv4], ?_, ?_⟩, ?_⟩
  · rw [hQ]
    simp only [List.forall_mem_cons, List.not_mem_nil, false_imp_iff, implies_true, and_true,
      jmp.branch, prog_ipv4, seg_start, seg_ipv4, seg_ldport, List.cons_append,
      List.nil_append, List.getElem?_cons_succ, List.getElem?_cons_zero, Option.some.injEq,
      exists_eq_left', is_jump, BPF_JMP, BPF_JEQ, BPF_JGE, BPF_JSET, BPF_K]
    simp
  · rw [hQ]
    exact chain_ok_lands _ (seg_start 42 (L + 7) ++ (seg_ipv4 (L + 5) (L + 3) (L + 1) ++
      seg_ldport 36)) (ports_patched rs 9 (L + 10)) [insn_ignore, insn_accept] _ 9 _
      (by simp [prog_ipv4]) rfl (chain_ok_ports rs (L + 10) (by omega) 9 (by omega))
  · have hsp := seg_ok_ports rs (L + 10) (L + 11) (by omega) (by omega) 9 (by omega)
    simp only [prog_ipv4, seg_ok_append, seg_ok_cons, seg_ok_nil, seg_start, seg_ipv4,
      seg_ldport, List.length_append, List.length_cons, List.length_nil, hPL, insn_ignore,
      insn_accept, is_jump, BPF_JMP, BPF_JEQ, BPF_JGE, BPF_JSET, BPF_K, BPF_RET, BPF_LD, BPF_W,
      BPF_H, BPF_B, BPF_ABS, BPF_LEN]
    simp
    have e : 3 + (5 + (1 + (L + 2))) = L + 11 := by omega
    rw [e]
    exact ⟨by omega, by omega, hsp⟩

theorem jumps_ipv6 (rs : List portrange) (hn : rs.length ≤ 32) :
    jumps_spec (prog_ipv6 rs (ports_code rs).length)
      [⟨1, false⟩, ⟨5, false⟩] (ports_accepts rs 7) := by
  have hL := ports_code_length_le rs
  have hPL := ports_patched_length rs
  generalize hLdef : (ports_code rs).length = L at hL hPL
  have hQ : (seg_start 62 (L + 6) ++ (seg_ipv6 (L + 2) ++ (seg_ldport 56 ++
      (ports_patched rs 7 (L + 9) ++ [insn_ignore])))).length = L + 8 := by
    simp [seg_start, seg_ipv6, seg_ldport, hPL]
  refine ⟨⟨seg_start 62 (L + 6) ++ (seg_ipv6 (L + 2) ++ (seg_ldport 56 ++
    (ports_patched rs 7 (L + 9) ++ [insn_ignore]))), by simp [prog_ipv6], ?_, ?_⟩, ?_⟩
  · rw [hQ]
    simp only [List.forall_mem_cons, List.not_mem_nil, false_imp_iff, implies_true, and_true,
      jmp.branch, prog_ipv6, seg_start, seg_ipv6, seg_ldport, List.cons_append,
      List.nil_append, List.getElem?_cons_succ, List.getElem?_cons_zero, Option.some.injEq,
      exists_eq_left', is_jump, BPF_JMP, BPF_JEQ, BPF_JGE, BPF_JSET, BPF_K]
    simp
  · rw [hQ]
    exact chain_ok_lands _ (seg_start 62 (L + 6) ++ (seg_ipv6 (L + 2) ++
      seg_ldport 56)) (ports_patched rs 7 (L + 9)) [insn_ignore, insn_ignore, insn_accept] _ 7 _
      (by simp [prog_ipv6]) rfl (chain_ok_ports rs (L + 9) (by omega) 7 (by omega))
  · have hsp := seg_ok_ports rs (L + 9) (L + 10) (by omega) (by omega) 7 (by omega)
    simp only [prog_ipv6, seg_ok_append, seg_ok_cons, seg_ok_nil, seg_start, seg_ipv6,
      seg_ldport, List.length_append, List.length_cons, List.length_nil, hPL, insn_ignore,
      insn_accept, is_jump, BPF_JMP, BPF_JEQ, BPF_JGE, BPF_JSET, BPF_K, BPF_RET, BPF_LD, BPF_W,
      BPF_H, BPF_B, BPF_ABS, BPF_LEN]
    simp
    have e : 3 + (3 + (1 + (L + 3))) = L + 10 := by omega
    rw [e]
    exact ⟨by omega, by omega, hsp⟩

theorem jumps_both (rs : List portrange) (hn : rs.length ≤ 32) :
    jumps_spec (prog_both rs (ports_code rs).length)
      ([⟨1, false⟩, ⟨5, false⟩, ⟨7, false⟩] ++
        [⟨(ports_code rs).length + 10, false⟩, ⟨(ports_code rs).length + 10 + 2, false⟩,
          ⟨(ports_code rs).length + 10 + 4, true⟩])
      (ports_accepts rs 9 ++ ports_accepts rs ((ports_code rs).length + 10 + 6)) := by
  have hL := ports_code_length_le rs
  have hPL := ports_patched_length rs
  generalize hLdef : (ports_code rs).length = L at hL hPL
  have hpre : (seg_start 42 (2 * L + 14) ++ (seg_ipv6_both (L + 6) (2 * L + 10) (2 * L + 8) ++
      (seg_ldport 56 ++ (ports_patched rs 9 (2 * L + 17) ++ [insn_ignore])))).length = L + 10 := by
    simp [seg_start, seg_ipv6_both, seg_ldport, hPL]
  have hQ : (seg_start 42 (2 * L + 14) ++ (seg_ipv6_both (L + 6) (2 * L + 10) (2 * L + 8) ++
      (seg_ldport 56 ++ (ports_patched rs 9 (2 * L + 17) ++ (insn_ignore ::
        (seg_ipv4 (L + 5) (L + 3) (L + 1) ++ (seg_ldport 36 ++
          ports_patched rs (L + 16) (2 * L + 17)))))))).length = 2 * L + 16 := by
    simp [seg_start, seg_ipv6_both, seg_ipv4, seg_ldport, hPL]
    omega
  refine ⟨⟨seg_start 42 (2 * L + 14) ++ (seg_ipv6_both (L + 6) (2 * L + 10) (2 * L + 8) ++
      (seg_ldport 56 ++ (ports_patched rs 9 (2 * L + 17) ++ (insn_ignore ::
        (seg_ipv4 (L + 5) (L + 3) (L + 1) ++ (seg_ldport 36 ++
          ports_patched rs (L + 16) (2 * L + 17))))))), by simp [prog_both], ?_, ?_⟩, ?_⟩
  · rw [hQ, List.forall_mem_append]
    constructor
    · simp only [List.forall_mem_cons, List.not_mem_nil, false_imp_iff, implies_true, and_true,
        jmp.branch, prog_both, seg_start, seg_ipv6_both, seg_ldport, List.cons_append,
        List.nil_append, List.getElem?_cons_succ, List.getElem?_cons_zero, Option.some.injEq,
        exists_eq_left', is_jump, BPF_JMP, BPF_JEQ, BPF_JGE, BPF_JSET, BPF_K]
      simp
    · refine chain_ok_lands _ (seg_start 42 (2 * L + 14) ++
        (seg_ipv6_both (L + 6) (2 * L + 10) (2 * L + 8) ++
          (seg_ldport 56 ++ (ports_patched rs 9 (2 * L + 17) ++ [insn_ignore]))))
        (seg_ipv4 (L + 5) (L + 3) (L + 1))
        (seg_ldport 36 ++ (ports_patched rs (L + 16) (2 * L + 17) ++ [insn_ignore, insn_accept]))
        _ (L + 10) _ (by simp [prog_both]) hpre ?_
      refine chain_ok_cons _ _ _ _ _ 0 ⟨BPF_JMP + BPF_JEQ + BPF_K, 0, L + 5, ETHERTYPE_IP⟩ rfl rfl
        (by simp [is_jump, BPF_JMP, BPF_JEQ, BPF_K]) (by simp only; omega)
        (by simp only [jmp.branch, Bool.false_eq_true, if_false]; omega) ?_
      refine chain_ok_cons _ _ _ _ _ 2 ⟨BPF_JMP + BPF_JEQ + BPF_K, 0, L + 3, IPPROTO_UDP⟩ rfl rfl
        (by simp [is_jump, BPF_JMP, BPF_JEQ, BPF_K]) (by simp only; omega)
        (by simp only [jmp.branch, Bool.false_eq_true, if_false]; omega) ?_
      refine chain_ok_cons _ _ _ _ _ 4 ⟨BPF_JMP + BPF_JSET + BPF_K, L + 1, 0, 0x3fff⟩ rfl rfl
        (by simp [is_jump, BPF_JMP, BPF_JSET, BPF_K]) (by simp only; omega)
        (by simp only [jmp.branch, if_true]; omega) (chain_ok_nil _ _ _)
  · rw [hQ, List.forall_mem_append]
    constructor
    · exact chain_ok_lands _ (seg_start 42 (2 * L + 14) ++
        (seg_ipv6_both (L + 6) (2 * L + 10) (2 * L + 8) ++ seg_ldport 56))
        (ports_patched rs 9 (2 * L + 17))
        (insn_ignore :: (seg_ipv4 (L + 5) (L + 3) (L + 1) ++ (seg_ldport 36 ++
          (ports_patched rs (L + 16) (2 * L + 17) ++ [insn_ignore, insn_accept])))) _ 9 _
        (by simp [prog_both]) rfl (chain_ok_ports rs (2 * L + 17) (by omega) 9 (by omega))
    · have hpre2 : (seg_start 42 (2 * L + 14) ++
          (seg_ipv6_both (L + 6) (2 * L + 10) (2 * L + 8) ++
            (seg_ldport 56 ++ (ports_patched rs 9 (2 * L + 17) ++ (insn_ignore ::
              (seg_ipv4 (L + 5) (L + 3) (L + 1) ++ seg_ldport 36)))))).length =
          L + 10 + 6 := by
        simp [seg_start, seg_ipv6_both, seg_ipv4, seg_ldport, hPL]
      have e16 : L + 16 = L + 10 + 6 := rfl
      exact chain_ok_lands _ _ (ports_patched rs (L + 10 + 6) (2 * L + 17))
        [insn_ignore, insn_accept] _ (L + 10 + 6) _ (by simp [prog_both]) hpre2
        (chain_ok_ports rs (2 * L + 17) (by omega) (L + 10 + 6) (by omega))
  · have hsp1 := seg_ok_ports rs (2 * L + 17) (2 * L + 18) (by omega) (by omega) 9 (by omega)
    have hsp2 := seg_ok_ports rs (2 * L + 17) (2 * L + 18) (by omega) (by omega) (L + 16)
      (by omega)
    simp only [prog_both, seg_ok_append, seg_ok_cons, seg_ok_nil, seg_start, seg_ipv4,
      seg_ipv6_both, seg_ldport, List.length_append, List.length_cons, List.length_nil, hPL,
      insn_ignore, insn_accept, is_jump, BPF_JMP, BPF_JEQ, BPF_JGE, BPF_JSET, BPF_K, BPF_RET,
      BPF_LD, BPF_W, BPF_H, BPF_B, BPF_ABS, BPF_LEN]
    simp
    have e : 3 + (5 + (1 + (L + (5 + (1 + (L + 2)) + 1)))) = 2 * L + 18 := by omega
    have e2 : 9 + L + 1 + 5 + 1 = L + 16 := by omega
    rw [e, e2]
    exact ⟨by omega, by omega, hsp1, by omega, hsp2⟩

theorem jumps_ipv4_all :
    jumps_spec prog_ipv4_all [⟨1, false⟩, ⟨3, false⟩, ⟨5, false⟩, ⟨7, true⟩] [] := by
  refine ⟨⟨seg_start 42 7 ++ (seg_ipv4 5 3 1 ++ [insn_accept]), rfl, ?_, ?_⟩, ?_⟩
  · simp only [List.forall_mem_cons, List.not_mem_nil, false_imp_iff, implies_true, and_true,
      jmp.branch, prog_ipv4_all, seg_start, seg_ipv4, List.cons_append,
      List.nil_append, List.getElem?_cons_succ, List.getElem?_cons_zero, Option.some.injEq,
      exists_eq_left', is_jump, BPF_JMP, BPF_JEQ, BPF_JGE, BPF_JSET, BPF_K]
    simp
  · intro j hj
    simp at hj
  · simp only [prog_ipv4_all, seg_ok_append, seg_ok_cons, seg_ok_nil, seg_start, seg_ipv4,
      List.length_append, List.length_cons, List.length_nil, insn_ignore,
      insn_accept, is_jump, BPF_JMP, BPF_JEQ, BPF_JGE, BPF_JSET, BPF_K, BPF_RET, BPF_LD, BPF_W,
      BPF_H, BPF_B, BPF_ABS, BPF_LEN]
    simp

theorem jumps_ipv6_all : jumps_spec prog_ipv6_all [⟨1, false⟩, ⟨5, false⟩] [] := by
  refine ⟨⟨seg_start 62 5 ++ (seg_ipv6 1 ++ [insn_accept]), rfl, ?_, ?_⟩, ?_⟩
  · simp only [List.forall_mem_cons, List.not_mem_nil, false_imp_iff, implies_true, and_true,
      jmp.branch, prog_ipv6_all, seg_start, seg_ipv6, List.cons_append,
      List.nil_append, List.getElem?_cons_succ, List.getElem?_cons_zero, Option.some.injEq,
      exists_eq_left', is_jump, BPF_JMP, BPF_JEQ, BPF_JGE, BPF_JSET, BPF_K]
    simp
  · intro j hj
    simp at hj
  · simp only [prog_ipv6_all, seg_ok_append, seg_ok_cons, seg_ok_nil, seg_start, seg_ipv6,
      List.length_append, List.length_cons, List.length_nil, insn_ignore,
      insn_accept, is_jump, BPF_JMP, BPF_JEQ, BPF_JGE, BPF_JSET, BPF_K, BPF_RET, BPF_LD, BPF_W,
      BPF_H, BPF_B, BPF_ABS, BPF_LEN]
    simp

theorem jumps_both_all :
    jumps_spec prog_both_all
      [⟨1, false⟩, ⟨5, false⟩, ⟨7, false⟩, ⟨9, false⟩, ⟨11, false⟩, ⟨13, true⟩] [] := by
  refine ⟨⟨seg_start 42 13 ++ (seg_ipv6_both 5 9 7 ++ (insn_accept ::
    (seg_ipv4 5 3 1 ++ [insn_accept]))), rfl, ?_, ?_⟩, ?_⟩
  · simp only [List.forall_mem_cons, List.not_mem_nil, false_imp_iff, implies_true, and_true,
      jmp.branch, prog_both_all, seg_start, seg_ipv4, seg_ipv6_both, List.cons_append,
      List.nil_append, List.getElem?_cons_succ, List.getElem?_cons_zero, Option.some.injEq,
      exists_eq_left', is_jump, BPF_JMP, BPF_JEQ, BPF_JGE, BPF_JSET, BPF_K]
    simp
  · intro j hj
    simp at hj
  · simp only [prog_both_all, seg_ok_append, seg_ok_cons, seg_ok_nil, seg_start, seg_ipv4,
      seg_ipv6_both, List.length_append, List.length_cons, List.length_nil, insn_ignore,
      insn_accept, is_jump, BPF_JMP, BPF_JEQ, BPF_JGE, BPF_JSET, BPF_K, BPF_RET, BPF_LD, BPF_W,
      BPF_H, BPF_B, BPF_ABS, BPF_LEN]
    simp

theorem compile_body_filters_irrel (v4 v6 : Bool) (rs : List portrange) (fs : List sock_filter) :
    compile_body ⟨v4, v6, rs, fs⟩ = compile_body ⟨v4, v6, rs, []⟩ := by
  simp only [compile_body]

theorem compile_body_ipv4 (rs : List portrange) (fs : List sock_filter) (hne : rs ≠ [])
    (hn : rs.length ≤ 32) :
    (compile_body ⟨true, false, rs, fs⟩).1 = true ∧
    (compile_body ⟨true, false, rs, fs⟩).2.ignores =
      [⟨1, false⟩, ⟨3, false⟩, ⟨5, false⟩, ⟨7, true⟩] ∧
    (compile_body ⟨true, false, rs, fs⟩).2.accepts = ports_accepts rs 9 := by
  have h6 : compile_ipv6 true false rs (compile_start true) = (true, 0, compile_start true) := by
    simp [compile_ipv6]
  have hs : (compile_start true).filters.length = 3 := by rw [compile_start_eq]; rfl
  simp only [compile_body, Bool.not_true, Bool.false_and, Bool.false_eq_true, if_false, h6,
    if_true]
  rw [compile_ipv4_eq rs _ 0 hne (by rw [hs]; omega)]
  simp [compile_start_eq, seg_start]

theorem compile_body_ipv6 (rs : List portrange) (fs : List sock_filter) (hne : rs ≠ [])
    (hn : rs.length ≤ 32) :
    (compile_body ⟨false, true, rs, fs⟩).1 = true ∧
    (compile_body ⟨false, true, rs, fs⟩).2.ignores = [⟨1, false⟩, ⟨5, false⟩] ∧
    (compile_body ⟨false, true, rs, fs⟩).2.accepts = ports_accepts rs 7 := by
  have h4 : ∀ c, compile_ipv4 false 3 rs c = (true, c) := by
    intro c; simp [compile_ipv4]
  simp only [compile_body, Bool.not_true, Bool.not_false, Bool.and_false, Bool.false_eq_true,
    if_false, compile_ipv6_eq_only rs hne hn, if_true, h4]
  simp

theorem compile_body_both (rs : List portrange) (fs : List sock_filter) (v : Bool)
    (hne : rs ≠ []) (hn : rs.length ≤ 32) :
    (compile_body ⟨v, v, rs, fs⟩).1 = true ∧
    (compile_body ⟨v, v, rs, fs⟩).2.ignores =
      [⟨1, false⟩, ⟨5, false⟩, ⟨7, false⟩] ++
        [⟨(ports_code rs).length + 10, false⟩, ⟨(ports_code rs).length + 10 + 2, false⟩,
          ⟨(ports_code rs).length + 10 + 4, true⟩] ∧
    (compile_body ⟨v, v, rs, fs⟩).2.accepts =
      ports_accepts rs 9 ++ ports_accepts rs ((ports_code rs).length + 10 + 6) := by
  have hL := ports_code_length_le rs
  have hv4 : (if (!v && !v) = true then true else v) = true := by cases v <;> rfl
  have hlen6 : (seg_start 42 0 ++ (seg_ipv6_both 0 0 0 ++ (seg_ldport 56 ++
      (ports_code rs ++ [insn_ignore])))).length = (ports_code rs).length + 10 := by
    simp [seg_start, seg_ipv6_both, seg_ldport]
  simp only [compile_body, hv4, compile_ipv6_eq_both rs hne hn, if_true]
  rw [compile_ipv4_eq rs _ 3 hne (by simp only [hlen6]; omega)]
  simp only [hlen6]
  simp

theorem compile_jumps_of (s : socket_filter) (P : List sock_filter) (ign acc : List jmp)
    (hc1 : (compile s).1 = true) (hc2 : (compile s).2._M_filters = P)
    (hb : (compile_body s).1 = true ∧ (compile_body s).2.ignores = ign ∧
      (compile_body s).2.accepts = acc)
    (hj : jumps_spec P ign acc) :
    (compile s).1 = true ∧ (compile_body s).1 = true ∧
    compile_finish (compile_body s).2 = (true, (compile s).2._M_filters) ∧
    jumps_spec (compile s).2._M_filters (compile_body s).2.ignores
      (compile_body s).2.accepts := by
  obtain ⟨hb1, hb2, hb3⟩ := hb
  refine ⟨hc1, hb1, ?_, by rw [hc2, hb2, hb3]; exact hj⟩
  have h := compile_eq_body s hb1
  rw [h] at hc1 ⊢
  simp only at hc1 ⊢
  exact Prod.ext hc1 rfl

/-! ## The parser of the port list -/

theorem loop_state0 (c : Nat) (s : List Nat) (f t : Nat) (flt : socket_filter) :
    parse_port_list_loop (c :: s) ⟨0, f, t, flt⟩ =
      if IS_DIGIT c = true then parse_port_list_loop s ⟨1, c - 48, t, flt⟩ else (false, flt) := by
  simp only [parse_port_list_loop, parse_port_list_step]
  split_ifs <;> rfl

theorem loop_state1_digit (c : Nat) (s : List Nat) (f t : Nat) (flt : socket_filter)
    (hc : IS_DIGIT c = true) (hf : f ≤ 65535) :
    parse_port_list_loop (c :: s) ⟨1, f, t, flt⟩ =
      if f * 10 + (c - 48) ≤ 65535 then parse_port_list_loop s ⟨1, f * 10 + (c - 48), t, flt⟩
      else (false, flt) := by
  have hc2 := (IS_DIGIT_iff c).1 hc
  have hm : (f * 10 + (c - 48)) % 4294967296 = f * 10 + (c - 48) :=
    Nat.mod_eq_of_lt (by omega)
  simp only [parse_port_list_loop, parse_port_list_step, hc, if_true, hm]
  by_cases h : f * 10 + (c - 48) ≤ 65535
  · rw [if_neg (by omega), if_pos h]
  · rw [if_pos (by omega), if_neg h]

theorem loop_state1_other (c : Nat) (s : List Nat) (f t : Nat) (flt : socket_filter)
    (hc : IS_DIGIT c = false) :
    parse_port_list_loop (c :: s) ⟨1, f, t, flt⟩ =
      if c = 44 then parse_port_list_loop s ⟨4, f, f, flt⟩
      else if c = 45 then parse_port_list_loop s ⟨2, f, t, flt⟩ else (false, flt) := by
  simp only [parse_port_list_loop, parse_port_list_step, hc, Bool.false_eq_true, if_false]
  split_ifs <;> rfl

theorem loop_state2 (c : Nat) (s : List Nat) (f t : Nat) (flt : socket_filter) :
    parse_port_list_loop (c :: s) ⟨2, f, t, flt⟩ =
      if IS_DIGIT c = true then parse_port_list_loop s ⟨3, f, c - 48, flt⟩ else (false, flt) := by
  simp only [parse_port_list_loop, parse_port_list_step]
  split_ifs <;> rfl

theorem loop_state3_digit (c : Nat) (s : List Nat) (f t : Nat) (flt : socket_filter)
    (hc : IS_DIGIT c = true) (ht : t ≤ 65535) :
    parse_port_list_loop (c :: s) ⟨3, f, t, flt⟩ =
      if t * 10 + (c - 48) ≤ 65535 then parse_port_list_loop s ⟨3, f, t * 10 + (c - 48), flt⟩
      else (false, flt) := by
  have hc2 := (IS_DIGIT_iff c).1 hc
  have hm : (t * 10 + (c - 48)) % 4294967296 = t * 10 + (c - 48) :=
    Nat.mod_eq_of_lt (by omega)
  simp only [parse_port_list_loop, parse_port_list_step, hc, if_true, hm]
  by_cases h : t * 10 + (c - 48) ≤ 65535
  · rw [if_neg (by omega), if_pos h]
  · rw [if_pos (by omega), if_neg h]

theorem loop_state3_other (c : Nat) (s : List Nat) (f t : Nat) (flt : socket_filter)
    (hc : IS_DIGIT c = false) :
    parse_port_list_loop (c :: s) ⟨3, f, t, flt⟩ =
      if c = 44 then parse_port_list_loop s ⟨4, f, t, flt⟩ else (false, flt) := by
  simp only [parse_port_list_loop, parse_port_list_step, hc, Bool.false_eq_true, if_false]
  split_ifs <;> rfl

theorem loop_state4 (c : Nat) (s : List Nat) (f t : Nat) (flt : socket_filter)
    (hf : f ≤ 65535) (ht : t ≤ 65535) :
    parse_port_list_loop (c :: s) ⟨4, f, t, flt⟩ =
      if IS_DIGIT c = true then
        if (flt.port_range f t).1 = true then
          parse_port_list_loop s ⟨1, c - 48, t, (flt.port_range f t).2⟩
        else (false, (flt.port_range f t).2)
      else (false, flt) := by
  have hf' : f % 65536 = f := Nat.mod_eq_of_lt (by omega)
  have ht' : t % 65536 = t := Nat.mod_eq_of_lt (by omega)
  simp only [parse_port_list_loop, parse_port_list_step, hf', ht']
  split_ifs <;> rfl

theorem loop_end1 (f t : Nat) (flt : socket_filter) (hf : f ≤ 65535) :
    parse_port_list_loop [] ⟨1, f, t, flt⟩ = flt.port_range f f := by
  have hf' : f % 65536 = f := Nat.mod_eq_of_lt (by omega)
  simp only [parse_port_list_loop, hf', port]

theorem loop_end3 (f t : Nat) (flt : socket_filter) (hf : f ≤ 65535) (ht : t ≤ 65535) :
    parse_port_list_loop [] ⟨3, f, t, flt⟩ = flt.port_range f t := by
  have hf' : f % 65536 = f := Nat.mod_eq_of_lt (by omega)
  have ht' : t % 65536 = t := Nat.mod_eq_of_lt (by omega)
  simp only [parse_port_list_loop, hf', ht']

theorem loop_digits1 (ds : List Nat) (hds : ∀ c ∈ ds, IS_DIGIT c = true) (rest : List Nat)
    (t : Nat) (flt : socket_filter) :
    ∀ f, f ≤ 65535 →
      parse_port_list_loop (ds ++ rest) ⟨1, f, t, flt⟩ =
        if digits_value_from f ds ≤ 65535 then
          parse_port_list_loop rest ⟨1, digits_value_from f ds, t, flt⟩
        else (false, flt) := by
  induction ds with
  | nil =>
    intro f hf
    simp only [List.nil_append, digits_value_from, List.foldl_nil, if_pos hf]
  | cons c ds ih =>
    intro f hf
    have hc := hds c (List.mem_cons_self _ _)
    rw [List.cons_append, loop_state1_digit c _ f t flt hc hf, digits_value_from_cons]
    by_cases h : f * 10 + (c - 48) ≤ 65535
    · rw [if_pos h, ih (fun c' hc' => hds c' (List.mem_cons_of_mem _ hc')) _ h]
    · have := le_digits_value_from ds (f * 10 + (c - 48))
      rw [if_neg h, if_neg (by omega)]

theorem loop_digits3 (ds : List Nat) (hds : ∀ c ∈ ds, IS_DIGIT c = true) (rest : List Nat)
    (f : Nat) (flt : socket_filter) :
    ∀ t, t ≤ 65535 →
      parse_port_list_loop (ds ++ rest) ⟨3, f, t, flt⟩ =
        if digits_value_from t ds ≤ 65535 then
          parse_port_list_loop rest ⟨3, f, digits_value_from t ds, flt⟩
        else (false, flt) := by
  induction ds with
  | nil =>
    intro t ht
    simp only [List.nil_append, digits_value_from, List.foldl_nil, if_pos ht]
  | cons c ds ih =>
    intro t ht
    have hc := hds c (List.mem_cons_self _ _)
    rw [List.cons_append, loop_state3_digit c _ f t flt hc ht, digits_value_from_cons]
    by_cases h : t * 10 + (c - 48) ≤ 65535
    · rw [if_pos h, ih (fun c' hc' => hds c' (List.mem_cons_of_mem _ hc')) _ h]
    · have := le_digits_value_from ds (t * 10 + (c - 48))
      rw [if_neg h, if_neg (by omega)]

theorem digits_value_cons (d : Nat) (ds : List Nat) :
    digits_value (d :: ds) = digits_value_from (d - 48) ds := by
  simp [digits_value, digits_value_from]

theorem loop_number0 (a : List Nat) (ha : is_number a) (rest : List Nat) (f t : Nat)
    (flt : socket_filter) :
    parse_port_list_loop (a ++ rest) ⟨0, f, t, flt⟩ =
      if digits_value a ≤ 65535 then parse_port_list_loop rest ⟨1, digits_value a, t, flt⟩
      else (false, flt) := by
  obtain ⟨hne, hd⟩ := ha
  cases a with
  | nil => exact absurd rfl hne
  | cons d ds =>
    have hc := hd d (List.mem_cons_self _ _)
    have hc2 := (IS_DIGIT_iff d).1 hc
    rw [List.cons_append, loop_state0, if_pos hc, digits_value_cons,
      loop_digits1 ds (fun c' hc' => hd c' (List.mem_cons_of_mem _ hc')) rest t flt _ (by omega)]

theorem loop_number2 (b : List Nat) (hb : is_number b) (rest : List Nat) (f t : Nat)
    (flt : socket_filter) :
    parse_port_list_loop (b ++ rest) ⟨2, f, t, flt⟩ =
      if digits_value b ≤ 65535 then parse_port_list_loop rest ⟨3, f, digits_value b, flt⟩
      else (false, flt) := by
  obtain ⟨hne, hd⟩ := hb
  cases b with
  | nil => exact absurd rfl hne
  | cons d ds =>
    have hc := hd d (List.mem_cons_self _ _)
    have hc2 := (IS_DIGIT_iff d).1 hc
    rw [List.cons_append, loop_state2, if_pos hc, digits_value_cons,
      loop_digits3 ds (fun c' hc' => hd c' (List.mem_cons_of_mem _ hc')) rest f flt _ (by omega)]

theorem run_items_single (flt : socket_filter) (c : Nat × Nat) :
    run_items flt [c] = flt.port_range c.1 c.2 := by
  simp only [run_items]
  split_ifs with h
  · exact Prod.ext h.symm rfl
  · have h' : (flt.port_range c.1 c.2).1 = false := by simpa using h
    exact Prod.ext h'.symm rfl

theorem port_item_head (t : List Nat) (c : Nat × Nat) (h : port_item t c) (rest : List Nat) :
    ∃ d s, t ++ rest = d :: s ∧ IS_DIGIT d = true := by
  rcases h with ⟨⟨hne, hd⟩, _⟩ | ⟨a, b, ⟨hne, hd⟩, _, rfl, _⟩
  · cases t with
    | nil => exact absurd rfl hne
    | cons d ds => exact ⟨d, ds ++ rest, rfl, hd d (List.mem_cons_self _ _)⟩
  · cases a with
    | nil => exact absurd rfl hne
    | cons d ds => exact ⟨d, ds ++ 45 :: b ++ rest, by simp, hd d (List.mem_cons_self _ _)⟩

theorem port_list_text_head (s : List Nat) (cs : List (Nat × Nat)) (h : port_list_text s cs) :
    ∃ d s1, s = d :: s1 ∧ IS_DIGIT d = true := by
  cases h with
  | single t c hi =>
    obtain ⟨d, s1, h1, h2⟩ := port_item_head _ c hi []
    exact ⟨d, s1, by simpa using h1, h2⟩
  | cons t c s' cs' hi _ => exact port_item_head t c hi _

/-- An item at the end of the string: the call for its range decides. -/
theorem loop_item_end (t : List Nat) (c : Nat × Nat) (h : port_item t c)
    (hc : c.1 ≤ 65535 ∧ c.2 ≤ 65535) (f0 t0 : Nat) (flt : socket_filter) :
    parse_port_list_loop t ⟨0, f0, t0, flt⟩ = flt.port_range c.1 c.2 := by
  rcases h with ⟨ha, rfl⟩ | ⟨a, b, ha, hb, rfl, rfl⟩
  · have h0 := loop_number0 t ha [] f0 t0 flt
    rw [List.append_nil, if_pos hc.1] at h0
    rw [h0, loop_end1 _ _ _ hc.1]
  · have h45 : IS_DIGIT 45 = false := by decide
    rw [loop_number0 a ha _ f0 t0 flt, if_pos hc.1, loop_state1_other _ _ _ _ _ h45,
      if_neg (by decide), if_pos rfl]
    have h2 := loop_number2 b hb [] (digits_value a) t0 flt
    rw [List.append_nil, if_pos hc.2] at h2
    rw [h2, loop_end3 _ _ _ hc.1 hc.2]

/-- An item followed by a comma and a digit: the call for its range is made,
and the parser goes on as from the start. -/
theorem loop_item_comma (t : List Nat) (c : Nat × Nat) (h : port_item t c)
    (hc : c.1 ≤ 65535 ∧ c.2 ≤ 65535) (d : Nat) (s : List Nat) (hd : IS_DIGIT d = true)
    (f0 t0 : Nat) (flt : socket_filter) :
    parse_port_list_loop (t ++ 44 :: d :: s) ⟨0, f0, t0, flt⟩ =
      if (flt.port_range c.1 c.2).1 = true then
        parse_port_list_loop (d :: s) ⟨0, 0, c.2, (flt.port_range c.1 c.2).2⟩
      else (false, (flt.port_range c.1 c.2).2) := by
  have h44 : IS_DIGIT 44 = false := by decide
  have h45 : IS_DIGIT 45 = false := by decide
  rw [loop_state0 d s, if_pos hd]
  rcases h with ⟨ha, rfl⟩ | ⟨a, b, ha, hb, rfl, rfl⟩
  · rw [loop_number0 t ha _ f0 t0 flt, if_pos hc.1, loop_state1_other _ _ _ _ _ h44,
      if_pos rfl, loop_state4 _ _ _ _ _ hc.1 hc.1, if_pos hd]
  · rw [List.append_assoc, List.cons_append, loop_number0 a ha _ f0 t0 flt, if_pos hc.1,
      loop_state1_other _ _ _ _ _ h45, if_neg (by decide), if_pos rfl,
      loop_number2 b hb _ (digits_value a) t0 flt, if_pos hc.2,
      loop_state3_other _ _ _ _ _ h44, if_pos rfl, loop_state4 _ _ _ _ _ hc.1 hc.2, if_pos hd]

/-- On a string of the form `r1,...,rk` with numbers up to 65535 the parser
makes the calls for the ranges in order, up to the first that fails. -/
theorem loop_of_text (s : List Nat) (cs : List (Nat × Nat)) (h : port_list_text s cs) :
    (∀ c ∈ cs, c.1 ≤ 65535 ∧ c.2 ≤ 65535) → ∀ (f0 t0 : Nat) (flt : socket_filter),
      parse_port_list_loop s ⟨0, f0, t0, flt⟩ = run_items flt cs := by
  induction h with
  | single t c hi =>
    intro hcs f0 t0 flt
    rw [run_items_single, loop_item_end t c hi (hcs c (List.mem_cons_self _ _))]
  | cons t c s' cs' hi hs ih =>
    intro hcs f0 t0 flt
    obtain ⟨d, s1, rfl, hd⟩ := port_list_text_head s' cs' hs
    rw [loop_item_comma t c hi (hcs c (List.mem_cons_self _ _)) d s1 hd]
    simp only [run_items]
    split_ifs with hok
    · exact ih (fun c' hc' => hcs c' (List.mem_cons_of_mem _ hc')) _ _ _
    · rfl

theorem digits_split (s : List Nat) :
    ∃ ds rest, s = ds ++ rest ∧ (∀ c ∈ ds, IS_DIGIT c = true) ∧
      (rest = [] ∨ ∃ x r, rest = x :: r ∧ IS_DIGIT x = false) := by
  induction s with
  | nil => exact ⟨[], [], rfl, fun c hc => absurd hc (List.not_mem_nil c), Or.inl rfl⟩
  | cons c s ih =>
    by_cases hc : IS_DIGIT c = true
    · obtain ⟨ds, rest, h1, h2, h3⟩ := ih
      refine ⟨c :: ds, rest, by rw [h1]; rfl, ?_, h3⟩
      intro x hx
      rcases List.mem_cons.1 hx with rfl | hx
      · exact hc
      · exact h2 x hx
    · exact ⟨[], c :: s, rfl, fun x hx => absurd hx (List.not_mem_nil x),
        Or.inr ⟨c, s, rfl, by simpa using hc⟩⟩

theorem pair_false_ne (a b : socket_filter) (h : (false, a) = (true, b)) : False := by
  simp at h

theorem loop_end_other (st f t : Nat) (flt : socket_filter) (h1 : st ≠ 1) (h3 : st ≠ 3) :
    parse_port_list_loop [] ⟨st, f, t, flt⟩ = (false, flt) := by
  unfold parse_port_list_loop
  split
  · exact absurd (by assumption) h1
  · exact absurd (by assumption) h3
  · rfl

/-- What the parser accepts after a comma: a digit for which the call of the
previous range returned true, followed by a string it accepts from the start. -/
theorem loop_after_comma (r : List Nat) (f t : Nat) (flt flt' : socket_filter)
    (hf : f ≤ 65535) (ht : t ≤ 65535)
    (h : parse_port_list_loop r ⟨4, f, t, flt⟩ = (true, flt')) :
    ∃ y r3, r = y :: r3 ∧
      parse_port_list_loop (y :: r3) ⟨0, 0, t, (flt.port_range f t).2⟩ = (true, flt') := by
  cases r with
  | nil =>
    rw [loop_end_other 4 f t flt (by decide) (by decide)] at h
    exact (pair_false_ne _ _ h).elim
  | cons y r3 =>
    rw [loop_state4 _ _ _ _ _ hf ht] at h
    split_ifs at h with hy hok
    · exact ⟨y, r3, rfl, by rw [loop_state0, if_pos hy]; exact h⟩
    · exact (pair_false_ne _ _ h).elim
    · exact (pair_false_ne _ _ h).elim

/-- A string the parser accepts has the form `r1,...,rk` with numbers up to
65535. -/
theorem text_of_loop (n : Nat) :
    ∀ (s : List Nat), s.length ≤ n → ∀ (f0 t0 : Nat) (flt flt' : socket_filter),
      parse_port_list_loop s ⟨0, f0, t0, flt⟩ = (true, flt') →
      ∃ cs, port_list_text s cs ∧ ∀ c ∈ cs, c.1 ≤ 65535 ∧ c.2 ≤ 65535 := by
  induction n with
  | zero =>
    intro s hs f0 t0 flt flt' h
    have : s = [] := List.length_eq_zero.1 (by omega)
    subst this
    rw [loop_end_other 0 f0 t0 flt (by decide) (by decide)] at h
    exact (pair_false_ne _ _ h).elim
  | succ n ih =>
    intro s hs f0 t0 flt flt' h
    cases s with
    | nil =>
      rw [loop_end_other 0 f0 t0 flt (by decide) (by decide)] at h
      exact (pair_false_ne _ _ h).elim
    | cons d s1 =>
      rw [loop_state0] at h
      by_cases hd : IS_DIGIT d = true
      swap
      · rw [if_neg hd] at h
        exact (pair_false_ne _ _ h).elim
      rw [if_pos hd] at h
      have hd2 := (IS_DIGIT_iff d).1 hd
      obtain ⟨ds, rest, rfl, hds, hrest⟩ := digits_split s1
      rw [loop_digits1 ds hds rest t0 flt _ (by omega)] at h
      by_cases hv : digits_value_from (d - 48) ds ≤ 65535
      swap
      · rw [if_neg hv] at h
        exact (pair_false_ne _ _ h).elim
      rw [if_pos hv, ← digits_value_cons] at h
      rw [← digits_value_cons] at hv
      have ha : is_number (d :: ds) := ⟨List.cons_ne_nil _ _, fun c hc => by
        rcases List.mem_cons.1 hc with rfl | hc
        · exact hd
        · exact hds c hc⟩
      rcases hrest with rfl | ⟨x, r, rfl, hx⟩
      · refine ⟨[(digits_value (d :: ds), digits_value (d :: ds))], ?_, ?_⟩
        · rw [List.append_nil]
          exact port_list_text.single _ _ (Or.inl ⟨ha, rfl⟩)
        · intro c hc
          rw [List.mem_singleton.1 hc]
          exact ⟨hv, hv⟩
      · rw [loop_state1_other _ _ _ _ _ hx] at h
        by_cases hx44 : x = 44
        · subst hx44
          rw [if_pos rfl] at h
          obtain ⟨y, r3, rfl, h'⟩ := loop_after_comma r _ _ _ _ hv hv h
          obtain ⟨cs, hcs, hb⟩ := ih (y :: r3)
            (by simp only [List.length_cons, List.length_append] at hs ⊢; omega) _ _ _ _ h'
          refine ⟨(digits_value (d :: ds), digits_value (d :: ds)) :: cs, ?_, ?_⟩
          · exact port_list_text.cons (d :: ds) _ (y :: r3) cs (Or.inl ⟨ha, rfl⟩) hcs
          · intro c hc
            rcases List.mem_cons.1 hc with rfl | hc
            · exact ⟨hv, hv⟩
            · exact hb c hc
        · rw [if_neg hx44] at h
          by_cases hx45 : x = 45
          swap
          · rw [if_neg hx45] at h
            exact (pair_false_ne _ _ h).elim
          subst hx45
          rw [if_pos rfl] at h
          cases r with
          | nil =>
            rw [loop_end_other 2 _ _ flt (by decide) (by decide)] at h
            exact (pair_false_ne _ _ h).elim
          | cons e r2 =>
            rw [loop_state2] at h
            by_cases he : IS_DIGIT e = true
            swap
            · rw [if_neg he] at h
              exact (pair_false_ne _ _ h).elim
            rw [if_pos he] at h
            have he2 := (IS_DIGIT_iff e).1 he
            obtain ⟨es, rest', rfl, hes, hrest'⟩ := digits_split r2
            rw [loop_digits3 es hes rest' _ flt _ (by omega)] at h
            by_cases hw : digits_value_from (e - 48) es ≤ 65535
            swap
            · rw [if_neg hw] at h
              exact (pair_false_ne _ _ h).elim
            rw [if_pos hw, ← digits_value_cons] at h
            rw [← digits_value_cons] at hw
            have hb' : is_number (e :: es) := ⟨List.cons_ne_nil _ _, fun c hc => by
              rcases List.mem_cons.1 hc with rfl | hc
              · exact he
              · exact hes c hc⟩
            have hitem : port_item (d :: ds ++ 45 :: (e :: es))
                (digits_value (d :: ds), digits_value (e :: es)) :=
              Or.inr ⟨d :: ds, e :: es, ha, hb', rfl, rfl⟩
            rcases hrest' with rfl | ⟨x', r4, rfl, hx'⟩
            · refine ⟨[(digits_value (d :: ds), digits_value (e :: es))], ?_, ?_⟩
              · rw [List.append_nil]
                exact port_list_text.single _ _ hitem
              · intro c hc
                rw [List.mem_singleton.1 hc]
                exact ⟨hv, hw⟩
            · rw [loop_state3_other _ _ _ _ _ hx'] at h
              by_cases hx'44 : x' = 44
              swap
              · rw [if_neg hx'44] at h
                exact (pair_false_ne _ _ h).elim
              subst hx'44
              rw [if_pos rfl] at h
              obtain ⟨y, r5, rfl, h'⟩ := loop_after_comma r4 _ _ _ _ hv hw h
              obtain ⟨cs, hcs, hb⟩ := ih (y :: r5)
                (by simp only [List.length_cons, List.length_append] at hs ⊢; omega) _ _ _ _ h'
              refine ⟨(digits_value (d :: ds), digits_value (e :: es)) :: cs, ?_, ?_⟩
              · have := port_list_text.cons _ _ (y :: r5) cs hitem hcs
                simpa using this
              · intro c hc
                rcases List.mem_cons.1 hc with rfl | hc
                · exact ⟨hv, hw⟩
                · exact hb c hc

theorem run_items_eq (cs : List (Nat × Nat)) : ∀ (flt flt' : socket_filter),
    run_items flt cs = (true, flt') ↔
      (port_range_calls_ok flt cs = true ∧ flt' = port_range_calls flt cs) := by
  induction cs with
  | nil =>
    intro flt flt'
    simp [run_items, port_range_calls_ok, port_range_calls, eq_comm]
  | cons c cs ih =>
    intro flt flt'
    simp only [run_items, port_range_calls_ok, port_range_calls, Bool.and_eq_true]
    split_ifs with h
    · rw [ih]
      simp [h]
    · simp [h]

theorem port_range_calls_append (as bs : List (Nat × Nat)) : ∀ flt : socket_filter,
    port_range_calls flt (as ++ bs) = port_range_calls (port_range_calls flt as) bs := by
  induction as with
  | nil => intro flt; rfl
  | cons a as ih =>
    intro flt
    rw [List.cons_append]
    simp only [port_range_calls]
    exact ih _

theorem port_range_calls_ok_append (as bs : List (Nat × Nat)) : ∀ flt : socket_filter,
    port_range_calls_ok flt (as ++ bs) =
      (port_range_calls_ok flt as && port_range_calls_ok (port_range_calls flt as) bs) := by
  induction as with
  | nil => intro flt; simp [port_range_calls_ok, port_range_calls]
  | cons a as ih =>
    intro flt
    rw [List.cons_append]
    simp only [port_range_calls_ok, port_range_calls]
    rw [ih, Bool.and_assoc]

theorem port_range_calls_ok_take (cs : List (Nat × Nat)) (flt : socket_filter) (k : Nat)
    (h : port_range_calls_ok flt cs = true) : port_range_calls_ok flt (cs.take k) = true := by
  rw [← List.take_append_drop k cs, port_range_calls_ok_append, Bool.and_eq_true] at h
  exact h.1

theorem port_range_list_true (rs : List portrange) (f t : Nat)
    (h : (port_range_list rs f t).1 = true) : 0 < f ∧ f ≤ t := by
  by_contra hc
  simp [port_range_list, hc] at h

theorem port_range_calls_ok_valid (cs : List (Nat × Nat)) : ∀ flt : socket_filter,
    port_range_calls_ok flt cs = true → ∀ c ∈ cs, 1 ≤ c.1 ∧ c.1 ≤ c.2 := by
  induction cs with
  | nil => intro flt _ c hc; exact absurd hc (List.not_mem_nil c)
  | cons a cs ih =>
    intro flt h c hc
    simp only [port_range_calls_ok, Bool.and_eq_true] at h
    rcases List.mem_cons.1 hc with rfl | hc
    · exact port_range_list_true _ _ _ h.1
    · exact ih _ h.2 c hc

/-- A range apart from all ranges of a canonical list makes a canonical list
that is longer by one. -/
theorem canonical_insert_apart (f t : Nat) (hv : portrange.valid ⟨f, t⟩) (rs : List portrange) :
    canonical rs → (∀ r ∈ rs, r.to_ + 1 < f ∨ t + 1 < r.from_) →
    ∃ L : List portrange, canonical L ∧ L.length = rs.length + 1 ∧
      (∀ x ∈ L, x ∈ rs ∨ x = ⟨f, t⟩) ∧
      ∀ p, covers L p ↔ (covers rs p ∨ (f ≤ p ∧ p ≤ t)) := by
  induction rs with
  | nil =>
    intro _ _
    refine ⟨[⟨f, t⟩], ⟨?_, List.pairwise_singleton _ _⟩, rfl, ?_, ?_⟩
    · intro r hr
      rw [List.mem_singleton.1 hr]
      exact hv
    · intro x hx
      exact Or.inr (List.mem_singleton.1 hx)
    · intro p
      simp [covers]
  | cons r rs ih =>
    intro hc hap
    have hr := hap r (List.mem_cons_self _ _)
    have hrv := hc.1 r (List.mem_cons_self _ _)
    have hpw := List.pairwise_cons.1 hc.2
    by_cases h1 : t + 1 < r.from_
    · refine ⟨⟨f, t⟩ :: r :: rs, ⟨?_, ?_⟩, rfl, ?_, ?_⟩
      · intro x hx
        rcases List.mem_cons.1 hx with rfl | hx
        · exact hv
        · exact hc.1 x hx
      · refine List.pairwise_cons.2 ⟨?_, hc.2⟩
        intro x hx
        rcases List.mem_cons.1 hx with rfl | hx
        · exact h1
        · have := hpw.1 x hx
          unfold apart at this ⊢
          unfold portrange.valid at hrv
          simp only
          omega
      · intro x hx
        rcases List.mem_cons.1 hx with rfl | hx
        · exact Or.inr rfl
        · exact Or.inl hx
      · intro p
        rw [covers_cons]
        tauto
    · have h2 : r.to_ + 1 < f := by omega
      obtain ⟨L, hL, hlen, hmem, hcov⟩ := ih (canonical_tail r rs hc)
        (fun x hx => hap x (List.mem_cons_of_mem _ hx))
      refine ⟨r :: L, ⟨?_, ?_⟩, by simp [hlen], ?_, ?_⟩
      · intro x hx
        rcases List.mem_cons.1 hx with rfl | hx
        · exact hrv
        · exact hL.1 x hx
      · refine List.pairwise_cons.2 ⟨?_, hL.2⟩
        intro x hx
        rcases hmem x hx with hx | rfl
        · exact hpw.1 x hx
        · exact h2
      · intro x hx
        rcases List.mem_cons.1 hx with rfl | hx
        · exact Or.inl (List.mem_cons_self _ _)
        · rcases hmem x hx with hx | rfl
          · exact Or.inl (List.mem_cons_of_mem _ hx)
          · exact Or.inr rfl
      · intro p
        rw [covers_cons, covers_cons, hcov]
        tauto

/-- On a filter without ranges, all calls for ranges with numbers up to 65535
return true exactly when every range is valid and the merged result never needs
more than `max_port_ranges` ranges. -/
theorem calls_ok_iff_fit (flt : socket_filter) (h0 : flt._M_portranges = [])
    (cs : List (Nat × Nat)) (hb : ∀ c ∈ cs, c.1 ≤ 65535 ∧ c.2 ≤ 65535) :
    port_range_calls_ok flt cs = true ↔ ((∀ c ∈ cs, 1 ≤ c.1 ∧ c.1 ≤ c.2) ∧ ranges_fit cs) := by
  have hcan0 : canonical flt._M_portranges := by rw [h0]; exact canonical_nil
  have hlen0 : flt._M_portranges.length ≤ 32 := by rw [h0]; exact Nat.zero_le _
  have hbt : ∀ k, ∀ c ∈ cs.take k, c.1 ≤ 65535 ∧ c.2 ≤ 65535 :=
    fun k c hc => hb c (List.mem_of_mem_take hc)
  constructor
  · intro hok
    refine ⟨port_range_calls_ok_valid cs flt hok, ?_⟩
    intro k _
    have hokk := port_range_calls_ok_take cs flt k hok
    obtain ⟨hc, hn⟩ := canonical_port_range_calls (cs.take k) flt (hbt k) hcan0 hlen0
    refine ⟨_, hc, hn, ?_⟩
    intro p
    rw [covers_port_range_calls (cs.take k) flt (hbt k) hcan0 hokk p, h0]
    simp [covers_nil]
  · rintro ⟨hvalid, hfit⟩
    have key : ∀ k, k ≤ cs.length → port_range_calls_ok flt (cs.take k) = true := by
      intro k
      induction k with
      | zero => intro _; rfl
      | succ k ih =>
        intro hk
        have hokk := ih (by omega)
        have hklt : k < cs.length := by omega
        rw [List.take_succ, List.getElem?_eq_getElem hklt, Option.toList_some,
          port_range_calls_ok_append, hokk, Bool.true_and]
        simp only [port_range_calls_ok, Bool.and_true]
        obtain ⟨hc, hn⟩ := canonical_port_range_calls (cs.take k) flt (hbt k) hcan0 hlen0
        have hmem : cs[k] ∈ cs := List.getElem_mem hklt
        have hv := hvalid _ hmem
        have hbk := hb _ hmem
        by_contra hfail
        have hfalse : (port_range_list (port_range_calls flt (cs.take k))._M_portranges
            cs[k].1 cs[k].2).1 = false := by
          simpa [port_range] using hfail
        rcases (port_range_list_false_iff _ _ _ hc hn).1.1 hfalse with h | h | ⟨h32, hap⟩
        · omega
        · omega
        · obtain ⟨L, hL, hLlen, _, hLcov⟩ := canonical_insert_apart cs[k].1 cs[k].2
            ⟨hv.1, hv.2, hbk.2⟩ _ hc hap
          obtain ⟨rs, hrs, hrslen, hrscov⟩ := hfit (k + 1) hk
          have heq : rs = L := by
            apply canonical_unique rs L hrs hL
            intro p
            rw [hrscov, hLcov, covers_port_range_calls (cs.take k) flt (hbt k) hcan0 hokk p,
              h0, List.take_succ, List.getElem?_eq_getElem hklt, Option.toList_some]
            simp only [List.mem_append, List.mem_singleton, covers_nil, false_or]
            constructor
            · rintro ⟨c, hc | rfl, hp⟩
              · exact Or.inl ⟨c, hc, hp⟩
              · exact Or.inr hp
            · rintro (⟨c, hc, hp⟩ | hp)
              · exact ⟨c, Or.inl hc, hp⟩
              · exact ⟨_, Or.inr rfl, hp⟩
          rw [heq, hLlen, h32] at hrslen
          exact absurd hrslen (by decide)
    have := key cs.length (Nat.le_refl _)
    rwa [List.take_length] at this

/-! ## The size of the compiled program -/

theorem prog_ipv4_length (rs : List portrange) (L : Nat) :
    (prog_ipv4 rs L).length = (ports_code rs).length + 11 := by
  simp [prog_ipv4, seg_start, seg_ipv4, seg_ldport, ports_patched_length]

theorem prog_ipv6_length (rs : List portrange) (L : Nat) :
    (prog_ipv6 rs L).length = (ports_code rs).length + 10 := by
  simp [prog_ipv6, seg_start, seg_ipv6, seg_ldport, ports_patched_length]

theorem prog_both_length (rs : List portrange) (L : Nat) :
    (prog_both rs L).length = 2 * (ports_code rs).length + 18 := by
  simp [prog_both, seg_start, seg_ipv6_both, seg_ipv4, seg_ldport, ports_patched_length]
  omega

theorem stmt_length (fs : List sock_filter) (code k : Nat) (h : (stmt fs code k).1 = true) :
    (stmt fs code k).2.length = fs.length + 1 := by
  unfold stmt at h ⊢
  split_ifs at h ⊢ with hlt
  simp

theorem compile_finish_length (c : compile_state) (h : (compile_finish c).1 = true) :
    (compile_finish c).2.length = c.filters.length + 2 := by
  unfold compile_finish at h ⊢
  simp only at h ⊢
  split_ifs at h ⊢ with h0
  rw [stmt_length _ _ _ h, patch_length, stmt_length _ _ _ h0, patch_length]

/-- The program `compile` produces, by configuration. -/
theorem compile_shape (s : socket_filter) (hn : s._M_portranges.length ≤ 32) :
    (compile s).1 = true ∧ (compile_body s).1 = true ∧
    compile_finish (compile_body s).2 = (true, (compile s).2._M_filters) ∧
    ((compile s).2._M_filters = prog_both_all ∨ (compile s).2._M_filters = prog_ipv4_all ∨
      (compile s).2._M_filters = prog_ipv6_all ∨
      (compile s).2._M_filters = prog_ipv4 s._M_portranges (ports_code s._M_portranges).length ∨
      (compile s).2._M_filters = prog_ipv6 s._M_portranges (ports_code s._M_portranges).length ∨
      (compile s).2._M_filters =
        prog_both s._M_portranges (ports_code s._M_portranges).length) ∧
    (s._M_ipv4 = s._M_ipv6 → s._M_portranges ≠ [] →
      (compile s).2._M_filters =
        prog_both s._M_portranges (ports_code s._M_portranges).length) := by
  rcases s with ⟨v4, v6, rs, fs⟩
  have hn32 : rs.length ≤ 32 := hn
  by_cases hne : rs = []
  · subst hne
    cases v4 <;> cases v6
    · obtain ⟨h1, h2, h3, _⟩ := compile_jumps_of ⟨false, false, [], fs⟩ prog_both_all _ _
        (by rw [compile_filters_irrel]; rfl) (by rw [compile_filters_irrel]; rfl)
        (by rw [compile_body_filters_irrel]; exact ⟨rfl, rfl, rfl⟩) jumps_both_all
      exact ⟨h1, h2, h3, Or.inl (by rw [compile_filters_irrel]; rfl),
        fun _ h => absurd rfl h⟩
    · obtain ⟨h1, h2, h3, _⟩ := compile_jumps_of ⟨false, true, [], fs⟩ prog_ipv6_all _ _
        (by rw [compile_filters_irrel]; rfl) (by rw [compile_filters_irrel]; rfl)
        (by rw [compile_body_filters_irrel]; exact ⟨rfl, rfl, rfl⟩) jumps_ipv6_all
      exact ⟨h1, h2, h3, Or.inr (Or.inr (Or.inl (by rw [compile_filters_irrel]; rfl))),
        fun _ h => absurd rfl h⟩
    · obtain ⟨h1, h2, h3, _⟩ := compile_jumps_of ⟨true, false, [], fs⟩ prog_ipv4_all _ _
        (by rw [compile_filters_irrel]; rfl) (by rw [compile_filters_irrel]; rfl)
        (by rw [compile_body_filters_irrel]; exact ⟨rfl, rfl, rfl⟩) jumps_ipv4_all
      exact ⟨h1, h2, h3, Or.inr (Or.inl (by rw [compile_filters_irrel]; rfl)),
        fun _ h => absurd rfl h⟩
    · obtain ⟨h1, h2, h3, _⟩ := compile_jumps_of ⟨true, true, [], fs⟩ prog_both_all _ _
        (by rw [compile_filters_irrel]; rfl) (by rw [compile_filters_irrel]; rfl)
        (by rw [compile_body_filters_irrel]; exact ⟨rfl, rfl, rfl⟩) jumps_both_all
      exact ⟨h1, h2, h3, Or.inl (by rw [compile_filters_irrel]; rfl),
        fun _ h => absurd rfl h⟩
  · cases v4 <;> cases v6
    · obtain ⟨h1, h2, h3, _⟩ := compile_jumps_of ⟨false, false, rs, fs⟩ _ _ _
        (by rw [compile_eq_both rs fs false hne hn32])
        (by rw [compile_eq_both rs fs false hne hn32])
        (compile_body_both rs fs false hne hn32) (jumps_both rs hn32)
      have hP : (compile ⟨false, false, rs, fs⟩).2._M_filters =
          prog_both rs (ports_code rs).length := by rw [compile_eq_both rs fs false hne hn32]
      exact ⟨h1, h2, h3, Or.inr (Or.inr (Or.inr (Or.inr (Or.inr hP)))), fun _ _ => hP⟩
    · obtain ⟨h1, h2, h3, _⟩ := compile_jumps_of ⟨false, true, rs, fs⟩ _ _ _
        (by rw [compile_eq_ipv6 rs fs hne hn32]) (by rw [compile_eq_ipv6 rs fs hne hn32])
        (compile_body_ipv6 rs fs hne hn32) (jumps_ipv6 rs hn32)
      have hP : (compile ⟨false, true, rs, fs⟩).2._M_filters =
          prog_ipv6 rs (ports_code rs).length := by rw [compile_eq_ipv6 rs fs hne hn32]
      exact ⟨h1, h2, h3, Or.inr (Or.inr (Or.inr (Or.inr (Or.inl hP)))),
        fun h _ => absurd h (by simp)⟩
    · obtain ⟨h1, h2, h3, _⟩ := compile_jumps_of ⟨true, false, rs, fs⟩ _ _ _
        (by rw [compile_eq_ipv4 rs fs hne hn32]) (by rw [compile_eq_ipv4 rs fs hne hn32])
        (compile_body_ipv4 rs fs hne hn32) (jumps_ipv4 rs hn32)
      have hP : (compile ⟨true, false, rs, fs⟩).2._M_filters =
          prog_ipv4 rs (ports_code rs).length := by rw [compile_eq_ipv4 rs fs hne hn32]
      exact ⟨h1, h2, h3, Or.inr (Or.inr (Or.inr (Or.inl hP))),
        fun h _ => absurd h (by simp)⟩
    · obtain ⟨h1, h2, h3, _⟩ := compile_jumps_of ⟨true, true, rs, fs⟩ _ _ _
        (by rw [compile_eq_both rs fs true hne hn32])
        (by rw [compile_eq_both rs fs true hne hn32])
        (compile_body_both rs fs true hne hn32) (jumps_both rs hn32)
      have hP : (compile ⟨true, true, rs, fs⟩).2._M_filters =
          prog_both rs (ports_code rs).length := by rw [compile_eq_both rs fs true hne hn32]
      exact ⟨h1, h2, h3, Or.inr (Or.inr (Or.inr (Or.inr (Or.inr hP)))), fun _ _ => hP⟩

/-! ## Runs of `add` and `add_interface` -/

/-- One call of `destinations::add`: when it succeeds and when not, and what it
leaves. -/
theorem add_of_spec (t : destinations) (c : add_call) :
    ((t.add_of c).2 = true ↔ (t._M_used ≠ t._M_size ∨ c.realloc_ok = true)) ∧
    ((t.add_of c).2 = false → (t.add_of c).1 = t) ∧
    ((t.add_of c).2 = true →
      (t.add_of c).1._M_destinations = t._M_destinations ++ [c.record] ∧
      (t.add_of c).1._M_size =
        (if t._M_used = t._M_size then (if t._M_size > 0 then t._M_size * 2 else 4)
          else t._M_size)) ∧
    (t.add_of c).1._M_idx = t._M_idx ∧ (t.add_of c).1._M_send = t._M_send ∧
    (t.add_of c).1._M_process = t._M_process := by
  unfold destinations.add_of destinations.add add_call.record
  by_cases hfull : t._M_used = t._M_size
  · cases hr : c.realloc_ok
    · simp [hfull]
    · simp [hfull]
  · simp [hfull]

/-- The capacity after `n ≥ 1` records: the smallest `4 * 2 ^ k` not below `n`. -/
theorem add_all_spec (cs : List add_call) : ∀ t : destinations,
    ((t._M_used = 0 ∧ t._M_size = 0) ∨
      ∃ k, t._M_size = 4 * 2 ^ k ∧ 0 < t._M_used ∧ t._M_used ≤ t._M_size ∧
        (k = 0 ∨ 2 * 2 ^ k < t._M_used)) →
    (((t.add_all cs).1._M_used = 0 ∧ (t.add_all cs).1._M_size = 0) ∨
      ∃ k, (t.add_all cs).1._M_size = 4 * 2 ^ k ∧ 0 < (t.add_all cs).1._M_used ∧
        (t.add_all cs).1._M_used ≤ (t.add_all cs).1._M_size ∧
        (k = 0 ∨ 2 * 2 ^ k < (t.add_all cs).1._M_used)) ∧
    (t.add_all cs).1._M_destinations =
      t._M_destinations ++ added_records cs (t.add_all cs).2 ∧
    (t.add_all cs).1._M_idx = t._M_idx ∧
    (t.add_all cs).2.length = cs.length := by
  induction cs with
  | nil =>
    intro t hI
    exact ⟨hI, by simp [destinations.add_all, added_records], rfl, rfl⟩
  | cons c cs ih =>
    intro t hI
    obtain ⟨hiff, hfalse, htrue, hidx, _, _⟩ := add_of_spec t c
    have hI1 : ((t.add_of c).1._M_used = 0 ∧ (t.add_of c).1._M_size = 0) ∨
        ∃ k, (t.add_of c).1._M_size = 4 * 2 ^ k ∧ 0 < (t.add_of c).1._M_used ∧
          (t.add_of c).1._M_used ≤ (t.add_of c).1._M_size ∧
          (k = 0 ∨ 2 * 2 ^ k < (t.add_of c).1._M_used) := by
      cases hok : (t.add_of c).2
      · rw [hfalse hok]
        exact hI
      · obtain ⟨hd, hs⟩ := htrue hok
        have hu : (t.add_of c).1._M_used = t._M_used + 1 := by
          unfold destinations._M_used
          rw [hd]
          simp
        right
        rcases hI with ⟨h0, hs0⟩ | ⟨k, hk, hpos, hle, hmin⟩
        · refine ⟨0, ?_, by omega, ?_, Or.inl rfl⟩
          · rw [hs, if_pos (by omega), if_neg (by omega)]
            rfl
          · rw [hs, if_pos (by omega), if_neg (by omega)]
            omega
        · by_cases hfull : t._M_used = t._M_size
          · refine ⟨k + 1, ?_, by omega, ?_, Or.inr ?_⟩
            · rw [hs, if_pos hfull, if_pos (by omega), hk, pow_succ]
              omega
            · rw [hs, if_pos hfull, if_pos (by omega)]
              omega
            · rw [hu, hfull, hk, pow_succ]
              omega
          · refine ⟨k, ?_, by omega, ?_, ?_⟩
            · rw [hs, if_neg hfull, hk]
            · rw [hs, if_neg hfull]
              omega
            · rcases hmin with h | h
              · exact Or.inl h
              · exact Or.inr (by omega)
    obtain ⟨hJ, hds, hi, hl⟩ := ih (t.add_of c).1 hI1
    refine ⟨hJ, ?_, by simp only [destinations.add_all]; rw [hi, hidx],
      by simp only [destinations.add_all, List.length_cons, hl]⟩
    simp only [destinations.add_all, added_records]
    rw [hds]
    cases hok : (t.add_of c).2
    · rw [hfalse hok]
      simp
    · rw [(htrue hok).1]
      simp

/-! ## The round robin from any cursor -/

/-- The number of `k < K` with `(c + k) % M = j`. -/
theorem length_filter_range_add_mod (M c j : Nat) (hc : c < M) (hj : j < M) (K : Nat) :
    ((List.range K).filter (fun k => (c + k) % M = j)).length =
      K / M + if (j + M - c) % M < K % M then 1 else 0 := by
  have hM : 0 < M := by omega
  have hj' : (j + M - c) % M < M := Nat.mod_lt _ hM
  rw [← length_filter_range_mod M ((j + M - c) % M) hj' K]
  congr 1
  apply List.filter_congr
  intro k _
  have hr := Nat.mod_lt k hM
  have h1 : (c + k) % M = (c + k % M) % M := by
    rw [Nat.add_mod, Nat.mod_eq_of_lt hc]
  have h2 : (c + k % M) % M = if c + k % M < M then c + k % M else c + k % M - M := by
    split_ifs with h
    · exact Nat.mod_eq_of_lt h
    · rw [Nat.mod_eq_sub_mod (by omega), Nat.mod_eq_of_lt (by omega)]
  have h3 : (j + M - c) % M = if c ≤ j then j - c else j + M - c := by
    split_ifs with h
    · have : j + M - c = (j - c) + M := by omega
      rw [this, Nat.add_mod_right, Nat.mod_eq_of_lt (by omega)]
    · exact Nat.mod_eq_of_lt (by omega)
  rw [h1, h2, h3]
  generalize k % M = r at hr
  have : ((if c + r < M then c + r else c + r - M) = j) ↔
      (r = if c ≤ j then j - c else j + M - c) := by
    split_ifs <;> omega
  simp only [this]

/-! ## The checksum field as it is written -/

theorem csum_finish_lt (F : Nat) : csum_finish F < 65536 := by
  unfold csum_finish htons
  omega

theorem ntohs_eq_zero_iff (c : Nat) (h : c < 65536) : ntohs c = 0 ↔ c = 0 := by
  unfold ntohs
  omega

theorem store_u16_eq_zero_iff (c : Nat) (h : c < 65536) : store_u16 c = [0, 0] ↔ c = 0 := by
  unfold store_u16
  constructor
  · intro hc
    have h0 : c % 256 = 0 := by
      have := congrArg (fun l => l.getD 0 7) hc
      simpa using this
    have h1 : c / 256 % 256 = 0 := by
      have := congrArg (fun l => l.getD 1 7) hc
      simpa using this
    omega
  · intro hc
    subst hc
    rfl

/-- The fourth of five segments, the first four of two bytes each. -/
theorem drop6_take2 (A P B C D : List Nat) (hA : A.length = 2) (hP : P.length = 2)
    (hB : B.length = 2) (hC : C.length = 2) :
    ((A ++ (P ++ (B ++ (C ++ D)))).drop 6).take 2 = C := by
  have e : A ++ (P ++ (B ++ (C ++ D))) = (A ++ (P ++ B)) ++ (C ++ D) := by
    simp only [List.append_assoc]
  rw [e, List.drop_left' (by simp only [List.length_append, hA, hP, hB]),
    List.take_left' hC]

/-- The checksum a send function writes is zero exactly when the folded sum is
`0xFFFF`. -/
theorem checksum_zero_iff (c F : Nat) (hc : c < 65536) (hF : F ≤ 65535)
    (h : ntohs c = 65535 - F) :
    (c = 0 ↔ F = 65535) ∧ (store_u16 c = [0, 0] ↔ F = 65535) := by
  have h0 := ntohs_eq_zero_iff c hc
  have h1 := store_u16_eq_zero_iff c hc
  constructor
  · rw [← h0, h]; omega
  · rw [h1, ← h0, h]; omega

/-! ## When `add_destination` succeeds -/

/-- The result flag of `destinations::add`. -/
theorem destinations_add_ok_iff (t : destinations) (realloc_ok : Bool)
    (old_addr macaddr addr : List Nat) (addrlen port : Nat) (iface : interface) :
    (t.add realloc_ok old_addr macaddr addr addrlen port iface).2 = true ↔
      (t._M_used ≠ t._M_size ∨ realloc_ok = true) :=
  (add_of_spec t ⟨realloc_ok, old_addr, macaddr, addr, addrlen, port, iface⟩).1

/-- The result flag of `worker::add_destination`. -/
theorem worker_add_iff (w : worker) (i : Nat) (r : add_request) :
    (w.add i r).2 = true ↔ w.can_add i r := by
  unfold worker.add worker.add_destination
  cases hf : w._M_interfaces.find? (fun x => decide (r.ifindex = x.index)) with
  | none =>
    rw [List.find?_eq_none] at hf
    constructor
    · intro h
      simp at h
    · rintro ⟨⟨iface, hi, hx⟩, _⟩
      exact absurd (decide_eq_true hx) (hf iface hi)
  | some iface =>
    have hex : ∃ x ∈ w._M_interfaces, r.ifindex = x.index := by
      have hp := List.find?_some hf
      exact ⟨iface, List.mem_of_find?_eq_some hf, of_decide_eq_true hp⟩
    simp only
    by_cases h4 : r.addrlen = 4
    · simp only [sizeof_in_addr, h4, if_true]
      rw [destinations_add_ok_iff]
      constructor
      · intro h
        exact ⟨hex, Or.inl ⟨h4, h⟩⟩
      · rintro ⟨_, ⟨_, h⟩ | ⟨h16, _⟩⟩
        · exact h
        · rw [h4] at h16
          exact absurd h16 (by decide)
    · by_cases h16 : r.addrlen = 16
      · simp only [sizeof_in_addr, sizeof_in6_addr, h16, if_true,
          show ¬ (16 = 4) by decide, if_false]
        rw [destinations_add_ok_iff]
        constructor
        · intro h
          exact ⟨hex, Or.inr ⟨h16, h⟩⟩
        · rintro ⟨_, ⟨h4', _⟩ | ⟨_, h⟩⟩
          · exact absurd h4' h4
          · exact h
      · simp only [sizeof_in_addr, sizeof_in6_addr, h4, h16, if_false]
        constructor
        · intro h
          simp at h
        · rintro ⟨_, ⟨h, _⟩ | ⟨h, _⟩⟩
          · exact absurd h h4
          · exact absurd h h16

/-- The result flag of `udp_distributor::add_destination` in load-balancer
mode. -/
theorem add_lb_ok_iff (d : udp_distributor) (r : add_request)
    (ht : d._M_type = some type.load_balancer) (w : worker)
    (hw : d._M_workers[d._M_idx]? = some w) (d2 : udp_distributor) (ok : Bool)
    (hstep : d.add r = some (d2, ok)) :
    ok = true ↔ (0 < r.ifindex ∧ w.can_add d._M_idx r) := by
  rw [← worker_add_iff]
  unfold worker.add
  simp only [udp_distributor.add, udp_distributor.add_destination, ht, hw, if_true] at hstep
  by_cases hif : r.ifindex > 0
  · simp only [hif, if_true] at hstep
    cases hok : (w.add_destination (r.realloc_ok d._M_idx) (r.old_addr d._M_idx) r.ifindex
        r.macaddr r.addr r.addrlen r.port).2 with
    | false =>
      simp only [hok, Bool.false_eq_true, if_false, Option.some.injEq, Prod.mk.injEq] at hstep
      rw [← hstep.2]
      simp
    | true =>
      simp only [hok, if_true, Option.some.injEq, Prod.mk.injEq] at hstep
      rw [← hstep.2]
      simp [hif]
  · simp only [hif, if_false, Option.some.injEq, Prod.mk.injEq] at hstep
    rw [← hstep.2]
    simp [hif]

/-- The loop of the broadcaster branch reports success exactly when every
worker adds the destination, and keeps the number of workers. -/
theorem add_destination_loop_iff (r : add_request) :
    ∀ (ws : List worker) (i0 : Nat),
      ((udp_distributor.add_destination_loop r.realloc_ok r.old_addr r.ifindex r.macaddr r.addr
        r.addrlen r.port i0 ws).2 = true ↔
        ∀ (j : Nat) (w : worker), ws[j]? = some w → w.can_add (i0 + j) r) ∧
      (udp_distributor.add_destination_loop r.realloc_ok r.old_addr r.ifindex r.macaddr r.addr
        r.addrlen r.port i0 ws).1.length = ws.length := by
  intro ws
  induction ws with
  | nil =>
    intro i0
    refine ⟨⟨fun _ j w h => by simp at h, fun _ => rfl⟩, rfl⟩
  | cons a rest ih =>
    intro i0
    have ha := worker_add_iff a i0 r
    unfold worker.add at ha
    unfold udp_distributor.add_destination_loop
    cases hok : (a.add_destination (r.realloc_ok i0) (r.old_addr i0) r.ifindex r.macaddr r.addr
        r.addrlen r.port).2 with
    | false =>
      simp only [hok, Bool.false_eq_true, if_false, false_iff, List.length_cons, and_true]
      intro hall
      have := ha.2 (by simpa using hall 0 a List.getElem?_cons_zero)
      rw [hok] at this
      exact absurd this (by decide)
    | true =>
      simp only [hok, if_true, List.length_cons]
      obtain ⟨hiff, hl⟩ := ih (i0 + 1)
      refine ⟨?_, by rw [hl]⟩
      rw [hiff]
      constructor
      · intro hall j w hj
        cases j with
        | zero =>
          simp only [List.getElem?_cons_zero, Option.some.injEq] at hj
          subst hj
          exact ha.1 hok
        | succ j =>
          simp only [List.getElem?_cons_succ] at hj
          have := hall j w hj
          have e : i0 + 1 + j = i0 + (j + 1) := by omega
          rw [e] at this
          exact this
      · intro hall j w hj
        have := hall (j + 1) w (by simpa only [List.getElem?_cons_succ] using hj)
        have e : i0 + 1 + j = i0 + (j + 1) := by omega
        rw [e]
        exact this

/-- The call `add_destination` in broadcaster mode returns, with the flag true
exactly when the index is positive and every worker adds the destination. -/
theorem add_bc_ok_iff (d : udp_distributor) (r : add_request)
    (ht : d._M_type = some type.broadcaster) :
    ∃ d2 ok, d.add r = some (d2, ok) ∧
      (ok = true ↔ (0 < r.ifindex ∧
        ∀ (j : Nat) (w : worker), d._M_workers[j]? = some w → w.can_add j r)) := by
  have hne : ¬ type.broadcaster = type.load_balancer := by decide
  by_cases hif : r.ifindex > 0
  · refine ⟨_, _, by
      simp only [udp_distributor.add, udp_distributor.add_destination, ht, hif, if_true, hne,
        if_false]
      rfl, ?_⟩
    rw [(add_destination_loop_iff r d._M_workers 0).1]
    simp only [Nat.zero_add]
    exact ⟨fun h => ⟨hif, h⟩, fun h => h.2⟩
  · refine ⟨d, false, by simp only [udp_distributor.add, udp_distributor.add_destination, ht,
      hif, if_false], ?_⟩
    constructor
    · intro h
      exact absurd h (by decide)
    · intro h
      exact absurd h.1 hif

/-- A call of `add_destination` in load-balancer mode leaves the interfaces of
every worker as they were. -/
theorem add_lb_keeps_interfaces (d : udp_distributor) (r : add_request)
    (ht : d._M_type = some type.load_balancer) (hidx : d._M_idx < d._M_workers.length)
    (d2 : udp_distributor) (ok : Bool) (hstep : d.add r = some (d2, ok)) :
    d2._M_workers.map worker._M_interfaces = d._M_workers.map worker._M_interfaces := by
  obtain ⟨d3, ok3, w, hstep3, hw, _, _, hfail, hsucc⟩ := add_lb_step d r ht hidx
  rw [hstep] at hstep3
  simp only [Option.some.injEq, Prod.mk.injEq] at hstep3
  obtain ⟨hd, hok⟩ := hstep3
  subst hd
  subst hok
  cases ok with
  | false => rw [hfail rfl]
  | true =>
    obtain ⟨_, hwok, _, hget, hother⟩ := hsucc rfl
    obtain ⟨_, _, happ, _⟩ := (worker_add_spec w d._M_idx r).2 hwok
    apply List.ext_getElem?
    intro j
    rw [List.getElem?_map, List.getElem?_map]
    by_cases hj : j = d._M_idx
    · subst hj
      rw [hget, hw]
      simp only [Option.map_some', happ.1]
    · rw [hother j hj]

/-- A run of `add_destination` in load-balancer mode with requests that every
worker accepts: every call returns true. -/
theorem add_destinations_all_ok : ∀ (reqs : List add_request) (d : udp_distributor),
    d._M_type = some type.load_balancer → d._M_idx < d._M_workers.length →
    (∀ r ∈ reqs, r.accepted_by d) →
    ∃ d1 oks, add_destinations d reqs = some (d1, oks) ∧ ∀ ok ∈ oks, ok = true := by
  intro reqs
  induction reqs with
  | nil =>
    intro d _ _ _
    exact ⟨d, [], rfl, fun ok h => by simp at h⟩
  | cons r rs ih =>
    intro d ht hidx hacc
    obtain ⟨d2, ok, w, hstep, hw, ht2, hl2, _, hsucc⟩ := add_lb_step d r ht hidx
    obtain ⟨hif, hlen, hre, hifc⟩ := hacc r (List.mem_cons_self _ _)
    have hcan : w.can_add d._M_idx r := by
      refine ⟨hifc w (List.getElem?_mem hw), ?_⟩
      have hr := hre d._M_idx hidx
      rcases hlen with h4 | h16
      · exact Or.inl ⟨h4, Or.inr hr⟩
      · exact Or.inr ⟨h16, Or.inr hr⟩
    have hok : ok = true := (add_lb_ok_iff d r ht w hw d2 ok hstep).2 ⟨hif, hcan⟩
    subst hok
    obtain ⟨_, _, hidx2, _, _⟩ := hsucc rfl
    have hkeep := add_lb_keeps_interfaces d r ht hidx d2 true hstep
    have hpos : 0 < d._M_workers.length := by omega
    have hacc2 : ∀ r2 ∈ rs, r2.accepted_by d2 := by
      intro r2 hr2
      obtain ⟨a1, a2, a3, a4⟩ := hacc r2 (List.mem_cons_of_mem _ hr2)
      refine ⟨a1, a2, ?_, ?_⟩
      · intro i hi
        apply a3 i
        unfold udp_distributor._M_nworkers at hi ⊢
        omega
      · intro w2 hw2
        have hm : w2._M_interfaces ∈ d2._M_workers.map worker._M_interfaces :=
          List.mem_map_of_mem _ hw2
        rw [hkeep] at hm
        obtain ⟨w0, hw0, he⟩ := List.mem_map.1 hm
        rw [← he]
        exact a4 w0 hw0
    obtain ⟨d1, oks, hrun, hall⟩ := ih d2 (by rw [ht2, ht])
      (by rw [hidx2, hl2]; exact Nat.mod_lt _ hpos) hacc2
    refine ⟨d1, true :: oks, ?_, ?_⟩
    · simp only [add_destinations, hstep, hrun, Option.map_some']
    · intro ok hok
      simp only [List.mem_cons] at hok
      rcases hok with h | h
      · exact h
      · exact hall ok h

/-! ## Claims about `port_range` -/

/-- C1: after any sequence of `port_range(from, to)` calls on a cleared
filter, whatever each call returned, at most 32 ranges are stored, every stored
range has `1 ≤ from ≤ to ≤ 65535`, and every adjacent pair satisfies
`ranges[i].to + 1 < ranges[i+1].from`. -/
theorem port_range_invariant (s0 : socket_filter) (cs : List (Nat × Nat))
    (hcs : ∀ c ∈ cs, c.1 ≤ 65535 ∧ c.2 ≤ 65535) :
    (port_range_calls (clear s0) cs)._M_portranges.length ≤ 32 ∧
    (∀ r ∈ (port_range_calls (clear s0) cs)._M_portranges,
      1 ≤ r.from_ ∧ r.from_ ≤ r.to_ ∧ r.to_ ≤ 65535) ∧
    (∀ i, i + 1 < (port_range_calls (clear s0) cs)._M_portranges.length →
      ((port_range_calls (clear s0) cs)._M_portranges.getD i ⟨0, 0⟩).to_ + 1 <
        ((port_range_calls (clear s0) cs)._M_portranges.getD (i + 1) ⟨0, 0⟩).from_) := by
  obtain ⟨hc, hn⟩ := canonical_port_range_calls cs (clear s0) hcs canonical_nil (by simp [clear])
  refine ⟨hn, hc.1, ?_⟩
  intro i hi
  have h := (List.pairwise_iff_getElem.1 hc.2) i (i + 1) (by omega) hi (by omega)
  rw [List.getD_eq_getElem _ _ (by omega), List.getD_eq_getElem _ _ hi]
  exact h

theorem port_range_invariant_witness :
    (port_range_calls (clear empty) [(10, 20), (30, 40), (21, 29), (50, 50)])._M_portranges
        = [⟨10, 40⟩, ⟨50, 50⟩] ∧
      ((port_range_calls (clear empty)
          [(10, 20), (30, 40), (21, 29), (50, 50)])._M_portranges.getD 0 ⟨0, 0⟩).to_ + 1 <
        ((port_range_calls (clear empty)
          [(10, 20), (30, 40), (21, 29), (50, 50)])._M_portranges.getD (0 + 1) ⟨0, 0⟩).from_ :=
  ⟨by decide,
   (port_range_invariant empty [(10, 20), (30, 40), (21, 29), (50, 50)] (by decide)).2.2 0
     (by decide)⟩

/-- C2: whenever `port_range(from, to)` returns true on a filter reached from
a cleared one, the set of covered ports afterwards is the set covered before
united with `{from..to}`; and for `1 ≤ a ≤ b < c ≤ 65535`, inserting `[a, b]`
and `[b+1, c]` in either order into an empty set leaves exactly `[a, c]`. -/
theorem port_range_covers (s0 : socket_filter) (cs : List (Nat × Nat))
    (hcs : ∀ c ∈ cs, c.1 ≤ 65535 ∧ c.2 ≤ 65535) (f t : Nat) :
    ((port_range (port_range_calls (clear s0) cs) f t).1 = true →
      ∀ p, covers (port_range (port_range_calls (clear s0) cs) f t).2._M_portranges p ↔
        (covers (port_range_calls (clear s0) cs)._M_portranges p ∨ (f ≤ p ∧ p ≤ t))) ∧
    (∀ a b c, 1 ≤ a → a ≤ b → b < c → c ≤ 65535 →
      (port_range_calls (clear s0) [(a, b), (b + 1, c)])._M_portranges = [⟨a, c⟩] ∧
      (port_range_calls (clear s0) [(b + 1, c), (a, b)])._M_portranges = [⟨a, c⟩]) := by
  obtain ⟨hc, _⟩ := canonical_port_range_calls cs (clear s0) hcs canonical_nil (by simp [clear])
  refine ⟨?_, ?_⟩
  · intro hok p
    exact covers_port_range_list _ f t hc hok p
  · intro a b c ha hab hbc hc
    have h1 : ¬ (b + 1 > b + 1) := by omega
    have h2 : ¬ (c + 1 < a) := by omega
    have h3 : ¬ (b + 1 < a) := by omega
    have h4 : c > b := hbc
    have h5 : ¬ (a > c + 1) := by omega
    have h6 : ¬ (b + 1 < b + 1) := by omega
    have h7 : a < b + 1 := by omega
    have h8 : ¬ (b > c) := by omega
    have h9 : 0 < a := ha
    have h10 : b + 1 ≤ c := hbc
    constructor
    · simp [port_range_calls, port_range, port_range_list, port_range_i, port_range_j, clear,
        max_port_ranges, h1, h2, h3, h4, h5, h6, h7, h8, h9, h10, hab]
    · simp [port_range_calls, port_range, port_range_list, port_range_i, port_range_j, clear,
        max_port_ranges, h1, h2, h3, h4, h5, h6, h7, h8, h9, h10, hab]

theorem port_range_covers_witness :
    (port_range (port_range_calls (clear empty) [(10, 20), (30, 40)]) 15 35).1 = true ∧
    (covers (port_range (port_range_calls (clear empty) [(10, 20), (30, 40)]) 15 35).2._M_portranges
        25 ↔
      (covers (port_range_calls (clear empty) [(10, 20), (30, 40)])._M_portranges 25 ∨
        (15 ≤ 25 ∧ 25 ≤ 35))) ∧
    (port_range_calls (clear empty) [(65000, 65534), (65534 + 1, 65535)])._M_portranges
      = [⟨65000, 65535⟩] :=
  ⟨by decide,
   (port_range_covers empty [(10, 20), (30, 40)] (by decide) 15 35).1
     (by decide) 25,
   ((port_range_covers empty [(10, 20), (30, 40)] (by decide) 15 35).2
     65000 65534 65535 (by decide) (by decide) (by decide) (by decide)).1⟩

/-- C3: on a filter reached from a cleared one, `port_range(from, to)` returns
false exactly when `from = 0`, or `from > to`, or 32 ranges are stored and
`[from, to]` neither overlaps nor touches any of them; whenever it returns
false the filter is unchanged. -/
theorem port_range_false_iff (s0 : socket_filter) (cs : List (Nat × Nat))
    (hcs : ∀ c ∈ cs, c.1 ≤ 65535 ∧ c.2 ≤ 65535) (f t : Nat) :
    ((port_range (port_range_calls (clear s0) cs) f t).1 = false ↔
      (f = 0 ∨ f > t ∨
        ((port_range_calls (clear s0) cs)._M_portranges.length = 32 ∧
          ∀ r ∈ (port_range_calls (clear s0) cs)._M_portranges,
            r.to_ + 1 < f ∨ t + 1 < r.from_))) ∧
    ((port_range (port_range_calls (clear s0) cs) f t).1 = false →
      (port_range (port_range_calls (clear s0) cs) f t).2 = port_range_calls (clear s0) cs) := by
  obtain ⟨hc, hn⟩ := canonical_port_range_calls cs (clear s0) hcs canonical_nil (by simp [clear])
  have h := port_range_list_false_iff _ f t hc hn
  refine ⟨h.1, ?_⟩
  intro hfalse
  have h2 := h.2 hfalse
  simp only [port_range] at h2 ⊢
  rw [h2]

/-- C4: insertion order does not matter: if every `port_range` call returns
true for a list of valid ranges and for a permutation of it, both starting
from an empty set, the two resulting stored range lists are identical. -/
theorem port_range_order_independent (s0 : socket_filter) (cs cs' : List (Nat × Nat))
    (hperm : cs.Perm cs') (hcs : ∀ c ∈ cs, 1 ≤ c.1 ∧ c.1 ≤ c.2 ∧ c.2 ≤ 65535)
    (hok : port_range_calls_ok (clear s0) cs = true)
    (hok' : port_range_calls_ok (clear s0) cs' = true) :
    (port_range_calls (clear s0) cs)._M_portranges =
      (port_range_calls (clear s0) cs')._M_portranges := by
  have hb : ∀ c ∈ cs, c.1 ≤ 65535 ∧ c.2 ≤ 65535 := fun c hc => by
    have := hcs c hc
    omega
  have hb' : ∀ c ∈ cs', c.1 ≤ 65535 ∧ c.2 ≤ 65535 := fun c hc => hb c (hperm.mem_iff.2 hc)
  have hcl : canonical (clear s0)._M_portranges := canonical_nil
  obtain ⟨hc, _⟩ := canonical_port_range_calls cs (clear s0) hb hcl (by simp [clear])
  obtain ⟨hc', _⟩ := canonical_port_range_calls cs' (clear s0) hb' hcl (by simp [clear])
  apply canonical_unique _ _ hc hc'
  intro p
  rw [covers_port_range_calls cs _ hb hcl hok p, covers_port_range_calls cs' _ hb' hcl hok' p]
  constructor
  · rintro (h | ⟨c, hc, h⟩)
    · exact Or.inl h
    · exact Or.inr ⟨c, hperm.mem_iff.1 hc, h⟩
  · rintro (h | ⟨c, hc, h⟩)
    · exact Or.inl h
    · exact Or.inr ⟨c, hperm.mem_iff.2 hc, h⟩

theorem port_range_false_iff_witness :
    (port_range_calls (clear empty)
        ((List.range 32).map (fun i => (2 * i + 1, 2 * i + 1))))._M_portranges.length = 32 ∧
    (port_range (port_range_calls (clear empty)
        ((List.range 32).map (fun i => (2 * i + 1, 2 * i + 1)))) 100 200).1 = false ∧
    (port_range (port_range_calls (clear empty)
        ((List.range 32).map (fun i => (2 * i + 1, 2 * i + 1)))) 100 200).2 =
      port_range_calls (clear empty) ((List.range 32).map (fun i => (2 * i + 1, 2 * i + 1))) ∧
    (port_range (port_range_calls (clear empty)
        ((List.range 32).map (fun i => (2 * i + 1, 2 * i + 1)))) 64 200).1 = true :=
  ⟨by decide,
   (port_range_false_iff empty ((List.range 32).map (fun i => (2 * i + 1, 2 * i + 1)))
      (by decide) 100 200).1.2 (Or.inr (Or.inr ⟨by decide, by decide⟩)),
   (port_range_false_iff empty ((List.range 32).map (fun i => (2 * i + 1, 2 * i + 1)))
      (by decide) 100 200).2 (by decide),
   by decide⟩

theorem port_range_order_independent_witness :
    (port_range_calls (clear empty) [(10, 20), (30, 40), (21, 29), (50, 60)])._M_portranges =
      (port_range_calls (clear empty) [(50, 60), (21, 29), (10, 20), (30, 40)])._M_portranges ∧
    (port_range_calls (clear empty) [(10, 20), (30, 40), (21, 29), (50, 60)])._M_portranges =
      [⟨10, 40⟩, ⟨50, 60⟩] :=
  ⟨port_range_order_independent empty [(10, 20), (30, 40), (21, 29), (50, 60)]
      [(50, 60), (21, 29), (10, 20), (30, 40)] (by decide) (by decide) (by decide) (by decide),
   by decide⟩

/-! ## Claims about the compiled filter -/

/-- C5: for a filter with IPv4 enabled (IPv4 only, or both families: both
flags set or none) and at most 32 stored ranges, and for every frame with
Ethertype 0x0800 and `ihl = 5`: `compile` succeeds and the program returns
`0x40000` iff the frame has at least 42 bytes, protocol 17,
`frag_off & 0x3FFF = 0`, and either no range is stored or the UDP destination
port lies in a stored range; otherwise it returns 0. -/
theorem compile_accepts_ipv4_frame (s : socket_filter) (pkt : List Nat)
    (hfam : s._M_ipv4 = true ∨ s._M_ipv6 = false) (hn : s._M_portranges.length ≤ 32)
    (het : frame_ethertype pkt = 0x0800) (hihl : frame_ihl pkt = 5) :
    (compile s).1 = true ∧
    (run_filter (compile s).2._M_filters pkt = some 0x40000 ↔
      (42 ≤ pkt.length ∧ frame_ipv4_protocol pkt = 17 ∧ frame_ipv4_frag_off pkt &&& 0x3FFF = 0 ∧
        (s._M_portranges = [] ∨ covers s._M_portranges (frame_ipv4_udp_dest pkt)))) ∧
    (¬ (42 ≤ pkt.length ∧ frame_ipv4_protocol pkt = 17 ∧
        frame_ipv4_frag_off pkt &&& 0x3FFF = 0 ∧
        (s._M_portranges = [] ∨ covers s._M_portranges (frame_ipv4_udp_dest pkt))) →
      run_filter (compile s).2._M_filters pkt = some 0) := by
  obtain ⟨v4, v6, rs, fs⟩ := s
  simp only at hfam hn
  have hport : frame_ipv4_udp_dest pkt = be16 pkt 36 := by
    simp [frame_ipv4_udp_dest, hihl, sizeof_ether_header, offsetof_udphdr_dest]
  have hne : ¬ (0x0800 : Nat) = ETHERTYPE_IPV6 := by decide
  obtain ⟨hok, hacc, hrej⟩ := run_filter_compile v4 v6 rs fs pkt hn
  have hiff : filter_accepts v4 v6 rs pkt ↔
      (42 ≤ pkt.length ∧ frame_ipv4_protocol pkt = 17 ∧
        frame_ipv4_frag_off pkt &&& 0x3FFF = 0 ∧ (rs = [] ∨ covers rs (be16 pkt 36))) := by
    have h4 : accepts_ipv4 rs pkt ↔
        (42 ≤ pkt.length ∧ frame_ipv4_protocol pkt = 17 ∧
          frame_ipv4_frag_off pkt &&& 0x3FFF = 0 ∧ (rs = [] ∨ covers rs (be16 pkt 36))) := by
      simp only [accepts_ipv4, het, ETHERTYPE_IP, IPPROTO_UDP, true_and]
    cases v4 <;> cases v6 <;> simp only [filter_accepts, het, hne, false_and, false_or, h4]
    · exact ⟨fun h => h.2, fun h => ⟨h.1, h⟩⟩
    · simp at hfam
    · exact ⟨fun h => h.2, fun h => ⟨h.1, h⟩⟩
  simp only [hport, ← hiff]
  refine ⟨hok, ⟨fun h => ?_, hacc⟩, hrej⟩
  by_contra hc
  rw [hrej hc] at h
  simp at h

theorem compile_accepts_ipv4_frame_witness :
    run_filter (compile ⟨true, false, [⟨1000, 1002⟩, ⟨2000, 2000⟩], []⟩).2._M_filters
        (sample_frame_ipv4 1001) = some 0x40000 ∧
      run_filter (compile ⟨true, false, [⟨1000, 1002⟩, ⟨2000, 2000⟩], []⟩).2._M_filters
        (sample_frame_ipv4 1003) = some 0 :=
  ⟨(compile_accepts_ipv4_frame ⟨true, false, [⟨1000, 1002⟩, ⟨2000, 2000⟩], []⟩
      (sample_frame_ipv4 1001) (Or.inl rfl) (by decide) (by decide) (by decide)).2.1.2
      ⟨by decide, by decide, by decide,
        Or.inr ⟨⟨1000, 1002⟩, by decide, by decide, by decide⟩⟩,
   (compile_accepts_ipv4_frame ⟨true, false, [⟨1000, 1002⟩, ⟨2000, 2000⟩], []⟩
      (sample_frame_ipv4 1003) (Or.inl rfl) (by decide) (by decide) (by decide)).2.2
      (by
        rintro ⟨_, _, _, h | ⟨r, hr, h1, h2⟩⟩
        · exact absurd h (by decide)
        · have hp : frame_ipv4_udp_dest (sample_frame_ipv4 1003) = 1003 := by decide
          rw [hp] at h1 h2
          simp only [List.mem_cons, List.mem_singleton, List.not_mem_nil, or_false] at hr
          rcases hr with rfl | rfl
          · simp at h2
          · simp at h1)⟩

/-- C6: for a filter with IPv6 enabled (IPv6 only, or both families: both
flags set or none) and at most 32 stored ranges, and for every frame with
Ethertype 0x86DD: `compile` succeeds and the program returns `0x40000` iff the
frame has at least 62 bytes, next header 17, and either no range is stored or
the UDP destination port (bytes 56-57) lies in a stored range; otherwise it
returns 0. -/
theorem compile_accepts_ipv6_frame (s : socket_filter) (pkt : List Nat)
    (hfam : s._M_ipv6 = true ∨ s._M_ipv4 = false) (hn : s._M_portranges.length ≤ 32)
    (het : frame_ethertype pkt = 0x86DD) :
    (compile s).1 = true ∧
    (run_filter (compile s).2._M_filters pkt = some 0x40000 ↔
      (62 ≤ pkt.length ∧ frame_ipv6_nxt pkt = 17 ∧
        (s._M_portranges = [] ∨ covers s._M_portranges (frame_ipv6_udp_dest pkt)))) ∧
    (¬ (62 ≤ pkt.length ∧ frame_ipv6_nxt pkt = 17 ∧
        (s._M_portranges = [] ∨ covers s._M_portranges (frame_ipv6_udp_dest pkt))) →
      run_filter (compile s).2._M_filters pkt = some 0) := by
  obtain ⟨v4, v6, rs, fs⟩ := s
  simp only at hfam hn
  have hport : frame_ipv6_udp_dest pkt = be16 pkt 56 := rfl
  have hne : ¬ (0x86DD : Nat) = ETHERTYPE_IP := by decide
  have he6 : (0x86DD : Nat) = ETHERTYPE_IPV6 := rfl
  obtain ⟨hok, hacc, hrej⟩ := run_filter_compile v4 v6 rs fs pkt hn
  have hiff : filter_accepts v4 v6 rs pkt ↔
      (62 ≤ pkt.length ∧ frame_ipv6_nxt pkt = 17 ∧ (rs = [] ∨ covers rs (be16 pkt 56))) := by
    have h4 : ¬ accepts_ipv4 rs pkt := by
      simp only [accepts_ipv4, het, hne, false_and, and_false, not_false_eq_true]
    have h6 : accepts_ipv6 rs pkt ↔
        (62 ≤ pkt.length ∧ frame_ipv6_nxt pkt = 17 ∧ (rs = [] ∨ covers rs (be16 pkt 56))) := by
      simp only [accepts_ipv6, IPPROTO_UDP]
    cases v4 <;> cases v6 <;>
      simp only [filter_accepts, het, he6, true_and, h4, or_false, h6]
    · exact ⟨fun h => h.2, fun h => ⟨by omega, h⟩⟩
    · simp at hfam
    · exact ⟨fun h => h.2, fun h => ⟨by omega, h⟩⟩
  simp only [hport, ← hiff]
  refine ⟨hok, ⟨fun h => ?_, hacc⟩, hrej⟩
  by_contra hc
  rw [hrej hc] at h
  simp at h

theorem compile_accepts_ipv6_frame_witness :
    run_filter (compile ⟨false, false, [⟨1000, 1002⟩, ⟨2000, 2000⟩], []⟩).2._M_filters
        (sample_frame_ipv6 2000) = some 0x40000 :=
  (compile_accepts_ipv6_frame ⟨false, false, [⟨1000, 1002⟩, ⟨2000, 2000⟩], []⟩
      (sample_frame_ipv6 2000) (Or.inr rfl) (by decide) (by decide)).2.1.2
      ⟨by decide, by decide, Or.inr ⟨⟨2000, 2000⟩, by decide, by decide, by decide⟩⟩

/-- C7, at the failing input: the program compiled for IPv6 only (no ranges)
returns `0x40000` for a frame whose Ethertype is 0x0800.  The `jeq 0x86dd`
instruction is emitted with both branch offsets 0 and is patched only in the
`if (_M_ipv4)` block, so with IPv4 disabled the Ethertype is not tested. -/
theorem compile_ipv6_only_accepts_other_ethertype :
    (compile (ipv6 empty)).1 = true ∧
    frame_ethertype sample_frame_ipv4_fragment = 0x0800 ∧
    (compile (ipv6 empty)).2._M_filters.getD 3 insn_ignore =
      ⟨BPF_JMP + BPF_JEQ + BPF_K, 0, 0, ETHERTYPE_IPV6⟩ ∧
    run_filter (compile (ipv6 empty)).2._M_filters sample_frame_ipv4_fragment = some 0x40000 := by
  decide

/-- C8, at the failing input: with the single port 1000 stored and IPv4
enabled, the program returns 0 for an unfragmented IPv4/UDP frame with
`ihl = 6` whose UDP destination port is 1000: the port is loaded from the fixed
offset 36, where this frame has option bytes. -/
theorem compile_ipv4_options_wrong_port :
    (compile ⟨true, false, [⟨1000, 1000⟩], []⟩).1 = true ∧
    frame_ihl (sample_frame_ipv4_options 1000) = 6 ∧
    frame_ipv4_udp_dest (sample_frame_ipv4_options 1000) = 1000 ∧
    be16 (sample_frame_ipv4_options 1000) 36 = 257 ∧
    run_filter (compile ⟨true, false, [⟨1000, 1000⟩], []⟩).2._M_filters
      (sample_frame_ipv4_options 1000) = some 0 := by
  decide

/-! ## Claims about the checksums of the emitted frames -/

/-- C9: for every frame with `ihl ≥ 5` that passes the two length checks of
`send_ipv4`, and every destination and interface record, `send_ipv4` hands a
gather list to the TX ring, and the one's-complement sum of the 16-bit
big-endian words of the emitted IPv4 header (bytes 14 to `14 + 4 * ihl`,
options and new checksum included) is `0xFFFF`. -/
theorem send_ipv4_header_checksum (dest : destination) (pkt : List Nat) (pktlen : Nat)
    (hd : dest.wf) (hp : frame_wf pkt pktlen) (hihl : 5 ≤ frame_ihl pkt)
    (h1 : 14 + 4 * frame_ihl pkt + 8 ≤ pktlen)
    (h2 : 14 + 4 * frame_ihl pkt + be16 pkt (14 + 4 * frame_ihl pkt + 4) = pktlen) :
    ∃ vec, send_ipv4 dest pkt pktlen = some vec ∧
      ones_complement_sum (((gather vec).drop 14).take (4 * frame_ihl pkt)) = 0xFFFF := by
  obtain ⟨hlen, hb⟩ := hp
  have hihl15 : frame_ihl pkt ≤ 15 := by unfold frame_ihl; omega
  have hl : pkt.getD sizeof_ether_header 0 % 16 * 4 = 4 * frame_ihl pkt := by
    unfold frame_ihl; omega
  have hudplen : ntohs (load_u16 pkt (sizeof_ether_header + 4 * frame_ihl pkt + 4)) =
      be16 pkt (14 + 4 * frame_ihl pkt + 4) := ntohs_load_u16 pkt hb _
  have c1 : sizeof_ether_header + 4 * frame_ihl pkt + sizeof_udphdr ≤ pktlen := h1
  have c2 : sizeof_ether_header + 4 * frame_ihl pkt + be16 pkt (14 + 4 * frame_ihl pkt + 4) =
      pktlen := h2
  have hsend : send_ipv4 dest pkt pktlen = some
      (ipv4_vec dest pkt (4 * frame_ihl pkt) (sizeof_ether_header + 4 * frame_ihl pkt)
        ((be16 pkt (14 + 4 * frame_ihl pkt + 4) + 18446744073709551616 - sizeof_udphdr) %
          18446744073709551616)
        (ipv4_header_checksum dest pkt (4 * frame_ihl pkt))
        (ipv4_udp_checksum dest pkt (sizeof_ether_header + 4 * frame_ihl pkt)
          (be16 pkt (14 + 4 * frame_ihl pkt + 4))
          ((be16 pkt (14 + 4 * frame_ihl pkt + 4) + 18446744073709551616 - sizeof_udphdr) %
            18446744073709551616))) := by
    simp only [send_ipv4, hl, hudplen, c1, c2, if_true]
  refine ⟨_, hsend, ?_⟩
  rw [gather_ipv4_vec_header dest pkt _ _ _ _ _ hd (by omega) (by omega) (by omega)]
  have hck := ipv4_header_checksum_eq dest pkt (4 * frame_ihl pkt) hd hb (by omega) (by omega)
    (by omega) (by omega)
  obtain ⟨_, ha, _, _, ha4, _, _, _, _⟩ := hd
  unfold ones_complement_sum
  apply csum_fold_complement
    (be_words_sum ((pkt.drop 14).take 10) + be_words_sum dest.iface.addr4 +
      be_words_sum (dest.addr.take 4) + be_words_sum ((pkt.drop 34).take (4 * frame_ihl pkt - 20)))
  rw [be_words_sum_append _ _ (by rw [length_take_drop pkt 14 10 (by omega)]),
    be_words_sum_append _ _ (by simp [store_u16]),
    be_words_sum_append _ _ (by rw [ha4]),
    be_words_sum_append _ _ (by simp [ha]),
    be_words_sum_store_u16, hck]
  omega

theorem send_ipv4_header_checksum_witness :
    ∃ vec, send_ipv4 (sample_destination [10, 0, 0, 9, 0, 0, 0, 0, 0, 0, 0, 0, 0, 0, 0, 0])
        sample_frame_ipv4_opt_a 47 = some vec ∧
      ones_complement_sum (((gather vec).drop 14).take
        (4 * frame_ihl sample_frame_ipv4_opt_a)) = 0xFFFF :=
  send_ipv4_header_checksum (sample_destination [10, 0, 0, 9, 0, 0, 0, 0, 0, 0, 0, 0, 0, 0, 0, 0])
    sample_frame_ipv4_opt_a 47
    (by unfold destination.wf; decide) (by unfold frame_wf; decide) (by decide) (by decide)
    (by decide)

/-- C10: for every frame that passes the length check of `send_ipv6` with
`udp_len ≥ 8` (payload of any length), `send_ipv6` hands a gather list to the
TX ring, and the one's-complement sum over the IPv6 pseudo-header (new source
and destination address, `udp_len`, next header 17) followed by the emitted
UDP header (new checksum included) and the payload, an odd last byte padded
with a zero byte, is `0xFFFF`. -/
theorem send_ipv6_udp_checksum (dest : destination) (pkt : List Nat) (pktlen : Nat)
    (hd : dest.wf) (hp : frame_wf pkt pktlen) (hu8 : 8 ≤ be16 pkt 58)
    (h : 14 + 40 + be16 pkt 58 = pktlen) :
    ∃ vec, send_ipv6 dest pkt pktlen = some vec ∧
      ones_complement_sum
        (pseudo_header_ipv6 dest.iface.addr6 dest.addr (be16 pkt 58) ++ (gather vec).drop 54) =
          0xFFFF := by
  obtain ⟨hlen, hb⟩ := hp
  have hu := be16_lt pkt hb 58
  have hudplen : ntohs (load_u16 pkt (sizeof_ether_header + sizeof_ip6_hdr + 4)) = be16 pkt 58 :=
    ntohs_load_u16 pkt hb _
  have c : sizeof_ether_header + sizeof_ip6_hdr + be16 pkt 58 = pktlen := h
  have e64 : (be16 pkt 58 + 18446744073709551616 - sizeof_udphdr) % 18446744073709551616 =
      be16 pkt 58 - 8 := by
    unfold sizeof_udphdr; omega
  have hsend : send_ipv6 dest pkt pktlen = some
      (ipv6_vec dest pkt 54 (be16 pkt 58 - 8)
        (ipv6_udp_checksum dest pkt 54 (be16 pkt 58) (be16 pkt 58 - 8))) := by
    simp only [send_ipv6, hudplen, c, if_true, e64]
    rfl
  refine ⟨_, hsend, ?_⟩
  rw [gather_ipv6_vec_udp dest pkt _ _ hd (by omega)]
  have hck := ipv6_udp_checksum_eq dest pkt (be16 pkt 58) hd hb hu8 (by omega) (by omega)
  obtain ⟨_, ha, _, _, _, ha6, _, _, _⟩ := hd
  unfold ones_complement_sum
  apply csum_fold_complement
    (be_words_sum dest.iface.addr6 + be_words_sum dest.addr + be16 pkt 58 + 17 + be16 pkt 56 +
      ntohs dest.port + be16 pkt 58 + be_words_sum ((pkt.drop 62).take (be16 pkt 58 - 8)))
  have hlenw : be_words_sum [0, 0, be16 pkt 58 / 256, be16 pkt 58 % 256] = be16 pkt 58 := by
    simp only [be_words_sum]
    omega
  unfold pseudo_header_ipv6
  rw [be_words_sum_append _ _ (by simp [ha, ha6]),
    be_words_sum_append _ _ (by simp [ha, ha6]),
    be_words_sum_append _ _ (by simp [ha, ha6]),
    be_words_sum_append _ _ (by simp [ha6]), hlenw,
    be_words_sum_append _ _ (by rw [length_take_drop pkt 56 2 (by omega)]),
    be_words_sum_append _ _ (by simp [store_u16]),
    be_words_sum_append _ _ (by rw [length_take_drop pkt 58 2 (by omega)]),
    be_words_sum_append _ _ (by simp [store_u16]),
    be_words_sum_store_u16, be_words_sum_store_u16, hck,
    be_words_sum_take_drop2 pkt 56 (by omega), be_words_sum_take_drop2 pkt 58 (by omega)]
  simp only [be_words_sum, IPPROTO_UDP]
  omega

theorem send_ipv6_udp_checksum_witness :
    ∃ vec, send_ipv6
        (sample_destination [0xfe, 0x80, 0, 0, 0, 0, 0, 0, 0, 0, 0, 0, 0, 0, 0, 2])
        sample_frame_ipv6_abc 65 = some vec ∧
      ones_complement_sum
        (pseudo_header_ipv6
          (sample_destination [0xfe, 0x80, 0, 0, 0, 0, 0, 0, 0, 0, 0, 0, 0, 0, 0, 2]).iface.addr6
          (sample_destination [0xfe, 0x80, 0, 0, 0, 0, 0, 0, 0, 0, 0, 0, 0, 0, 0, 2]).addr
          (be16 sample_frame_ipv6_abc 58) ++ (gather vec).drop 54) = 0xFFFF :=
  send_ipv6_udp_checksum
    (sample_destination [0xfe, 0x80, 0, 0, 0, 0, 0, 0, 0, 0, 0, 0, 0, 0, 0, 2])
    sample_frame_ipv6_abc 65
    (by unfold destination.wf; decide) (by unfold frame_wf; decide) (by decide) (by decide)

/-- C11: for every frame with `ihl ≥ 5` that passes the two length checks of
`send_ipv4` (payload of any length), `send_ipv4` hands a gather list to the TX
ring whose bytes from offset `14 + 4 * ihl` on are the UDP header (source port
= destination port of the received frame, destination port = the stored port,
the received `udp_len`, a checksum) followed by the received payload, and the
one's-complement sum over the IPv4 pseudo-header (new source and destination
address, 0, 17, `udp_len`) followed by these bytes, an odd last byte padded
with a zero byte, is `0xFFFF`. -/
theorem send_ipv4_udp_checksum (dest : destination) (pkt : List Nat) (pktlen : Nat)
    (hd : dest.wf) (hp : frame_wf pkt pktlen) (hihl : 5 ≤ frame_ihl pkt)
    (h1 : 14 + 4 * frame_ihl pkt + 8 ≤ pktlen)
    (h2 : 14 + 4 * frame_ihl pkt + be16 pkt (14 + 4 * frame_ihl pkt + 4) = pktlen) :
    ∃ vec c, send_ipv4 dest pkt pktlen = some vec ∧
      (gather vec).drop (14 + 4 * frame_ihl pkt) =
        (pkt.drop (14 + 4 * frame_ihl pkt + 2)).take 2 ++ (store_u16 dest.port ++
          ((pkt.drop (14 + 4 * frame_ihl pkt + 4)).take 2 ++ (store_u16 c ++
            (pkt.drop (14 + 4 * frame_ihl pkt + 8)).take
              (be16 pkt (14 + 4 * frame_ihl pkt + 4) - 8)))) ∧
      ones_complement_sum
        (pseudo_header_ipv4 dest.iface.addr4 (dest.addr.take 4)
            (be16 pkt (14 + 4 * frame_ihl pkt + 4)) ++
          (gather vec).drop (14 + 4 * frame_ihl pkt)) = 0xFFFF := by
  obtain ⟨hlen, hb⟩ := hp
  have hihl15 : frame_ihl pkt ≤ 15 := by unfold frame_ihl; omega
  have hl : pkt.getD sizeof_ether_header 0 % 16 * 4 = 4 * frame_ihl pkt := by
    unfold frame_ihl; omega
  have hu := be16_lt pkt hb (14 + 4 * frame_ihl pkt + 4)
  have hudplen : ntohs (load_u16 pkt (sizeof_ether_header + 4 * frame_ihl pkt + 4)) =
      be16 pkt (14 + 4 * frame_ihl pkt + 4) := ntohs_load_u16 pkt hb _
  have c1 : sizeof_ether_header + 4 * frame_ihl pkt + sizeof_udphdr ≤ pktlen := h1
  have c2 : sizeof_ether_header + 4 * frame_ihl pkt + be16 pkt (14 + 4 * frame_ihl pkt + 4) =
      pktlen := h2
  have e64 : (be16 pkt (14 + 4 * frame_ihl pkt + 4) + 18446744073709551616 - sizeof_udphdr) %
      18446744073709551616 = be16 pkt (14 + 4 * frame_ihl pkt + 4) - 8 := by
    unfold sizeof_udphdr; omega
  have hsend : send_ipv4 dest pkt pktlen = some
      (ipv4_vec dest pkt (4 * frame_ihl pkt) (sizeof_ether_header + 4 * frame_ihl pkt)
        (be16 pkt (14 + 4 * frame_ihl pkt + 4) - 8)
        (ipv4_header_checksum dest pkt (4 * frame_ihl pkt))
        (ipv4_udp_checksum dest pkt (sizeof_ether_header + 4 * frame_ihl pkt)
          (be16 pkt (14 + 4 * frame_ihl pkt + 4))
          (be16 pkt (14 + 4 * frame_ihl pkt + 4) - 8))) := by
    simp only [send_ipv4, hl, hudplen, c1, c2, if_true, e64]
  refine ⟨_, ipv4_udp_checksum dest pkt (sizeof_ether_header + 4 * frame_ihl pkt)
    (be16 pkt (14 + 4 * frame_ihl pkt + 4)) (be16 pkt (14 + 4 * frame_ihl pkt + 4) - 8),
    hsend, ?_⟩
  have hg := gather_ipv4_vec_udp dest pkt (4 * frame_ihl pkt)
    (be16 pkt (14 + 4 * frame_ihl pkt + 4) - 8)
    (ipv4_header_checksum dest pkt (4 * frame_ihl pkt))
    (ipv4_udp_checksum dest pkt (sizeof_ether_header + 4 * frame_ihl pkt)
      (be16 pkt (14 + 4 * frame_ihl pkt + 4)) (be16 pkt (14 + 4 * frame_ihl pkt + 4) - 8))
    hd (by omega) (by omega) (by omega)
  refine ⟨hg, ?_⟩
  rw [hg]
  have hck : ntohs (ipv4_udp_checksum dest pkt (sizeof_ether_header + 4 * frame_ihl pkt)
      (be16 pkt (14 + 4 * frame_ihl pkt + 4)) (be16 pkt (14 + 4 * frame_ihl pkt + 4) - 8)) = _ :=
    ipv4_udp_checksum_eq dest pkt (14 + 4 * frame_ihl pkt)
      (be16 pkt (14 + 4 * frame_ihl pkt + 4)) hd hb (by omega) (by omega) (by omega)
  obtain ⟨_, ha, _, _, ha4, _, _, _, _⟩ := hd
  unfold ones_complement_sum
  apply csum_fold_complement
    (be_words_sum dest.iface.addr4 + be_words_sum (dest.addr.take 4) + 17 +
      be16 pkt (14 + 4 * frame_ihl pkt + 4) + be16 pkt (14 + 4 * frame_ihl pkt + 2) +
      ntohs dest.port + be16 pkt (14 + 4 * frame_ihl pkt + 4) +
      be_words_sum ((pkt.drop (14 + 4 * frame_ihl pkt + 8)).take
        (be16 pkt (14 + 4 * frame_ihl pkt + 4) - 8)))
  have hlenw : be_words_sum [0, 17, be16 pkt (14 + 4 * frame_ihl pkt + 4) / 256,
      be16 pkt (14 + 4 * frame_ihl pkt + 4) % 256] =
        17 + be16 pkt (14 + 4 * frame_ihl pkt + 4) := by
    simp only [be_words_sum]
    omega
  unfold pseudo_header_ipv4
  simp only [IPPROTO_UDP]
  rw [be_words_sum_append _ _ (by simp [ha, ha4]),
    be_words_sum_append _ _ (by simp [ha, ha4]),
    be_words_sum_append _ _ (by simp [ha4]), hlenw,
    be_words_sum_append _ _ (by rw [length_take_drop pkt _ 2 (by omega)]),
    be_words_sum_append _ _ (by simp [store_u16]),
    be_words_sum_append _ _ (by rw [length_take_drop pkt _ 2 (by omega)]),
    be_words_sum_append _ _ (by simp [store_u16]),
    be_words_sum_store_u16, be_words_sum_store_u16, hck,
    be_words_sum_take_drop2 pkt _ (by omega), be_words_sum_take_drop2 pkt _ (by omega)]
  omega

theorem send_ipv4_udp_checksum_witness :
    ∃ vec c, send_ipv4 (sample_destination [10, 0, 0, 9, 0, 0, 0, 0, 0, 0, 0, 0, 0, 0, 0, 0])
        sample_frame_ipv4_opt_a 47 = some vec ∧
      (gather vec).drop (14 + 4 * frame_ihl sample_frame_ipv4_opt_a) =
        (sample_frame_ipv4_opt_a.drop (14 + 4 * frame_ihl sample_frame_ipv4_opt_a + 2)).take 2 ++
          (store_u16 (sample_destination [10, 0, 0, 9, 0, 0, 0, 0, 0, 0, 0, 0, 0, 0, 0, 0]).port ++
          ((sample_frame_ipv4_opt_a.drop
              (14 + 4 * frame_ihl sample_frame_ipv4_opt_a + 4)).take 2 ++ (store_u16 c ++
            (sample_frame_ipv4_opt_a.drop (14 + 4 * frame_ihl sample_frame_ipv4_opt_a + 8)).take
              (be16 sample_frame_ipv4_opt_a
                (14 + 4 * frame_ihl sample_frame_ipv4_opt_a + 4) - 8)))) ∧
      ones_complement_sum
        (pseudo_header_ipv4
          (sample_destination [10, 0, 0, 9, 0, 0, 0, 0, 0, 0, 0, 0, 0, 0, 0, 0]).iface.addr4
          ((sample_destination [10, 0, 0, 9, 0, 0, 0, 0, 0, 0, 0, 0, 0, 0, 0, 0]).addr.take 4)
          (be16 sample_frame_ipv4_opt_a (14 + 4 * frame_ihl sample_frame_ipv4_opt_a + 4)) ++
          (gather vec).drop (14 + 4 * frame_ihl sample_frame_ipv4_opt_a)) = 0xFFFF :=
  send_ipv4_udp_checksum (sample_destination [10, 0, 0, 9, 0, 0, 0, 0, 0, 0, 0, 0, 0, 0, 0, 0])
    sample_frame_ipv4_opt_a 47
    (by unfold destination.wf; decide) (by unfold frame_wf; decide) (by decide) (by decide)
    (by decide)

/-! ## Claims about the frames handed to the TX ring -/

/-- C12: for every destination record and every frame that passes the sanity
checks of `send_ipv4` (with `ihl ≥ 5`) or the sanity check of `send_ipv6`
(the UDP header lying in the memory read), the frame handed to the TX ring has
destination MAC = MAC of the record, source MAC = MAC of the interface, source
IP = address of the interface of that family, destination IP = address of the
record, UDP source port = UDP destination port of the received frame, UDP
destination port = the stored port of the record, and the `udp_len` of the
received frame; and the record `destinations::add` appends for a configured
port stores it so that these two bytes are the port in network byte order. -/
theorem send_addresses (dest : destination) (pkt : List Nat) (pktlen : Nat)
    (hd : dest.wf) (hp : frame_wf pkt pktlen) :
    (5 ≤ frame_ihl pkt → 14 + 4 * frame_ihl pkt + 8 ≤ pktlen →
      14 + 4 * frame_ihl pkt + be16 pkt (14 + 4 * frame_ihl pkt + 4) = pktlen →
      ∃ vec, send_ipv4 dest pkt pktlen = some vec ∧
        (gather vec).take 6 = dest.macaddr ∧
        ((gather vec).drop 6).take 6 = dest.iface.macaddr ∧
        ((gather vec).drop 26).take 4 = dest.iface.addr4 ∧
        ((gather vec).drop 30).take 4 = dest.addr.take 4 ∧
        ((gather vec).drop (14 + 4 * frame_ihl pkt)).take 2 =
          (pkt.drop (14 + 4 * frame_ihl pkt + 2)).take 2 ∧
        ((gather vec).drop (14 + 4 * frame_ihl pkt + 2)).take 2 = store_u16 dest.port ∧
        ((gather vec).drop (14 + 4 * frame_ihl pkt + 4)).take 2 =
          (pkt.drop (14 + 4 * frame_ihl pkt + 4)).take 2) ∧
    (62 ≤ pkt.length → 14 + 40 + be16 pkt 58 = pktlen →
      ∃ vec, send_ipv6 dest pkt pktlen = some vec ∧
        (gather vec).take 6 = dest.macaddr ∧
        ((gather vec).drop 6).take 6 = dest.iface.macaddr ∧
        ((gather vec).drop 22).take 16 = dest.iface.addr6 ∧
        ((gather vec).drop 38).take 16 = dest.addr ∧
        ((gather vec).drop 54).take 2 = (pkt.drop 56).take 2 ∧
        ((gather vec).drop 56).take 2 = store_u16 dest.port ∧
        ((gather vec).drop 58).take 2 = (pkt.drop 58).take 2) ∧
    (∀ (t : destinations) (realloc_ok : Bool) (old_addr macaddr addr : List Nat)
        (addrlen port : Nat) (iface : interface), port < 65536 →
      (t.add realloc_ok old_addr macaddr addr addrlen port iface).2 = true →
      ∃ d, (t.add realloc_ok old_addr macaddr addr addrlen port iface).1._M_destinations =
          t._M_destinations ++ [d] ∧
        d.macaddr = macaddr.take 6 ∧ d.addr = addr.take addrlen ++ old_addr.drop addrlen ∧
        d.iface = iface ∧ store_u16 d.port = [port / 256, port % 256]) := by
  obtain ⟨hlen, hb⟩ := hp
  refine ⟨?_, ?_, ?_⟩
  · intro hihl h1 h2
    have hihl15 : frame_ihl pkt ≤ 15 := by unfold frame_ihl; omega
    have hl : pkt.getD sizeof_ether_header 0 % 16 * 4 = 4 * frame_ihl pkt := by
      unfold frame_ihl; omega
    have hudplen : ntohs (load_u16 pkt (sizeof_ether_header + 4 * frame_ihl pkt + 4)) =
        be16 pkt (14 + 4 * frame_ihl pkt + 4) := ntohs_load_u16 pkt hb _
    have c1 : sizeof_ether_header + 4 * frame_ihl pkt + sizeof_udphdr ≤ pktlen := h1
    have c2 : sizeof_ether_header + 4 * frame_ihl pkt +
        be16 pkt (14 + 4 * frame_ihl pkt + 4) = pktlen := h2
    have e64 : (be16 pkt (14 + 4 * frame_ihl pkt + 4) + 18446744073709551616 - sizeof_udphdr) %
        18446744073709551616 = be16 pkt (14 + 4 * frame_ihl pkt + 4) - 8 := by
      have hu := be16_lt pkt hb (14 + 4 * frame_ihl pkt + 4)
      unfold sizeof_udphdr; omega
    have hsend : send_ipv4 dest pkt pktlen = some
        (ipv4_vec dest pkt (4 * frame_ihl pkt) (sizeof_ether_header + 4 * frame_ihl pkt)
          (be16 pkt (14 + 4 * frame_ihl pkt + 4) - 8)
          (ipv4_header_checksum dest pkt (4 * frame_ihl pkt))
          (ipv4_udp_checksum dest pkt (sizeof_ether_header + 4 * frame_ihl pkt)
            (be16 pkt (14 + 4 * frame_ihl pkt + 4))
            (be16 pkt (14 + 4 * frame_ihl pkt + 4) - 8))) := by
      simp only [send_ipv4, hl, hudplen, c1, c2, if_true, e64]
    refine ⟨_, hsend, ?_⟩
    obtain ⟨f1, f2, _, _, f5, f6, _, f8, f9, f10, _, _, _⟩ :=
      gather_ipv4_vec_fields dest pkt (4 * frame_ihl pkt)
        (be16 pkt (14 + 4 * frame_ihl pkt + 4) - 8) _ _ hd (by omega) (by omega) (by omega) _ rfl
    exact ⟨f1, f2, f5, f6, f8, f9, f10⟩
  · intro hmem h
    have hudplen : ntohs (load_u16 pkt (sizeof_ether_header + sizeof_ip6_hdr + 4)) =
        be16 pkt 58 := ntohs_load_u16 pkt hb _
    have c : sizeof_ether_header + sizeof_ip6_hdr + be16 pkt 58 = pktlen := h
    have hsend : send_ipv6 dest pkt pktlen = some
        (ipv6_vec dest pkt (sizeof_ether_header + sizeof_ip6_hdr)
          ((be16 pkt 58 + 18446744073709551616 - sizeof_udphdr) % 18446744073709551616)
          (ipv6_udp_checksum dest pkt (sizeof_ether_header + sizeof_ip6_hdr) (be16 pkt 58)
            ((be16 pkt 58 + 18446744073709551616 - sizeof_udphdr) %
              18446744073709551616))) := by
      simp only [send_ipv6, hudplen, c, if_true]
    refine ⟨_, hsend, ?_⟩
    obtain ⟨f1, f2, _, f4, f5, f6, f7, f8, _, _⟩ :=
      gather_ipv6_vec_fields dest pkt _ _ hd hmem _ rfl
    exact ⟨f1, f2, f4, f5, f6, f7, f8⟩
  · intro t realloc_ok old_addr macaddr addr addrlen port iface hport hok
    have hst : store_u16 (htons port) = [port / 256, port % 256] := by
      have hq : port / 256 < 256 := by omega
      have hh : htons port = port % 256 * 256 + port / 256 := by
        unfold htons
        rw [Nat.mod_eq_of_lt hq]
      have e1 : htons port % 256 = port / 256 := by rw [hh]; omega
      have e3 : (port % 256 * 256 + port / 256) / 256 = port % 256 := by omega
      have e2 : htons port / 256 % 256 = port % 256 := by rw [hh, e3]; omega
      simp only [store_u16, e1, e2]
    unfold destinations.add at hok ⊢
    by_cases hfull : t._M_used = t._M_size
    · cases realloc_ok
      · simp [hfull] at hok
      · simp only [hfull, if_true]
        exact ⟨_, rfl, rfl, rfl, rfl, hst⟩
    · simp only [hfull, if_false]
      exact ⟨_, rfl, rfl, rfl, rfl, hst⟩

theorem send_addresses_witness :
    (∃ vec, send_ipv4 (sample_destination [10, 0, 0, 9, 0, 0, 0, 0, 0, 0, 0, 0, 0, 0, 0, 0])
        sample_frame_ipv4_opt_a 47 = some vec ∧
      (gather vec).take 6 = [0x02, 0, 0, 0, 0, 0x0a] ∧
      ((gather vec).drop 6).take 6 = [0x02, 0, 0, 0, 0, 0x0b] ∧
      ((gather vec).drop 26).take 4 = [10, 0, 0, 1] ∧
      ((gather vec).drop 30).take 4 = [10, 0, 0, 9] ∧
      ((gather vec).drop 38).take 2 = [0x13, 0x88] ∧
      ((gather vec).drop 40).take 2 = store_u16 (htons 5000) ∧
      ((gather vec).drop 42).take 2 = [0, 9]) ∧
    (∃ vec, send_ipv6 (sample_destination [0xfe, 0x80, 0, 0, 0, 0, 0, 0, 0, 0, 0, 0, 0, 0, 0, 2])
        sample_frame_ipv6_abc 65 = some vec ∧
      (gather vec).take 6 = [0x02, 0, 0, 0, 0, 0x0a] ∧
      ((gather vec).drop 6).take 6 = [0x02, 0, 0, 0, 0, 0x0b] ∧
      ((gather vec).drop 22).take 16 = [0xfe, 0x80, 0, 0, 0, 0, 0, 0, 0, 0, 0, 0, 0, 0, 0, 1] ∧
      ((gather vec).drop 38).take 16 = [0xfe, 0x80, 0, 0, 0, 0, 0, 0, 0, 0, 0, 0, 0, 0, 0, 2] ∧
      ((gather vec).drop 54).take 2 = [0x13, 0x88] ∧
      ((gather vec).drop 56).take 2 = store_u16 (htons 5000) ∧
      ((gather vec).drop 58).take 2 = [0, 11]) :=
  ⟨(send_addresses (sample_destination [10, 0, 0, 9, 0, 0, 0, 0, 0, 0, 0, 0, 0, 0, 0, 0])
      sample_frame_ipv4_opt_a 47 (by unfold destination.wf; decide)
      (by unfold frame_wf; decide)).1 (by decide) (by decide) (by decide),
   (send_addresses (sample_destination [0xfe, 0x80, 0, 0, 0, 0, 0, 0, 0, 0, 0, 0, 0, 0, 0, 2])
      sample_frame_ipv6_abc 65 (by unfold destination.wf; decide)
      (by unfold frame_wf; decide)).2.1 (by decide) (by decide)⟩

/-- C13: for every frame that passes the sanity checks (`send_ipv4` with
`ihl ≥ 5`, `send_ipv6` with `udp_len ≥ 8`) the frame handed to the TX ring has
the length of the received frame and the same byte at every offset outside the
two MAC addresses (offsets 0 to 11), the IPv4 header checksum and the IP
addresses (IPv4: 24 to 33, IPv6: 22 to 53), the UDP ports and the UDP
checksum; so the Ethertype, the other IP header fields, the IPv4 options, the
UDP length and the payload are those of the received frame. -/
theorem send_preserves_frame (dest : destination) (pkt : List Nat) (pktlen : Nat)
    (hd : dest.wf) (hp : frame_wf pkt pktlen) :
    (5 ≤ frame_ihl pkt → 14 + 4 * frame_ihl pkt + 8 ≤ pktlen →
      14 + 4 * frame_ihl pkt + be16 pkt (14 + 4 * frame_ihl pkt + 4) = pktlen →
      ∃ vec, send_ipv4 dest pkt pktlen = some vec ∧ (gather vec).length = pktlen ∧
        ∀ i, i < pktlen → ¬ i < 12 → ¬ (24 ≤ i ∧ i < 34) →
          ¬ (14 + 4 * frame_ihl pkt ≤ i ∧ i < 14 + 4 * frame_ihl pkt + 4) →
          ¬ (14 + 4 * frame_ihl pkt + 6 ≤ i ∧ i < 14 + 4 * frame_ihl pkt + 8) →
          (gather vec)[i]? = pkt[i]?) ∧
    (8 ≤ be16 pkt 58 → 14 + 40 + be16 pkt 58 = pktlen →
      ∃ vec, send_ipv6 dest pkt pktlen = some vec ∧ (gather vec).length = pktlen ∧
        ∀ i, i < pktlen → ¬ i < 12 → ¬ (22 ≤ i ∧ i < 54) → ¬ (54 ≤ i ∧ i < 58) →
          ¬ (60 ≤ i ∧ i < 62) → (gather vec)[i]? = pkt[i]?) := by
  obtain ⟨hlen, hb⟩ := hp
  refine ⟨?_, ?_⟩
  · intro hihl h1 h2
    have hihl15 : frame_ihl pkt ≤ 15 := by unfold frame_ihl; omega
    have hl : pkt.getD sizeof_ether_header 0 % 16 * 4 = 4 * frame_ihl pkt := by
      unfold frame_ihl; omega
    have hu := be16_lt pkt hb (14 + 4 * frame_ihl pkt + 4)
    have hudplen : ntohs (load_u16 pkt (sizeof_ether_header + 4 * frame_ihl pkt + 4)) =
        be16 pkt (14 + 4 * frame_ihl pkt + 4) := ntohs_load_u16 pkt hb _
    have c1 : sizeof_ether_header + 4 * frame_ihl pkt + sizeof_udphdr ≤ pktlen := h1
    have c2 : sizeof_ether_header + 4 * frame_ihl pkt +
        be16 pkt (14 + 4 * frame_ihl pkt + 4) = pktlen := h2
    have e64 : (be16 pkt (14 + 4 * frame_ihl pkt + 4) + 18446744073709551616 - sizeof_udphdr) %
        18446744073709551616 = be16 pkt (14 + 4 * frame_ihl pkt + 4) - 8 := by
      unfold sizeof_udphdr; omega
    have hsend : send_ipv4 dest pkt pktlen = some
        (ipv4_vec dest pkt (4 * frame_ihl pkt) (sizeof_ether_header + 4 * frame_ihl pkt)
          (be16 pkt (14 + 4 * frame_ihl pkt + 4) - 8)
          (ipv4_header_checksum dest pkt (4 * frame_ihl pkt))
          (ipv4_udp_checksum dest pkt (sizeof_ether_header + 4 * frame_ihl pkt)
            (be16 pkt (14 + 4 * frame_ihl pkt + 4))
            (be16 pkt (14 + 4 * frame_ihl pkt + 4) - 8))) := by
      simp only [send_ipv4, hl, hudplen, c1, c2, if_true, e64]
    refine ⟨_, hsend, ?_⟩
    obtain ⟨_, _, f3, _, _, _, f7, _, _, f10, _, f12, flen⟩ :=
      gather_ipv4_vec_fields dest pkt (4 * frame_ihl pkt)
        (be16 pkt (14 + 4 * frame_ihl pkt + 4) - 8)
        (ipv4_header_checksum dest pkt (4 * frame_ihl pkt))
        (ipv4_udp_checksum dest pkt (sizeof_ether_header + 4 * frame_ihl pkt)
          (be16 pkt (14 + 4 * frame_ihl pkt + 4)) (be16 pkt (14 + 4 * frame_ihl pkt + 4) - 8))
        hd (by omega) (by omega) (by omega) _ rfl
    refine ⟨by omega, ?_⟩
    intro i hi n1 n2 n3 n4
    have f12t := congrArg (List.take (be16 pkt (14 + 4 * frame_ihl pkt + 4) - 8)) f12
    rw [List.take_take, Nat.min_self] at f12t
    by_cases r1 : i < 24
    · exact getElem?_of_segment_eq _ _ 12 12 i f3 (by omega) (by omega)
    · by_cases r2 : i < 14 + 4 * frame_ihl pkt
      · exact getElem?_of_segment_eq _ _ 34 _ i f7 (by omega) (by omega)
      · by_cases r3 : i < 14 + 4 * frame_ihl pkt + 6
        · exact getElem?_of_segment_eq _ _ _ 2 i f10 (by omega) (by omega)
        · exact getElem?_of_segment_eq _ _ _ _ i f12t (by omega) (by omega)
  · intro hu8 h
    have hu := be16_lt pkt hb 58
    have hudplen : ntohs (load_u16 pkt (sizeof_ether_header + sizeof_ip6_hdr + 4)) =
        be16 pkt 58 := ntohs_load_u16 pkt hb _
    have c : sizeof_ether_header + sizeof_ip6_hdr + be16 pkt 58 = pktlen := h
    have e64 : (be16 pkt 58 + 18446744073709551616 - sizeof_udphdr) % 18446744073709551616 =
        be16 pkt 58 - 8 := by
      unfold sizeof_udphdr; omega
    have hsend : send_ipv6 dest pkt pktlen = some
        (ipv6_vec dest pkt (sizeof_ether_header + sizeof_ip6_hdr) (be16 pkt 58 - 8)
          (ipv6_udp_checksum dest pkt (sizeof_ether_header + sizeof_ip6_hdr) (be16 pkt 58)
            (be16 pkt 58 - 8))) := by
      simp only [send_ipv6, hudplen, c, if_true, e64]
    refine ⟨_, hsend, ?_⟩
    obtain ⟨_, _, f3, _, _, _, _, f8, f9, f10⟩ :=
      gather_ipv6_vec_fields dest pkt (be16 pkt 58 - 8)
        (ipv6_udp_checksum dest pkt (sizeof_ether_header + sizeof_ip6_hdr) (be16 pkt 58)
          (be16 pkt 58 - 8)) hd (by omega) _ rfl
    have flen : (gather (ipv6_vec dest pkt (sizeof_ether_header + sizeof_ip6_hdr)
        (be16 pkt 58 - 8) (ipv6_udp_checksum dest pkt (sizeof_ether_header + sizeof_ip6_hdr)
          (be16 pkt 58) (be16 pkt 58 - 8)))).length = pktlen := by
      have h1 := congrArg List.length f10
      have h2 := congrArg List.length f9
      rw [List.length_drop, length_take_drop pkt 62 (be16 pkt 58 - 8) (by omega)] at h1
      rw [List.length_take, List.length_drop] at h2
      simp only [store_u16, List.length_cons, List.length_nil] at h2
      omega
    refine ⟨flen, ?_⟩
    intro i hi n1 n2 n3 n4
    have f10t := congrArg (List.take (be16 pkt 58 - 8)) f10
    rw [List.take_take, Nat.min_self] at f10t
    by_cases r1 : i < 22
    · exact getElem?_of_segment_eq _ _ 12 10 i f3 (by omega) (by omega)
    · by_cases r2 : i < 60
      · exact getElem?_of_segment_eq _ _ 58 2 i f8 (by omega) (by omega)
      · exact getElem?_of_segment_eq _ _ 62 _ i f10t (by omega) (by omega)

theorem send_preserves_frame_witness :
    (∃ vec, send_ipv4 (sample_destination [10, 0, 0, 9, 0, 0, 0, 0, 0, 0, 0, 0, 0, 0, 0, 0])
        sample_frame_ipv4_opt_a 47 = some vec ∧ (gather vec).length = 47 ∧
      ∀ i, i < 47 → ¬ i < 12 → ¬ (24 ≤ i ∧ i < 34) →
        ¬ (14 + 4 * frame_ihl sample_frame_ipv4_opt_a ≤ i ∧
          i < 14 + 4 * frame_ihl sample_frame_ipv4_opt_a + 4) →
        ¬ (14 + 4 * frame_ihl sample_frame_ipv4_opt_a + 6 ≤ i ∧
          i < 14 + 4 * frame_ihl sample_frame_ipv4_opt_a + 8) →
        (gather vec)[i]? = sample_frame_ipv4_opt_a[i]?) ∧
    (∃ vec, send_ipv6 (sample_destination [0xfe, 0x80, 0, 0, 0, 0, 0, 0, 0, 0, 0, 0, 0, 0, 0, 2])
        sample_frame_ipv6_abc 65 = some vec ∧ (gather vec).length = 65 ∧
      ∀ i, i < 65 → ¬ i < 12 → ¬ (22 ≤ i ∧ i < 54) → ¬ (54 ≤ i ∧ i < 58) →
        ¬ (60 ≤ i ∧ i < 62) → (gather vec)[i]? = sample_frame_ipv6_abc[i]?) :=
  ⟨(send_preserves_frame (sample_destination [10, 0, 0, 9, 0, 0, 0, 0, 0, 0, 0, 0, 0, 0, 0, 0])
      sample_frame_ipv4_opt_a 47 (by unfold destination.wf; decide)
      (by unfold frame_wf; decide)).1 (by decide) (by decide) (by decide),
   (send_preserves_frame
      (sample_destination [0xfe, 0x80, 0, 0, 0, 0, 0, 0, 0, 0, 0, 0, 0, 0, 0, 2])
      sample_frame_ipv6_abc 65 (by unfold destination.wf; decide)
      (by unfold frame_wf; decide)).2 (by decide) (by decide)⟩

/-- C14: `send_ipv4` hands a gather list to the TX ring exactly when
`14 + 4 * ihl + 8 ≤ len` and `14 + 4 * ihl + udp_len = len`, where `udp_len` is
the big-endian 16-bit field at offset 4 of the UDP header that follows the
`4 * ihl` bytes of the IP header; when a condition fails nothing is handed
over. -/
theorem send_ipv4_sends_iff (dest : destination) (pkt : List Nat) (pktlen : Nat)
    (hb : ∀ b ∈ pkt, b < 256) :
    ((send_ipv4 dest pkt pktlen).isSome = true ↔
      (14 + 4 * frame_ihl pkt + 8 ≤ pktlen ∧
        14 + 4 * frame_ihl pkt + be16 pkt (14 + 4 * frame_ihl pkt + 4) = pktlen)) ∧
    (¬ (14 + 4 * frame_ihl pkt + 8 ≤ pktlen ∧
        14 + 4 * frame_ihl pkt + be16 pkt (14 + 4 * frame_ihl pkt + 4) = pktlen) →
      send_ipv4 dest pkt pktlen = none) := by
  have hl : pkt.getD sizeof_ether_header 0 % 16 * 4 = 4 * frame_ihl pkt := by
    unfold frame_ihl sizeof_ether_header; omega
  have hudplen : ntohs (load_u16 pkt (sizeof_ether_header + 4 * frame_ihl pkt + 4)) =
      be16 pkt (14 + 4 * frame_ihl pkt + 4) := ntohs_load_u16 pkt hb _
  have hc1 : sizeof_ether_header + 4 * frame_ihl pkt + sizeof_udphdr = 14 + 4 * frame_ihl pkt + 8 :=
    rfl
  have hc2 : sizeof_ether_header + 4 * frame_ihl pkt + be16 pkt (14 + 4 * frame_ihl pkt + 4) =
      14 + 4 * frame_ihl pkt + be16 pkt (14 + 4 * frame_ihl pkt + 4) := rfl
  simp only [send_ipv4, hl, hudplen, hc1, hc2]
  by_cases h1 : 14 + 4 * frame_ihl pkt + 8 ≤ pktlen
  · by_cases h2 : 14 + 4 * frame_ihl pkt + be16 pkt (14 + 4 * frame_ihl pkt + 4) = pktlen
    · simp [h1, h2]
    · simp [h1, h2]
  · simp [h1]

theorem send_ipv4_sends_iff_witness :
    ((send_ipv4 (sample_destination [10, 0, 0, 9, 0, 0, 0, 0, 0, 0, 0, 0, 0, 0, 0, 0])
        sample_frame_ipv4_opt_a 47).isSome = true ↔
      (14 + 4 * frame_ihl sample_frame_ipv4_opt_a + 8 ≤ 47 ∧
        14 + 4 * frame_ihl sample_frame_ipv4_opt_a +
          be16 sample_frame_ipv4_opt_a (14 + 4 * frame_ihl sample_frame_ipv4_opt_a + 4) = 47)) ∧
    (¬ (14 + 4 * frame_ihl sample_frame_ipv4_opt_a + 8 ≤ 47 ∧
        14 + 4 * frame_ihl sample_frame_ipv4_opt_a +
          be16 sample_frame_ipv4_opt_a (14 + 4 * frame_ihl sample_frame_ipv4_opt_a + 4) = 47) →
      send_ipv4 (sample_destination [10, 0, 0, 9, 0, 0, 0, 0, 0, 0, 0, 0, 0, 0, 0, 0])
        sample_frame_ipv4_opt_a 47 = none) :=
  send_ipv4_sends_iff (sample_destination [10, 0, 0, 9, 0, 0, 0, 0, 0, 0, 0, 0, 0, 0, 0, 0])
    sample_frame_ipv4_opt_a 47 (by decide)

/-- C15: `send_ipv6` hands a gather list to the TX ring exactly when
`14 + 40 + udp_len = len`, where `udp_len` is the big-endian 16-bit length
field (offset 58) of the UDP header at offset 54; otherwise nothing is handed
over. -/
theorem send_ipv6_sends_iff (dest : destination) (pkt : List Nat) (pktlen : Nat)
    (hb : ∀ b ∈ pkt, b < 256) :
    ((send_ipv6 dest pkt pktlen).isSome = true ↔ 14 + 40 + be16 pkt (54 + 4) = pktlen) ∧
    (¬ 14 + 40 + be16 pkt (54 + 4) = pktlen → send_ipv6 dest pkt pktlen = none) := by
  have hudplen : ntohs (load_u16 pkt (sizeof_ether_header + sizeof_ip6_hdr + 4)) =
      be16 pkt (54 + 4) := ntohs_load_u16 pkt hb _
  have hc : sizeof_ether_header + sizeof_ip6_hdr + be16 pkt (54 + 4) =
      14 + 40 + be16 pkt (54 + 4) := rfl
  simp only [send_ipv6, hudplen, hc]
  by_cases h : 14 + 40 + be16 pkt (54 + 4) = pktlen
  · simp [h]
  · simp [h]

theorem send_ipv6_sends_iff_witness :
    ((send_ipv6 (sample_destination [0xfe, 0x80, 0, 0, 0, 0, 0, 0, 0, 0, 0, 0, 0, 0, 0, 2])
        sample_frame_ipv6_abc 65).isSome = true ↔
      14 + 40 + be16 sample_frame_ipv6_abc (54 + 4) = 65) ∧
    (¬ 14 + 40 + be16 sample_frame_ipv6_abc (54 + 4) = 65 →
      send_ipv6 (sample_destination [0xfe, 0x80, 0, 0, 0, 0, 0, 0, 0, 0, 0, 0, 0, 0, 0, 2])
        sample_frame_ipv6_abc 65 = none) :=
  send_ipv6_sends_iff (sample_destination [0xfe, 0x80, 0, 0, 0, 0, 0, 0, 0, 0, 0, 0, 0, 0, 0, 2])
    sample_frame_ipv6_abc 65 (by decide)

/-! ## Claims about the dispatch of frames and destinations -/

/-- C16: in load-balancer mode, on a table holding `M ≥ 1` destinations with
cursor 0, a run of `process` over `K` frames offers frame `k` (0-based) to
destination `k % M` and nothing else, leaves the records unchanged and the
cursor at `K % M` (so `(k + 1) % M` after frame `k`); destination `j` is
selected `K / M` times, and once more when `j < K % M`, that is
`⌊K / M⌋` or `⌈K / M⌉` times. -/
theorem forward_round_robin (t : destinations) (frames : List (List Nat × Nat))
    (hproc : t._M_process = some type.load_balancer) (hM : 1 ≤ t._M_used)
    (hidx : t._M_idx = 0) :
    ∃ offers, process_frames t frames =
        some ({ t with _M_idx := frames.length % t._M_used }, offers) ∧
      (∀ k f, frames[k]? = some f →
        ∃ d, t._M_destinations[k % t._M_used]? = some d ∧
          offers[k]? = some (t.call_send (k % t._M_used) d f.1 f.2)) ∧
      offers.map offer.idx = (List.range frames.length).map (fun k => k % t._M_used) ∧
      ∀ j, j < t._M_used →
        (offers.map offer.idx).count j =
          frames.length / t._M_used + if j < frames.length % t._M_used then 1 else 0 := by
  obtain ⟨offers, hrun, hlen, hk⟩ := process_frames_forward t hproc frames 0 (by omega)
  have ht : ({ t with _M_idx := 0 } : destinations) = t := by
    cases t
    simp only at hidx
    subst hidx
    rfl
  rw [ht] at hrun
  simp only [Nat.zero_add] at hrun hk
  have hmap : offers.map offer.idx =
      (List.range frames.length).map (fun k => k % t._M_used) := by
    apply List.ext_getElem?
    intro k
    by_cases hlt : k < frames.length
    · obtain ⟨d, _, ho⟩ := hk k (frames.get ⟨k, hlt⟩) (List.getElem?_eq_getElem hlt)
      rw [List.getElem?_map, ho, List.getElem?_map,
        List.getElem?_eq_getElem (by simpa using hlt)]
      simp only [Option.map_some', call_send_idx, List.getElem_range]
    · rw [List.getElem?_eq_none (by simp; omega), List.getElem?_eq_none (by simp; omega)]
  refine ⟨offers, hrun, hk, hmap, ?_⟩
  intro j hj
  rw [hmap, ← length_filter_range_mod t._M_used j hj frames.length, List.count,
    List.countP_map, List.countP_eq_length_filter]
  congr 1

theorem forward_round_robin_witness :
    ∃ offers, process_frames
        (sample_table type.load_balancer family.ipv4
          [sample_destination [10, 0, 0, 8, 0, 0, 0, 0, 0, 0, 0, 0, 0, 0, 0, 0],
           sample_destination [10, 0, 0, 9, 0, 0, 0, 0, 0, 0, 0, 0, 0, 0, 0, 0]])
        [(sample_frame_ipv4 5000, 42), (sample_frame_ipv4 5001, 42), (sample_frame_ipv4 5002, 42),
         (sample_frame_ipv4 5003, 42)] =
        some ({ sample_table type.load_balancer family.ipv4
          [sample_destination [10, 0, 0, 8, 0, 0, 0, 0, 0, 0, 0, 0, 0, 0, 0, 0],
           sample_destination [10, 0, 0, 9, 0, 0, 0, 0, 0, 0, 0, 0, 0, 0, 0, 0]] with
            _M_idx := 4 % 2 }, offers) ∧
      offers.map offer.idx = [0, 1, 0, 1] :=
  let h := forward_round_robin
    (sample_table type.load_balancer family.ipv4
      [sample_destination [10, 0, 0, 8, 0, 0, 0, 0, 0, 0, 0, 0, 0, 0, 0, 0],
       sample_destination [10, 0, 0, 9, 0, 0, 0, 0, 0, 0, 0, 0, 0, 0, 0, 0]])
    [(sample_frame_ipv4 5000, 42), (sample_frame_ipv4 5001, 42), (sample_frame_ipv4 5002, 42),
     (sample_frame_ipv4 5003, 42)] rfl (by decide) rfl
  h.elim (fun offers ho => ⟨offers, ho.1, ho.2.2.1⟩)

/-- C17: in broadcaster mode `process` on a table holding `M` destinations
calls the send function once for every destination, in the order of the
records (none when `M = 0`), and leaves the table, cursor included, as it was;
the records are in the order they were added, a successful
`destinations::add` appending its record behind the others. -/
theorem broadcast_all (t : destinations) (pkt : List Nat) (pktlen : Nat)
    (hproc : t._M_process = some type.broadcaster) :
    ∃ offers, t.process pkt pktlen = some (t, offers) ∧ offers.length = t._M_used ∧
      (∀ i d, t._M_destinations[i]? = some d →
        offers[i]? = some (t.call_send i d pkt pktlen)) ∧
      offers.map offer.idx = List.range t._M_used ∧
      ∀ (realloc_ok : Bool) (old_addr macaddr addr : List Nat) (addrlen port : Nat)
        (iface : interface),
        (t.add realloc_ok old_addr macaddr addr addrlen port iface).2 = true →
        ∃ d, (t.add realloc_ok old_addr macaddr addr addrlen port iface).1._M_destinations =
            t._M_destinations ++ [d] ∧
          (t.add realloc_ok old_addr macaddr addr addrlen port iface).1._M_process =
            some type.broadcaster := by
  obtain ⟨hl, hk⟩ := broadcast_loop_spec t pkt pktlen t._M_destinations 0
  simp only [Nat.zero_add] at hk
  refine ⟨t.broadcast_loop pkt pktlen 0 t._M_destinations, ?_, hl, hk, ?_, ?_⟩
  · simp only [destinations.process, hproc, destinations.broadcast]
  · apply List.ext_getElem?
    intro k
    by_cases hlt : k < t._M_destinations.length
    · rw [List.getElem?_map, hk k _ (List.getElem?_eq_getElem hlt),
        List.getElem?_eq_getElem (by simpa [destinations._M_used] using hlt)]
      simp only [Option.map_some', call_send_idx, List.getElem_range]
    · rw [List.getElem?_eq_none (by simp; omega),
        List.getElem?_eq_none (by simp [destinations._M_used]; omega)]
  · intro realloc_ok old_addr macaddr addr addrlen port iface hok
    obtain ⟨h1, _, h3, _⟩ :=
      (destinations_add_spec t realloc_ok old_addr macaddr addr addrlen port iface).2 hok
    exact ⟨_, h1, by rw [h3, hproc]⟩

theorem broadcast_all_witness :
    ∃ offers, (sample_worker type.broadcaster)._M_ipv4_destinations.process
        (sample_frame_ipv4 5000) 42 =
          some ((sample_worker type.broadcaster)._M_ipv4_destinations, offers) ∧
      offers.map offer.idx = [0, 1] :=
  (broadcast_all (sample_worker type.broadcaster)._M_ipv4_destinations
    (sample_frame_ipv4 5000) 42 rfl).elim (fun offers ho => ⟨offers, ho.1, ho.2.2.2.1⟩)

/-- C18: `fnpacket` passes a frame to the IPv4 destination table when the high
nibble of byte 14 is 4, to the IPv6 table when it is 6, and does nothing (no
call, worker unchanged) for every other value; in each case the other table
is not touched.  `fnpackets` on a batch is `fnpacket` on its first packet
followed by `fnpackets` on the rest. -/
theorem fnpacket_dispatch (w : worker) (pkt : List Nat) (pktlen : Nat)
    (hb : ∀ b ∈ pkt, b < 256) :
    (pkt.getD 14 0 / 16 = 4 → w.fnpacket pkt pktlen =
      (w._M_ipv4_destinations.process pkt pktlen).map
        (fun r => (worker.mk w._M_interfaces r.1 w._M_ipv6_destinations, r.2))) ∧
    (pkt.getD 14 0 / 16 = 6 → w.fnpacket pkt pktlen =
      (w._M_ipv6_destinations.process pkt pktlen).map
        (fun r => (worker.mk w._M_interfaces w._M_ipv4_destinations r.1, r.2))) ∧
    (pkt.getD 14 0 / 16 ≠ 4 → pkt.getD 14 0 / 16 ≠ 6 → w.fnpacket pkt pktlen = some (w, [])) ∧
    w.fnpackets [] 0 = some (w, []) ∧
    ∀ (p : iovec) (ps : List iovec), w.fnpackets (p :: ps) (ps.length + 1) =
      (w.fnpacket p.iov_base p.iov_len).bind
        (fun r => (r.1.fnpackets ps ps.length).map (fun q => (q.1, r.2 ++ q.2))) := by
  obtain ⟨h4, h6⟩ := and_f0_eq (pkt.getD 14 0) (getD_lt_256 pkt hb 14)
  refine ⟨?_, ?_, ?_, rfl, ?_⟩
  · intro h
    have e := h4.2 h
    simp only [worker.fnpacket, sizeof_ether_header, e, if_true]
  · intro h
    have e := h6.2 h
    have ne : ¬ (96 : Nat) = 64 := by decide
    simp only [worker.fnpacket, sizeof_ether_header, e, ne, if_true, if_false]
  · intro n4 n6
    have e4 : ¬ pkt.getD 14 0 &&& 0xf0 = 0x40 := fun h => n4 (h4.1 h)
    have e6 : ¬ pkt.getD 14 0 &&& 0xf0 = 0x60 := fun h => n6 (h6.1 h)
    simp only [worker.fnpacket, sizeof_ether_header, e4, e6, if_false]
  · intro p ps
    simp only [worker.fnpackets, worker.fnpackets_loop, Nat.zero_lt_succ, if_true,
      List.getElem?_cons_zero]
    cases w.fnpacket p.iov_base p.iov_len with
    | none => rfl
    | some r => simp only [Option.bind, Nat.zero_add, fnpackets_loop_cons]

theorem fnpacket_dispatch_witness :
    (sample_worker type.load_balancer).fnpacket (sample_frame_ipv4 5000) 42 =
      ((sample_worker type.load_balancer)._M_ipv4_destinations.process
          (sample_frame_ipv4 5000) 42).map
        (fun r => (worker.mk (sample_worker type.load_balancer)._M_interfaces r.1
          (sample_worker type.load_balancer)._M_ipv6_destinations, r.2)) :=
  (fnpacket_dispatch (sample_worker type.load_balancer) (sample_frame_ipv4 5000) 42
    (by decide)).1 (by decide)

/-- C19: for a distributor with `N ≥ 1` workers and cursor 0.  In
load-balancer mode every run of `add_destination` calls returns and leaves the
cursor at (number of successful calls) modulo `N`; the next call succeeds
exactly when the interface index is positive and the worker at the cursor
accepts the destination; when it fails, it changes nothing, and when it
succeeds, that is as successful call number `i`, it appends the record to a
table of worker `i % N`, leaves every other worker as it was and moves the
cursor to `(i + 1) % N`.  In broadcaster mode a call returns, it succeeds
exactly when the interface index is positive and every worker accepts the
destination, and a successful call appends the record to a table of every
worker. -/
theorem add_destination_assignment (d0 : udp_distributor) (reqs : List add_request)
    (r : add_request) (hN : 1 ≤ d0._M_nworkers) (hidx : d0._M_idx = 0) :
    (d0._M_type = some type.load_balancer →
      ∃ d1 oks, add_destinations d0 reqs = some (d1, oks) ∧ oks.length = reqs.length ∧
        d1._M_nworkers = d0._M_nworkers ∧ d1._M_idx = oks.count true % d0._M_nworkers ∧
        ∃ d2 ok w, d1.add r = some (d2, ok) ∧
          d1._M_workers[oks.count true % d0._M_nworkers]? = some w ∧
          (ok = true ↔
            (0 < r.ifindex ∧ w.can_add (oks.count true % d0._M_nworkers) r)) ∧
          (ok = false → d2 = d1) ∧
          (ok = true → d2._M_idx = (oks.count true + 1) % d0._M_nworkers ∧
            (∃ w1 iface, d2._M_workers[oks.count true % d0._M_nworkers]? = some w1 ∧
              worker.appended w w1 (r.record (oks.count true % d0._M_nworkers) iface)) ∧
            ∀ (j : Nat), j ≠ oks.count true % d0._M_nworkers →
              d2._M_workers[j]? = d1._M_workers[j]?)) ∧
    (d0._M_type = some type.broadcaster →
      ∃ d2 ok, d0.add r = some (d2, ok) ∧
        (ok = true ↔
          (0 < r.ifindex ∧
            ∀ (j : Nat) (w : worker), d0._M_workers[j]? = some w → w.can_add j r)) ∧
        (ok = true → d2._M_nworkers = d0._M_nworkers ∧
          ∀ (j : Nat) (w : worker), d0._M_workers[j]? = some w →
            ∃ w1 iface, d2._M_workers[j]? = some w1 ∧
              worker.appended w w1 (r.record j iface))) := by
  unfold udp_distributor._M_nworkers at hN ⊢
  refine ⟨?_, ?_⟩
  · intro ht
    obtain ⟨d1, oks, hrun, hlen, ht1, hl1, hi1, _⟩ :=
      add_destinations_run d0._M_workers.length (by omega)
        (fun j => ((d0._M_workers[j]?).map worker.ndestinations).getD 0) reqs d0 0 ht rfl
        (by rw [hidx, Nat.zero_mod])
        (by
          intro j w hj
          simp [hj])
    simp only [Nat.zero_add] at hi1
    refine ⟨d1, oks, hrun, hlen, hl1, hi1, ?_⟩
    have hlt : d1._M_idx < d1._M_workers.length := by
      rw [hi1, hl1]
      exact Nat.mod_lt _ (by omega)
    obtain ⟨d2, ok, w, hstep, hw, _, _, hfail, hsucc⟩ := add_lb_step d1 r ht1 hlt
    have hiff := add_lb_ok_iff d1 r ht1 w hw d2 ok hstep
    rw [hi1] at hw hiff
    refine ⟨d2, ok, w, hstep, hw, hiff, hfail, ?_⟩
    intro hok
    obtain ⟨_, hwok, hidx2, hget2, hother⟩ := hsucc hok
    rw [hi1] at hwok hget2 hother
    obtain ⟨iface, _, happ, _⟩ := (worker_add_spec w _ r).2 hwok
    refine ⟨?_, ⟨_, iface, hget2, happ⟩, hother⟩
    rw [hidx2, hi1, hl1, Nat.add_mod, Nat.mod_mod, ← Nat.add_mod]
  · intro ht
    obtain ⟨d2, ok, hadd, hiff⟩ := add_bc_ok_iff d0 r ht
    refine ⟨d2, ok, hadd, hiff, ?_⟩
    intro hok
    subst hok
    simp only [udp_distributor.add, udp_distributor.add_destination, ht] at hadd
    by_cases hif : r.ifindex > 0
    · have hne : ¬ type.broadcaster = type.load_balancer := by decide
      simp only [hif, if_true, hne, if_false, Option.some.injEq, Prod.mk.injEq] at hadd
      obtain ⟨hd2, hq⟩ := hadd
      obtain ⟨hl, hk⟩ := add_destination_loop_spec r d0._M_workers 0 hq
      subst hd2
      refine ⟨hl, ?_⟩
      intro j w hj
      obtain ⟨hwok, hget⟩ := hk j w hj
      rw [Nat.zero_add] at hwok hget
      obtain ⟨iface, _, happ, _⟩ := (worker_add_spec w j r).2 hwok
      exact ⟨_, iface, hget, happ⟩
    · simp [hif] at hadd

set_option maxRecDepth 100000 in
theorem add_destination_assignment_witness :
    (∃ d2 w w1 iface,
      add_destinations (sample_distributor type.load_balancer 2)
          [sample_request 2 8, sample_request 3 9] =
        some (distributor_after (sample_distributor type.load_balancer 2)
          [sample_request 2 8, sample_request 3 9], [true, false]) ∧
      (distributor_after (sample_distributor type.load_balancer 2)
          [sample_request 2 8, sample_request 3 9]).add (sample_request 2 7) =
        some (d2, true) ∧
      d2._M_idx = 0 ∧
      (distributor_after (sample_distributor type.load_balancer 2)
          [sample_request 2 8, sample_request 3 9])._M_workers[1]? = some w ∧
      d2._M_workers[1]? = some w1 ∧
      worker.appended w w1 ((sample_request 2 7).record 1 iface) ∧
      d2._M_workers[0]? =
        (distributor_after (sample_distributor type.load_balancer 2)
          [sample_request 2 8, sample_request 3 9])._M_workers[0]?) ∧
    ∃ d2, (sample_distributor type.broadcaster 2).add (sample_request 2 7) = some (d2, true) ∧
      ∀ (j : Nat) (w : worker), (sample_distributor type.broadcaster 2)._M_workers[j]? = some w →
        ∃ w1 iface, d2._M_workers[j]? = some w1 ∧
          worker.appended w w1 ((sample_request 2 7).record j iface) := by
  constructor
  · obtain ⟨d1, oks, hrun, _, _, _, d2, ok, w, hstep, hw, hiff, _, hsucc⟩ :=
      (add_destination_assignment (sample_distributor type.load_balancer 2)
        [sample_request 2 8, sample_request 3 9] (sample_request 2 7) (by decide) rfl).1 rfl
    have hoks : oks = [true, false] := by
      have h : (add_destinations (sample_distributor type.load_balancer 2)
          [sample_request 2 8, sample_request 3 9]).map Prod.snd = some [true, false] := by
        decide
      rw [hrun] at h
      exact Option.some.inj h
    have hd1 : d1 = distributor_after (sample_distributor type.load_balancer 2)
        [sample_request 2 8, sample_request 3 9] := by
      unfold distributor_after
      rw [hrun]
      rfl
    subst hoks
    subst hd1
    have hone : List.count true [true, false] %
        (sample_distributor type.load_balancer 2)._M_nworkers = 1 := by decide
    have hzero : (List.count true [true, false] + 1) %
        (sample_distributor type.load_balancer 2)._M_nworkers = 0 := by decide
    rw [hone] at hw hiff hsucc
    rw [hzero] at hsucc
    have hcan : ∀ x ∈ (distributor_after (sample_distributor type.load_balancer 2)
        [sample_request 2 8, sample_request 3 9])._M_workers,
        x.can_add 1 (sample_request 2 7) := by decide
    have hok : ok = true := hiff.2 ⟨by decide, hcan w (List.getElem?_mem hw)⟩
    subst hok
    obtain ⟨hi2, ⟨w1, iface, hw1, happ⟩, hother⟩ := hsucc rfl
    exact ⟨d2, w, w1, iface, hrun, hstep, hi2, hw, hw1, happ, hother 0 (by decide)⟩
  · obtain ⟨d2, ok, hadd, hiff, hsucc⟩ :=
      (add_destination_assignment (sample_distributor type.broadcaster 2)
        [] (sample_request 2 7) (by decide) rfl).2 rfl
    have hcan : ∀ x ∈ (sample_distributor type.broadcaster 2)._M_workers,
        ∀ j, j < 2 → x.can_add j (sample_request 2 7) := by decide
    have hok : ok = true := hiff.2 ⟨by decide, fun j w hj =>
      hcan w (List.getElem?_mem hj) j (by
        have := (List.getElem?_eq_some_iff.mp hj).1
        exact this)⟩
    subst hok
    exact ⟨d2, hadd, (hsucc rfl).2⟩

/-- C20: with `D ≥ 1` destinations and `N` in 1..32 workers asked for, `main`
creates the distributor with `min N D` workers in load-balancer mode and with
`N` workers in broadcaster mode, and a successful `create` sets up that many
workers; in load-balancer mode the `D` calls of `add_destination` return, they
all succeed when every request has a positive interface index registered in
every worker, an address of 4 or 16 bytes and memory for its record, and once
they have all succeeded worker `j` holds `D / min N D` records, and one more
when `j < D % min N D`: every worker holds at least one, and two workers
differ by at most one. -/
theorem load_balancer_no_idle_worker (N D : Nat) (hN1 : 1 ≤ N) (hN32 : N ≤ 32)
    (hD : 1 ≤ D) :
    main_nworkers N D type.load_balancer = min N D ∧
    main_nworkers N D type.broadcaster = N ∧
    (∀ (rx_ok : Nat → Bool) (t : type) (ring_size ifindex : Nat),
      (udp_distributor.new.create rx_ok t ring_size ifindex (main_nworkers N D t)).2 = true →
      (udp_distributor.new.create rx_ok t ring_size ifindex (main_nworkers N D t)).1._M_nworkers =
        main_nworkers N D t) ∧
    ∀ (d0 : udp_distributor) (reqs : List add_request), reqs.length = D →
      d0._M_type = some type.load_balancer →
      d0._M_nworkers = main_nworkers N D type.load_balancer → d0._M_idx = 0 →
      (∀ w ∈ d0._M_workers, w.ndestinations = 0) →
      ∃ d1 oks, add_destinations d0 reqs = some (d1, oks) ∧ d1._M_nworkers = min N D ∧
        oks.length = D ∧
        ((∀ r ∈ reqs, r.accepted_by d0) → ∀ ok ∈ oks, ok = true) ∧
        ((∀ ok ∈ oks, ok = true) →
          ∀ (j : Nat) (w : worker), d1._M_workers[j]? = some w →
            w.ndestinations = D / min N D + (if j < D % min N D then 1 else 0) ∧
            1 ≤ w.ndestinations ∧ D / min N D ≤ w.ndestinations ∧
            w.ndestinations ≤ D / min N D + 1) := by
  have hmain : main_nworkers N D type.load_balancer = min N D := by
    unfold main_nworkers
    by_cases h : N > D
    · simp only [h, true_and, if_true]
      omega
    · simp only [h, false_and, if_false]
      omega
  have hM1 : 1 ≤ min N D := by omega
  have hMD : min N D ≤ D := by omega
  refine ⟨hmain, ?_, ?_, ?_⟩
  · simp [main_nworkers]
  · intro rx_ok t ring_size ifindex h
    exact (create_spec rx_ok t ring_size ifindex _ h).2.1
  · intro d0 reqs hlen ht hn hidx hz
    rw [hmain] at hn
    unfold udp_distributor._M_nworkers at hn ⊢
    obtain ⟨d1, oks, hrun, hlen1, _, hl1, _, hc1⟩ :=
      add_destinations_run (min N D) (by omega) (fun _ => 0) reqs d0 0 ht hn
        (by rw [hidx, Nat.zero_mod])
        (by
          intro j w hj
          simp only [List.range_zero, List.filter_nil, List.length_nil, Nat.add_zero]
          exact hz w (List.getElem?_mem hj))
    refine ⟨d1, oks, hrun, hl1, by rw [hlen1, hlen], ?_, ?_⟩
    · intro hacc
      obtain ⟨d3, oks3, hrun3, hall⟩ := add_destinations_all_ok reqs d0 ht
        (by rw [hidx, hn]; omega) hacc
      rw [hrun] at hrun3
      simp only [Option.some.injEq, Prod.mk.injEq] at hrun3
      rw [hrun3.2]
      exact hall
    · intro hall j w hj
      have hcount : oks.count true = D := by
        rw [← hlen, ← hlen1]
        exact List.count_eq_length.mpr (fun b hb => (hall b hb).symm)
      have hjlt : j < min N D := by
        rw [← hl1]
        exact (List.getElem?_eq_some_iff.mp hj).1
      have hcnt := hc1 j w hj
      rw [Nat.zero_add, Nat.zero_add, hcount, length_filter_range_mod (min N D) j hjlt D] at hcnt
      have hq : 1 ≤ D / min N D := Nat.div_pos hMD (by omega)
      refine ⟨hcnt, ?_, ?_, ?_⟩
      · omega
      · omega
      · rw [hcnt]
        split_ifs <;> omega

set_option maxRecDepth 100000 in
theorem load_balancer_no_idle_worker_witness :
    main_nworkers 4 3 type.load_balancer = min 4 3 ∧
    ∃ d1 oks, add_destinations (sample_distributor type.load_balancer 3)
        [sample_request 2 7, sample_request 2 8, sample_request 2 9] = some (d1, oks) ∧
      d1._M_nworkers = min 4 3 ∧ oks = [true, true, true] ∧
      ∀ (j : Nat) (w : worker), d1._M_workers[j]? = some w →
        w.ndestinations = 3 / min 4 3 + (if j < 3 % min 4 3 then 1 else 0) ∧
        1 ≤ w.ndestinations := by
  refine ⟨(load_balancer_no_idle_worker 4 3 (by decide) (by decide) (by decide)).1, ?_⟩
  obtain ⟨d1, oks, hrun, hn, hlen, hok, hcount⟩ :=
    (load_balancer_no_idle_worker 4 3 (by decide) (by decide) (by decide)).2.2.2
      (sample_distributor type.load_balancer 3)
      [sample_request 2 7, sample_request 2 8, sample_request 2 9] rfl rfl (by decide) rfl
      (by decide)
  have hall : ∀ ok ∈ oks, ok = true := hok (by decide)
  have hoks : oks = [true, true, true] := by
    have h : (add_destinations (sample_distributor type.load_balancer 3)
        [sample_request 2 7, sample_request 2 8, sample_request 2 9]).map Prod.snd =
        some [true, true, true] := by decide
    rw [hrun] at h
    exact Option.some.inj h
  exact ⟨d1, oks, hrun, hn, hoks, fun j w hj => ⟨(hcount hall j w hj).1, (hcount hall j w hj).2.1⟩⟩

/-! ## Claims about the instruction sequence -/

/-- C21: for every stored range set, `compile` on a filter with neither family
flag set returns the same flag and leaves the same filter, so the same
instruction sequence, as `compile` on a filter with both flags set (whatever
instructions the two filters held before). -/
theorem compile_neither_eq_both (rs : List portrange) (fs fs' : List sock_filter) :
    compile ⟨false, false, rs, fs⟩ = compile ⟨true, true, rs, fs'⟩ ∧
    (compile ⟨false, false, rs, fs⟩).2._M_filters =
      (compile ((socket_filter.mk false false rs fs').ipv4.ipv6)).2._M_filters := by
  constructor
  · rfl
  · rfl

/-! ## Claims about the parsers of `main.cpp` -/

/-- C25: for every bound `max < 2^64 / 10` (and every `min`),
`parse_number(s, min, max, n)` returns true exactly when `s` is a non-empty
string of decimal digits whose exact value `v` satisfies `min ≤ v ≤ max`, and
then `n = v`; so a digit string whose value is `2^64` or more is rejected.
The test `tmp >= res` alone does not detect every wrap: on the digits of
`5 * 10^19` the loop ends normally with the wrapped accumulator
`13106511852580896768`. -/
theorem parse_number_iff (s : List Nat) (min max n : Nat)
    (hmax : 10 * max < 18446744073709551616) :
    (parse_number s min max = some n ↔
      (is_number s ∧ min ≤ digits_value s ∧ digits_value s ≤ max ∧ n = digits_value s)) ∧
    (18446744073709551616 ≤ digits_value s → parse_number s min max = none) ∧
    (18446744073709551616 ≤ digits_value (cstr "50000000000000000000") ∧
      parse_number_loop 0 (cstr "50000000000000000000") = some 13106511852580896768) := by
  have hiff : ∀ n, parse_number s min max = some n ↔
      (is_number s ∧ min ≤ digits_value s ∧ digits_value s ≤ max ∧ n = digits_value s) := by
    intro n
    constructor
    · intro h
      unfold parse_number at h
      cases hl : parse_number_loop 0 s with
      | none => simp [hl] at h
      | some res =>
        simp only [hl] at h
        split_ifs at h with hc
        simp only [Option.some.injEq] at h
        subst h
        obtain ⟨hne, hmin, hle⟩ := hc
        obtain ⟨hd, hv⟩ := parse_number_loop_exact max hmax s 0 res hl hle
        have hv' : res = digits_value s := hv
        exact ⟨⟨hne, hd⟩, by omega, by omega, hv'⟩
    · rintro ⟨⟨hne, hd⟩, hmin, hle, hn⟩
      have hl := parse_number_loop_digits s 0 hd (by
        have : digits_value_from 0 s = digits_value s := rfl
        omega)
      have hv : digits_value_from 0 s = digits_value s := rfl
      unfold parse_number
      simp only [hl, hv]
      have hc : s ≠ [] ∧ digits_value s ≥ min ∧ digits_value s ≤ max := ⟨hne, hmin, hle⟩
      rw [if_pos hc, hn]
  refine ⟨hiff n, ?_, by decide, by decide⟩
  intro hbig
  cases hp : parse_number s min max with
  | none => rfl
  | some v =>
    have := ((hiff v).1 hp).2.2.1
    omega

theorem parse_number_iff_witness :
    parse_number (cstr "32") 1 32 = some 32 ↔
      (is_number (cstr "32") ∧ 1 ≤ digits_value (cstr "32") ∧ digits_value (cstr "32") ≤ 32 ∧
        32 = digits_value (cstr "32")) :=
  (parse_number_iff (cstr "32") 1 32 32 (by decide)).1

/-- A string is split into its digits and its suffix in one way only. -/
theorem size_text_unique (s : List Nat) (v w : Nat) (hv : size_text s v) (hw : size_text s w) :
    v = w := by
  obtain ⟨ds, suf, m, ⟨_, hd⟩, hs, he, hval⟩ := hv
  obtain ⟨ds', suf', m', ⟨_, hd'⟩, hs', he', hval'⟩ := hw
  have hhead : ∀ (x : List Nat) (k : Nat) (c : Nat) (t : List Nat), size_suffix x k →
      x = c :: t → IS_DIGIT c = false := by
    intro x k c t hx hxe
    rcases hx with ⟨h, _⟩ | ⟨h, _⟩ | ⟨h, _⟩ | ⟨h, _⟩ <;> rw [h] at hxe <;>
      simp only [List.cons.injEq, reduceCtorEq] at hxe
    all_goals
      obtain ⟨hc, _⟩ := hxe
      subst hc
      decide
  have key : ∀ (a b : List Nat), (∀ c ∈ a, IS_DIGIT c = true) → (∀ c ∈ b, IS_DIGIT c = true) →
      a ++ suf = b ++ suf' → a = b ∧ suf = suf' := by
    intro a
    induction a with
    | nil =>
      intro b _ hb h
      cases b with
      | nil => exact ⟨rfl, by simpa using h⟩
      | cons c t =>
        have h1 := hhead suf m c (t ++ suf') hs (by simpa using h)
        have h2 := hb c (List.mem_cons_self _ _)
        rw [h1] at h2
        exact absurd h2 (by decide)
    | cons c t ih =>
      intro b ha hb h
      cases b with
      | nil =>
        have h1 := hhead suf' m' c (t ++ suf) hs' (by simpa using h.symm)
        have h2 := ha c (List.mem_cons_self _ _)
        rw [h1] at h2
        exact absurd h2 (by decide)
      | cons c' t' =>
        simp only [List.cons_append, List.cons.injEq] at h
        obtain ⟨hc, ht⟩ := h
        obtain ⟨e1, e2⟩ := ih t' (fun x hx => ha x (List.mem_cons_of_mem _ hx))
          (fun x hx => hb x (List.mem_cons_of_mem _ hx)) ht
        exact ⟨by rw [hc, e1], e2⟩
  obtain ⟨e1, e2⟩ := key ds ds' hd hd' (by rw [← he, ← he'])
  subst e1 e2
  have hm : m = m' := by
    rcases hs with ⟨h, hm⟩ | ⟨h, hm⟩ | ⟨h, hm⟩ | ⟨h, hm⟩ <;>
      rcases hs' with ⟨h', hm'⟩ | ⟨h', hm'⟩ | ⟨h', hm'⟩ | ⟨h', hm'⟩ <;>
      first
        | (rw [h] at h'; exact absurd h' (by decide))
        | (rw [hm, hm'])
  rw [hval, hval', hm]

/-- C24: for every bound `max ≤ 2^34` (and every `min`),
`parse_size(s, min, max, size)` returns true exactly when `s` is a non-empty
string of decimal digits followed by at most one final suffix `K`, `M` or `G`
and the exact value `v` (the number times 1, `2^10`, `2^20` or `2^30`)
satisfies `min ≤ v ≤ max`, and then `size = v`; a string whose exact value
exceeds `max`, so every string whose value does not fit in 64 bits, is
rejected. -/
theorem parse_size_iff (s : List Nat) (min max v : Nat) (hmax : max ≤ 17179869184) :
    (parse_size s min max = some v ↔ (size_text s v ∧ min ≤ v ∧ v ≤ max)) ∧
    (∀ w, size_text s w → max < w → parse_size s min max = none) := by
  have hiff : ∀ v, parse_size s min max = some v ↔ (size_text s v ∧ min ≤ v ∧ v ≤ max) := by
    intro v
    constructor
    · intro h
      have hle : v ≤ 17179869184 := by
        have := parse_size_le_max min max s 0 0 v h
        omega
      obtain ⟨ds, suffix, mult, hd, hsx, hs, hne, hval, hmin, hmx, _⟩ :=
        parse_size_loop_sound min max s 0 0 v h hle
      exact ⟨⟨ds, suffix, mult, ⟨hne rfl, hd⟩, hsx, hs, hval⟩, hmin, hmx⟩
    · rintro ⟨⟨ds, suffix, mult, ⟨hne, hd⟩, hsx, hs, hval⟩, hmin, hmx⟩
      subst hs
      rw [hval] at hmin hmx ⊢
      exact parse_size_loop_complete min max suffix mult hsx ds 0 0 hd (Or.inr hne)
        (by unfold digits_value at hmx; omega) hmin hmx
  refine ⟨hiff v, ?_⟩
  intro w hw hbig
  cases hp : parse_size s min max with
  | none => rfl
  | some u =>
    obtain ⟨hu, _, hule⟩ := (hiff u).1 hp
    have := size_text_unique s u w hu hw
    omega

theorem parse_size_iff_witness :
    parse_size (cstr "16G") 1048576 17179869184 = some 17179869184 ↔
      (size_text (cstr "16G") 17179869184 ∧ 1048576 ≤ 17179869184 ∧
        17179869184 ≤ 17179869184) :=
  (parse_size_iff (cstr "16G") 1048576 17179869184 17179869184 (by decide)).1

/-! ## The geometry of the ring -/

/-- The entries of a slot table. -/
theorem frames_spec (size : Nat) : ∀ (n buf : Nat),
    (ring_buffer.frames buf size n).length = n ∧
    ∀ i, i < n → (ring_buffer.frames buf size n)[i]? = some (buf + i * size) := by
  intro n
  induction n with
  | zero =>
    intro buf
    exact ⟨rfl, fun i hi => by omega⟩
  | succ n ih =>
    intro buf
    obtain ⟨hl, hk⟩ := ih (buf + size)
    refine ⟨by simp only [ring_buffer.frames, List.length_cons, hl], ?_⟩
    intro i hi
    cases i with
    | zero => simp [ring_buffer.frames]
    | succ i =>
      simp only [ring_buffer.frames, List.getElem?_cons_succ]
      rw [hk i (by omega)]
      congr 1
      rw [Nat.add_mul]
      omega

/-- The effective size of the ring and the request, for a page size that is a
positive multiple of 512 and a ring size `create` lets through. -/
theorem config_spec (r : ring_buffer) (P ring_size : Nat) (hP : 0 < P) (h512 : P % 512 = 0)
    (hint : 4 * P ≤ INT_MAX) (hmax : ring_size ≤ ring_buffer.max_size) :
    (r.config P ring_size).2 = ⟨4 * P, ring_size / (4 * P), 2048,
      ring_size / (4 * P) * (4 * P) / 2048⟩ ∧
    (r.config P ring_size).1._M_frame_size = 2048 ∧
    (r.config P ring_size).1._M_ring_size = ring_size / (4 * P) * (4 * P) ∧
    (r.config P ring_size).1._M_nframes = ring_size / (4 * P) * (4 * P) / 2048 ∧
    ring_size / (4 * P) * (4 * P) ≤ ring_size ∧
    ring_size < ring_size / (4 * P) * (4 * P) + 4 * P ∧
    ring_size / (4 * P) * (4 * P) / 2048 * 2048 = ring_size / (4 * P) * (4 * P) := by
  have hb : ring_buffer.block_size P = 4 * P := by
    simp only [ring_buffer.block_size, Nat.shiftLeft_eq]
    omega
  have hf : TPACKET_ALIGNMENT <<< 7 = 2048 := by decide
  have hle : ring_size / (4 * P) * (4 * P) ≤ ring_size := Nat.div_mul_le_self _ _
  have hlt : ring_size < ring_size / (4 * P) * (4 * P) + 4 * P := by
    have := Nat.lt_div_mul_add (a := ring_size) (b := 4 * P) (by omega)
    omega
  have hmaxv : ring_buffer.max_size = 17179869184 := by decide
  have hintv : INT_MAX = 2147483647 := rfl
  have hn : ring_size / (4 * P) ≤ ring_size / 2048 :=
    Nat.div_le_div_left (by omega) (by omega)
  have hdiv : 2048 ∣ ring_size / (4 * P) * (4 * P) := by
    apply Dvd.dvd.mul_left
    exact ⟨P / 512, by omega⟩
  have hfr : ring_size / (4 * P) * (4 * P) / 2048 * 2048 = ring_size / (4 * P) * (4 * P) :=
    Nat.div_mul_cancel hdiv
  have hfl : ring_size / (4 * P) * (4 * P) / 2048 ≤ ring_size / (4 * P) * (4 * P) :=
    Nat.div_le_self _ _
  simp only [ring_buffer.config, ring_buffer.nblocks, hb, hf]
  rw [Nat.mod_eq_of_lt (by omega : ring_size / (4 * P) * (4 * P) < 18446744073709551616),
    Nat.mod_eq_of_lt (by omega : ring_size / (4 * P) < 4294967296),
    Nat.mod_eq_of_lt (by omega : 4 * P < 4294967296),
    Nat.mod_eq_of_lt (by omega : ring_size / (4 * P) * (4 * P) / 2048 < 4294967296)]
  refine ⟨?_, ?_, ?_, ?_, hle, hlt, hfr⟩ <;> first | rfl | trivial

/-- C30: for every page size `P` that is a positive multiple of 512 (with
`4 * P` an `int`) and every requested ring size that `create` lets through
(at most `max_size`): the block size is `4 * P`, the frame size 2048, the block
count `⌊requested / 4P⌋`, the effective size block count times `4 * P`, with
`requested - 4P < effective ≤ requested`; slot count times slot size is the
effective size for v1/v2 (slots of 2048 bytes) and for v3 (slots of `4 * P`
bytes); `mmap_ring` maps the effective size for an rx or a tx ring and twice
that for an rxtx ring, whose TX slot table starts at offset effective size. -/
theorem ring_geometry (r : ring_buffer) (P ring_size : Nat) (hP : 0 < P) (h512 : P % 512 = 0)
    (hint : 4 * P ≤ INT_MAX) (hmax : ring_size ≤ ring_buffer.max_size)
    (t : ring_buffer.type) (mem : List Nat) :
    ((r.config_v1_v2 P ring_size).2.tp_block_size = 4 * P ∧
      (r.config_v1_v2 P ring_size).2.tp_frame_size = 2048 ∧
      (r.config_v1_v2 P ring_size).2.tp_block_nr = ring_size / (4 * P) ∧
      (r.config_v1_v2 P ring_size).1._M_ring_size = ring_size / (4 * P) * (4 * P) ∧
      (r.config_v1_v2 P ring_size).1._M_size = 2048 ∧
      (r.config_v1_v2 P ring_size).1._M_count * (r.config_v1_v2 P ring_size).1._M_size =
        ring_size / (4 * P) * (4 * P)) ∧
    ((r.config_v3 P ring_size).2.tp_block_size = 4 * P ∧
      (r.config_v3 P ring_size).2.tp_frame_size = 2048 ∧
      (r.config_v3 P ring_size).2.tp_block_nr = ring_size / (4 * P) ∧
      (r.config_v3 P ring_size).1._M_ring_size = ring_size / (4 * P) * (4 * P) ∧
      (r.config_v3 P ring_size).1._M_size = 4 * P ∧
      (r.config_v3 P ring_size).1._M_count * (r.config_v3 P ring_size).1._M_size =
        ring_size / (4 * P) * (4 * P)) ∧
    (ring_size / (4 * P) * (4 * P) ≤ ring_size ∧
      ring_size < ring_size / (4 * P) * (4 * P) + 4 * P) ∧
    ∀ c, (c = (r.config_v1_v2 P ring_size).1 ∨ c = (r.config_v3 P ring_size).1) →
      (c.mmap_ring t (some mem) true true).1.2 = true ∧
      (c.mmap_ring t (some mem) true true).2 =
        (if t = ring_buffer.type.rxtx then 2 * (ring_size / (4 * P) * (4 * P))
         else ring_size / (4 * P) * (4 * P)) ∧
      (c.mmap_ring t (some mem) true true).1.1._M_ring_size =
        (c.mmap_ring t (some mem) true true).2 ∧
      (t ≠ ring_buffer.type.tx → ∀ i, i < c._M_count →
        (c.mmap_ring t (some mem) true true).1.1._M_rx_frames[i]? = some (i * c._M_size)) ∧
      (t ≠ ring_buffer.type.rx → ∀ i, i < c._M_count →
        (c.mmap_ring t (some mem) true true).1.1._M_tx_frames[i]? =
          some ((if t = ring_buffer.type.rxtx then ring_size / (4 * P) * (4 * P) else 0) +
            i * c._M_size)) := by
  obtain ⟨hreq, hfs, hrs, hnf, hle, hlt, hfr⟩ := config_spec r P ring_size hP h512 hint hmax
  have hb : ring_buffer.block_size P = 4 * P := by
    simp only [ring_buffer.block_size, Nat.shiftLeft_eq]
    omega
  have hmaxv : ring_buffer.max_size = 17179869184 := by decide
  have h12 : (r.config_v1_v2 P ring_size).1._M_ring_size = ring_size / (4 * P) * (4 * P) := hrs
  have h3 : (r.config_v3 P ring_size).1._M_ring_size = ring_size / (4 * P) * (4 * P) := hrs
  refine ⟨⟨?_, ?_, ?_, h12, hfs, ?_⟩, ⟨?_, ?_, ?_, h3, hb, ?_⟩, ⟨hle, hlt⟩, ?_⟩
  · show (r.config P ring_size).2.tp_block_size = _
    rw [hreq]
  · show (r.config P ring_size).2.tp_frame_size = _
    rw [hreq]
  · show (r.config P ring_size).2.tp_block_nr = _
    rw [hreq]
  · show (r.config P ring_size).1._M_nframes * (r.config P ring_size).1._M_frame_size = _
    rw [hnf, hfs, hfr]
  · show (r.config P ring_size).2.tp_block_size = _
    rw [hreq]
  · show (r.config P ring_size).2.tp_frame_size = _
    rw [hreq]
  · show (r.config P ring_size).2.tp_block_nr = _
    rw [hreq]
  · show ring_buffer.nblocks P ring_size * ring_buffer.block_size P = _
    rw [ring_buffer.nblocks, hb]
  · intro c hc
    have hcr : c._M_ring_size = ring_size / (4 * P) * (4 * P) := by
      rcases hc with h | h <;> rw [h]
      · exact h12
      · exact h3
    have h2 : 2 * (ring_size / (4 * P) * (4 * P)) % 18446744073709551616 =
        2 * (ring_size / (4 * P) * (4 * P)) := Nat.mod_eq_of_lt (by omega)
    cases t <;>
      simp only [ring_buffer.mmap_ring, hcr, h2, ne_eq, reduceCtorEq, not_false_eq_true,
        not_true_eq_false, if_true, if_false, true_and, and_true, Nat.zero_add, IsEmpty.forall_iff,
        forall_true_left, implies_true]
    · intro i hi
      exact (frames_spec c._M_size c._M_count 0).2 i hi |>.trans (by rw [Nat.zero_add])
    · intro i hi
      exact (frames_spec c._M_size c._M_count 0).2 i hi |>.trans (by rw [Nat.zero_add])
    · refine ⟨?_, ?_⟩
      · intro i hi
        exact (frames_spec c._M_size c._M_count 0).2 i hi |>.trans (by rw [Nat.zero_add])
      · intro i hi
        exact (frames_spec c._M_size c._M_count _).2 i hi

theorem ring_geometry_witness :
    (sample_ring_new.config_v1_v2 4096 1050000).1._M_ring_size = 1050000 / (4 * 4096) * (4 * 4096) ∧
    (sample_ring_new.config_v1_v2 4096 1050000).1._M_count *
      (sample_ring_new.config_v1_v2 4096 1050000).1._M_size = 1050000 / (4 * 4096) * (4 * 4096) ∧
    (sample_ring_new.config_v3 4096 1050000).1._M_count *
      (sample_ring_new.config_v3 4096 1050000).1._M_size = 1050000 / (4 * 4096) * (4 * 4096) :=
  let h := ring_geometry sample_ring_new 4096 1050000 (by decide) (by decide) (by decide)
    (by decide) ring_buffer.type.rxtx []
  ⟨h.1.2.2.2.1, h.1.2.2.2.2.2, h.2.1.2.2.2.2.2⟩

/-! ## Claims about sending through the ring -/

/-- C26: for every ring version and every TX ring, if the status word of the
slot at the TX cursor has `TP_STATUS_SEND_REQUEST` or `TP_STATUS_SENDING` set,
the non-blocking `send` and `sendv` return false with `errno = EAGAIN`, call
`sendto` not at all and leave the whole ring (memory and cursor) as it was. -/
theorem send_busy_slot (r : ring_buffer) (v : tpacket_versions) (hdr : Nat) (pkt : List Nat)
    (pktlen : Nat) (iov : List iovec) (sendto_ok : Bool) (hhdr : r.tx_hdr v = some hdr)
    (hbusy : load_status v r._M_buf hdr &&&
      (TP_STATUS_SEND_REQUEST ||| TP_STATUS_SENDING) ≠ 0) :
    r.send v pkt pktlen sendto_ok = some ⟨false, some EAGAIN, false, r⟩ ∧
    r.sendv v iov sendto_ok = some ⟨false, some EAGAIN, false, r⟩ := by
  constructor
  · unfold ring_buffer.send
    simp only [hhdr, if_neg hbusy]
  · unfold ring_buffer.sendv
    simp only [hhdr, if_neg hbusy]

theorem send_busy_slot_witness :
    sample_tx_ring_busy.send tpacket_versions.TPACKET_V2 [1, 2, 3] 3 true =
        some ⟨false, some EAGAIN, false, sample_tx_ring_busy⟩ ∧
    sample_tx_ring_busy.sendv tpacket_versions.TPACKET_V2 sample_iov_short true =
        some ⟨false, some EAGAIN, false, sample_tx_ring_busy⟩ :=
  send_busy_slot sample_tx_ring_busy tpacket_versions.TPACKET_V2 0 [1, 2, 3] 3
    sample_iov_short true (frames_head 0 2048 511) (by decide)

/-- C27, as the claim states it, fails: on a v2 ring of 2048-byte frames whose
frame 0 is free, a gather list of 2017 bytes is copied from offset 32 of frame
0 on and reaches byte 2048, the first byte of frame 1 (its `tp_status`). -/
theorem sendv_modifies_next_slot :
    sample_tx_ring.tx_hdr tpacket_versions.TPACKET_V2 = some 0 ∧
    load_status tpacket_versions.TPACKET_V2 sample_tx_ring._M_buf 0 &&&
      (TP_STATUS_SEND_REQUEST ||| TP_STATUS_SENDING) = 0 ∧
    sample_tx_ring._M_tx_frames[1]? = some 2048 ∧
    sample_tx_ring._M_buf[2048]? = some 0 ∧
    ∃ s, sample_tx_ring.sendv_v2 sample_iov_long true = some s ∧
      s.ring._M_buf[2048]? = some 255 := by
  have hfree : load_status tpacket_versions.TPACKET_V2 sample_tx_ring._M_buf 0 &&&
      (TP_STATUS_SEND_REQUEST ||| TP_STATUS_SENDING) = 0 := by decide
  have hhdr : sample_tx_ring.tx_hdr tpacket_versions.TPACKET_V2 = some 0 :=
    frames_head 0 2048 511
  have htot : iov_total sample_iov_long = 2017 := rfl
  have hg : gather sample_iov_long = List.replicate 2017 255 := by
    show (List.replicate 2017 255).take 2017 ++ [] = _
    rw [List.append_nil, List.take_replicate, Nat.min_self]
  have hlen : sample_tx_ring._M_buf.length = 1048576 := List.length_replicate _ _
  have hiov : ∀ w ∈ sample_iov_long, w.iov_len ≤ w.iov_base.length := by
    intro w hw
    rw [List.mem_singleton.1 hw]
    show 2017 ≤ (List.replicate 2017 255).length
    rw [List.length_replicate]
  obtain ⟨m, hs, _, hb, _⟩ := sendv_spec sample_tx_ring tpacket_versions.TPACKET_V2
    sample_iov_long true 0 hhdr hfree hiov
    (by rw [htot, hlen]; decide) (by rw [htot]; decide) (by decide)
  refine ⟨hhdr, hfree, ?_, ?_, _, hs, ?_⟩
  · exact (frames_spec 2048 512 0).2 1 (by decide)
  · show (List.replicate 1048576 0)[2048]? = some 0
    rw [List.getElem?_replicate, if_pos (by decide)]
  · have h := hb 2016 (by rw [hg, List.length_replicate]; decide)
    rw [hg, List.getElem?_replicate, if_pos (by decide)] at h
    exact h

/-- C27, amended: for every TX ring whose slot at the cursor is free and every
gather list that fits in the slot behind the payload offset of the version,
the non-blocking `sendv` writes the concatenation of the buffers at the payload
offset, sets `tp_len` and `tp_snaplen` to the sum of the lengths and the status
to exactly `TP_STATUS_SEND_REQUEST`, advances the cursor modulo the number of
frames and modifies no byte outside the slot. -/
theorem sendv_free_slot (r : ring_buffer) (v : tpacket_versions) (iov : List iovec)
    (sendto_ok : Bool) (hdr : Nat) (hhdr : r.tx_hdr v = some hdr)
    (hfree : load_status v r._M_buf hdr &&&
      (TP_STATUS_SEND_REQUEST ||| TP_STATUS_SENDING) = 0)
    (hiov : ∀ w ∈ iov, w.iov_len ≤ w.iov_base.length)
    (hslot : hdr + r._M_frame_size ≤ r._M_buf.length)
    (hsize : r._M_frame_size < 4294967296)
    (hfit : tx_payload_off v + iov_total iov ≤ r._M_frame_size)
    (hn : 0 < r._M_nframes) :
    ∃ m, r.sendv v iov sendto_ok =
        some ⟨sendto_ok, none, true,
          { r with _M_buf := m, _M_tx_idx := (r._M_tx_idx + 1) % r._M_nframes }⟩ ∧
      m.length = r._M_buf.length ∧
      bytes_at m (hdr + tx_payload_off v) (gather iov) ∧
      (gather iov).length = iov_total iov ∧
      load_u32 m (hdr + tp_len_off v) = iov_total iov ∧
      load_u32 m (hdr + tp_snaplen_off v) = iov_total iov ∧
      load_status v m hdr = TP_STATUS_SEND_REQUEST ∧
      ∀ i, (i < hdr ∨ hdr + r._M_frame_size ≤ i) → m[i]? = r._M_buf[i]? := by
  obtain ⟨m, hs, hl, hb, hlen, hsnap, hst, ho⟩ := sendv_spec r v iov sendto_ok hdr hhdr hfree
    hiov (by omega) (by omega) hn
  exact ⟨m, hs, hl, hb, length_gather iov hiov, hlen, hsnap, hst, fun i hi => ho i (by omega)⟩

theorem sendv_free_slot_witness :
    ∃ m, sample_tx_ring.sendv tpacket_versions.TPACKET_V2 sample_iov_short true =
        some ⟨true, none, true, { sample_tx_ring with _M_buf := m, _M_tx_idx := 1 }⟩ ∧
      bytes_at m 32 [1, 2, 3, 4, 5] ∧ load_u32 m 4 = 5 := by
  obtain ⟨m, hs, _, hb, _, hlen, _⟩ := sendv_free_slot sample_tx_ring
    tpacket_versions.TPACKET_V2 sample_iov_short true 0 (frames_head 0 2048 511) (by decide)
    (by decide) (le_of_le_of_eq (by decide : 0 + 2048 ≤ 1048576)
      (List.length_replicate 1048576 0).symm) (by decide)
    (by decide) (by decide)
  exact ⟨m, hs, hb, hlen⟩

/-! ## Claims about receiving from the ring -/

/-- C28: `recv_v1` and `recv_v2` (`recv_frame` for v1 and v2) on a ring whose
slot at the RX cursor starts at `hdr`: if `tp_status` has `TP_STATUS_USER` set,
the frame callback is called exactly once with `(hdr + tp_mac, tp_snaplen)`,
then the status of that slot is set to `TP_STATUS_KERNEL` (no other byte of the
memory changes), the cursor becomes `(cursor + 1) % _M_count` and the result is
true; otherwise the result is false, nothing is called and the ring is as it
was. -/
theorem recv_frame_spec (r : ring_buffer) (v : tpacket_versions) (hdr : Nat)
    (hv : v ≠ tpacket_versions.TPACKET_V3)
    (hhdr : r._M_rx_frames[r._M_rx_idx]? = some hdr)
    (hslot : hdr + 32 ≤ r._M_buf.length) (hcount : 0 < r._M_count) :
    r.recv_v1 = r.recv_frame tpacket_versions.TPACKET_V1 ∧
    r.recv_v2 = r.recv_frame tpacket_versions.TPACKET_V2 ∧
    (load_status v r._M_buf hdr &&& TP_STATUS_USER = TP_STATUS_USER →
      ∃ m, r.recv_frame v =
          some ⟨true,
            [rx_event.fnpacket (hdr + load_u16 r._M_buf (hdr + tp_mac_off v))
               (load_u32 r._M_buf (hdr + tp_snaplen_off v)),
             rx_event.release hdr],
            { r with _M_buf := m, _M_rx_idx := (r._M_rx_idx + 1) % r._M_count }⟩ ∧
        load_status v m hdr = TP_STATUS_KERNEL ∧
        m.length = r._M_buf.length ∧
        ∀ i, (i < hdr ∨ hdr + 8 ≤ i) → m[i]? = r._M_buf[i]?) ∧
    (¬ load_status v r._M_buf hdr &&& TP_STATUS_USER = TP_STATUS_USER →
      r.recv_frame v = some ⟨false, [], r⟩) := by
  have hl4 : ∀ x, (store_u32 x).length = 4 := fun _ => rfl
  have hl8 : ∀ x, (store_u64 x).length = 8 := fun _ => rfl
  have hn0 : ¬ r._M_count = 0 := by omega
  refine ⟨rfl, rfl, ?_, ?_⟩
  · intro huser
    cases v with
    | TPACKET_V1 =>
      obtain ⟨m1, hw1, hl1, hb1, ho1⟩ :=
        mem_write_ok r._M_buf hdr (store_u64 TP_STATUS_KERNEL) (by rw [hl8]; omega)
      rw [hl8] at ho1
      refine ⟨m1, ?_, load_u64_store_u64 m1 hdr _ hb1 (by decide), hl1, ho1⟩
      unfold ring_buffer.recv_frame
      simp only [hhdr, if_pos huser, tp_status_off, store_status, Nat.add_zero, hw1, if_neg hn0]
    | TPACKET_V2 =>
      obtain ⟨m1, hw1, hl1, hb1, ho1⟩ :=
        mem_write_ok r._M_buf hdr (store_u32 TP_STATUS_KERNEL) (by rw [hl4]; omega)
      rw [hl4] at ho1
      refine ⟨m1, ?_, load_u32_store_u32 m1 (hdr + 0) _ hb1 (by decide), hl1,
        fun i hi => ho1 i (by omega)⟩
      unfold ring_buffer.recv_frame
      simp only [hhdr, if_pos huser, tp_status_off, store_status, Nat.add_zero, hw1, if_neg hn0]
    | TPACKET_V3 => exact absurd rfl hv
  · intro huser
    unfold ring_buffer.recv_frame
    simp only [hhdr, if_neg huser]

theorem recv_frame_spec_witness :
    ∃ m, sample_rx_ring.recv_frame tpacket_versions.TPACKET_V2 =
        some ⟨true, [rx_event.fnpacket 52 4, rx_event.release 32],
          { sample_rx_ring with _M_buf := m, _M_rx_idx := 0 }⟩ ∧
      load_status tpacket_versions.TPACKET_V2 m 32 = TP_STATUS_KERNEL := by
  obtain ⟨m, h1, h2, _⟩ := (recv_frame_spec sample_rx_ring tpacket_versions.TPACKET_V2 32
    (by decide) (by decide) (by decide) (by decide)).2.2.1 (by decide)
  exact ⟨m, h1, h2⟩

/-- C29: `recv_v3` on a ring whose block at the RX cursor starts at
`block_desc` and is owned by the user, with `n = num_pkts` packets: the batch
callback receives batches whose concatenation is the chain of the `n` packets
from `offset_to_first_pkt` on, each as `(header + tp_mac, tp_snaplen)`; no
batch has more than 1024 entries, there are `max 1 (ceil (n / 1024))` calls,
and only after the last of them the block status is set to `TP_STATUS_KERNEL`
and the cursor advanced; the result is true. -/
theorem recv_v3_spec (r : ring_buffer) (block_desc : Nat)
    (hhdr : r._M_rx_frames[r._M_rx_idx]? = some block_desc)
    (hslot : block_desc + 48 ≤ r._M_buf.length) (hcount : 0 < r._M_count)
    (huser : load_u32 r._M_buf (block_desc + block_status_off) &&& TP_STATUS_USER ≠ 0) :
    ∃ (batches : List (List (Nat × Nat))) (m : List Nat),
      r.recv_v3 =
        some ⟨true, batches.map rx_event.fnpackets ++ [rx_event.release block_desc],
          { r with _M_buf := m, _M_rx_idx := (r._M_rx_idx + 1) % r._M_count }⟩ ∧
      batches.flatten =
        block_packets r._M_buf
          (block_desc + load_u32 r._M_buf (block_desc + offset_to_first_pkt_off))
          (load_u32 r._M_buf (block_desc + num_pkts_off)) ∧
      (∀ b ∈ batches, b.length ≤ 1024) ∧
      batches.length = max 1 ((load_u32 r._M_buf (block_desc + num_pkts_off) + 1023) / 1024) ∧
      load_u32 m (block_desc + block_status_off) = TP_STATUS_KERNEL ∧
      m.length = r._M_buf.length ∧
      ∀ i, (i < block_desc + block_status_off ∨ block_desc + block_status_off + 4 ≤ i) →
        m[i]? = r._M_buf[i]? := by
  have hl4 : ∀ x, (store_u32 x).length = 4 := fun _ => rfl
  have hn0 : ¬ r._M_count = 0 := by omega
  obtain ⟨bs, h1, h2, h3, h4⟩ := recv_v3_loop_spec r._M_buf
    (load_u32 r._M_buf (block_desc + num_pkts_off))
    (block_desc + load_u32 r._M_buf (block_desc + offset_to_first_pkt_off)) [] []
    (Nat.zero_le _)
  obtain ⟨m1, hw1, hl1, hb1, ho1⟩ :=
    mem_write_ok r._M_buf (block_desc + block_status_off) (store_u32 TP_STATUS_KERNEL)
      (by rw [hl4]; unfold block_status_off; omega)
  rw [hl4] at ho1
  refine ⟨bs, m1, ?_, ?_, h3, ?_, load_u32_store_u32 m1 _ _ hb1 (by decide), hl1, ho1⟩
  · unfold ring_buffer.recv_v3
    simp only [hhdr, if_pos huser, h1, hw1, if_neg hn0, List.nil_append]
  · rw [h2, List.nil_append]
  · rw [h4, List.length_nil, Nat.zero_add]

set_option maxRecDepth 100000 in
theorem recv_v3_spec_witness :
    ∃ (batches : List (List (Nat × Nat))) (m : List Nat),
      sample_rx_ring_v3.recv_v3 =
        some ⟨true, batches.map rx_event.fnpackets ++ [rx_event.release 0],
          { sample_rx_ring_v3 with _M_buf := m, _M_rx_idx := 0 }⟩ ∧
      batches.flatten = [(80, 3), (120, 2)] ∧ batches.length = 1 := by
  obtain ⟨bs, m, h1, h2, _, h4, _⟩ := recv_v3_spec sample_rx_ring_v3 0 (by decide) (by decide)
    (by decide) (by decide)
  exact ⟨bs, m, h1, h2.trans (by decide), h4.trans (by decide)⟩

/-- C22: for every family configuration and every stored range set (at most
`max_port_ranges` ranges) `compile` succeeds and its program ends with `ret 0`
followed by `ret 0x40000`; every entry of the IGNORE chain names a conditional
whose named branch is exactly `target - source - 1` for the `ret 0` as target,
every entry of the ACCEPT chain likewise for the final `ret 0x40000`; and both
branches of every conditional of the program are forward jumps that stay inside
the program, with offsets below 256. -/
theorem compile_jumps (s : socket_filter) (hn : s._M_portranges.length ≤ max_port_ranges) :
    (compile s).1 = true ∧ (compile_body s).1 = true ∧
    compile_finish (compile_body s).2 = (true, (compile s).2._M_filters) ∧
    (∃ Q : List sock_filter, (compile s).2._M_filters = Q ++ [insn_ignore, insn_accept] ∧
      (∀ j ∈ (compile_body s).2.ignores, ∃ f, (compile s).2._M_filters[j.idx]? = some f ∧
        is_jump f = true ∧ j.idx < Q.length ∧
        (if j.jt then f.jt else f.jf) = Q.length - j.idx - 1) ∧
      (∀ j ∈ (compile_body s).2.accepts, ∃ f, (compile s).2._M_filters[j.idx]? = some f ∧
        is_jump f = true ∧ j.idx < Q.length + 1 ∧
        (if j.jt then f.jt else f.jf) = Q.length + 1 - j.idx - 1)) ∧
    (∀ (i : Nat) (f : sock_filter), (compile s).2._M_filters[i]? = some f → is_jump f = true →
      i + 1 + f.jt < (compile s).2._M_filters.length ∧
      i + 1 + f.jf < (compile s).2._M_filters.length ∧ f.jt < 256 ∧ f.jf < 256) := by
  have key : (compile s).1 = true ∧ (compile_body s).1 = true ∧
      compile_finish (compile_body s).2 = (true, (compile s).2._M_filters) ∧
      jumps_spec (compile s).2._M_filters (compile_body s).2.ignores
        (compile_body s).2.accepts := by
    rcases s with ⟨v4, v6, rs, fs⟩
    have hn32 : rs.length ≤ 32 := hn
    by_cases hne : rs = []
    · subst hne
      cases v4 <;> cases v6
      · exact compile_jumps_of _ prog_both_all _ _
          (by rw [compile_filters_irrel]; rfl) (by rw [compile_filters_irrel]; rfl)
          (by rw [compile_body_filters_irrel]; exact ⟨rfl, rfl, rfl⟩) jumps_both_all
      · exact compile_jumps_of _ prog_ipv6_all _ _
          (by rw [compile_filters_irrel]; rfl) (by rw [compile_filters_irrel]; rfl)
          (by rw [compile_body_filters_irrel]; exact ⟨rfl, rfl, rfl⟩) jumps_ipv6_all
      · exact compile_jumps_of _ prog_ipv4_all _ _
          (by rw [compile_filters_irrel]; rfl) (by rw [compile_filters_irrel]; rfl)
          (by rw [compile_body_filters_irrel]; exact ⟨rfl, rfl, rfl⟩) jumps_ipv4_all
      · exact compile_jumps_of _ prog_both_all _ _
          (by rw [compile_filters_irrel]; rfl) (by rw [compile_filters_irrel]; rfl)
          (by rw [compile_body_filters_irrel]; exact ⟨rfl, rfl, rfl⟩) jumps_both_all
    · cases v4 <;> cases v6
      · exact compile_jumps_of _ _ _ _
          (by rw [compile_eq_both rs fs false hne hn32])
          (by rw [compile_eq_both rs fs false hne hn32])
          (compile_body_both rs fs false hne hn32) (jumps_both rs hn32)
      · exact compile_jumps_of _ _ _ _
          (by rw [compile_eq_ipv6 rs fs hne hn32]) (by rw [compile_eq_ipv6 rs fs hne hn32])
          (compile_body_ipv6 rs fs hne hn32) (jumps_ipv6 rs hn32)
      · exact compile_jumps_of _ _ _ _
          (by rw [compile_eq_ipv4 rs fs hne hn32]) (by rw [compile_eq_ipv4 rs fs hne hn32])
          (compile_body_ipv4 rs fs hne hn32) (jumps_ipv4 rs hn32)
      · exact compile_jumps_of _ _ _ _
          (by rw [compile_eq_both rs fs true hne hn32])
          (by rw [compile_eq_both rs fs true hne hn32])
          (compile_body_both rs fs true hne hn32) (jumps_both rs hn32)
  obtain ⟨h1, h2, h3, ⟨Q, hQ, hi, ha⟩, hseg⟩ := key
  refine ⟨h1, h2, h3, ⟨Q, hQ, hi, ha⟩, ?_⟩
  intro i f hf hj
  have := hseg i f hf hj
  simpa using this

theorem compile_jumps_witness :
    (compile ⟨true, true, [⟨53, 53⟩, ⟨1000, 2000⟩], []⟩).1 = true :=
  (compile_jumps ⟨true, true, [⟨53, 53⟩, ⟨1000, 2000⟩], []⟩ (by decide)).1

/-- C23: on a filter without ranges `parse_port_list` returns true iff the
string has the form `r1,r2,...,rk` (`k ≥ 1`), every item being a decimal number
`N` or `N-M` with `1 ≤ N ≤ M ≤ 65535` (`M = N` for a single number), and the
merged result needs at most `max_port_ranges` ranges at every step; for every
such reading of the string the filter afterwards covers exactly the ports of
the listed ranges.  `1000-1002,2000` gives the ports 1000, 1001, 1002 and 2000;
the empty string, a leading or trailing comma, an empty item, a character that
is no digit, port 0, a number above 65535 and `N > M` are rejected. -/
theorem parse_port_list_iff (s : List Nat) (flt : socket_filter)
    (h0 : flt._M_portranges = []) :
    ((parse_port_list s flt).1 = true ↔
      ∃ cs, port_list_text s cs ∧ (∀ c ∈ cs, 1 ≤ c.1 ∧ c.1 ≤ c.2 ∧ c.2 ≤ 65535) ∧
        ranges_fit cs) ∧
    (∀ cs, port_list_text s cs → (∀ c ∈ cs, 1 ≤ c.1 ∧ c.1 ≤ c.2 ∧ c.2 ≤ 65535) →
      ranges_fit cs →
      ∀ p, covers (parse_port_list s flt).2._M_portranges p ↔ ∃ c ∈ cs, c.1 ≤ p ∧ p ≤ c.2) ∧
    ((parse_port_list (cstr "1000-1002,2000") empty).1 = true ∧
      ∀ p, covers (parse_port_list (cstr "1000-1002,2000") empty).2._M_portranges p ↔
        (p = 1000 ∨ p = 1001 ∨ p = 1002 ∨ p = 2000)) ∧
    (∀ x ∈ [cstr "", cstr ",80", cstr "80,", cstr "80,,81", cstr "80a", cstr "0",
        cstr "65536", cstr "5-3"], (parse_port_list x empty).1 = false) := by
  have hcan0 : canonical flt._M_portranges := by rw [h0]; exact canonical_nil
  have hall : ∀ cs, port_list_text s cs → (∀ c ∈ cs, 1 ≤ c.1 ∧ c.1 ≤ c.2 ∧ c.2 ≤ 65535) →
      ranges_fit cs →
      parse_port_list s flt = (true, port_range_calls flt cs) ∧
        port_range_calls_ok flt cs = true := by
    intro cs htext hvalid hfit
    have hb : ∀ c ∈ cs, c.1 ≤ 65535 ∧ c.2 ≤ 65535 := fun c hc => by
      have := hvalid c hc
      omega
    have hok := (calls_ok_iff_fit flt h0 cs hb).2
      ⟨fun c hc => ⟨(hvalid c hc).1, (hvalid c hc).2.1⟩, hfit⟩
    refine ⟨?_, hok⟩
    unfold parse_port_list
    rw [loop_of_text s cs htext hb]
    exact (run_items_eq cs flt _).2 ⟨hok, rfl⟩
  refine ⟨⟨?_, ?_⟩, ?_, ⟨by decide, ?_⟩, by decide⟩
  · intro h
    have hp : parse_port_list_loop s ⟨0, 0, 0, flt⟩ = (true, (parse_port_list s flt).2) :=
      Prod.ext h rfl
    obtain ⟨cs, htext, hb⟩ := text_of_loop s.length s (Nat.le_refl _) 0 0 flt _ hp
    rw [loop_of_text s cs htext hb] at hp
    obtain ⟨hok, _⟩ := (run_items_eq cs flt _).1 hp
    obtain ⟨hvalid, hfit⟩ := (calls_ok_iff_fit flt h0 cs hb).1 hok
    exact ⟨cs, htext, fun c hc => ⟨(hvalid c hc).1, (hvalid c hc).2, (hb c hc).2⟩, hfit⟩
  · rintro ⟨cs, htext, hvalid, hfit⟩
    rw [(hall cs htext hvalid hfit).1]
  · intro cs htext hvalid hfit p
    obtain ⟨hp, hok⟩ := hall cs htext hvalid hfit
    have hb : ∀ c ∈ cs, c.1 ≤ 65535 ∧ c.2 ≤ 65535 := fun c hc => by
      have := hvalid c hc
      omega
    rw [hp, covers_port_range_calls cs flt hb hcan0 hok p, h0]
    simp [covers_nil]
  · intro p
    have h : (parse_port_list (cstr "1000-1002,2000") empty).2._M_portranges =
        [⟨1000, 1002⟩, ⟨2000, 2000⟩] := by decide
    rw [h]
    simp only [covers, List.mem_cons, List.mem_singleton, List.not_mem_nil, or_false]
    constructor
    · rintro ⟨r, rfl | rfl, h1, h2⟩
      · simp only at h1 h2; omega
      · simp only at h1 h2; omega
    · intro hp
      by_cases h2000 : p = 2000
      · exact ⟨⟨2000, 2000⟩, Or.inr rfl, by simp only; omega, by simp only; omega⟩
      · exact ⟨⟨1000, 1002⟩, Or.inl rfl, by simp only; omega, by simp only; omega⟩

theorem parse_port_list_iff_witness :
    (parse_port_list (cstr "53,67-68") empty).1 = true ↔
      ∃ cs, port_list_text (cstr "53,67-68") cs ∧
        (∀ c ∈ cs, 1 ≤ c.1 ∧ c.1 ≤ c.2 ∧ c.2 ≤ 65535) ∧ ranges_fit cs :=
  (parse_port_list_iff (cstr "53,67-68") empty rfl).1

/-! ## Claims about the sanity checks of the worker -/

/-- C33, at the failing input: a worker in load-balancer mode to which only an
IPv4 destination was added receives an IPv6 frame (accepted by the filter for
both families).  `fnpacket` passes it to the IPv6 table, which holds no record;
`forward` hands the record at index 0 ≥ `_M_used` to the send function and
computes `(_M_idx + 1) % _M_used` with `_M_used = 0`: the behaviour is
undefined.  In broadcaster mode the same frame is handled (nothing is sent). -/
theorem forward_empty_table_undefined :
    (sample_worker_ipv4_only type.load_balancer)._M_ipv6_destinations._M_used = 0 ∧
    (sample_worker_ipv4_only type.load_balancer)._M_ipv6_destinations._M_process =
      some type.load_balancer ∧
    (sample_frame_ipv6 5000).getD 14 0 &&& 0xf0 = 0x60 ∧
    run_filter (compile empty).2._M_filters (sample_frame_ipv6 5000) = some 0x40000 ∧
    (sample_worker_ipv4_only type.load_balancer)._M_ipv6_destinations.forward_operands =
      (0, 0) ∧
    (sample_worker_ipv4_only type.load_balancer)._M_ipv6_destinations.process
      (sample_frame_ipv6 5000) 62 = none ∧
    (sample_worker_ipv4_only type.load_balancer).fnpacket (sample_frame_ipv6 5000) 62 = none ∧
    (sample_worker_ipv4_only type.broadcaster).fnpacket (sample_frame_ipv6 5000) 62 =
      some (sample_worker_ipv4_only type.broadcaster, []) := by
  decide

/-- C34, at the failing input: a frame of 42 bytes whose IPv4 header says
`ihl = 4` is accepted by the filter compiled for IPv4 and passes both length
checks of `send_ipv4` (`14 + 16 + 8 ≤ 42` and `14 + 16 + 12 = 42`).  The
function hands a gather list to the TX ring whose options element has the
length `16 - 20` wrapped to `2^64 - 4`; the lengths sum to `2^64 + 42`, not
to the frame length. -/
theorem send_ipv4_short_header_wraps :
    frame_ihl sample_frame_ipv4_ihl4 = 4 ∧
    run_filter (compile (ipv4 empty)).2._M_filters sample_frame_ipv4_ihl4 = some 0x40000 ∧
    14 + 4 * frame_ihl sample_frame_ipv4_ihl4 + 8 ≤ 42 ∧
    14 + 4 * frame_ihl sample_frame_ipv4_ihl4 + be16 sample_frame_ipv4_ihl4 34 = 42 ∧
    (send_ipv4 (sample_destination [10, 0, 0, 9, 0, 0, 0, 0, 0, 0, 0, 0, 0, 0, 0, 0])
        sample_frame_ipv4_ihl4 42).map (fun v => v.map iovec.iov_len) =
      some [6, 6, 12, 2, 4, 4, 18446744073709551612, 2, 2, 2, 2, 4] ∧
    (send_ipv4 (sample_destination [10, 0, 0, 9, 0, 0, 0, 0, 0, 0, 0, 0, 0, 0, 0, 0])
        sample_frame_ipv4_ihl4 42).map iov_total = some (18446744073709551616 + 42) := by
  decide

/-- C35, at the failing input: a frame of 60 bytes (shorter than 62) with
version nibble 6 and the bytes `00 06` at offsets 58 and 59 is accepted by the
filter compiled for both families and passed to `send_ipv6` by `fnpacket`.  It
passes the length check (`14 + 40 + 6 = 60`) with `udp_len = 6 < 8`, and the
payload length `6 - 8` wraps to `2^64 - 2`: that is the length of the data
element of the gather list. -/
theorem send_ipv6_short_frame_wraps :
    sample_frame_short_ipv6.length = 60 ∧
    sample_frame_short_ipv6.getD 14 0 &&& 0xf0 = 0x60 ∧
    run_filter (compile empty).2._M_filters sample_frame_short_ipv6 = some 0x40000 ∧
    be16 sample_frame_short_ipv6 58 = 6 ∧
    14 + 40 + be16 sample_frame_short_ipv6 58 = 60 ∧
    (send_ipv6 (sample_destination [0xfe, 0x80, 0, 0, 0, 0, 0, 0, 0, 0, 0, 0, 0, 0, 0, 2])
        sample_frame_short_ipv6 60).map (fun v => v.map iovec.iov_len) =
      some [6, 6, 10, 16, 16, 2, 2, 2, 2, 18446744073709551614] ∧
    ((sample_worker type.load_balancer).fnpacket sample_frame_short_ipv6 60).map
        (fun r => r.2.map (fun o => (o.af, o.idx, o.vec.isSome))) =
      some [(family.ipv6, 0, true)] := by
  decide

theorem add_interface_of_invariant (w : worker) (c : interface_call)
    (hnd : (w._M_interfaces.map interface.index).Nodup) (hlen : w._M_interfaces.length ≤ 32) :
    ((w.add_interface_of c).1._M_interfaces.map interface.index).Nodup ∧
    (w.add_interface_of c).1._M_interfaces.length ≤ 32 := by
  unfold worker.add_interface_of worker.add_interface
  by_cases hany : w._M_interfaces.any (fun i => decide (c.ifindex = i.index)) = true
  · rw [if_pos hany]
    exact ⟨hnd, hlen⟩
  · rw [if_neg hany]
    by_cases hroom : w._M_interfaces.length < worker.max_interfaces
    · rw [if_pos hroom]
      cases c.tx_ok
      · exact ⟨hnd, hlen⟩
      · simp only [if_true, List.map_append, List.map_cons, List.map_nil, List.length_append,
          List.length_singleton]
        unfold worker.max_interfaces at hroom
        refine ⟨?_, by omega⟩
        rw [List.nodup_append]
        refine ⟨hnd, List.nodup_singleton _, ?_⟩
        intro a ha hb
        rw [List.mem_singleton] at hb
        subst hb
        obtain ⟨i, hi, hidx⟩ := List.mem_map.1 ha
        apply hany
        rw [List.any_eq_true]
        exact ⟨i, hi, by simp [hidx]⟩
    · rw [if_neg hroom]
      exact ⟨hnd, hlen⟩

theorem add_interfaces_invariant (calls : List interface_call) : ∀ w : worker,
    (w._M_interfaces.map interface.index).Nodup → w._M_interfaces.length ≤ 32 →
    ((w.add_interfaces calls)._M_interfaces.map interface.index).Nodup ∧
    (w.add_interfaces calls)._M_interfaces.length ≤ 32 := by
  induction calls with
  | nil => intro w h1 h2; exact ⟨h1, h2⟩
  | cons c cs ih =>
    intro w h1 h2
    obtain ⟨h3, h4⟩ := add_interface_of_invariant w c h1 h2
    exact ih _ h3 h4

/-- C31: in every worker reached from a new one by calls of `add_interface`
the stored interface indices are pairwise distinct and there are at most 32
interfaces.  A call with an index that is already stored returns true, does
not reach the creation of a TX ring and leaves the worker (the count and every
record, whatever addresses the call passes) as it was; a call with a new index
when 32 interfaces are stored returns false, creates no TX ring and leaves the
worker as it was; a call with a new index when there is room creates the TX
ring of the next slot and, when that succeeds, appends the record. -/
theorem add_interface_idempotent (calls : List interface_call) (c : interface_call) :
    ((worker.new.add_interfaces calls)._M_interfaces.map interface.index).Nodup ∧
    (worker.new.add_interfaces calls)._M_interfaces.length ≤ worker.max_interfaces ∧
    ((∃ i ∈ (worker.new.add_interfaces calls)._M_interfaces, i.index = c.ifindex) →
      (worker.new.add_interfaces calls).add_interface_of c =
        (worker.new.add_interfaces calls, true) ∧
      (worker.new.add_interfaces calls).add_interface_tx_slot c.ifindex = none) ∧
    ((∀ i ∈ (worker.new.add_interfaces calls)._M_interfaces, i.index ≠ c.ifindex) →
      (worker.new.add_interfaces calls)._M_interfaces.length = worker.max_interfaces →
      (worker.new.add_interfaces calls).add_interface_of c =
        (worker.new.add_interfaces calls, false) ∧
      (worker.new.add_interfaces calls).add_interface_tx_slot c.ifindex = none) ∧
    ((∀ i ∈ (worker.new.add_interfaces calls)._M_interfaces, i.index ≠ c.ifindex) →
      (worker.new.add_interfaces calls)._M_interfaces.length < worker.max_interfaces →
      (worker.new.add_interfaces calls).add_interface_tx_slot c.ifindex =
        some (worker.new.add_interfaces calls)._M_interfaces.length ∧
      (c.tx_ok = true →
        ((worker.new.add_interfaces calls).add_interface_of c).1._M_interfaces =
          (worker.new.add_interfaces calls)._M_interfaces ++
            [⟨c.ifindex, c.macaddr.take 6, c.addr4.take 4, c.addr6.take 16⟩]) ∧
      (c.tx_ok = false →
        (worker.new.add_interfaces calls).add_interface_of c =
          (worker.new.add_interfaces calls, false))) := by
  obtain ⟨hnd, hlen⟩ := add_interfaces_invariant calls worker.new List.nodup_nil
    (Nat.zero_le _)
  generalize worker.new.add_interfaces calls = w at hnd hlen ⊢
  have hany_iff : w._M_interfaces.any (fun i => decide (c.ifindex = i.index)) = true ↔
      ∃ i ∈ w._M_interfaces, i.index = c.ifindex := by
    rw [List.any_eq_true]
    constructor
    · rintro ⟨i, hi, h⟩
      exact ⟨i, hi, (of_decide_eq_true h).symm⟩
    · rintro ⟨i, hi, h⟩
      exact ⟨i, hi, decide_eq_true h.symm⟩
  refine ⟨hnd, hlen, ?_, ?_, ?_⟩
  · intro hex
    have hany := hany_iff.2 hex
    unfold worker.add_interface_of worker.add_interface worker.add_interface_tx_slot
    rw [if_pos hany, if_pos hany]
    exact ⟨rfl, rfl⟩
  · intro hnone hfull
    have hany : ¬ w._M_interfaces.any (fun i => decide (c.ifindex = i.index)) = true := by
      rw [hany_iff]
      rintro ⟨i, hi, h⟩
      exact hnone i hi h
    unfold worker.add_interface_of worker.add_interface worker.add_interface_tx_slot
    rw [if_neg hany, if_neg hany, if_neg (by omega), if_neg (by omega)]
    exact ⟨rfl, rfl⟩
  · intro hnone hroom
    have hany : ¬ w._M_interfaces.any (fun i => decide (c.ifindex = i.index)) = true := by
      rw [hany_iff]
      rintro ⟨i, hi, h⟩
      exact hnone i hi h
    unfold worker.add_interface_of worker.add_interface worker.add_interface_tx_slot
    rw [if_neg hany, if_neg hany, if_pos hroom, if_pos hroom]
    refine ⟨rfl, ?_, ?_⟩
    · intro hok
      rw [if_pos hok]
      rfl
    · intro hok
      rw [if_neg (by simp [hok])]

theorem add_interface_idempotent_witness :
    (worker.new.add_interfaces (sample_interface_calls 3)).add_interface_of
        ⟨true, 2, [0x02, 0, 0, 0, 0, 0xff], [192, 168, 0, 1],
          [0x20, 0x01, 0, 0, 0, 0, 0, 0, 0, 0, 0, 0, 0, 0, 0, 1]⟩ =
      (worker.new.add_interfaces (sample_interface_calls 3), true) ∧
    (worker.new.add_interfaces (sample_interface_calls 3)).add_interface_tx_slot 2 = none :=
  (add_interface_idempotent (sample_interface_calls 3)
    ⟨true, 2, [0x02, 0, 0, 0, 0, 0xff], [192, 168, 0, 1],
      [0x20, 0x01, 0, 0, 0, 0, 0, 0, 0, 0, 0, 0, 0, 0, 0, 1]⟩).2.2.1
    ⟨⟨2, [0x02, 0, 0, 0, 0, 1], [10, 0, 0, 1],
      [0xfe, 0x80, 0, 0, 0, 0, 0, 0, 0, 0, 0, 0, 0, 0, 0, 1]⟩, by decide, rfl⟩

/-- C32, counterexample: on a worker with the interface 2 registered and no
destination yet, `add_destination` with that index and `addrlen = 4` has to
allocate the array of the IPv4 table; when `realloc` fails it returns false and
appends no record: the worker is as it was. -/
theorem add_destination_realloc_fails :
    (sample_worker_no_destination type.load_balancer)._M_interfaces.find?
        (fun i => decide (2 = i.index)) =
      some ⟨2, [0x02, 0, 0, 0, 0, 0x0b], [10, 0, 0, 1],
        [0xfe, 0x80, 0, 0, 0, 0, 0, 0, 0, 0, 0, 0, 0, 0, 0, 1]⟩ ∧
    (sample_worker_no_destination type.load_balancer)._M_ipv4_destinations._M_used = 0 ∧
    (sample_worker_no_destination type.load_balancer)._M_ipv4_destinations._M_size = 0 ∧
    (sample_worker_no_destination type.load_balancer).add_destination false
        [0, 0, 0, 0, 0, 0, 0, 0, 0, 0, 0, 0, 0, 0, 0, 0] 2 [0x02, 0, 0, 0, 0, 0x0a]
        [10, 0, 0, 8] 4 5000 = (sample_worker_no_destination type.load_balancer, false) ∧
    ((sample_worker_no_destination type.load_balancer).add_destination false
        [0, 0, 0, 0, 0, 0, 0, 0, 0, 0, 0, 0, 0, 0, 0, 0] 2 [0x02, 0, 0, 0, 0, 0x0a]
        [10, 0, 0, 8] 4 5000).1._M_ipv4_destinations._M_used = 0 ∧
    ((sample_worker_no_destination type.load_balancer).add_destination true
        [0, 0, 0, 0, 0, 0, 0, 0, 0, 0, 0, 0, 0, 0, 0, 0] 2 [0x02, 0, 0, 0, 0, 0x0a]
        [10, 0, 0, 8] 4 5000).1._M_ipv4_destinations._M_used = 1 := by
  decide

/-- C32, amended: `worker::add_destination` with a registered interface index
appends exactly one record, bound to the first interface with that index, to
the IPv4 table when `addrlen = 4` and to the IPv6 table when `addrlen = 16`,
and leaves the other table and the interfaces as they were, provided the table
has room or `realloc` succeeds; when the table is full and `realloc` fails it returns
false and leaves the worker as it was.  With no registered interface of that
index, or with another `addrlen`, it returns false and leaves the worker as it
was. -/
theorem add_destination_by_addrlen (w : worker) (realloc_ok : Bool) (old_addr : List Nat)
    (ifindex : Nat) (macaddr addr : List Nat) (addrlen port : Nat) :
    (∀ iface, w._M_interfaces.find? (fun i => decide (ifindex = i.index)) = some iface →
      iface ∈ w._M_interfaces ∧ iface.index = ifindex ∧
      (addrlen = 4 →
        ((w.add_destination realloc_ok old_addr ifindex macaddr addr addrlen port).2 = true ↔
          (w._M_ipv4_destinations._M_used ≠ w._M_ipv4_destinations._M_size ∨
            realloc_ok = true)) ∧
        ((w.add_destination realloc_ok old_addr ifindex macaddr addr addrlen port).2 = true →
          (w.add_destination realloc_ok old_addr ifindex macaddr addr addrlen
              port).1._M_ipv4_destinations._M_destinations =
            w._M_ipv4_destinations._M_destinations ++
              [destination.mk (macaddr.take 6) (addr.take 4 ++ old_addr.drop 4) 4
                (htons port) iface] ∧
          (w.add_destination realloc_ok old_addr ifindex macaddr addr addrlen
              port).1._M_ipv4_destinations._M_used = w._M_ipv4_destinations._M_used + 1) ∧
        ((w.add_destination realloc_ok old_addr ifindex macaddr addr addrlen port).2 = false →
          (w.add_destination realloc_ok old_addr ifindex macaddr addr addrlen port).1 = w) ∧
        (w.add_destination realloc_ok old_addr ifindex macaddr addr addrlen
            port).1._M_ipv6_destinations = w._M_ipv6_destinations ∧
        (w.add_destination realloc_ok old_addr ifindex macaddr addr addrlen
            port).1._M_interfaces = w._M_interfaces) ∧
      (addrlen = 16 →
        ((w.add_destination realloc_ok old_addr ifindex macaddr addr addrlen port).2 = true ↔
          (w._M_ipv6_destinations._M_used ≠ w._M_ipv6_destinations._M_size ∨
            realloc_ok = true)) ∧
        ((w.add_destination realloc_ok old_addr ifindex macaddr addr addrlen port).2 = true →
          (w.add_destination realloc_ok old_addr ifindex macaddr addr addrlen
              port).1._M_ipv6_destinations._M_destinations =
            w._M_ipv6_destinations._M_destinations ++
              [destination.mk (macaddr.take 6) (addr.take 16 ++ old_addr.drop 16) 16
                (htons port) iface] ∧
          (w.add_destination realloc_ok old_addr ifindex macaddr addr addrlen
              port).1._M_ipv6_destinations._M_used = w._M_ipv6_destinations._M_used + 1) ∧
        ((w.add_destination realloc_ok old_addr ifindex macaddr addr addrlen port).2 = false →
          (w.add_destination realloc_ok old_addr ifindex macaddr addr addrlen port).1 = w) ∧
        (w.add_destination realloc_ok old_addr ifindex macaddr addr addrlen
            port).1._M_ipv4_destinations = w._M_ipv4_destinations ∧
        (w.add_destination realloc_ok old_addr ifindex macaddr addr addrlen
            port).1._M_interfaces = w._M_interfaces)) ∧
    ((w._M_interfaces.find? (fun i => decide (ifindex = i.index)) = none ∨
        (addrlen ≠ 4 ∧ addrlen ≠ 16)) →
      w.add_destination realloc_ok old_addr ifindex macaddr addr addrlen port = (w, false)) ∧
    ((∀ i ∈ w._M_interfaces, i.index ≠ ifindex) →
      w.add_destination realloc_ok old_addr ifindex macaddr addr addrlen port = (w, false)) := by
  refine ⟨?_, ?_, ?_⟩
  · intro iface hfind
    have hmem := List.mem_of_find?_eq_some hfind
    have hidx : iface.index = ifindex := by
      have := List.find?_some hfind
      exact (of_decide_eq_true this).symm
    refine ⟨hmem, hidx, ?_, ?_⟩
    · intro h4
      subst h4
      obtain ⟨hiff, hfalse, htrue, _, _, _⟩ := add_of_spec w._M_ipv4_destinations
        ⟨realloc_ok, old_addr, macaddr, addr, 4, port, iface⟩
      unfold destinations.add_of at hiff hfalse htrue
      unfold worker.add_destination
      rw [hfind]
      simp only [sizeof_in_addr, if_true]
      refine ⟨hiff, ?_, ?_, by trivial⟩
      · intro hok
        have hd := (htrue hok).1
        simp only [add_call.record, memcpy] at hd
        refine ⟨hd, ?_⟩
        unfold destinations._M_used
        rw [hd]
        simp
      · intro hno
        have := hfalse hno
        simp only at this
        rw [this]
    · intro h16
      subst h16
      obtain ⟨hiff, hfalse, htrue, _, _, _⟩ := add_of_spec w._M_ipv6_destinations
        ⟨realloc_ok, old_addr, macaddr, addr, 16, port, iface⟩
      unfold destinations.add_of at hiff hfalse htrue
      unfold worker.add_destination
      rw [hfind]
      simp only [sizeof_in_addr, sizeof_in6_addr, if_true, show ¬ (16 = 4) by decide, if_false]
      refine ⟨hiff, ?_, ?_, by trivial⟩
      · intro hok
        have hd := (htrue hok).1
        simp only [add_call.record, memcpy] at hd
        refine ⟨hd, ?_⟩
        unfold destinations._M_used
        rw [hd]
        simp
      · intro hno
        have := hfalse hno
        simp only at this
        rw [this]
  · rintro (hnone | ⟨h4, h16⟩)
    · unfold worker.add_destination
      rw [hnone]
    · unfold worker.add_destination
      cases hf : w._M_interfaces.find? (fun i => decide (ifindex = i.index)) with
      | none => rfl
      | some iface =>
        simp only [sizeof_in_addr, sizeof_in6_addr, if_neg h4, if_neg h16]
  · intro hall
    have hnone : w._M_interfaces.find? (fun i => decide (ifindex = i.index)) = none := by
      rw [List.find?_eq_none]
      intro i hi h
      exact hall i hi (of_decide_eq_true h).symm
    unfold worker.add_destination
    rw [hnone]

theorem add_destination_by_addrlen_witness :
    (((sample_worker type.load_balancer).add_destination true
        [0, 0, 0, 0, 0, 0, 0, 0, 0, 0, 0, 0, 0, 0, 0, 0] 2 [0x02, 0, 0, 0, 0, 0x0a]
        [10, 0, 0, 7] 4 5000).2 = true →
      ((sample_worker type.load_balancer).add_destination true
          [0, 0, 0, 0, 0, 0, 0, 0, 0, 0, 0, 0, 0, 0, 0, 0] 2 [0x02, 0, 0, 0, 0, 0x0a]
          [10, 0, 0, 7] 4 5000).1._M_ipv4_destinations._M_destinations =
        (sample_worker type.load_balancer)._M_ipv4_destinations._M_destinations ++
          [destination.mk [0x02, 0, 0, 0, 0, 0x0a] [10, 0, 0, 7, 0, 0, 0, 0, 0, 0, 0, 0, 0, 0, 0, 0]
            4 (htons 5000) (sample_destination []).iface] ∧
      ((sample_worker type.load_balancer).add_destination true
          [0, 0, 0, 0, 0, 0, 0, 0, 0, 0, 0, 0, 0, 0, 0, 0] 2 [0x02, 0, 0, 0, 0, 0x0a]
          [10, 0, 0, 7] 4 5000).1._M_ipv4_destinations._M_used =
        (sample_worker type.load_balancer)._M_ipv4_destinations._M_used + 1) ∧
    ((sample_worker type.load_balancer).add_destination true
        [0, 0, 0, 0, 0, 0, 0, 0, 0, 0, 0, 0, 0, 0, 0, 0] 2 [0x02, 0, 0, 0, 0, 0x0a]
        [10, 0, 0, 7] 4 5000).2 = true :=
  ⟨((add_destination_by_addrlen (sample_worker type.load_balancer) true
      [0, 0, 0, 0, 0, 0, 0, 0, 0, 0, 0, 0, 0, 0, 0, 0] 2 [0x02, 0, 0, 0, 0, 0x0a]
      [10, 0, 0, 7] 4 5000).1 (sample_destination []).iface (by decide)).2.2.1 rfl |>.2.1,
    by decide⟩

/-! ## Claims about the value of the UDP checksum -/

/-- C36, counterexample: for the IPv6 frame of 64 bytes with the payload bytes
`db c5` and the destination `fe80::2`, port 5000, the folded sum is `0xFFFF`,
and `send_ipv6` writes the checksum bytes `00 00` at offset 60 of the emitted
frame; `send_ipv4` does the same at offset 40 for the IPv4 frame of 44 bytes
with the payload bytes `c4 c1` and the destination `10.0.0.8`.  Both frames
are accepted by the compiled filter. -/
theorem udp_checksum_written_zero :
    run_filter (compile empty).2._M_filters sample_frame_ipv6_zero_sum = some 0x40000 ∧
    run_filter (compile empty).2._M_filters sample_frame_ipv4_zero_sum = some 0x40000 ∧
    csum_fold
      (udp_words_ipv6 (sample_destination [0xfe, 0x80, 0, 0, 0, 0, 0, 0, 0, 0, 0, 0, 0, 0, 0, 2])
        sample_frame_ipv6_zero_sum)
      (udp_words_ipv6 (sample_destination [0xfe, 0x80, 0, 0, 0, 0, 0, 0, 0, 0, 0, 0, 0, 0, 0, 2])
        sample_frame_ipv6_zero_sum) = 0xFFFF ∧
    (send_ipv6 (sample_destination [0xfe, 0x80, 0, 0, 0, 0, 0, 0, 0, 0, 0, 0, 0, 0, 0, 2])
        sample_frame_ipv6_zero_sum 64).map (fun v => (v[8]?, (gather v).drop 54)) =
      some (some ⟨[0, 0], 2⟩, [0x13, 0x88, 0x13, 0x88, 0, 10, 0, 0, 0xdb, 0xc5]) ∧
    (send_ipv4 (sample_destination [10, 0, 0, 8, 0, 0, 0, 0, 0, 0, 0, 0, 0, 0, 0, 0])
        sample_frame_ipv4_zero_sum 44).map (fun v => (v[10]?, (gather v).drop 34)) =
      some (some ⟨[0, 0], 2⟩, [0x13, 0x88, 0x13, 0x88, 0, 10, 0, 0, 0xc4, 0xc1]) := by
  decide

/-- C36, amended: for every frame emitted by `send_ipv6` with `udp_len ≥ 8`
(and by `send_ipv4` with the checksum enabled and `ihl ≥ 5`), the 16-bit UDP
checksum field written into the frame is the complement of the folded sum, in
network byte order, with no substitution: it is `0x0000` exactly when the
folded sum over the pseudo-header, the UDP header and the payload is
`0xFFFF`. -/
theorem udp_checksum_complement (dest : destination) (pkt : List Nat) (pktlen : Nat)
    (hd : dest.wf) (hp : frame_wf pkt pktlen) :
    (8 ≤ be16 pkt 58 → 14 + 40 + be16 pkt 58 = pktlen →
      ∃ vec c, send_ipv6 dest pkt pktlen = some vec ∧
        ((gather vec).drop 60).take 2 = store_u16 c ∧ c < 65536 ∧
        ntohs c = 65535 - csum_fold (udp_words_ipv6 dest pkt) (udp_words_ipv6 dest pkt) ∧
        (c = 0 ↔ csum_fold (udp_words_ipv6 dest pkt) (udp_words_ipv6 dest pkt) = 65535) ∧
        (store_u16 c = [0, 0] ↔
          csum_fold (udp_words_ipv6 dest pkt) (udp_words_ipv6 dest pkt) = 65535)) ∧
    (5 ≤ frame_ihl pkt → 14 + 4 * frame_ihl pkt + 8 ≤ pktlen →
      14 + 4 * frame_ihl pkt + be16 pkt (14 + 4 * frame_ihl pkt + 4) = pktlen →
      ∃ vec c, send_ipv4 dest pkt pktlen = some vec ∧
        ((gather vec).drop (14 + 4 * frame_ihl pkt + 6)).take 2 = store_u16 c ∧ c < 65536 ∧
        ntohs c = 65535 - csum_fold (udp_words_ipv4 dest pkt (14 + 4 * frame_ihl pkt))
          (udp_words_ipv4 dest pkt (14 + 4 * frame_ihl pkt)) ∧
        (c = 0 ↔ csum_fold (udp_words_ipv4 dest pkt (14 + 4 * frame_ihl pkt))
          (udp_words_ipv4 dest pkt (14 + 4 * frame_ihl pkt)) = 65535) ∧
        (store_u16 c = [0, 0] ↔ csum_fold (udp_words_ipv4 dest pkt (14 + 4 * frame_ihl pkt))
          (udp_words_ipv4 dest pkt (14 + 4 * frame_ihl pkt)) = 65535)) := by
  obtain ⟨hlen, hb⟩ := hp
  constructor
  · intro hu8 h
    have hu := be16_lt pkt hb 58
    have hudplen : ntohs (load_u16 pkt (sizeof_ether_header + sizeof_ip6_hdr + 4)) =
        be16 pkt 58 := ntohs_load_u16 pkt hb _
    have c : sizeof_ether_header + sizeof_ip6_hdr + be16 pkt 58 = pktlen := h
    have e64 : (be16 pkt 58 + 18446744073709551616 - sizeof_udphdr) % 18446744073709551616 =
        be16 pkt 58 - 8 := by
      unfold sizeof_udphdr; omega
    have hsend : send_ipv6 dest pkt pktlen = some
        (ipv6_vec dest pkt 54 (be16 pkt 58 - 8)
          (ipv6_udp_checksum dest pkt 54 (be16 pkt 58) (be16 pkt 58 - 8))) := by
      simp only [send_ipv6, hudplen, c, if_true, e64]
      rfl
    have hck := ipv6_udp_checksum_eq dest pkt (be16 pkt 58) hd hb hu8 (by omega) (by omega)
    have hlt : ipv6_udp_checksum dest pkt 54 (be16 pkt 58) (be16 pkt 58 - 8) < 65536 := by
      unfold ipv6_udp_checksum
      exact csum_finish_lt _
    have hz := checksum_zero_iff _ _ hlt (csum_fold_le (udp_words_ipv6 dest pkt)) hck
    refine ⟨_, _, hsend, ?_, hlt, hck, hz.1, hz.2⟩
    have hg := gather_ipv6_vec_udp dest pkt (be16 pkt 58 - 8)
      (ipv6_udp_checksum dest pkt 54 (be16 pkt 58) (be16 pkt 58 - 8)) hd (by omega)
    have hdd : (gather (ipv6_vec dest pkt 54 (be16 pkt 58 - 8)
        (ipv6_udp_checksum dest pkt 54 (be16 pkt 58) (be16 pkt 58 - 8)))).drop 60 =
        ((gather (ipv6_vec dest pkt 54 (be16 pkt 58 - 8)
          (ipv6_udp_checksum dest pkt 54 (be16 pkt 58) (be16 pkt 58 - 8)))).drop 54).drop 6 := by
      rw [List.drop_drop]
    rw [hdd, hg]
    exact drop6_take2 _ _ _ _ _ (length_take_drop pkt 56 2 (by omega)) rfl
      (length_take_drop pkt 58 2 (by omega)) rfl
  · intro hihl h1 h2
    have hihl15 : frame_ihl pkt ≤ 15 := by unfold frame_ihl; omega
    have hl : pkt.getD sizeof_ether_header 0 % 16 * 4 = 4 * frame_ihl pkt := by
      unfold frame_ihl; omega
    have hu := be16_lt pkt hb (14 + 4 * frame_ihl pkt + 4)
    have hudplen : ntohs (load_u16 pkt (sizeof_ether_header + 4 * frame_ihl pkt + 4)) =
        be16 pkt (14 + 4 * frame_ihl pkt + 4) := ntohs_load_u16 pkt hb _
    have c1 : sizeof_ether_header + 4 * frame_ihl pkt + sizeof_udphdr ≤ pktlen := h1
    have c2 : sizeof_ether_header + 4 * frame_ihl pkt + be16 pkt (14 + 4 * frame_ihl pkt + 4) =
        pktlen := h2
    have e64 : (be16 pkt (14 + 4 * frame_ihl pkt + 4) + 18446744073709551616 - sizeof_udphdr) %
        18446744073709551616 = be16 pkt (14 + 4 * frame_ihl pkt + 4) - 8 := by
      unfold sizeof_udphdr; omega
    have hsend : send_ipv4 dest pkt pktlen = some
        (ipv4_vec dest pkt (4 * frame_ihl pkt) (sizeof_ether_header + 4 * frame_ihl pkt)
          (be16 pkt (14 + 4 * frame_ihl pkt + 4) - 8)
          (ipv4_header_checksum dest pkt (4 * frame_ihl pkt))
          (ipv4_udp_checksum dest pkt (sizeof_ether_header + 4 * frame_ihl pkt)
            (be16 pkt (14 + 4 * frame_ihl pkt + 4))
            (be16 pkt (14 + 4 * frame_ihl pkt + 4) - 8))) := by
      simp only [send_ipv4, hl, hudplen, c1, c2, if_true, e64]
    have hck : ntohs (ipv4_udp_checksum dest pkt (sizeof_ether_header + 4 * frame_ihl pkt)
        (be16 pkt (14 + 4 * frame_ihl pkt + 4)) (be16 pkt (14 + 4 * frame_ihl pkt + 4) - 8)) =
        65535 - csum_fold (udp_words_ipv4 dest pkt (14 + 4 * frame_ihl pkt))
          (udp_words_ipv4 dest pkt (14 + 4 * frame_ihl pkt)) :=
      ipv4_udp_checksum_eq dest pkt (14 + 4 * frame_ihl pkt)
        (be16 pkt (14 + 4 * frame_ihl pkt + 4)) hd hb (by omega) (by omega) (by omega)
    have hlt : ipv4_udp_checksum dest pkt (sizeof_ether_header + 4 * frame_ihl pkt)
        (be16 pkt (14 + 4 * frame_ihl pkt + 4)) (be16 pkt (14 + 4 * frame_ihl pkt + 4) - 8) <
        65536 := by
      unfold ipv4_udp_checksum
      exact csum_finish_lt _
    have hz := checksum_zero_iff _ _ hlt
      (csum_fold_le (udp_words_ipv4 dest pkt (14 + 4 * frame_ihl pkt))) hck
    refine ⟨_, _, hsend, ?_, hlt, hck, hz.1, hz.2⟩
    have hg := gather_ipv4_vec_udp dest pkt (4 * frame_ihl pkt)
      (be16 pkt (14 + 4 * frame_ihl pkt + 4) - 8)
      (ipv4_header_checksum dest pkt (4 * frame_ihl pkt))
      (ipv4_udp_checksum dest pkt (sizeof_ether_header + 4 * frame_ihl pkt)
        (be16 pkt (14 + 4 * frame_ihl pkt + 4)) (be16 pkt (14 + 4 * frame_ihl pkt + 4) - 8))
      hd (by omega) (by omega) (by omega)
    have hdd : ∀ G : List Nat, G.drop (14 + 4 * frame_ihl pkt + 6) =
        (G.drop (14 + 4 * frame_ihl pkt)).drop 6 := by
      intro G
      rw [List.drop_drop]
    rw [hdd, hg]
    exact drop6_take2 _ _ _ _ _ (length_take_drop pkt _ 2 (by omega)) rfl
      (length_take_drop pkt _ 2 (by omega)) rfl

theorem udp_checksum_complement_witness :
    ∃ vec c, send_ipv6
        (sample_destination [0xfe, 0x80, 0, 0, 0, 0, 0, 0, 0, 0, 0, 0, 0, 0, 0, 2])
        sample_frame_ipv6_abc 65 = some vec ∧
      ((gather vec).drop 60).take 2 = store_u16 c ∧ c < 65536 :=
  let h := (udp_checksum_complement
    (sample_destination [0xfe, 0x80, 0, 0, 0, 0, 0, 0, 0, 0, 0, 0, 0, 0, 0, 2])
    sample_frame_ipv6_abc 65 (by unfold destination.wf; decide) (by unfold frame_wf; decide)).1
    (by decide) (by decide)
  h.elim (fun vec hv => hv.elim (fun c hc => ⟨vec, c, hc.1, hc.2.1, hc.2.2.1⟩))

/-! ## Claims about the length of what is sent -/

/-- C37, counterexample: on a v2 ring of 512 frames of 2048 bytes whose frame 0
is free, a gather list of 4100 bytes exceeds the payload capacity
`2048 - 32 = 2016` of the slot.  `sendv_v2` does not fail: it returns true,
advances the cursor to 1 and copies the 4100 bytes from offset 32 on, over the
rest of frame 0, all of frame 1 (its `tp_status` at offset 2048 included) and
the head of frame 2 (its `tp_status` at offset 4096). -/
theorem sendv_oversized_written :
    sample_tx_ring._M_frame_size - tx_payload_off tpacket_versions.TPACKET_V2 = 2016 ∧
    iov_total sample_iov_jumbo = 4100 ∧
    sample_tx_ring._M_tx_idx = 0 ∧
    sample_tx_ring._M_tx_frames[1]? = some 2048 ∧
    sample_tx_ring._M_tx_frames[2]? = some 4096 ∧
    sample_tx_ring._M_buf[2048]? = some 0 ∧
    sample_tx_ring._M_buf[4096]? = some 0 ∧
    ∃ s, sample_tx_ring.sendv_v2 sample_iov_jumbo true = some s ∧
      s.ret = true ∧ s.ring._M_tx_idx = 1 ∧
      s.ring._M_buf[32]? = some 170 ∧
      s.ring._M_buf[2048]? = some 170 ∧
      s.ring._M_buf[4096]? = some 170 ∧
      s.ring._M_buf[4131]? = some 170 := by
  have hfree : load_status tpacket_versions.TPACKET_V2 sample_tx_ring._M_buf 0 &&&
      (TP_STATUS_SEND_REQUEST ||| TP_STATUS_SENDING) = 0 := by decide
  have hhdr : sample_tx_ring.tx_hdr tpacket_versions.TPACKET_V2 = some 0 :=
    frames_head 0 2048 511
  have htot : iov_total sample_iov_jumbo = 4100 := rfl
  have hg : gather sample_iov_jumbo = List.replicate 4100 170 := by
    show (List.replicate 4100 170).take 4100 ++ [] = _
    rw [List.append_nil, List.take_replicate, Nat.min_self]
  have hlen : sample_tx_ring._M_buf.length = 1048576 := List.length_replicate _ _
  have hiov : ∀ w ∈ sample_iov_jumbo, w.iov_len ≤ w.iov_base.length := by
    intro w hw
    rw [List.mem_singleton.1 hw]
    show 4100 ≤ (List.replicate 4100 170).length
    rw [List.length_replicate]
  obtain ⟨m, hs, _, hb, _⟩ := sendv_spec sample_tx_ring tpacket_versions.TPACKET_V2
    sample_iov_jumbo true 0 hhdr hfree hiov
    (by rw [htot, hlen]; decide) (by rw [htot]; decide) (by decide)
  have hbyte : ∀ k, k < 4100 → m[0 + tx_payload_off tpacket_versions.TPACKET_V2 + k]? =
      some 170 := by
    intro k hk
    have h := hb k (by rw [hg, List.length_replicate]; exact hk)
    rw [hg, List.getElem?_replicate, if_pos hk] at h
    exact h
  refine ⟨rfl, htot, rfl, ?_, ?_, ?_, ?_, _, hs, rfl, rfl, ?_, ?_, ?_, ?_⟩
  · exact (frames_spec 2048 512 0).2 1 (by decide)
  · exact (frames_spec 2048 512 0).2 2 (by decide)
  · show (List.replicate 1048576 0)[2048]? = some 0
    rw [List.getElem?_replicate, if_pos (by decide)]
  · show (List.replicate 1048576 0)[4096]? = some 0
    rw [List.getElem?_replicate, if_pos (by decide)]
  · exact hbyte 0 (by decide)
  · exact hbyte 2016 (by decide)
  · exact hbyte 4064 (by decide)
  · exact hbyte 4099 (by decide)

/-- C37, amended: the TX `sendv` operations do not compare the length of the
gather list with the slot.  For every ring whose slot at the cursor is free and
every gather list whose total length exceeds the payload capacity of the slot
(frame size minus the payload offset of the version) but ends inside the mapped
ring memory, `sendv` does not fail: it returns the result of `sendto`, advances
the cursor modulo the number of frames, sets `tp_len` and `tp_snaplen` to the
total length, marks the slot for sending and copies every byte of the gather
list from the payload offset on, so that the bytes from the end of the slot on
are overwritten with the bytes of the gather list from the capacity on. -/
theorem sendv_oversized (r : ring_buffer) (v : tpacket_versions) (iov : List iovec)
    (sendto_ok : Bool) (hdr : Nat) (hhdr : r.tx_hdr v = some hdr)
    (hfree : load_status v r._M_buf hdr &&&
      (TP_STATUS_SEND_REQUEST ||| TP_STATUS_SENDING) = 0)
    (hiov : ∀ w ∈ iov, w.iov_len ≤ w.iov_base.length)
    (hoff : tx_payload_off v ≤ r._M_frame_size)
    (hover : r._M_frame_size - tx_payload_off v < iov_total iov)
    (hmem : hdr + tx_payload_off v + iov_total iov ≤ r._M_buf.length)
    (h32 : iov_total iov < 4294967296)
    (hn : 0 < r._M_nframes) :
    ∃ m, r.sendv v iov sendto_ok =
        some ⟨sendto_ok, none, true,
          { r with _M_buf := m, _M_tx_idx := (r._M_tx_idx + 1) % r._M_nframes }⟩ ∧
      m.length = r._M_buf.length ∧
      bytes_at m (hdr + tx_payload_off v) (gather iov) ∧
      (gather iov).length = iov_total iov ∧
      (∀ k, k < iov_total iov - (r._M_frame_size - tx_payload_off v) →
        m[hdr + r._M_frame_size + k]? =
          (gather iov)[r._M_frame_size - tx_payload_off v + k]?) ∧
      (∃ b, (gather iov)[r._M_frame_size - tx_payload_off v]? = some b ∧
        m[hdr + r._M_frame_size]? = some b) ∧
      load_u32 m (hdr + tp_len_off v) = iov_total iov ∧
      load_u32 m (hdr + tp_snaplen_off v) = iov_total iov ∧
      load_status v m hdr = TP_STATUS_SEND_REQUEST := by
  obtain ⟨m, hs, hl, hb, hlen, hsnap, hst, _⟩ := sendv_spec r v iov sendto_ok hdr hhdr hfree
    hiov hmem h32 hn
  have hgl := length_gather iov hiov
  have hpast : ∀ k, k < iov_total iov - (r._M_frame_size - tx_payload_off v) →
      m[hdr + r._M_frame_size + k]? =
        (gather iov)[r._M_frame_size - tx_payload_off v + k]? := by
    intro k hk
    have h := hb (r._M_frame_size - tx_payload_off v + k) (by rw [hgl]; omega)
    have e : hdr + tx_payload_off v + (r._M_frame_size - tx_payload_off v + k) =
        hdr + r._M_frame_size + k := by omega
    rw [e] at h
    exact h
  refine ⟨m, hs, hl, hb, hgl, hpast, ?_, hlen, hsnap, hst⟩
  have hlt : r._M_frame_size - tx_payload_off v < (gather iov).length := by
    rw [hgl]; exact hover
  refine ⟨(gather iov).get ⟨_, hlt⟩, List.getElem?_eq_getElem hlt, ?_⟩
  have h := hpast 0 (by omega)
  rw [Nat.add_zero, Nat.add_zero] at h
  rw [h]
  exact List.getElem?_eq_getElem hlt

theorem sendv_oversized_witness :
    ∃ m, sample_tx_ring.sendv tpacket_versions.TPACKET_V2 sample_iov_long true =
        some ⟨true, none, true, { sample_tx_ring with _M_buf := m, _M_tx_idx := 1 }⟩ ∧
      load_u32 m 4 = 2017 ∧
      ∃ b, (gather sample_iov_long)[2016]? = some b ∧ m[2048]? = some b := by
  obtain ⟨m, hs, _, _, _, _, hb, hlen, _⟩ := sendv_oversized sample_tx_ring
    tpacket_versions.TPACKET_V2 sample_iov_long true 0 (frames_head 0 2048 511) (by decide)
    (by
      intro w hw
      rw [List.mem_singleton.1 hw]
      show 2017 ≤ (List.replicate 2017 255).length
      rw [List.length_replicate])
    (by decide) (by decide)
    (le_of_le_of_eq (by decide : 0 + 32 + 2017 ≤ 1048576)
      (List.length_replicate 1048576 0).symm) (by decide)
    (by decide)
  exact ⟨m, hs, hlen, hb⟩

/-! ## Claims about the size of the compiled program -/

/-- C38: for every family configuration and every stored range set of at most
`max_port_ranges` ranges `compile` returns true, the port loops (whose calls it
checks) complete, and the program has at most 146 instructions, fewer than
`max_filters`.  The instruction count only grows while `compile` runs (it is
that of the body plus the two final returns), so every call of `stmt` and
`jump` is made with at most that many instructions present and succeeds.  The
bound is reached by both families with 32 ranges of more than one port. -/
theorem compile_never_fails (s : socket_filter)
    (hn : s._M_portranges.length ≤ max_port_ranges) :
    (compile s).1 = true ∧ (compile_body s).1 = true ∧
    (compile_body s).2.filters.length + 2 = (compile s).2._M_filters.length ∧
    (compile s).2._M_filters.length ≤ 146 ∧ 146 < max_filters ∧
    (∀ (fs : List sock_filter) (code k jt jf : Nat),
      fs.length ≤ (compile s).2._M_filters.length →
      (stmt fs code k).1 = true ∧ (jump fs code k jt jf).1 = true) ∧
    (compile ⟨true, true, sample_ranges_full, []⟩).2._M_filters.length = 146 := by
  obtain ⟨h1, h2, h3, hshape, _⟩ := compile_shape s hn
  have hL := ports_code_length_le s._M_portranges
  have hn32 : s._M_portranges.length ≤ 32 := hn
  have hlen : (compile s).2._M_filters.length ≤ 146 := by
    rcases hshape with h | h | h | h | h | h
    · rw [h]; decide
    · rw [h]; decide
    · rw [h]; decide
    · rw [h, prog_ipv4_length]; omega
    · rw [h, prog_ipv6_length]; omega
    · rw [h, prog_both_length]; omega
  have hbody : (compile_body s).2.filters.length + 2 = (compile s).2._M_filters.length := by
    have hf : (compile_finish (compile_body s).2).1 = true := by rw [h3]
    have := compile_finish_length _ hf
    rw [h3] at this
    exact this.symm
  refine ⟨h1, h2, hbody, hlen, by decide, ?_, ?_⟩
  · intro fs code k jt jf hfs
    have hlt : fs.length < 255 := by omega
    rw [stmt_of_lt fs code k hlt, jump_of_lt fs code k jt jf hlt]
    exact ⟨rfl, rfl⟩
  · have hfull : (ports_code sample_ranges_full).length = 64 := by decide
    have h := (compile_shape ⟨true, true, sample_ranges_full, []⟩ (by decide)).2.2.2.2 rfl
      (by decide)
    rw [h, prog_both_length, hfull]

theorem compile_never_fails_witness :
    (compile ⟨true, false, [⟨53, 53⟩, ⟨1000, 2000⟩], []⟩).1 = true ∧
    (compile ⟨true, false, [⟨53, 53⟩, ⟨1000, 2000⟩], []⟩).2._M_filters.length ≤ 146 :=
  ⟨(compile_never_fails ⟨true, false, [⟨53, 53⟩, ⟨1000, 2000⟩], []⟩ (by decide)).1,
    (compile_never_fails ⟨true, false, [⟨53, 53⟩, ⟨1000, 2000⟩], []⟩ (by decide)).2.2.2.1⟩

/-! ## Claims about the turns of the round robin -/

/-- C39, counterexample: the frame `sample_frame_ipv4 5000` padded to the
minimum Ethernet frame of 60 bytes is accepted by the filter compiled for IPv4
and dropped by the second length check of `send_ipv4` (`14 + 20 + 8 ≠ 60`).
On a table of two destinations with cursor 0, `process` calls the send function
for destination 0, nothing is handed to the TX ring, and the cursor is 1
afterwards.  In the run good, padded, good, padded both emitted frames go to
destination 0 and none to destination 1, although `2 / 2 = 1`. -/
theorem forward_dropped_frame_takes_turn :
    sample_frame_ipv4_padded.length = 60 ∧
    run_filter (compile (ipv4 empty)).2._M_filters sample_frame_ipv4_padded = some 0x40000 ∧
    send_ipv4 (sample_destination [10, 0, 0, 8, 0, 0, 0, 0, 0, 0, 0, 0, 0, 0, 0, 0])
      sample_frame_ipv4_padded 60 = none ∧
    ((sample_table type.load_balancer family.ipv4
        [sample_destination [10, 0, 0, 8, 0, 0, 0, 0, 0, 0, 0, 0, 0, 0, 0, 0],
         sample_destination [10, 0, 0, 9, 0, 0, 0, 0, 0, 0, 0, 0, 0, 0, 0, 0]]).process
      sample_frame_ipv4_padded 60).map (fun r => (r.1._M_idx, r.2)) =
      some (1, [⟨family.ipv4, 0, none⟩]) ∧
    (process_frames
        (sample_table type.load_balancer family.ipv4
          [sample_destination [10, 0, 0, 8, 0, 0, 0, 0, 0, 0, 0, 0, 0, 0, 0, 0],
           sample_destination [10, 0, 0, 9, 0, 0, 0, 0, 0, 0, 0, 0, 0, 0, 0, 0]])
        [(sample_frame_ipv4 5000, 42), (sample_frame_ipv4_padded, 60),
         (sample_frame_ipv4 5000, 42), (sample_frame_ipv4_padded, 60)]).map
      (fun r => (r.1._M_idx, turns r.2, emitted r.2, (emitted r.2).count 1)) =
      some (0, [0, 1, 0, 1], [0, 0], 0) ∧
    [0, 0].length / 2 = 1 := by
  decide

/-- C39, amended: in load-balancer mode, on a table holding `M ≥ 1`
destinations with the cursor `c < M`, every frame that `process` hands to a
destination consumes a round-robin turn, whether the send function emits or
drops it: frame `k` of a run is offered to destination `(c + k) % M`, with the
outcome of `send_ipv4` or `send_ipv6` on that record, and the cursor after `K`
frames is `(c + K) % M`.  Among the `K` processed frames each destination has
`⌊K / M⌋` or `⌈K / M⌉` turns; the emitted frames are among these turns. -/
theorem forward_turn_per_frame (t : destinations) (frames : List (List Nat × Nat))
    (hproc : t._M_process = some type.load_balancer) (hidx : t._M_idx < t._M_used) :
    ∃ offers, process_frames t frames =
        some ({ t with _M_idx := (t._M_idx + frames.length) % t._M_used }, offers) ∧
      offers.length = frames.length ∧
      (∀ k f, frames[k]? = some f →
        ∃ d, t._M_destinations[(t._M_idx + k) % t._M_used]? = some d ∧
          offers[k]? = some ⟨t._M_send, (t._M_idx + k) % t._M_used,
            match t._M_send with
            | family.ipv4 => send_ipv4 d f.1 f.2
            | family.ipv6 => send_ipv6 d f.1 f.2⟩) ∧
      turns offers = (List.range frames.length).map (fun k => (t._M_idx + k) % t._M_used) ∧
      (∀ j, j < t._M_used →
        (turns offers).count j = frames.length / t._M_used +
          (if (j + t._M_used - t._M_idx) % t._M_used < frames.length % t._M_used
            then 1 else 0)) ∧
      (emitted offers).Sublist (turns offers) ∧
      ∀ j, (emitted offers).count j ≤ (turns offers).count j := by
  obtain ⟨offers, hrun, hlen, hk⟩ := process_frames_forward t hproc frames t._M_idx hidx
  have ht : ({ t with _M_idx := t._M_idx } : destinations) = t := rfl
  rw [ht] at hrun
  have hmap : turns offers =
      (List.range frames.length).map (fun k => (t._M_idx + k) % t._M_used) := by
    unfold turns
    apply List.ext_getElem?
    intro k
    by_cases hlt : k < frames.length
    · obtain ⟨d, _, ho⟩ := hk k (frames.get ⟨k, hlt⟩) (List.getElem?_eq_getElem hlt)
      rw [List.getElem?_map, ho, List.getElem?_map,
        List.getElem?_eq_getElem (by simpa using hlt)]
      simp only [Option.map_some', call_send_idx, List.getElem_range]
    · rw [List.getElem?_eq_none (by simp; omega), List.getElem?_eq_none (by simp; omega)]
  have hsub : (emitted offers).Sublist (turns offers) := by
    unfold emitted turns
    exact List.Sublist.map _ (List.filter_sublist _)
  refine ⟨offers, hrun, hlen, ?_, hmap, ?_, hsub, ?_⟩
  · intro k f hf
    obtain ⟨d, hd, ho⟩ := hk k f hf
    refine ⟨d, hd, ?_⟩
    rw [ho]
    unfold destinations.call_send
    cases t._M_send <;> rfl
  · intro j hj
    rw [hmap, ← length_filter_range_add_mod t._M_used t._M_idx j hidx hj frames.length,
      List.count, List.countP_map, List.countP_eq_length_filter]
    congr 1
  · intro j
    exact hsub.count_le j

theorem forward_turn_per_frame_witness :
    ∃ offers, process_frames
        (sample_table type.load_balancer family.ipv4
          [sample_destination [10, 0, 0, 8, 0, 0, 0, 0, 0, 0, 0, 0, 0, 0, 0, 0],
           sample_destination [10, 0, 0, 9, 0, 0, 0, 0, 0, 0, 0, 0, 0, 0, 0, 0]])
        [(sample_frame_ipv4_padded, 60), (sample_frame_ipv4 5000, 42),
         (sample_frame_ipv4_padded, 60)] =
        some ({ sample_table type.load_balancer family.ipv4
          [sample_destination [10, 0, 0, 8, 0, 0, 0, 0, 0, 0, 0, 0, 0, 0, 0, 0],
           sample_destination [10, 0, 0, 9, 0, 0, 0, 0, 0, 0, 0, 0, 0, 0, 0, 0]] with
            _M_idx := (0 + 3) % 2 }, offers) ∧
      turns offers = [0, 1, 0] :=
  let h := forward_turn_per_frame
    (sample_table type.load_balancer family.ipv4
      [sample_destination [10, 0, 0, 8, 0, 0, 0, 0, 0, 0, 0, 0, 0, 0, 0, 0],
       sample_destination [10, 0, 0, 9, 0, 0, 0, 0, 0, 0, 0, 0, 0, 0, 0, 0]])
    [(sample_frame_ipv4_padded, 60), (sample_frame_ipv4 5000, 42),
     (sample_frame_ipv4_padded, 60)] rfl (by decide)
  h.elim (fun offers ho => ⟨offers, ho.1, ho.2.2.2.1⟩)

theorem added_records_length (cs : List add_call) : ∀ oks : List Bool,
    oks.length = cs.length → (added_records cs oks).length = oks.count true := by
  induction cs with
  | nil =>
    intro oks h
    have : oks = [] := List.length_eq_zero.1 h
    subst this
    rfl
  | cons c cs ih =>
    intro oks h
    cases oks with
    | nil => simp at h
    | cons ok oks =>
      have hl : oks.length = cs.length := by simpa using h
      cases ok
      · simp [added_records, ih oks hl]
      · simp [added_records, ih oks hl]

theorem added_records_all (cs : List add_call) :
    added_records cs (List.replicate cs.length true) = cs.map add_call.record := by
  induction cs with
  | nil => rfl
  | cons c cs ih => simp [added_records, List.replicate_succ, ih]

/-! ## Claims about the tables of a worker -/

/-- C40: calls of `destinations::add` on a fresh table.  The records in use
are those of the calls that returned true, in the order of the calls (all
records when every call returned true), with the port stored as `htons(port)`,
that is with the high byte first; `_M_used` is the number `n` of successful
calls; the capacity is 0 for `n = 0` and otherwise the smallest `4 * 2 ^ k`
that is at least `n`; the cursor stays 0, and no call of `add` on any table
changes the cursor. -/
theorem add_appends (af : family) (cs : List add_call) :
    ((destinations.new af).add_all cs).1._M_used =
      ((destinations.new af).add_all cs).2.count true ∧
    ((destinations.new af).add_all cs).1._M_destinations =
      added_records cs ((destinations.new af).add_all cs).2 ∧
    (((destinations.new af).add_all cs).2 = List.replicate cs.length true →
      ((destinations.new af).add_all cs).1._M_destinations = cs.map add_call.record) ∧
    (∀ c : add_call, c.record.port = htons c.port ∧
      (c.port < 65536 → store_u16 (htons c.port) = [c.port / 256, c.port % 256])) ∧
    (((destinations.new af).add_all cs).1._M_used = 0 →
      ((destinations.new af).add_all cs).1._M_size = 0) ∧
    (0 < ((destinations.new af).add_all cs).1._M_used →
      ∃ k, ((destinations.new af).add_all cs).1._M_size = 4 * 2 ^ k ∧
        ((destinations.new af).add_all cs).1._M_used ≤ 4 * 2 ^ k ∧
        ∀ j, ((destinations.new af).add_all cs).1._M_used ≤ 4 * 2 ^ j → k ≤ j) ∧
    ((destinations.new af).add_all cs).1._M_idx = 0 ∧
    (∀ (t : destinations) (c : add_call), (t.add_of c).1._M_idx = t._M_idx) := by
  obtain ⟨hI, hds, hidx, hlen⟩ := add_all_spec cs (destinations.new af) (Or.inl ⟨rfl, rfl⟩)
  have hds' : ((destinations.new af).add_all cs).1._M_destinations =
      added_records cs ((destinations.new af).add_all cs).2 := by
    rw [hds]
    rfl
  refine ⟨?_, hds', ?_, ?_, ?_, ?_, hidx, fun t c => (add_of_spec t c).2.2.2.1⟩
  · unfold destinations._M_used
    rw [hds', added_records_length cs _ hlen]
  · intro hall
    rw [hds', hall, added_records_all]
  · intro c
    refine ⟨rfl, fun hp => ?_⟩
    unfold store_u16 htons
    have hhi : c.port / 256 % 256 = c.port / 256 := Nat.mod_eq_of_lt (by omega)
    have hlo : c.port % 256 < 256 := Nat.mod_lt _ (by decide)
    rw [hhi]
    have h1 : (c.port % 256 * 256 + c.port / 256) % 256 = c.port / 256 := by omega
    have h2 : (c.port % 256 * 256 + c.port / 256) / 256 = c.port % 256 := by omega
    rw [h1, h2, Nat.mod_mod]
  · intro h0
    rcases hI with ⟨_, hs⟩ | ⟨k, _, hpos, _, _⟩
    · exact hs
    · omega
  · intro hpos
    rcases hI with ⟨h0, _⟩ | ⟨k, hk, _, hle, hmin⟩
    · omega
    · refine ⟨k, hk, by rw [← hk]; exact hle, ?_⟩
      intro j hj
      rcases hmin with h | h
      · omega
      · by_contra hkj
        have hjk : j + 1 ≤ k := by omega
        have hp : 2 ^ (j + 1) ≤ 2 ^ k := Nat.pow_le_pow_right (by decide) hjk
        rw [pow_succ] at hp
        omega

theorem add_appends_witness :
    ((destinations.new family.ipv4).add_all (sample_add_calls 5)).1._M_used = 5 ∧
    ((destinations.new family.ipv4).add_all (sample_add_calls 5)).1._M_size = 8 :=
  ⟨(add_appends family.ipv4 (sample_add_calls 5)).1.trans (by decide), by decide⟩

end net
